import Mathlib

/-!
# std-simd: element-type conversion engine and mask reductions

A shallow embedding of `experimental/bits/simd_x86_conversions.h` and of the mask
reductions of `experimental/bits/simd.h`.

* A vector value is the list of its bytes in memory order (x86 and NEON are little-endian).
* Element types, vector widths and ISA feature flags are compile-time template
  parameters in the source; here they are ordinary arguments.
* `static_assert` failures and `__assert_unreachable` are the `Err.static` result.
* The x86 intrinsics are modelled after the operation sections of the Intel Intrinsics Guide.
-/

namespace Simd

/-! ## Bytes, registers, lanes -/

/-- One byte of a vector register. -/
abbrev Byte := Fin 256

/-- A vector value: its bytes in memory order, lowest lane first. -/
abbrev Reg := List Byte

/-- Byte `j` of a register; reading past the end gives zero. -/
def rd (v : Reg) (j : Nat) : Byte := v.getD j 0

/-- The register with `n` bytes whose byte `j` is `f j`. -/
def mk (n : Nat) (f : Nat → Byte) : Reg := (List.range n).map f

/-- The low eight bits of a number. -/
def byteOf (x : Nat) : Byte := ⟨x % 256, Nat.mod_lt x (by decide)⟩

/-- The all-zero register of `n` bytes (`__m128i()`, `_Tp()`). -/
def zeros (n : Nat) : Reg := mk n fun _ => 0

/-- Unsigned value of the `s`-byte lane `i` of `v` (little-endian). -/
def lane (s : Nat) (v : Reg) (i : Nat) : Nat :=
  ((List.range s).map fun k => (rd v (i * s + k)).val * 256 ^ k).sum

/-- The register of `n` lanes of `s` bytes whose lane `i` holds `f i` modulo `2^(8s)`. -/
def ofLanes (s n : Nat) (f : Nat → Nat) : Reg :=
  mk (n * s) fun j => byteOf (f (j / s) / 256 ^ (j % s))

/-- Apply `f` to the unsigned value of every `s`-byte lane. -/
def mapLanes (s : Nat) (f : Nat → Nat) (v : Reg) : Reg :=
  ofLanes s (v.length / s) fun i => f (lane s v i)

/-- Combine the lanes of two registers pairwise. -/
def zipLanes (s : Nat) (f : Nat → Nat → Nat) (a b : Reg) : Reg :=
  ofLanes s (a.length / s) fun i => f (lane s a i) (lane s b i)

/-- Bit `i` of `x`. -/
def bit (x i : Nat) : Bool := x / 2 ^ i % 2 = 1

/-- The `w`-bit field of `x` starting at bit `i`. -/
def field (x i w : Nat) : Nat := x / 2 ^ i % 2 ^ w

/-! ## Integral element types -/

/-- An integral element type: its `sizeof` and signedness. -/
structure ElemTy where
  size : Nat
  signed : Bool
  deriving DecidableEq, Repr

/-- The integral element types the library vectorizes have 1, 2, 4 or 8 bytes. -/
def ElemTy.valid (T : ElemTy) : Prop := T.size = 1 ∨ T.size = 2 ∨ T.size = 4 ∨ T.size = 8

instance (T : ElemTy) : Decidable T.valid := by unfold ElemTy.valid; infer_instance

/-- Number of value bits. -/
def ElemTy.bits (T : ElemTy) : Nat := 8 * T.size

/-- The number a lane of type `T` with bit pattern `x` stands for (two's complement). -/
def ElemTy.toInt (T : ElemTy) (x : Nat) : Int :=
  if T.signed ∧ 2 ^ (T.bits - 1) ≤ x then (x : Int) - 2 ^ T.bits else (x : Int)

/-- Bit pattern of `static_cast<U>(z)` for an integer `z`: `z` modulo `2^(8 sizeof U)`. -/
def ElemTy.ofInt (U : ElemTy) (z : Int) : Nat := (z % 2 ^ U.bits).toNat

/-- Bit pattern of `static_cast<U>(x)` where `x` is the bit pattern of a `T`. -/
def static_cast (T U : ElemTy) (x : Nat) : Nat := U.ofInt (T.toInt x)

/-- The value `v[i]` of a vector with element type `T`. -/
def elem (T : ElemTy) (v : Reg) (i : Nat) : Int := T.toInt (lane T.size v i)

/-! ## Compile-time configuration -/

/-- ISA feature flags (`__have_ssse3` ...), and the content of undefined bytes. -/
structure Cfg where
  ssse3 : Bool
  sse4_1 : Bool
  avx : Bool
  avx2 : Bool
  avx512f : Bool
  avx512vl : Bool
  avx512bw : Bool
  /-- What an undefined byte happens to hold: `_mm256_castps128_ps256` and its 512-bit
  relatives leave the upper part of their result undefined. -/
  undef : Nat → Byte

/-- `__have_avx512bw_vl`. -/
def Cfg.avx512bw_vl (c : Cfg) : Bool := c.avx512bw && c.avx512vl

/-- Failures. -/
inductive Err where
  /-- A `static_assert` fails or an `__assert_unreachable` is instantiated. -/
  | static
  /-- The recursion budget of the embedding ran out. -/
  | fuel
  /-- The behaviour is undefined in C++ (a NaN is converted to `int`). -/
  | undefined
  deriving DecidableEq, Repr

/-! ## Generic vector helpers of `simd.h` -/

/-- `__concat(a, b)`: the lanes of `a` followed by the lanes of `b`. -/
def concat (a b : Reg) : Reg := a ++ b

/-- `__extract<Offset, SplitBy>(x)`: part `off` of `by` equal parts of `x`. -/
def extract (off split : Nat) (x : Reg) : Reg :=
  mk (x.length / split) fun j => rd x (off * (x.length / split) + j)

/-- `__lo128(x)`. -/
def lo128 (x : Reg) : Reg := extract 0 (x.length / 16) x

/-- `__hi128(x)`; the source asserts `sizeof(x) == 32`. -/
def hi128 (x : Reg) : Except Err Reg := if x.length = 32 then .ok (extract 1 2 x) else .error .static

/-- `__lo256(x)`; the source asserts `sizeof(x) == 64`. -/
def lo256 (x : Reg) : Except Err Reg := if x.length = 64 then .ok (extract 0 2 x) else .error .static

/-- `__zero_extend(x)` converted to a vector of `n` bytes: `x` followed by zero bytes.
The proxy accepts the factors 1, 2, 4, 8 and 16 between the two lane counts. -/
def zero_extend (n : Nat) (x : Reg) : Except Err Reg :=
  if n = x.length ∨ n = 2 * x.length ∨ n = 4 * x.length ∨ n = 8 * x.length ∨ n = 16 * x.length then
    .ok (mk n fun j => if j < x.length then rd x j else 0)
  else .error .static

/-- `__intrin_bitcast<_To>(v)` for a `_To` of `n` bytes: reinterpret; a narrower `_To` keeps
the low bytes; a wider `_To` is reached with `_mm256_castps128_ps256`,
`_mm512_castps128_ps512` or `_mm512_castps256_ps512`, whose upper bytes are undefined. -/
def intrin_bitcast (c : Cfg) (n : Nat) (v : Reg) : Except Err Reg :=
  if n = v.length then .ok v
  else if n < v.length then .ok (mk n fun j => rd v j)
  else if (c.avx ∧ v.length = 16 ∧ n = 32) ∨ (c.avx512f ∧ v.length = 16 ∧ n = 64)
      ∨ (c.avx512f ∧ v.length = 32 ∧ n = 64) then
    .ok (mk n fun j => if j < v.length then rd v j else c.undef j)
  else .error .static

/-- Modelled from the spec: `__xzyw` is used by this repository's conversions but defined
outside the files at hand. It swaps the two inner quarters of a vector, as the comments at
its call sites record (`0415 8C9D 2637 AEBF` becomes `0415 2637 8C9D AEBF`). -/
def xzyw (a : Reg) : Reg :=
  mk a.length fun j =>
    let q := a.length / 4
    if j / q = 1 then rd a (j + q) else if j / q = 2 then rd a (j - q) else rd a j

/-- Modelled from the spec: `__extract_part<Index, Total>(x)` is declared in `simd.h` with
the return type `__vector_type<T, max(__min_vector_size, sizeof(x) / Total)>` and defined
outside the files at hand. Per the spec it returns the sub-vector occupying partition `Index`
of `Total` equal partitions of the input; bytes of the result beyond that partition are taken
as unspecified. -/
def extract_part (c : Cfg) (index total : Nat) (x : Reg) : Except Err Reg :=
  if total = 0 ∨ total ≤ index then .error .static
  else .ok (mk (max 16 (x.length / total)) fun j =>
    if j < x.length / total then rd x (index * (x.length / total) + j) else c.undef j)

/-- The recursion of `__next_power_of_2` on `std::size_t` (64 bits, `x - 1` and `+ 1` wrap),
with a budget of `fuel` calls. -/
def next_power_of_2_fuel : Nat → Nat → Option Nat
  | 0, _ => none
  | fuel + 1, x =>
    if x &&& ((x + (2 ^ 64 - 1)) % 2 ^ 64) = 0 then some x
    else next_power_of_2_fuel fuel (((x ||| x / 2) + 1) % 2 ^ 64)

/-- `__next_power_of_2(x)`, evaluated with a budget of 65 calls. -/
def next_power_of_2 (x : Nat) : Nat := (next_power_of_2_fuel 65 (x % 2 ^ 64)).getD 0

/-- `sizeof(__vector_type_t<U, n>)`; a vector type has at least two elements. -/
def vector_type_t (U : ElemTy) (n : Nat) : Except Err Nat :=
  if 2 ≤ n then .ok (next_power_of_2 (n * U.size)) else .error .static

/-! ## Bitwise operations on whole registers and GNU vector operators -/

/-- `a & b`. -/
def vand (a b : Reg) : Reg := mk a.length fun j => byteOf ((rd a j).val &&& (rd b j).val)

/-- `a | b`. -/
def vor (a b : Reg) : Reg := mk a.length fun j => byteOf ((rd a j).val ||| (rd b j).val)

/-- `a ^ b`. -/
def vxor (a b : Reg) : Reg := mk a.length fun j => byteOf ((rd a j).val ^^^ (rd b j).val)

/-- The GNU vector operator `v & k` on `s`-byte lanes with the scalar `k` broadcast. -/
def and_scalar (s : Nat) (v : Reg) (k : Nat) : Reg := mapLanes s (fun x => x &&& k) v

/-- The GNU vector operator `v << k` on `s`-byte lanes. -/
def shl_scalar (s : Nat) (v : Reg) (k : Nat) : Reg := mapLanes s (fun x => x * 2 ^ k) v

/-- The GNU vector operator `v >> k` on unsigned `s`-byte lanes. -/
def shr_scalar (s : Nat) (v : Reg) (k : Nat) : Reg := mapLanes s (fun x => x / 2 ^ k) v

/-- Arithmetic right shift of an `s`-byte lane by `k` bits. -/
def sar (s k x : Nat) : Nat :=
  if 2 ^ (8 * s - 1) ≤ x then (x + (2 ^ (8 * s) - 1) * 2 ^ (8 * s)) / 2 ^ k % 2 ^ (8 * s) else x / 2 ^ k

/-! ## x86 intrinsics -/

/-- `_mm_setr_epi8`, `_mm256_setr_epi8`: the bytes in memory order (`-0x80` is `0x80`). -/
def setr_epi8 (bs : List Nat) : Reg := bs.map byteOf

/-- `_mm256_setr_epi32`. -/
def setr_epi32 (ds : List Nat) : Reg := ofLanes 4 ds.length fun i => ds.getD i 0

/-- `_mm_set1_epi32`, `_mm256_set1_epi32`, `_mm512_set1_epi32` for a register of `n` bytes. -/
def set1_epi32 (n x : Nat) : Reg := ofLanes 4 (n / 4) fun _ => x

/-- `_mm_cvtsi32_si128(x)`: `x` in the low 32 bits, zero above. -/
def _mm_cvtsi32_si128 (x : Nat) : Reg := ofLanes 4 4 fun i => if i = 0 then x else 0

/-- `__m128i{a, b}`: two 64-bit lanes. -/
def m128i_of (a b : Nat) : Reg := ofLanes 8 2 fun i => if i = 0 then a else b

/-- `_mm_shuffle_epi8`, `_mm256_shuffle_epi8` (PSHUFB): within each 128-bit lane, byte `j`
is zero when bit 7 of the control byte is set, else the byte selected by its low 4 bits. -/
def shuffle_epi8 (a m : Reg) : Reg :=
  mk a.length fun j =>
    if 128 ≤ (rd m j).val then 0 else rd a (j / 16 * 16 + (rd m j).val % 16)

/-- `_mm_unpacklo_epi8` .. `_mm256_unpackhi_epi64` (PUNPCKL/H): within each 128-bit lane,
interleave the `w`-byte elements of the low (`hi = false`) or high half of `a` and `b`. -/
def unpack (w : Nat) (hi : Bool) (a b : Reg) : Reg :=
  mk a.length fun j =>
    let e := j % 16 / w
    let src := j / 16 * 16 + (e / 2 + if hi then 8 / w else 0) * w + j % w
    if e % 2 = 0 then rd a src else rd b src

/-- `_mm_shuffle_ps`, `_mm256_shuffle_ps` (SHUFPS): within each 128-bit lane, the two low
dwords come from `a` and the two high dwords from `b`, selected by 2-bit fields of `imm`. -/
def shuffle_ps (a b : Reg) (imm : Nat) : Reg :=
  mk a.length fun j =>
    let d := j % 16 / 4
    let src := j / 16 * 16 + field imm (2 * d) 2 * 4 + j % 4
    if d < 2 then rd a src else rd b src

/-- `_mm_shuffle_epi32`, `_mm256_shuffle_epi32` (PSHUFD). -/
def shuffle_epi32 (a : Reg) (imm : Nat) : Reg :=
  mk a.length fun j => rd a (j / 16 * 16 + field imm (2 * (j % 16 / 4)) 2 * 4 + j % 4)

/-- `_mm256_permute4x64_epi64` (VPERMQ). -/
def _mm256_permute4x64_epi64 (a : Reg) (imm : Nat) : Reg :=
  mk 32 fun j => rd a (field imm (2 * (j / 8)) 2 * 8 + j % 8)

/-- `_mm256_permutevar8x32_epi32` (VPERMD): dword `i` is the dword of `a` selected by the
low 3 bits of dword `i` of `idx`. -/
def _mm256_permutevar8x32_epi32 (a idx : Reg) : Reg :=
  mk 32 fun j => rd a (lane 4 idx (j / 4) % 8 * 4 + j % 4)

/-- `_mm_blend_epi16`, `_mm256_blend_epi16` (PBLENDW): word `i` of each 128-bit lane is
taken from `b` when bit `i` of `imm` is set. -/
def blend_epi16 (a b : Reg) (imm : Nat) : Reg :=
  mk a.length fun j => if bit imm (j % 16 / 2) then rd b j else rd a j

/-- `_mm256_blend_epi32` (VPBLENDD): dword `i` is taken from `b` when bit `i` of `imm` is set. -/
def _mm256_blend_epi32 (a b : Reg) (imm : Nat) : Reg :=
  mk 32 fun j => if bit imm (j / 4) then rd b j else rd a j

/-- `_mm_slli_si128` (PSLLDQ): shift the 128-bit register left by `n` bytes. -/
def _mm_slli_si128 (a : Reg) (n : Nat) : Reg :=
  mk 16 fun j => if n ≤ j ∧ n ≤ 15 then rd a (j - n) else 0

/-- `_mm*_slli_epi16/32/64` (PSLLW/D/Q): a count above the lane width gives zero. -/
def slli (s : Nat) (a : Reg) (k : Nat) : Reg :=
  mapLanes s (fun x => if k < 8 * s then x * 2 ^ k else 0) a

/-- `_mm*_srli_epi16/32/64` (PSRLW/D/Q). -/
def srli (s : Nat) (a : Reg) (k : Nat) : Reg :=
  mapLanes s (fun x => if k < 8 * s then x / 2 ^ k else 0) a

/-- `_mm*_srai_epi16/32/64` (PSRAW/D/Q): a count above the lane width fills with the sign. -/
def srai (s : Nat) (a : Reg) (k : Nat) : Reg :=
  mapLanes s (fun x => sar s (min k (8 * s - 1)) x) a

/-- `_mm_hadd_epi16` (PHADDW): sums of adjacent words of `a`, then of `b`. -/
def _mm_hadd_epi16 (a b : Reg) : Reg :=
  ofLanes 2 8 fun i =>
    if i < 4 then lane 2 a (2 * i) + lane 2 a (2 * i + 1)
    else lane 2 b (2 * (i - 4)) + lane 2 b (2 * (i - 4) + 1)

/-- `_mm*_cvtepi64_epi32` .. `_mm512_cvtepi16_epi8` (VPMOVQD ..): every `s`-byte lane is
truncated to `u` bytes; a result shorter than 128 bits is zero above. -/
def cvt_down (s u : Nat) (a : Reg) : Reg :=
  mk (max 16 (a.length / s * u)) fun j =>
    if j < a.length / s * u then rd a (j / u * s + j % u) else 0

/-- The byte that extends a lane whose most significant byte is `b` by its sign bit. -/
def sign_fill (b : Byte) : Byte := if 128 ≤ b.val then 255 else 0

/-- `_mm*_cvtepi8_epi16` .. `_mm512_cvtepu32_epi64` (PMOVSX/PMOVZX): the low lanes of `a`,
`s` bytes each, are sign- or zero-extended to `u` bytes, filling `n` bytes. -/
def cvt_up (signed : Bool) (s u n : Nat) (a : Reg) : Reg :=
  mk n fun j =>
    if j % u < s then rd a (j / u * s + j % u)
    else if signed then sign_fill (rd a (j / u * s + (s - 1))) else 0

/-! ## The one-argument `__convert_x86`: integer branches

`sv` is `sizeof(__v)`, `tb` is `sizeof(_To)`; `T` and `U` are the source and destination
element types. Each function below is one `else if constexpr (__iA_to_iB)` block of the
source; `none` means that no inner branch returned, so control reaches the fallback. -/

/-- `__x_to_x`: 16-byte source and 16-byte destination. -/
abbrev x_to_x (sv tb : Nat) : Prop := sv = 16 ∧ tb = 16
/-- `__x_to_y`. -/
abbrev x_to_y (sv tb : Nat) : Prop := sv = 16 ∧ tb = 32
/-- `__x_to_z`. -/
abbrev x_to_z (sv tb : Nat) : Prop := sv = 16 ∧ tb = 64
/-- `__y_to_x`. -/
abbrev y_to_x (sv tb : Nat) : Prop := sv = 32 ∧ tb = 16
/-- `__y_to_y`. -/
abbrev y_to_y (sv tb : Nat) : Prop := sv = 32 ∧ tb = 32
/-- `__y_to_z`. -/
abbrev y_to_z (sv tb : Nat) : Prop := sv = 32 ∧ tb = 64
/-- `__z_to_x`. -/
abbrev z_to_x (sv tb : Nat) : Prop := sv = 64 ∧ tb = 16
/-- `__z_to_y`. -/
abbrev z_to_y (sv tb : Nat) : Prop := sv = 64 ∧ tb = 32
/-- `__z_to_z`. -/
abbrev z_to_z (sv tb : Nat) : Prop := sv = 64 ∧ tb = 64

/-- `__vector_convert<_To>(v, index_sequence<n>)`, the universal per-lane fallback:
`_To{static_cast<U>(v[0]), ..., static_cast<U>(v[n-1])}`; aggregate initialisation leaves
the remaining elements of the `tb`-byte result zero. -/
def vector_convert (T U : ElemTy) (tb n : Nat) (v : Reg) : Reg :=
  ofLanes U.size (tb / U.size) fun i => if i < n then static_cast T U (lane T.size v i) else 0

/-- The `__i64_to_i32` block. -/
def conv1_i64_to_i32 (c : Cfg) (tb : Nat) (v : Reg) : Option (Except Err Reg) :=
  let sv := v.length
  if x_to_x sv tb ∧ c.avx512vl then some (intrin_bitcast c tb (cvt_down 8 4 v))
  else if x_to_x sv tb then some (intrin_bitcast c tb (shuffle_ps v (zeros 16) 8))
  else if y_to_x sv tb ∧ c.avx512vl then some (intrin_bitcast c tb (cvt_down 8 4 v))
  else if y_to_x sv tb ∧ c.avx512f then
    some (do let w ← intrin_bitcast c 64 v; intrin_bitcast c tb (lo128 (cvt_down 8 4 w)))
  else if y_to_x sv tb then
    some (intrin_bitcast c tb (lo128 (_mm256_permute4x64_epi64 (shuffle_epi32 v 8) (0 + 4 * 2))))
  else if z_to_y sv tb then some (intrin_bitcast c tb (cvt_down 8 4 v))
  else none

/-- The `__i64_to_i16` block. -/
def conv1_i64_to_i16 (c : Cfg) (tb : Nat) (v : Reg) : Option (Except Err Reg) :=
  let sv := v.length
  if x_to_x sv tb ∧ c.avx512vl then some (intrin_bitcast c tb (cvt_down 8 2 v))
  else if x_to_x sv tb ∧ c.avx512f then
    some (do let w ← intrin_bitcast c 64 v; intrin_bitcast c tb (lo128 (cvt_down 8 2 w)))
  else if x_to_x sv tb ∧ c.ssse3 then
    some (intrin_bitcast c tb (shuffle_epi8 v (setr_epi8
      [0, 1, 8, 9, 0x80, 0x80, 0x80, 0x80, 0x80, 0x80, 0x80, 0x80, 0x80, 0x80, 0x80, 0x80])))
  else if y_to_x sv tb ∧ c.avx512vl then some (intrin_bitcast c tb (cvt_down 8 2 v))
  else if y_to_x sv tb ∧ c.avx512f then
    some (do let w ← intrin_bitcast c 64 v; intrin_bitcast c tb (lo128 (cvt_down 8 2 w)))
  else if y_to_x sv tb then
    some (do
      let a := shuffle_epi8 v (setr_epi8
        [0, 1, 8, 9, 0x80, 0x80, 0x80, 0x80, 0x80, 0x80,
         0x80, 0x80, 0x80, 0x80, 0x80, 0x80, 0x80,
         0x80, 0x80, 0x80, 0, 1, 8, 9, 0x80, 0x80, 0x80,
         0x80, 0x80, 0x80, 0x80, 0x80])
      let h ← hi128 a
      intrin_bitcast c tb (vor (lo128 a) h))
  else if z_to_x sv tb then some (intrin_bitcast c tb (cvt_down 8 2 v))
  else none

/-- The `__i64_to_i8` block. -/
def conv1_i64_to_i8 (c : Cfg) (tb : Nat) (v : Reg) : Option (Except Err Reg) :=
  let sv := v.length
  if x_to_x sv tb ∧ c.avx512vl then some (intrin_bitcast c tb (cvt_down 8 1 v))
  else if x_to_x sv tb ∧ c.avx512f then
    some (do let w ← zero_extend 64 v; intrin_bitcast c tb (lo128 (cvt_down 8 1 w)))
  else if y_to_x sv tb ∧ c.avx512vl then some (intrin_bitcast c tb (cvt_down 8 1 v))
  else if y_to_x sv tb ∧ c.avx512f then
    some (do let w ← zero_extend 64 v; intrin_bitcast c tb (cvt_down 8 1 w))
  else if z_to_x sv tb then some (intrin_bitcast c tb (cvt_down 8 1 v))
  else none

/-- The `__i32_to_i64` block. -/
def conv1_i32_to_i64 (c : Cfg) (T : ElemTy) (tb : Nat) (v : Reg) : Option (Except Err Reg) :=
  let sv := v.length
  if c.sse4_1 ∧ x_to_x sv tb then some (intrin_bitcast c tb (cvt_up T.signed 4 8 16 v))
  else if x_to_x sv tb then
    some (intrin_bitcast c tb (unpack 4 false v (if T.signed then srai 4 v 31 else zeros 16)))
  else if x_to_y sv tb then some (intrin_bitcast c tb (cvt_up T.signed 4 8 32 v))
  else if y_to_z sv tb then some (intrin_bitcast c tb (cvt_up T.signed 4 8 64 v))
  else none

/-- The `__i32_to_i16` block. -/
def conv1_i32_to_i16 (c : Cfg) (tb : Nat) (v : Reg) : Option (Except Err Reg) :=
  let sv := v.length
  if x_to_x sv tb ∧ c.avx512vl then some (intrin_bitcast c tb (cvt_down 4 2 v))
  else if x_to_x sv tb ∧ c.avx512f then
    some (do let w ← intrin_bitcast c 64 v; intrin_bitcast c tb (lo128 (cvt_down 4 2 w)))
  else if x_to_x sv tb ∧ c.ssse3 then
    some (intrin_bitcast c tb (shuffle_epi8 v (setr_epi8
      [0, 1, 4, 5, 8, 9, 12, 13, 0x80, 0x80, 0x80, 0x80, 0x80, 0x80, 0x80, 0x80])))
  else if x_to_x sv tb then
    some (
      let a := unpack 2 false v (zeros 16)
      let b := unpack 2 true v (zeros 16)
      let c1 := unpack 2 false a b
      let d := unpack 2 true a b
      intrin_bitcast c tb (unpack 2 false c1 d))
  else if y_to_x sv tb ∧ c.avx512vl then some (intrin_bitcast c tb (cvt_down 4 2 v))
  else if y_to_x sv tb ∧ c.avx512f then
    some (do let w ← intrin_bitcast c 64 v; intrin_bitcast c tb (lo128 (cvt_down 4 2 w)))
  else if y_to_x sv tb then
    some (
      let a := shuffle_epi8 v (setr_epi8
        [0, 1, 4, 5, 8, 9, 12, 13, 0x80, 0x80, 0x80, 0x80,
         0x80, 0x80, 0x80, 0x80, 0, 1, 4, 5, 8, 9, 12, 13,
         0x80, 0x80, 0x80, 0x80, 0x80, 0x80, 0x80, 0x80])
      intrin_bitcast c tb (lo128 (_mm256_permute4x64_epi64 a 0xf8)))
  else if z_to_y sv tb then some (intrin_bitcast c tb (cvt_down 4 2 v))
  else none

/-- The `__i32_to_i8` block. -/
def conv1_i32_to_i8 (c : Cfg) (tb : Nat) (v : Reg) : Option (Except Err Reg) :=
  let sv := v.length
  if x_to_x sv tb ∧ c.avx512vl then some (intrin_bitcast c tb (cvt_down 4 1 v))
  else if x_to_x sv tb ∧ c.avx512f then
    some (do let w ← zero_extend 64 v; intrin_bitcast c tb (lo128 (cvt_down 4 1 w)))
  else if x_to_x sv tb ∧ c.ssse3 then
    some (intrin_bitcast c tb (shuffle_epi8 v (setr_epi8
      [0, 4, 8, 12, 0x80, 0x80, 0x80, 0x80, 0x80, 0x80, 0x80, 0x80, 0x80, 0x80, 0x80, 0x80])))
  else if x_to_x sv tb then
    some (
      let a := unpack 1 false v v
      let b := unpack 1 true v v
      let c1 := unpack 1 false a b
      let d := unpack 1 true a b
      let e := unpack 1 false c1 d
      intrin_bitcast c tb (vand e (_mm_cvtsi32_si128 (2 ^ 32 - 1))))
  else if y_to_x sv tb ∧ c.avx512vl then some (intrin_bitcast c tb (cvt_down 4 1 v))
  else if y_to_x sv tb ∧ c.avx512f then
    some (do let w ← zero_extend 64 v; intrin_bitcast c tb (cvt_down 4 1 w))
  else if z_to_x sv tb then some (intrin_bitcast c tb (cvt_down 4 1 v))
  else none

/-- The `__i16_to_i64` block. -/
def conv1_i16_to_i64 (c : Cfg) (T : ElemTy) (tb : Nat) (v : Reg) : Option (Except Err Reg) :=
  let sv := v.length
  if x_to_x sv tb ∧ c.sse4_1 then some (intrin_bitcast c tb (cvt_up T.signed 2 8 16 v))
  else if x_to_x sv tb ∧ T.signed then
    some (
      let x := srai 2 v 15
      let y := unpack 2 false v x
      let x1 := unpack 2 false x x
      intrin_bitcast c tb (unpack 4 false y x1))
  else if x_to_x sv tb then
    some (intrin_bitcast c tb (unpack 4 false (unpack 2 false v (zeros 16)) (zeros 16)))
  else if x_to_y sv tb then some (intrin_bitcast c tb (cvt_up T.signed 2 8 32 v))
  else if x_to_z sv tb then some (intrin_bitcast c tb (cvt_up T.signed 2 8 64 v))
  else none

/-- The `__i16_to_i32` block. -/
def conv1_i16_to_i32 (c : Cfg) (T : ElemTy) (tb : Nat) (v : Reg) : Option (Except Err Reg) :=
  let sv := v.length
  if x_to_x sv tb ∧ c.sse4_1 then some (intrin_bitcast c tb (cvt_up T.signed 2 4 16 v))
  else if x_to_x sv tb ∧ T.signed then
    some (intrin_bitcast c tb (srai 4 (unpack 2 false v v) 16))
  else if x_to_x sv tb ∧ ¬ T.signed then
    some (intrin_bitcast c tb (unpack 2 false v (zeros 16)))
  else if x_to_y sv tb then some (intrin_bitcast c tb (cvt_up T.signed 2 4 32 v))
  else if y_to_z sv tb then some (intrin_bitcast c tb (cvt_up T.signed 2 4 64 v))
  else none

/-- The `__i16_to_i8` block. -/
def conv1_i16_to_i8 (c : Cfg) (tb : Nat) (v : Reg) : Option (Except Err Reg) :=
  let sv := v.length
  if x_to_x sv tb ∧ c.avx512bw_vl then some (intrin_bitcast c tb (cvt_down 2 1 v))
  else if x_to_x sv tb ∧ c.avx512bw then
    some (do let w ← zero_extend 64 v; intrin_bitcast c tb (lo128 (cvt_down 2 1 w)))
  else if x_to_x sv tb ∧ c.ssse3 then
    some (intrin_bitcast c tb (shuffle_epi8 v (setr_epi8
      [0, 2, 4, 6, 8, 10, 12, 14, 0x80, 0x80, 0x80, 0x80, 0x80, 0x80, 0x80, 0x80])))
  else if x_to_x sv tb then
    some (
      let a := unpack 1 false v v
      let b := unpack 1 true v v
      let c1 := unpack 1 false a b
      let d := unpack 1 true a b
      let e := unpack 1 false c1 d
      let f := unpack 1 true c1 d
      intrin_bitcast c tb (unpack 1 false e f))
  else if y_to_x sv tb ∧ c.avx512bw_vl then some (intrin_bitcast c tb (cvt_down 2 1 v))
  else if y_to_x sv tb ∧ c.avx512bw then
    some (do
      let w ← zero_extend 64 v
      let l ← lo256 (cvt_down 2 1 w)
      intrin_bitcast c tb l)
  else if y_to_x sv tb then
    some (do
      let a := shuffle_epi8 v (setr_epi8
        [0, 2, 4, 6, 8, 10, 12, 14, 0x80, 0x80, 0x80, 0x80,
         0x80, 0x80, 0x80, 0x80, 0x80, 0x80, 0x80, 0x80,
         0x80, 0x80, 0x80, 0x80, 0, 2, 4, 6, 8, 10, 12, 14])
      let h ← hi128 a
      intrin_bitcast c tb (vor (lo128 a) h))
  else if z_to_y sv tb ∧ c.avx512bw then some (intrin_bitcast c tb (cvt_down 2 1 v))
  else if z_to_y sv tb then some (.error .static)
  else none

/-- The `__i8_to_i64` block. With SSSE3 but without SSE4.1 the signed 128-bit branch computes
a shuffle and discards it (there is no `return`), so control reaches the fallback. -/
def conv1_i8_to_i64 (c : Cfg) (T : ElemTy) (tb : Nat) (v : Reg) : Option (Except Err Reg) :=
  let sv := v.length
  if x_to_x sv tb ∧ c.sse4_1 then some (intrin_bitcast c tb (cvt_up T.signed 1 8 16 v))
  else if x_to_x sv tb ∧ T.signed then
    if c.ssse3 then none
    else
      some (
        let x := unpack 1 false v v
        let x1 := unpack 2 false x x
        intrin_bitcast c tb (unpack 4 false (srai 4 x1 24) (srai 4 x1 31)))
  else if x_to_x sv tb then
    some (intrin_bitcast c tb
      (unpack 4 false (unpack 2 false (unpack 1 false v (zeros 16)) (zeros 16)) (zeros 16)))
  else if x_to_y sv tb then some (intrin_bitcast c tb (cvt_up T.signed 1 8 32 v))
  else if x_to_z sv tb then some (intrin_bitcast c tb (cvt_up T.signed 1 8 64 v))
  else none

/-- The `__i8_to_i32` block. -/
def conv1_i8_to_i32 (c : Cfg) (T : ElemTy) (tb : Nat) (v : Reg) : Option (Except Err Reg) :=
  let sv := v.length
  if x_to_x sv tb ∧ c.sse4_1 then some (intrin_bitcast c tb (cvt_up T.signed 1 4 16 v))
  else if x_to_x sv tb ∧ T.signed then
    some (
      let x := unpack 1 false v v
      intrin_bitcast c tb (srai 4 (unpack 2 false x x) 24))
  else if x_to_x sv tb ∧ ¬ T.signed then
    some (intrin_bitcast c tb (unpack 2 false (unpack 1 false v (zeros 16)) (zeros 16)))
  else if x_to_y sv tb then some (intrin_bitcast c tb (cvt_up T.signed 1 4 32 v))
  else if x_to_z sv tb then some (intrin_bitcast c tb (cvt_up T.signed 1 4 64 v))
  else none

/-- The `__i8_to_i16` block. -/
def conv1_i8_to_i16 (c : Cfg) (T : ElemTy) (tb : Nat) (v : Reg) : Option (Except Err Reg) :=
  let sv := v.length
  if x_to_x sv tb ∧ c.sse4_1 then some (intrin_bitcast c tb (cvt_up T.signed 1 2 16 v))
  else if x_to_x sv tb ∧ T.signed then
    some (intrin_bitcast c tb (srai 2 (unpack 1 false v v) 8))
  else if x_to_x sv tb ∧ ¬ T.signed then
    some (intrin_bitcast c tb (unpack 1 false v (zeros 16)))
  else if x_to_y sv tb then some (intrin_bitcast c tb (cvt_up T.signed 1 2 32 v))
  else if y_to_z sv tb ∧ c.avx512bw then some (intrin_bitcast c tb (cvt_up T.signed 1 2 64 v))
  else if y_to_z sv tb then some (.error .static)
  else none

/-- The chain `else if constexpr (__i64_to_i32) ... else if constexpr (__i8_to_i16)` of the
one-argument overload for two integral element types of different size. -/
def conv1_blocks (c : Cfg) (T U : ElemTy) (tb : Nat) (v : Reg) : Option (Except Err Reg) :=
  if T.size = 8 ∧ U.size = 4 then conv1_i64_to_i32 c tb v
  else if T.size = 8 ∧ U.size = 2 then conv1_i64_to_i16 c tb v
  else if T.size = 8 ∧ U.size = 1 then conv1_i64_to_i8 c tb v
  else if T.size = 4 ∧ U.size = 8 then conv1_i32_to_i64 c T tb v
  else if T.size = 4 ∧ U.size = 2 then conv1_i32_to_i16 c tb v
  else if T.size = 4 ∧ U.size = 1 then conv1_i32_to_i8 c tb v
  else if T.size = 2 ∧ U.size = 8 then conv1_i16_to_i64 c T tb v
  else if T.size = 2 ∧ U.size = 4 then conv1_i16_to_i32 c T tb v
  else if T.size = 2 ∧ U.size = 1 then conv1_i16_to_i8 c tb v
  else if T.size = 1 ∧ U.size = 8 then conv1_i8_to_i64 c T tb v
  else if T.size = 1 ∧ U.size = 4 then conv1_i8_to_i32 c T tb v
  else if T.size = 1 ∧ U.size = 2 then conv1_i8_to_i16 c T tb v
  else some (.error .static)

/-- The `static_assert`s on the ISA for integral conversions: ymm registers need AVX2,
8/16-bit integers in zmm registers need AVX512BW, zmm registers need AVX512F. -/
def isa_asserts (c : Cfg) (T U : ElemTy) (sv tb : Nat) : Prop :=
  (x_to_x sv tb ∨ c.avx2)
  ∧ (c.avx512bw ∨ ((4 ≤ T.size ∨ sv < 64) ∧ (4 ≤ U.size ∨ tb < 64)))
  ∧ ((sv < 64 ∧ tb < 64) ∨ c.avx512f)

instance (c : Cfg) (T U : ElemTy) (sv tb : Nat) : Decidable (isa_asserts c T U sv tb) := by
  unfold isa_asserts; infer_instance

/-! ## The two-, four- and eight-argument `__convert_x86`: integer branches

`i0`, `i1`, ... are the source registers; every block below is reached only when the
concat branch of the overload was not taken. -/

/-- `__vector_convert<_To>(a, b, index_sequence<n>)`: the converted lanes of `a`, then those
of `b`, the rest of the `tb`-byte result zero. -/
def vector_convert2 (T U : ElemTy) (tb n : Nat) (a b : Reg) : Reg :=
  ofLanes U.size (tb / U.size) fun i =>
    if i < n then static_cast T U (lane T.size a i)
    else if i < 2 * n then static_cast T U (lane T.size b (i - n))
    else 0

/-- `__vector_convert<_To>(a, b, c, d, index_sequence<n>)`. -/
def vector_convert4 (T U : ElemTy) (tb n : Nat) (a b c d : Reg) : Reg :=
  ofLanes U.size (tb / U.size) fun i =>
    if i < n then static_cast T U (lane T.size a i)
    else if i < 2 * n then static_cast T U (lane T.size b (i - n))
    else if i < 3 * n then static_cast T U (lane T.size c (i - 2 * n))
    else if i < 4 * n then static_cast T U (lane T.size d (i - 3 * n))
    else 0

/-- Braced initialisation `__vector_type_t<U, M>{U(v0[0]), U(v0[1]), U(v1[0]), U(v1[1])}`
of a `tb`-byte vector from two 64-bit-lane sources. -/
def init4 (T U : ElemTy) (tb : Nat) (v0 v1 : Reg) : Reg :=
  ofLanes U.size (tb / U.size) fun i =>
    if i = 0 then static_cast T U (lane T.size v0 0)
    else if i = 1 then static_cast T U (lane T.size v0 1)
    else if i = 2 then static_cast T U (lane T.size v1 0)
    else if i = 3 then static_cast T U (lane T.size v1 1)
    else 0

/-- The `__i64_to_i32` block of the two-argument overload. -/
def conv2_i64_to_i32 (c : Cfg) (tb : Nat) (i0 i1 : Reg) : Option (Except Err Reg) :=
  let sv := i0.length
  if x_to_x sv tb then some (intrin_bitcast c tb (shuffle_ps i0 i1 0x88))
  else if y_to_y sv tb then some (intrin_bitcast c tb (xzyw (shuffle_ps i0 i1 0x88)))
  else if z_to_z sv tb then
    some (intrin_bitcast c tb (concat (cvt_down 8 4 i0) (cvt_down 8 4 i1)))
  else none

/-- The `__i64_to_i16` block of the two-argument overload. -/
def conv2_i64_to_i16 (c : Cfg) (T U : ElemTy) (tb : Nat) (i0 i1 : Reg) :
    Option (Except Err Reg) :=
  let sv := i0.length
  if x_to_x sv tb then
    if c.sse4_1 then
      some (intrin_bitcast c tb (shuffle_epi8
        (blend_epi16 i0 (_mm_slli_si128 i1 4) 0x44)
        (setr_epi8 [0, 1, 8, 9, 4, 5, 12, 13, 0x80, 0x80, 0x80,
                    0x80, 0x80, 0x80, 0x80, 0x80])))
    else some (.ok (init4 T U tb i0 i1))
  else if y_to_x sv tb then
    some (do
      let a := unpack 2 false i0 i1
      let b := unpack 2 true i0 i1
      let c1 := unpack 2 false a b
      let h ← hi128 c1
      intrin_bitcast c tb (unpack 4 false (lo128 c1) h))
  else if z_to_y sv tb then
    some (intrin_bitcast c tb (concat (cvt_down 8 2 i0) (cvt_down 8 2 i1)))
  else none

/-- The `__i64_to_i8` block of the two-argument overload. -/
def conv2_i64_to_i8 (c : Cfg) (T U : ElemTy) (tb : Nat) (i0 i1 : Reg) :
    Option (Except Err Reg) :=
  let sv := i0.length
  if x_to_x sv tb ∧ c.sse4_1 then
    some (intrin_bitcast c tb (shuffle_epi8
      (blend_epi16 i0 (_mm_slli_si128 i1 4) 0x44)
      (setr_epi8 [0, 8, 4, 12, 0x80, 0x80, 0x80, 0x80, 0x80, 0x80,
                  0x80, 0x80, 0x80, 0x80, 0x80, 0x80])))
  else if x_to_x sv tb ∧ c.ssse3 then
    let m := setr_epi8 [0, 8, 0x80, 0x80, 0x80, 0x80, 0x80, 0x80,
                        0x80, 0x80, 0x80, 0x80, 0x80, 0x80, 0x80, 0x80]
    some (intrin_bitcast c tb (unpack 2 false (shuffle_epi8 i0 m) (shuffle_epi8 i1 m)))
  else if x_to_x sv tb then some (.ok (init4 T U tb i0 i1))
  else if y_to_x sv tb then
    some (do
      let a := shuffle_epi8
        (_mm256_blend_epi32 i0 (slli 8 i1 32) 0xAA)
        (setr_epi8 [0, 8, 0x80, 0x80, 4, 12, 0x80, 0x80, 0x80,
                    0x80, 0x80, 0x80, 0x80, 0x80, 0x80, 0x80,
                    0x80, 0x80, 0, 8, 0x80, 0x80, 4, 12, 0x80,
                    0x80, 0x80, 0x80, 0x80, 0x80, 0x80, 0x80])
      let h ← hi128 a
      intrin_bitcast c tb (vor (lo128 a) h))
  else none

/-- The `__i32_to_i16` block of the two-argument overload. -/
def conv2_i32_to_i16 (c : Cfg) (tb : Nat) (i0 i1 : Reg) : Option (Except Err Reg) :=
  let sv := i0.length
  if x_to_x sv tb then
    if c.sse4_1 then
      some (intrin_bitcast c tb (shuffle_epi8
        (blend_epi16 i0 (_mm_slli_si128 i1 2) 0xaa)
        (setr_epi8 [0, 1, 4, 5, 8, 9, 12, 13, 2, 3, 6, 7, 10, 11, 14, 15])))
    else if c.ssse3 then
      some (intrin_bitcast c tb (_mm_hadd_epi16 (shl_scalar 4 i0 16) (shl_scalar 4 i1 16)))
    else
      some (
        let a := unpack 2 false i0 i1
        let b := unpack 2 true i0 i1
        let c1 := unpack 2 false a b
        let d := unpack 2 true a b
        intrin_bitcast c tb (unpack 2 false c1 d))
  else if y_to_y sv tb then
    let shuf := setr_epi8
      [0, 1, 4, 5, 8, 9, 12, 13, 0x80, 0x80, 0x80, 0x80, 0x80, 0x80,
       0x80, 0x80, 0, 1, 4, 5, 8, 9, 12, 13, 0x80, 0x80, 0x80, 0x80,
       0x80, 0x80, 0x80, 0x80]
    let a := shuffle_epi8 i0 shuf
    let b := shuffle_epi8 i1 shuf
    some (intrin_bitcast c tb (xzyw (unpack 8 false a b)))
  else none

/-- The `__i32_to_i8` block of the two-argument overload. -/
def conv2_i32_to_i8 (c : Cfg) (tb : Nat) (i0 i1 : Reg) : Option (Except Err Reg) :=
  let sv := i0.length
  if x_to_x sv tb ∧ c.ssse3 then
    let shufmask := setr_epi8 [0, 4, 8, 12, 0x80, 0x80, 0x80, 0x80, 0x80, 0x80,
                               0x80, 0x80, 0x80, 0x80, 0x80, 0x80]
    some (intrin_bitcast c tb (unpack 4 false (shuffle_epi8 i0 shufmask) (shuffle_epi8 i1 shufmask)))
  else if x_to_x sv tb then
    some (
      let a := unpack 1 false i0 i1
      let b := unpack 1 true i0 i1
      let c1 := unpack 1 false a b
      let d := unpack 1 true a b
      let e := unpack 1 false c1 d
      intrin_bitcast c tb (vand e (m128i_of (2 ^ 64 - 1) 0)))
  else if y_to_x sv tb then
    some (do
      let a := shuffle_epi8
        (blend_epi16 i0 (slli 4 i1 16) 0xAA)
        (setr_epi8 [0, 4, 8, 12, 0x80, 0x80, 0x80, 0x80, 2, 6, 10,
                    14, 0x80, 0x80, 0x80, 0x80, 0x80, 0x80, 0x80,
                    0x80, 0, 4, 8, 12, 0x80, 0x80, 0x80, 0x80, 2, 6,
                    10, 14])
      let h ← hi128 a
      intrin_bitcast c tb (vor (lo128 a) h))
  else none

/-- The `__i16_to_i8` block of the two-argument overload. -/
def conv2_i16_to_i8 (c : Cfg) (tb : Nat) (i0 i1 : Reg) : Option (Except Err Reg) :=
  let sv := i0.length
  if x_to_x sv tb ∧ c.ssse3 then
    let shuf := setr_epi8 [0, 2, 4, 6, 8, 10, 12, 14, 0x80, 0x80, 0x80,
                           0x80, 0x80, 0x80, 0x80, 0x80]
    some (intrin_bitcast c tb (unpack 8 false (shuffle_epi8 i0 shuf) (shuffle_epi8 i1 shuf)))
  else if x_to_x sv tb then
    some (
      let a := unpack 1 false i0 i1
      let b := unpack 1 true i0 i1
      let c1 := unpack 1 false a b
      let d := unpack 1 true a b
      let e := unpack 1 false c1 d
      let f := unpack 1 true c1 d
      intrin_bitcast c tb (unpack 1 false e f))
  else if y_to_y sv tb then
    some (intrin_bitcast c tb (xzyw (shuffle_epi8
      (vor (vand i0 (set1_epi32 32 0x00ff00ff)) (slli 2 i1 8))
      (setr_epi8 [0, 2, 4, 6, 8, 10, 12, 14, 1, 3, 5, 7, 9, 11, 13, 15,
                  0, 2, 4, 6, 8, 10, 12, 14, 1, 3, 5, 7, 9, 11, 13,
                  15]))))
  else none

/-- The narrowing blocks of the two-argument overload; for every other pair of integral
types no block applies and control reaches the fallback. -/
def conv2_blocks (c : Cfg) (T U : ElemTy) (tb : Nat) (i0 i1 : Reg) : Option (Except Err Reg) :=
  if T.size = 8 ∧ U.size = 4 then conv2_i64_to_i32 c tb i0 i1
  else if T.size = 8 ∧ U.size = 2 then conv2_i64_to_i16 c T U tb i0 i1
  else if T.size = 8 ∧ U.size = 1 then conv2_i64_to_i8 c T U tb i0 i1
  else if T.size = 4 ∧ U.size = 2 then conv2_i32_to_i16 c tb i0 i1
  else if T.size = 4 ∧ U.size = 1 then conv2_i32_to_i8 c tb i0 i1
  else if T.size = 2 ∧ U.size = 1 then conv2_i16_to_i8 c tb i0 i1
  else none

/-- The `__i64_to_i16` block of the four-argument overload. -/
def conv4_i64_to_i16 (c : Cfg) (tb : Nat) (i0 i1 i2 i3 : Reg) : Option (Except Err Reg) :=
  let sv := i0.length
  if x_to_x sv tb ∧ c.sse4_1 then
    some (intrin_bitcast c tb (shuffle_epi8
      (blend_epi16 (blend_epi16 i0 (_mm_slli_si128 i1 2) 0x22)
                   (blend_epi16 (_mm_slli_si128 i2 4) (_mm_slli_si128 i3 6) 0x88)
                   0xcc)
      (setr_epi8 [0, 1, 8, 9, 2, 3, 10, 11, 4, 5, 12, 13, 6, 7, 14, 15])))
  else if y_to_y sv tb ∧ c.avx2 then
    some (intrin_bitcast c tb (shuffle_epi8
      (xzyw (blend_epi16
        (shuffle_ps i0 i2 0x88)
        (shl_scalar 4 (shuffle_ps i1 i3 0x88) 16)
        0xaa))
      (setr_epi8 [0, 1, 4, 5, 8, 9, 12, 13, 2, 3, 6, 7, 10, 11, 14, 15,
                  0, 1, 4, 5, 8, 9, 12, 13, 2, 3, 6, 7, 10, 11, 14,
                  15])))
  else none

/-- The `__i64_to_i8` block of the four-argument overload. -/
def conv4_i64_to_i8 (c : Cfg) (tb : Nat) (i0 i1 i2 i3 : Reg) : Option (Except Err Reg) :=
  let sv := i0.length
  if x_to_x sv tb then none
  else if y_to_x sv tb then
    some (do
      let a := vor (vor (vor (srli 4 (slli 4 i0 24) 24) (srli 4 (slli 4 i1 24) 16))
                        (srli 4 (slli 4 i2 24) 8))
                   (slli 4 i3 24)
      let b := unpack 8 true a a
      let c1 := unpack 1 false a b
      let h ← hi128 c1
      intrin_bitcast c tb (unpack 2 false (lo128 c1) h))
  else none

/-- The `__i32_to_i8` block of the four-argument overload. -/
def conv4_i32_to_i8 (c : Cfg) (tb : Nat) (i0 i1 i2 i3 : Reg) : Option (Except Err Reg) :=
  let sv := i0.length
  if x_to_x sv tb then
    if c.ssse3 then
      let x0 := and_scalar 4 i0 0xff
      let x1 := shl_scalar 4 (and_scalar 4 i1 0xff) 8
      let x2 := shl_scalar 4 (and_scalar 4 i2 0xff) 16
      let x3 := shl_scalar 4 i3 24
      some (intrin_bitcast c tb (shuffle_epi8 (vor (vor (vor x0 x1) x2) x3)
        (setr_epi8 [0, 4, 8, 12, 1, 5, 9, 13, 2, 6, 10, 14, 3, 7, 11, 15])))
    else
      some (
        let a := unpack 1 false i0 i2
        let b := unpack 1 true i0 i2
        let c1 := unpack 1 false i1 i3
        let d := unpack 1 true i1 i3
        let e := unpack 1 false a c1
        let f := unpack 1 true a c1
        let g := unpack 1 false b d
        let h := unpack 1 true b d
        intrin_bitcast c tb (unpack 1 false (unpack 1 false e g) (unpack 1 false f h)))
  else if y_to_y sv tb then
    some (
      let a := shuffle_epi8
        (vor (and_scalar 2 (blend_epi16 i0 (slli 4 i1 16) 0xAA) 0xff)
             (shl_scalar 2 (blend_epi16 i2 (slli 4 i3 16) 0xAA) 8))
        (setr_epi8 [0, 4, 8, 12, 2, 6, 10, 14, 1, 5, 9, 13, 3, 7, 11, 15,
                    0, 4, 8, 12, 2, 6, 10, 14, 1, 5, 9, 13, 3, 7, 11, 15])
      intrin_bitcast c tb (_mm256_permutevar8x32_epi32 a (setr_epi32 [0, 4, 1, 5, 2, 6, 3, 7])))
  else none

/-- The narrowing blocks of the four-argument overload. -/
def conv4_blocks (c : Cfg) (T U : ElemTy) (tb : Nat) (i0 i1 i2 i3 : Reg) :
    Option (Except Err Reg) :=
  if T.size = 8 ∧ U.size = 2 then conv4_i64_to_i16 c tb i0 i1 i2 i3
  else if T.size = 8 ∧ U.size = 1 then conv4_i64_to_i8 c tb i0 i1 i2 i3
  else if T.size = 4 ∧ U.size = 1 then conv4_i32_to_i8 c tb i0 i1 i2 i3
  else none

/-- The expression `(v0 & 0xff) | ((v1 & 0xff) << 8) | ... | (v7 << 56)` on 64-bit lanes. -/
def gather_low_bytes (v : List Reg) : Reg :=
  let g := fun k => v.getD k []
  vor (vor (vor (and_scalar 8 (g 0) 0xff) (shl_scalar 8 (and_scalar 8 (g 1) 0xff) 8))
           (vor (shl_scalar 8 (and_scalar 8 (g 2) 0xff) 16)
                (shl_scalar 8 (and_scalar 8 (g 3) 0xff) 24)))
      (vor (vor (shl_scalar 8 (and_scalar 8 (g 4) 0xff) 32)
                (shl_scalar 8 (and_scalar 8 (g 5) 0xff) 40))
           (vor (shl_scalar 8 (and_scalar 8 (g 6) 0xff) 48) (shl_scalar 8 (g 7) 56)))

/-- The `__i64_to_i8` block of the eight-argument overload, but for its `__z_to_z` branch,
which recurses and is part of `convert_x86`. -/
def conv8_i64_to_i8 (c : Cfg) (tb : Nat) (v : List Reg) : Option (Except Err Reg) :=
  let sv := (v.getD 0 []).length
  let g := fun k => v.getD k []
  if x_to_x sv tb ∧ c.ssse3 then
    some (intrin_bitcast c tb (shuffle_epi8 (gather_low_bytes v)
      (setr_epi8 [0, 8, 1, 9, 2, 10, 3, 11, 4, 12, 5, 13, 6, 14, 7, 15])))
  else if x_to_x sv tb then
    some (
      let a := unpack 1 false (g 0) (g 1)
      let b := unpack 1 true (g 0) (g 1)
      let c1 := unpack 1 false (g 2) (g 3)
      let d := unpack 1 true (g 2) (g 3)
      let e := unpack 1 false (g 4) (g 5)
      let f := unpack 1 true (g 4) (g 5)
      let g1 := unpack 1 false (g 6) (g 7)
      let h := unpack 1 true (g 6) (g 7)
      intrin_bitcast c tb (unpack 8 false
        (unpack 4 false (unpack 1 false a b) (unpack 1 false c1 d))
        (unpack 4 false (unpack 1 false e f) (unpack 1 false g1 h))))
  else if y_to_y sv tb then
    some (
      let a := gather_low_bytes v
      let b := shuffle_epi8 a (setr_epi8
        [0, 8, 1, 9, 2, 10, 3, 11, 4, 12, 5, 13, 6, 14, 7, 15,
         0, 8, 1, 9, 2, 10, 3, 11, 4, 12, 5, 13, 6, 14, 7, 15])
      let c1 := xzyw b
      intrin_bitcast c tb (shuffle_epi8 c1 (setr_epi8
        [0, 1, 8, 9, 2, 3, 10, 11, 4, 5, 12, 13, 6, 7, 14,
         15, 0, 1, 8, 9, 2, 3, 10, 11, 4, 5, 12, 13, 6, 7,
         14, 15])))
  else none

/-- `__convert_x86<_To>(v...)` for integral element types `T` (source) and `U` (destination),
a destination of `tb` bytes and 1, 2, 4 or 8 source registers of equal size: the four
overloads of the source, which call one another. Template instantiation always ends; the
embedding recurses on a budget and `Err.fuel` reports that it ran out.

`N` and `M` are `_Traits::_S_width` and `_VectorTraits<_To>::_S_width`. A branch of the
source that returns is an `if` here; control that leaves a block without returning reaches
the `fallback` part of its overload. -/
def convert_x86 (c : Cfg) (T U : ElemTy) : Nat → Nat → List Reg → Except Err Reg
  | 0, _, _ => .error .fuel
  | fuel + 1, tb, [v] =>
    let sv := v.length
    let N := sv / T.size
    let M := tb / U.size
    if y_to_x sv tb ∧ ¬ c.avx2 then do
      let h ← hi128 v
      convert_x86 c T U fuel tb [lo128 v, h]
    else if x_to_y sv tb ∧ ¬ c.avx2 then do
      let tb2 ← vector_type_t U (M / 2)
      let a ← convert_x86 c T U fuel tb2 [v]
      let p ← extract_part c 1 (N / M * 2) v
      let b ← convert_x86 c T U fuel tb2 [p]
      .ok (concat a b)
    else if ¬ isa_asserts c T U sv tb then .error .static
    else if T.size = U.size then
      if M ≤ N then intrin_bitcast c tb v else zero_extend tb v
    else if N < M ∧ 16 < tb then do
      let tb2 ← vector_type_t U (if N < 16 / U.size then 16 / U.size else N)
      let r ← convert_x86 c T U fuel tb2 [v]
      zero_extend tb r
    else if M < N ∧ 16 < sv then do
      let p ← extract_part c 0 (N / M) v
      convert_x86 c T U fuel tb [p]
    else
      match conv1_blocks c T U tb v with
      | some r => r
      | none => .ok (vector_convert T U tb (min M N) v)
  | fuel + 1, tb, [v0, v1] =>
    let sv := v0.length
    let N := sv / T.size
    let M := tb / U.size
    if ¬ 2 * N ≤ M then .error .static
    else if y_to_x sv tb ∧ ¬ c.avx2 then do
      let h0 ← hi128 v0
      let h1 ← hi128 v1
      convert_x86 c T U fuel tb [lo128 v0, h0, lo128 v1, h1]
    else if ¬ isa_asserts c T U sv tb then .error .static
    else if (sv = 16 ∧ c.avx2) ∨ (sv = 32 ∧ c.avx512f ∧ (4 ≤ T.size ∨ c.avx512bw)) then
      convert_x86 c T U fuel tb [concat v0 v1]
    else if T.size = U.size then .error .static
    else if 2 * N < M ∧ 16 < tb then do
      let tb2 ← vector_type_t U (if 2 * N < 16 / U.size then 16 / U.size else 2 * N)
      let r ← convert_x86 c T U fuel tb2 [v0, v1]
      zero_extend tb r
    else
      match conv2_blocks c T U tb v0 v1 with
      | some r => r
      | none =>
        if 32 ≤ tb then do
          let tb2 ← vector_type_t U (M / 2)
          let a ← convert_x86 c T U fuel tb2 [v0]
          let b ← convert_x86 c T U fuel tb2 [v1]
          .ok (concat a b)
        else if tb = 16 then do
          let lo ← convert_x86 c T U fuel tb [v0]
          let hi ← convert_x86 c T U fuel tb [v1]
          if U.size * N = 8 then intrin_bitcast c tb (unpack 8 false lo hi)
          else if U.size * N = 4 then intrin_bitcast c tb (unpack 4 false lo hi)
          else if U.size * N = 2 then intrin_bitcast c tb (unpack 2 false lo hi)
          else .error .static
        else .ok (vector_convert2 T U tb N v0 v1)
  | fuel + 1, tb, [v0, v1, v2, v3] =>
    let sv := v0.length
    let N := sv / T.size
    let M := tb / U.size
    if ¬ 4 * N ≤ M then .error .static
    else if y_to_x sv tb ∧ ¬ c.avx2 then do
      let h0 ← hi128 v0
      let h1 ← hi128 v1
      let h2 ← hi128 v2
      let h3 ← hi128 v3
      convert_x86 c T U fuel tb [lo128 v0, h0, lo128 v1, h1, lo128 v2, h2, lo128 v3, h3]
    else if ¬ isa_asserts c T U sv tb then .error .static
    else if (sv = 16 ∧ c.avx2) ∨ (sv = 32 ∧ c.avx512f) then
      convert_x86 c T U fuel tb [concat v0 v1, concat v2 v3]
    else if T.size = U.size then .error .static
    else if 4 * N < M ∧ 16 < tb then do
      let tb2 ← vector_type_t U (if 4 * N < 16 / U.size then 16 / U.size else 4 * N)
      let r ← convert_x86 c T U fuel tb2 [v0, v1, v2, v3]
      zero_extend tb r
    else
      match conv4_blocks c T U tb v0 v1 v2 v3 with
      | some r => r
      | none =>
        if 32 ≤ tb then do
          let tb2 ← vector_type_t U (M / 2)
          let a ← convert_x86 c T U fuel tb2 [v0, v1]
          let b ← convert_x86 c T U fuel tb2 [v2, v3]
          .ok (concat a b)
        else if tb = 16 then do
          let lo ← convert_x86 c T U fuel tb [v0, v1]
          let hi ← convert_x86 c T U fuel tb [v2, v3]
          if U.size * N * 2 = 8 then intrin_bitcast c tb (unpack 8 false lo hi)
          else if U.size * N * 2 = 4 then intrin_bitcast c tb (unpack 4 false lo hi)
          else .error .static
        else .ok (vector_convert4 T U tb N v0 v1 v2 v3)
  | fuel + 1, tb, [v0, v1, v2, v3, v4, v5, v6, v7] =>
    let sv := v0.length
    let N := sv / T.size
    let M := tb / U.size
    if ¬ 8 * N ≤ M then .error .static
    else if ¬ isa_asserts c T U sv tb then .error .static
    else if (sv = 16 ∧ c.avx2) ∨ (sv = 32 ∧ c.avx512f) then
      convert_x86 c T U fuel tb [concat v0 v1, concat v2 v3, concat v4 v5, concat v6 v7]
    else if T.size = U.size then .error .static
    else if 8 * N < M ∧ 16 < tb then .error .static
    else if T.size = 8 ∧ U.size = 1 then
      match conv8_i64_to_i8 c tb [v0, v1, v2, v3, v4, v5, v6, v7] with
      | some r => r
      | none =>
        if 32 ≤ tb then do
          let tb2 ← vector_type_t U (M / 2)
          let a ← convert_x86 c T U fuel tb2 [v0, v1, v2, v3]
          let b ← convert_x86 c T U fuel tb2 [v4, v5, v6, v7]
          .ok (concat a b)
        else if tb = 16 then do
          let lo ← convert_x86 c T U fuel tb [v0, v1, v2, v3]
          let hi ← convert_x86 c T U fuel tb [v4, v5, v6, v7]
          if U.size = 1 ∧ N = 2 then intrin_bitcast c tb (unpack 8 false lo hi)
          else .error .static
        else .error .static
    else .error .static
  | _ + 1, _, _ => .error .static

/-! ## Mask reductions of `simd.h`: types -/

/-- The element type `_Tp` of a mask: its `sizeof`, and whether it is integral (otherwise it
is `float` for size 4 and `double` for size 8). -/
structure MaskTy where
  size : Nat
  integral : Bool
  deriving DecidableEq, Repr

/-- The ISA flags and target properties read by the mask reductions. -/
structure RCfg where
  sse : Bool
  sse2 : Bool
  sse4_1 : Bool
  avx : Bool
  avx2 : Bool
  popcnt : Bool
  avx512vl : Bool
  avx512bw_vl : Bool
  /-- `alignof(unsigned long long) == 8`. -/
  ullong_align8 : Bool
  avx512dq : Bool
  avx512bw : Bool
  /-- Whether `_GLIBCXX_SIMD_WORKAROUND_PR85538` is defined. -/
  workaround_pr85538 : Bool
  /-- BMI1, which has `_tzcnt_u32`. -/
  bmi : Bool
  /-- LZCNT, which has `_lzcnt_u32`. -/
  lzcnt : Bool
  /-- Whether the build passes `-flax-vector-conversions`. Without it a vector of `int`,
  `short`, `char` or `long`, as a comparison of vectors yields it, does not convert to
  `__m128i` or `__m256i`. -/
  lax_vector_conversions : Bool

/-- The ABI tags: `scalar`, `fixed_size<n>`, `_SseAbi<bytes>`, `_AvxAbi<bytes>`,
`_Avx512Abi<bytes>`, `_NeonAbi<bytes>` and `_CombineAbi<n, member>`. -/
inductive Abi where
  | scalar
  | fixed_size (n : Nat)
  | sse (bytes : Nat)
  | avx (bytes : Nat)
  | avx512 (bytes : Nat)
  | neon (bytes : Nat)
  | combine (n : Nat) (member : Abi)
  deriving DecidableEq, Repr

/-- The `_MaskMember` of a mask: a `bool`, a `std::bitset`, a vector register whose lanes
are all-ones or all-zeros, an AVX-512 bitmask, or the `std::array` of a combined ABI. -/
inductive MaskData where
  | scalar (b : Bool)
  | bitset (x : Nat)
  | vec (v : Reg)
  | kmask (x : Nat)
  | array (ms : List MaskData)

/-- `simd_size_v<_Tp, _Abi>`. -/
def simd_size (T : MaskTy) : Abi → Nat
  | .scalar => 1
  | .fixed_size n => n
  | .sse b => b / T.size
  | .avx b => b / T.size
  | .avx512 b => b / T.size
  | .neon b => b / T.size
  | .combine n a => n * simd_size T a

/-- `_Abi::_S_full_size<_Tp> * sizeof(_Tp)`: the bytes of the register behind a vector mask. -/
def full_bytes : Abi → Nat
  | .sse _ => 16
  | .avx _ => 32
  | .avx512 _ => 64
  | .neon b => if 8 < b then 16 else 8
  | _ => 0

/-! ## Mask reductions: scalar bit operations and intrinsics -/

/-- The number whose bit `i` is `f i`, for `i < n`. -/
def bitsOf (n : Nat) (f : Nat → Bool) : Nat :=
  ((List.range n).map fun i => if f i then 2 ^ i else 0).sum

/-- `__builtin_popcount` (`w = 32`), `__builtin_popcountll` and `bitset::count` (`w = 64`). -/
def popcnt (w x : Nat) : Nat := ((List.range w).filter fun i => bit x i).length

/-- `__builtin_ctz` (`w = 32`), `__builtin_ctzll` (`w = 64`), `_tzcnt_u32`: the index of the
lowest set bit. The builtins are undefined for zero, `_tzcnt_u32` gives `w`. -/
def ctz (w x : Nat) : Nat := ((List.range w).find? fun i => bit x i).getD w

/-- `__builtin_clz`, `__builtin_clzll`, `_lzcnt_u32`: the number of leading zero bits of a
`w`-bit number. -/
def clz (w x : Nat) : Nat := ((List.range w).find? fun i => bit x (w - 1 - i)).getD w

/-- `__firstbit(bits)` for an argument of `sz` bytes. -/
def firstbit (c : RCfg) (sz bits : Nat) : Nat :=
  if sz ≤ 4 then ctz 32 bits
  else if c.ullong_align8 then ctz 64 bits
  else
    let lo := bits % 2 ^ 32
    if lo = 0 then 32 + ctz 32 (bits / 2 ^ 32) else ctz 32 lo

/-- `__lastbit(bits)` for an argument of `sz` bytes. -/
def lastbit (c : RCfg) (sz bits : Nat) : Int :=
  if sz ≤ 4 then 31 - (clz 32 bits : Int)
  else if c.ullong_align8 then 63 - (clz 64 bits : Int)
  else
    let lo := bits % 2 ^ 32
    let hi := bits / 2 ^ 32 % 2 ^ 32
    if hi = 0 then 31 - (clz 32 lo : Int) else 63 - (clz 32 hi : Int)

/-- The signed value of an `s`-byte lane. -/
def sint (s x : Nat) : Int := if 2 ^ (8 * s - 1) ≤ x then (x : Int) - 2 ^ (8 * s) else (x : Int)

/-- `_MM_SHUFFLE(z, y, x, w)`. -/
def MM_SHUFFLE (z y x w : Nat) : Nat := z * 64 + y * 16 + x * 4 + w

/-- `_mm_movemask_epi8` (`s = 1`), `_mm_movemask_ps` (`s = 4`), `_mm_movemask_pd` (`s = 8`),
their 256-bit forms and `_mm*_cmplt_epi16/32/64_mask(v, 0)`: bit `i` is the most significant
bit of the `s`-byte lane `i`. -/
def msb_mask (s : Nat) (v : Reg) : Nat :=
  bitsOf (v.length / s) fun i => 128 ≤ (rd v (i * s + (s - 1))).val

/-- Signed saturation of a 16-bit lane to 8 bits. -/
def sat8 (x : Nat) : Nat :=
  if 2 ^ 15 ≤ x then (if x < 2 ^ 16 - 128 then 128 else x % 256) else (if 127 < x then 127 else x)

/-- `_mm_packs_epi16` (PACKSSWB). -/
def _mm_packs_epi16 (a b : Reg) : Reg :=
  ofLanes 1 16 fun i => sat8 (lane 2 (if i < 8 then a else b) (i % 8))

/-- `_mm_add_epi8/16/32/64` and the GNU vector operator `+` on integral lanes. -/
def add_epi (s : Nat) (a b : Reg) : Reg := zipLanes s (fun x y => x + y) a b

/-- The GNU vector operator unary `-` on integral lanes. -/
def neg_epi (s : Nat) (a : Reg) : Reg := mapLanes s (fun x => 2 ^ (8 * s) - x) a

/-- `_mm_shufflelo_epi16` (PSHUFLW): permute the four low words, copy the high half. -/
def _mm_shufflelo_epi16 (a : Reg) (imm : Nat) : Reg :=
  mk 16 fun j => if j < 8 then rd a (field imm (2 * (j / 2)) 2 * 2 + j % 2) else rd a j

/-- `vpadd_s8/s16/s32` and `vpaddq_s8/s16/s32`: pairwise sums of `a`, then of `b`. -/
def vpadd (s : Nat) (a b : Reg) : Reg :=
  let h := a.length / s / 2
  ofLanes s (a.length / s) fun i =>
    if i < h then lane s a (2 * i) + lane s a (2 * i + 1)
    else lane s b (2 * (i - h)) + lane s b (2 * (i - h) + 1)

/-- `__lo64(x)`. -/
def lo64 (x : Reg) : Reg := mk 8 fun j => rd x j

/-- `__hi64z(x)`: the high 64 bits of a 16-byte vector, zero for a narrower one. -/
def hi64z (x : Reg) : Reg := mk 8 fun j => if x.length = 16 then rd x (8 + j) else 0

/-- `_MixinImplicitMasking::__implicit_mask<_Tp>()`: all-ones in the lanes the ABI uses. -/
def implicit_mask (T : MaskTy) (bytes full : Nat) : Reg :=
  mk full fun j => if bytes < full then (if j / T.size < bytes / T.size then 255 else 0) else 255

/-- `_MixinImplicitMasking::__masked(x)`. -/
def masked (T : MaskTy) (bytes full : Nat) (x : Reg) : Reg :=
  if bytes < full then vand x (implicit_mask T bytes full) else x

/-- `__movemask(__to_intrin(__vector_bitcast<_Tp>(a)))`. -/
def movemask (c : RCfg) (T : MaskTy) (a : Reg) : Except Err Nat :=
  if c.sse ∧ ¬ T.integral ∧ T.size = 4 ∧ a.length = 16 then .ok (msb_mask 4 a)
  else if c.avx ∧ ¬ T.integral ∧ T.size = 4 ∧ a.length = 32 then .ok (msb_mask 4 a)
  else if c.sse2 ∧ ¬ T.integral ∧ T.size = 8 ∧ a.length = 16 then .ok (msb_mask 8 a)
  else if c.avx ∧ ¬ T.integral ∧ T.size = 8 ∧ a.length = 32 then .ok (msb_mask 8 a)
  else if c.sse2 ∧ a.length = 16 then .ok (msb_mask 1 a)
  else if c.avx2 ∧ a.length = 32 then .ok (msb_mask 1 a)
  else .error .static
/-! ## Mask reductions: `__testz`, `__vector_to_bitset`, `__any_of` -/

/-- Whether every bit of a register is zero. -/
def is_zero (a : Reg) : Bool := a.all fun b => b.val = 0

/-- The vector `0 == a`: all-ones in the lanes that compare equal to zero (a floating-point
lane does so when it is `+0` or `-0`). -/
def cmpeq_zero (T : MaskTy) (a : Reg) : Reg :=
  mapLanes T.size
    (fun x => if (if T.integral then x = 0 else x % 2 ^ (8 * T.size - 1) = 0)
      then 2 ^ (8 * T.size) - 1 else 0) a

/-- `__testz(a, b)` at run time on x86. The branch without SSE4.1 hands the vector of
integers that `0 == __and(a, b)` yields to `__movemask`, whose `_mm_movemask_epi8` takes an
`__m128i`: it compiles with `-flax-vector-conversions` only. -/
def testz (c : RCfg) (T : MaskTy) (a b : Reg) : Except Err Nat :=
  let ab := vand a b
  if c.avx then
    if a.length = 32 ∧ ¬ T.integral ∧ T.size = 4 then .ok (if msb_mask 4 ab = 0 then 1 else 0)
    else if a.length = 32 ∧ ¬ T.integral ∧ T.size = 8 then .ok (if msb_mask 8 ab = 0 then 1 else 0)
    else if a.length = 32 then .ok (if is_zero ab then 1 else 0)
    else if ¬ T.integral ∧ T.size = 4 ∧ a.length = 16 then .ok (if msb_mask 4 ab = 0 then 1 else 0)
    else if ¬ T.integral ∧ T.size = 8 ∧ a.length = 16 then .ok (if msb_mask 8 ab = 0 then 1 else 0)
    else .ok (if is_zero ab then 1 else 0)
  else if c.sse4_1 then .ok (if is_zero ab then 1 else 0)
  else if c.lax_vector_conversions then do
    let m ← movemask c ⟨T.size, true⟩ (cmpeq_zero T ab)
    .ok (if m ≠ 0 then 1 else 0)
  else .error .static

/-- The constant vectors `{0x1, 0x2, 0x4, ...}` of the NEON branch of `__vector_to_bitset`:
lane `i` of `w` bytes holds `2 ^ (i % 8)`. -/
def neon_bit_values (w n : Nat) : Reg := ofLanes w (n / w) fun i => 2 ^ (i % 8)

/-- `__vector_to_bitset(x)` for a vector `x` with lanes of `w = sizeof(_Tp)` bytes, as the
number `to_ullong()` gives. `neon` selects the NEON part of the function (`aarch64`; the
32-bit ARM variant of the 16-bit case does not parse), otherwise the x86 part is meant. The
result is a `std::bitset` of as many bits as the vector has lanes. -/
def vector_to_bitset (c : RCfg) (neon : Bool) (T : MaskTy) (x : Reg) : Except Err Nat :=
  let w := T.size
  let width := x.length / w
  let z := zeros x.length
  if neon then
    if x.length = 16 then
      if w = 1 then
        let a := vand x (neon_bit_values 1 16)
        .ok (lane 2 (vpadd 1 (vpadd 1 (vpadd 1 a z) z) z) 0 % 2 ^ width)
      else if w = 2 then
        let a := vand x (neon_bit_values 2 16)
        .ok (lane 2 (vpadd 2 (vpadd 2 (vpadd 2 a z) z) z) 0 % 2 ^ width)
      else if w = 4 then
        let a := vand x (neon_bit_values 4 16)
        .ok (lane 4 (vpadd 4 (vpadd 4 a z) z) 0 % 2 ^ width)
      else if w = 8 then .ok ((lane 8 x 0 &&& 1 ||| lane 8 x 1 &&& 2) % 2 ^ width)
      else .error .static
    else if x.length = 8 then
      if w = 1 then
        let a := vand x (neon_bit_values 1 8)
        .ok (lane 1 (vpadd 1 (vpadd 1 (vpadd 1 a z) z) z) 0 % 2 ^ width)
      else if w = 2 then
        let a := vand x (neon_bit_values 2 8)
        .ok (lane 2 (vpadd 2 (vpadd 2 a z) z) 0 % 2 ^ width)
      else if w = 4 then
        let a := vand x (neon_bit_values 4 8)
        .ok (lane 4 (vpadd 4 a z) 0 % 2 ^ width)
      else if w = 8 then .ok ((if lane 8 x 0 = 0 then 0 else 1) % 2 ^ width)
      else .error .static
    else .error .static
  else
    let is_sse := c.sse ∧ x.length = 16
    let is_avx := c.avx ∧ x.length = 32
    if is_sse ∧ w = 1 then .ok (msb_mask 1 x % 2 ^ width)
    else if is_sse ∧ w = 2 then
      if c.avx512bw_vl then .ok (msb_mask 2 x % 2 ^ width)
      else .ok (msb_mask 1 (_mm_packs_epi16 x (zeros 16)) % 2 ^ width)
    else if is_sse ∧ w = 4 then .ok (msb_mask 4 x % 2 ^ width)
    else if is_sse ∧ w = 8 then .ok (msb_mask 8 x % 2 ^ width)
    else if is_avx ∧ w = 1 then .ok (msb_mask 1 x % 2 ^ width)
    else if is_avx ∧ w = 2 then
      if c.avx512bw_vl then .ok (msb_mask 2 x % 2 ^ width)
      else .ok (msb_mask 1 (_mm_packs_epi16 (extract 0 2 x) (extract 1 2 x)) % 2 ^ width)
    else if is_avx ∧ w = 4 then .ok (msb_mask 4 x % 2 ^ width)
    else if is_avx ∧ w = 8 then .ok (msb_mask 8 x % 2 ^ width)
    else .error .static

/-- The loop of the combined branch of `__any_of`, with `steps` members left from index
`i`: true as soon as `any` holds for a member. -/
def combine_any (any : MaskData → Except Err Bool) (ms : List MaskData) :
    Nat → Nat → Except Err Bool
  | 0, _ => .ok false
  | steps + 1, i => do
    if ← any (ms.getD i (.scalar false)) then .ok true
    else combine_any any ms steps (i + 1)

/-- `__any_of<_Tp, _Abi>(k)`. -/
def any_of (c : RCfg) (T : MaskTy) : Abi → MaskData → Except Err Bool
  | .scalar, .scalar b => .ok b
  | .fixed_size _, .bitset x => .ok (x ≠ 0)
  | .combine n a, .array ms => combine_any (fun m => any_of c T a m) ms n 0
  | .sse bytes, .vec k =>
    let N := bytes / T.size
    if c.sse4_1 then do
      let t ← testz c T k (implicit_mask T bytes 16)
      .ok (t = 0)
    else if ¬ T.integral ∧ T.size = 4 then .ok (msb_mask 4 k % 2 ^ N ≠ 0)
    else if ¬ T.integral ∧ T.size = 8 then .ok (msb_mask 8 k % 2 ^ N ≠ 0)
    else .ok (msb_mask 1 k % 2 ^ (N * T.size) ≠ 0)
  | .avx bytes, .vec k =>
    if c.sse4_1 then do
      let t ← testz c T k (implicit_mask T bytes 32)
      .ok (t = 0)
    else .error .static
  | .avx512 bytes, .kmask k =>
    .ok (k &&& (if bytes = 64 then 2 ^ (64 / T.size) - 1 else 2 ^ (bytes / T.size) - 1) ≠ 0)
  | .neon bytes, .vec k =>
    .ok ((List.range (bytes / T.size)).any fun i => lane T.size k i ≠ 0)
  | _, _ => .error .static
/-! ## Mask reductions: `__popcount`, `__find_first_set`, `__find_last_set` -/

/-- The `_SseAbi` / `_AvxAbi` branch of `__popcount`, for `N = simd_size_v<_Tp, _Abi>` and
the masked register `kk`. -/
def popcount_x86 (c : RCfg) (T : MaskTy) (N : Nat) (kk : Reg) : Except Err Int :=
  if c.popcnt then do
    let bits ← movemask c T kk
    let count := popcnt 32 bits
    .ok (if T.integral then ((count / T.size : Nat) : Int) else (count : Int))
  else if N = 2 then
    let mask := msb_mask 8 kk
    .ok ((mask : Int) - ((mask / 2 : Nat) : Int))
  else if N = 4 ∧ kk.length = 16 ∧ c.sse2 then
    let x := add_epi 4 kk (shuffle_epi32 kk (MM_SHUFFLE 0 1 2 3))
    let x := add_epi 4 x (_mm_shufflelo_epi16 x (MM_SHUFFLE 1 0 3 2))
    .ok (- sint 4 (lane 4 x 0))
  else if N = 4 ∧ kk.length = 16 then .ok (popcnt 32 (msb_mask 4 kk))
  else if N = 8 ∧ kk.length = 16 then
    let x := add_epi 2 kk (shuffle_epi32 kk (MM_SHUFFLE 0 1 2 3))
    let x := add_epi 2 x (_mm_shufflelo_epi16 x (MM_SHUFFLE 0 1 2 3))
    let x := add_epi 2 x (_mm_shufflelo_epi16 x (MM_SHUFFLE 2 3 0 1))
    .ok (- sint 2 (lane 2 x 0))
  else if N = 16 ∧ kk.length = 16 then
    let x := add_epi 1 kk (shuffle_epi32 kk (MM_SHUFFLE 0 1 2 3))
    let x := add_epi 1 x (_mm_shufflelo_epi16 x (MM_SHUFFLE 0 1 2 3))
    let x := add_epi 1 x (_mm_shufflelo_epi16 x (MM_SHUFFLE 2 3 0 1))
    let y := neg_epi 1 x
    if c.sse4_1 then .ok ((lane 1 y 0 + lane 1 y 1 : Nat) : Int)
    else
      let z := lane 2 y 0
      .ok ((z % 256 + z / 256 : Nat) : Int)
  else if N = 4 ∧ kk.length = 32 then
    if T.integral then
      let x := neg_epi T.size (add_epi T.size (extract 0 2 kk) (extract 1 2 kk))
      .ok (sint T.size (lane T.size x 0) + sint T.size (lane T.size x 1))
    else if is_zero kk then .ok 0
    else .error .undefined
  else .error .static

/-- The NEON branch of `__popcount`. -/
def popcount_neon (T : MaskTy) (k : Reg) : Except Err Int :=
  let z := zeros 8
  if T.size = 1 then
    let tmp := add_epi 1 (lo64 k) (hi64z k)
    .ok (- sint 1 (lane 1 (vpadd 1 (vpadd 1 (vpadd 1 tmp z) z) z) 0))
  else if T.size = 2 then
    let tmp := add_epi 2 (lo64 k) (hi64z k)
    .ok (- sint 2 (lane 2 (vpadd 2 (vpadd 2 tmp z) z) 0))
  else if T.size = 4 then
    let tmp := add_epi 4 (lo64 k) (hi64z k)
    .ok (- sint 4 (lane 4 (vpadd 4 tmp z) 0))
  else if T.size = 8 then
    if k.length = 16 then .ok (- sint 8 ((lane 8 k 0 + lane 8 k 1) % 2 ^ 64))
    else .error .static
  else .error .static

/-- `__popcount<_Tp, _Abi>(k)`. On the 256-bit branch without POPCNT the source passes a
bare vector to the 128-bit overload, which reads `__k._M_data`: that does not compile, but
for four lanes, where the lanes are added directly (for `double` lanes in floating point). -/
def popcount (c : RCfg) (T : MaskTy) : Abi → MaskData → Except Err Int
  | .scalar, .scalar b => .ok (if b then 1 else 0)
  | .fixed_size _, .bitset x => .ok (popcnt 64 x)
  | .combine n a, .array ms => do
    let cs ← (List.range n).mapM fun i => popcount c T a (ms.getD i (.scalar false))
    .ok cs.sum
  | .sse bytes, .vec k => popcount_x86 c T (bytes / T.size) (masked T bytes 16 k)
  | .avx bytes, .vec k => popcount_x86 c T (bytes / T.size) (masked T bytes 32 k)
  | .avx512 bytes, .kmask k =>
    let N := bytes / T.size
    let nbits := max 8 (64 / T.size)
    let kk := if bytes < 64 then k &&& (2 ^ (bytes * nbits / 64) - 1) else k
    if N ≤ 32 then .ok (popcnt 32 kk)
    else if N ≤ 64 then .ok (popcnt 64 kk)
    else .error .static
  | .neon _, .vec k => popcount_neon T k
  | _, _ => .error .static

/-- `__find_first_set<_Tp, _Abi>(k)`. In the combined branch the source writes the inner
calls `__find_first_set(__k[__i])` without template arguments, none of which can be deduced:
the branch does not compile. `_tzcnt_u32` is an intrinsic of BMI1. -/
def find_first_set (c : RCfg) (T : MaskTy) : Abi → MaskData → Except Err Int
  | .scalar, .scalar _ => .ok 0
  | .fixed_size _, .bitset x => .ok (firstbit c 8 x)
  | .combine _ _, .array _ => .error .static
  | .avx512 bytes, .kmask k =>
    if bytes / T.size ≤ 32 then (if c.bmi then .ok (ctz 32 k) else .error .static)
    else .ok (firstbit c 8 k)
  | .sse _, .vec k => do
    let b ← vector_to_bitset c false T k
    .ok (firstbit c 8 b)
  | .avx _, .vec k => do
    let b ← vector_to_bitset c false T k
    .ok (firstbit c 8 b)
  | .neon _, .vec k => do
    let b ← vector_to_bitset c true T k
    .ok (firstbit c 8 b)
  | _, _ => .error .static

/-- `__find_last_set<_Tp, _Abi>(k)`. The combined branch, written as the loop of
`__find_first_set` from the first member upwards, calls `__find_last_set(__k[__i])` without
template arguments, none of which can be deduced: it does not compile. `_lzcnt_u32` is an
intrinsic of LZCNT. -/
def find_last_set (c : RCfg) (T : MaskTy) : Abi → MaskData → Except Err Int
  | .scalar, .scalar _ => .ok 0
  | .fixed_size _, .bitset x => .ok (lastbit c 8 x)
  | .combine _ _, .array _ => .error .static
  | .avx512 bytes, .kmask k =>
    if bytes / T.size ≤ 32 then
      (if c.lzcnt then .ok (31 - (clz 32 k : Int)) else .error .static)
    else .ok (lastbit c 8 k)
  | .sse _, .vec k => do
    let b ← vector_to_bitset c false T k
    .ok (lastbit c 8 b)
  | .avx _, .vec k => do
    let b ← vector_to_bitset c false T k
    .ok (lastbit c 8 b)
  | .neon _, .vec k => do
    let b ← vector_to_bitset c true T k
    .ok (lastbit c 8 b)
  | _, _ => .error .static
/-! ## Mask reductions: `__testc`, `__testnzc`, `__all_of`, `__none_of`, `__some_of` -/

/-- `__andnot(a, b)`: the bits of `b` that are not set in `a`. -/
def vandnot (a b : Reg) : Reg :=
  mk a.length fun j => byteOf ((255 - (rd a j).val) &&& (rd b j).val)

/-- `__not(a)` and `~__vector_bitcast<_UInt>(a)`: every bit of the register flipped. -/
def vnot (a : Reg) : Reg := mk a.length fun j => byteOf (255 - (rd a j).val)

/-- `__testc(a, b)` at run time on x86: the carry flag of PTEST and of VTESTPS/VTESTPD, set
when `~a & b` has no bit set (for the floating-point forms: no sign bit set). The branch
without SSE4.1 compiles with `-flax-vector-conversions` only, as that of `__testz`. -/
def testc (c : RCfg) (T : MaskTy) (a b : Reg) : Except Err Nat :=
  let nb := vandnot a b
  if c.avx then
    if a.length = 32 ∧ ¬ T.integral ∧ T.size = 4 then .ok (if msb_mask 4 nb = 0 then 1 else 0)
    else if a.length = 32 ∧ ¬ T.integral ∧ T.size = 8 then .ok (if msb_mask 8 nb = 0 then 1 else 0)
    else if a.length = 32 then .ok (if is_zero nb then 1 else 0)
    else if ¬ T.integral ∧ T.size = 4 ∧ a.length = 16 then .ok (if msb_mask 4 nb = 0 then 1 else 0)
    else if ¬ T.integral ∧ T.size = 8 ∧ a.length = 16 then .ok (if msb_mask 8 nb = 0 then 1 else 0)
    else .ok (if is_zero nb then 1 else 0)
  else if c.sse4_1 then .ok (if is_zero nb then 1 else 0)
  else if c.lax_vector_conversions then do
    let m ← movemask c ⟨T.size, true⟩ (cmpeq_zero T nb)
    .ok (if m ≠ 0 then 1 else 0)
  else .error .static

/-- `__testnzc(a, b)` at run time on x86: set when neither the zero flag nor the carry flag
of the test is set. The branch without SSE4.1 compiles with `-flax-vector-conversions`
only, as that of `__testz`. -/
def testnzc (c : RCfg) (T : MaskTy) (a b : Reg) : Except Err Nat :=
  let ab := vand a b
  let nb := vandnot a b
  if c.avx then
    if a.length = 32 ∧ ¬ T.integral ∧ T.size = 4 then
      .ok (if msb_mask 4 ab ≠ 0 ∧ msb_mask 4 nb ≠ 0 then 1 else 0)
    else if a.length = 32 ∧ ¬ T.integral ∧ T.size = 8 then
      .ok (if msb_mask 8 ab ≠ 0 ∧ msb_mask 8 nb ≠ 0 then 1 else 0)
    else if a.length = 32 then .ok (if ¬ is_zero ab ∧ ¬ is_zero nb then 1 else 0)
    else if ¬ T.integral ∧ T.size = 4 ∧ a.length = 16 then
      .ok (if msb_mask 4 ab ≠ 0 ∧ msb_mask 4 nb ≠ 0 then 1 else 0)
    else if ¬ T.integral ∧ T.size = 8 ∧ a.length = 16 then
      .ok (if msb_mask 8 ab ≠ 0 ∧ msb_mask 8 nb ≠ 0 then 1 else 0)
    else .ok (if ¬ is_zero ab ∧ ¬ is_zero nb then 1 else 0)
  else if c.sse4_1 then .ok (if ¬ is_zero ab ∧ ¬ is_zero nb then 1 else 0)
  else if c.lax_vector_conversions then do
    let m1 ← movemask c ⟨T.size, true⟩ (cmpeq_zero T ab)
    let m2 ← movemask c ⟨T.size, true⟩ (cmpeq_zero T nb)
    .ok (if m1 = 0 ∧ m2 = 0 then 1 else 0)
  else .error .static

/-- `_kortestc_mask8_u8` (`w = 8`) and its 16-, 32- and 64-bit forms: 1 when the OR of the two
masks has all `w` bits set. -/
def kortestc (w a b : Nat) : Nat := if (a ||| b) % 2 ^ w = 2 ^ w - 1 then 1 else 0

/-- `_Avx512Abi<bytes>::__implicit_mask<_Tp>()`, a value of the mask type of
`64 / sizeof(_Tp)` bits. -/
def implicit_kmask (T : MaskTy) (bytes : Nat) : Nat :=
  if bytes = 64 then 2 ^ (64 / T.size) - 1 else (2 ^ (bytes / T.size) - 1) % 2 ^ (64 / T.size)

/-- The loop of the combined branch of `__all_of`, with `steps` members left from index
`i`: false as soon as `all` fails for a member. -/
def combine_all (all : MaskData → Except Err Bool) (ms : List MaskData) :
    Nat → Nat → Except Err Bool
  | 0, _ => .ok true
  | steps + 1, i => do
    if ← all (ms.getD i (.scalar false)) then combine_all all ms steps (i + 1)
    else .ok false

/-- `__all_of<_Tp, _Abi>(k)`. The AVX-512 branch has no `return` for a 32- or 64-bit mask
without AVX512BW. The sum of the NEON branch is taken in the integers. -/
def all_of (c : RCfg) (T : MaskTy) : Abi → MaskData → Except Err Bool
  | .scalar, .scalar b => .ok b
  | .fixed_size n, .bitset x => .ok (x = 2 ^ n - 1)
  | .combine n a, .array ms => combine_all (fun m => all_of c T a m) ms n 0
  | .sse bytes, .vec k =>
    let N := bytes / T.size
    if c.sse4_1 then do
      let t ← testc c T k (implicit_mask T bytes 16)
      .ok (t ≠ 0)
    else if ¬ T.integral ∧ T.size = 4 then .ok (msb_mask 4 k % 2 ^ N = 2 ^ N - 1)
    else if ¬ T.integral ∧ T.size = 8 then .ok (msb_mask 8 k % 2 ^ N = 2 ^ N - 1)
    else .ok (msb_mask 1 k % 2 ^ (N * T.size) = 2 ^ (N * T.size) - 1)
  | .avx bytes, .vec k =>
    if c.sse4_1 then do
      let t ← testc c T k (implicit_mask T bytes 32)
      .ok (t ≠ 0)
    else .error .static
  | .avx512 bytes, .kmask k =>
    let w := 64 / T.size
    let Mask := implicit_kmask T bytes
    if w = 8 then
      if c.avx512dq then .ok (kortestc 8 k (if Mask = 2 ^ 8 - 1 then k else 2 ^ 8 - 1 - Mask) ≠ 0)
      else .ok (k = Mask)
    else if w = 16 then
      .ok (kortestc 16 k (if Mask = 2 ^ 16 - 1 then k else 2 ^ 16 - 1 - Mask) ≠ 0)
    else if w = 32 ∨ w = 64 then
      if c.avx512bw then
        if c.workaround_pr85538 then .ok (k = Mask)
        else .ok (kortestc w k (if Mask = 2 ^ w - 1 then k else 2 ^ w - 1 - Mask) ≠ 0)
      else .error .undefined
    else .error .undefined
  | .neon _, .vec k =>
    if k.length = 16 then .ok (sint 8 (lane 8 k 0) + sint 8 (lane 8 k 1) = -2)
    else if k.length = 8 then .ok (sint 8 (lane 8 k 0) = -1)
    else .error .static
  | _, _ => .error .static

/-- The loop of the combined branch of `__none_of`: false as soon as `any` holds for a
member. -/
def combine_none (any : MaskData → Except Err Bool) (ms : List MaskData) :
    Nat → Nat → Except Err Bool
  | 0, _ => .ok true
  | steps + 1, i => do
    if ← any (ms.getD i (.scalar false)) then .ok false
    else combine_none any ms steps (i + 1)

/-- `__none_of<_Tp, _Abi>(k)`. -/
def none_of (c : RCfg) (T : MaskTy) : Abi → MaskData → Except Err Bool
  | .scalar, .scalar b => .ok (!b)
  | .fixed_size _, .bitset x => .ok (x = 0)
  | .combine n a, .array ms => combine_none (fun m => any_of c T a m) ms n 0
  | .sse bytes, .vec k =>
    let N := bytes / T.size
    if c.sse4_1 then do
      let t ← testz c T k (implicit_mask T bytes 16)
      .ok (t ≠ 0)
    else if ¬ T.integral ∧ (T.size = 4 ∨ T.size = 8) then do
      let m ← movemask c T k
      .ok (m % 2 ^ N = 0)
    else do
      let m ← movemask c T k
      .ok (m % 2 ^ (N * T.size) = 0)
  | .avx bytes, .vec k =>
    let N := bytes / T.size
    if c.sse4_1 then do
      let t ← testz c T k (implicit_mask T bytes 32)
      .ok (t ≠ 0)
    else if ¬ T.integral ∧ (T.size = 4 ∨ T.size = 8) then do
      let m ← movemask c T k
      .ok (m % 2 ^ N = 0)
    else do
      let m ← movemask c T k
      .ok (m % 2 ^ (N * T.size) = 0)
  | .avx512 bytes, .kmask k => .ok (k &&& implicit_kmask T bytes = 0)
  | .neon bytes, .vec k =>
    .ok ((List.range (bytes / T.size)).all fun i => lane T.size k i = 0)
  | _, _ => .error .static

/-- The SSE branch of `__some_of` without SSE4.1: `tmp > 0 && tmp < allbits` for
`allbits = 2 ^ n - 1` and `tmp = bits & allbits`. -/
def some_bits (bits n : Nat) : Bool := 0 < bits % 2 ^ n ∧ bits % 2 ^ n < 2 ^ n - 1

/-- `__some_of<_Tp, _Abi>(k)`. The operands of `&&` are evaluated left to right, the second
one only when the first is true. The function starts with `simd_size_v<_Tp, _Abi>`, which
is ill-formed for a combined ABI (`_CombineAbi::_IsValidAbiTag` names a type where a value
is needed), so that its combined branch is never reached. -/
def some_of (c : RCfg) (T : MaskTy) : Abi → MaskData → Except Err Bool
  | .scalar, .scalar _ => .ok false
  | .fixed_size n, .bitset x =>
    if n = 1 then .ok false else .ok (x ≠ 0 ∧ ¬ x = 2 ^ n - 1)
  | .combine _ _, .array _ => .error .static
  | .sse bytes, .vec k =>
    let N := bytes / T.size
    if N = 1 then .ok false
    else if c.sse4_1 then do
      let t ← testnzc c T k (implicit_mask T bytes 16)
      .ok (t ≠ 0)
    else if ¬ T.integral ∧ T.size = 4 then .ok (some_bits (msb_mask 4 k) N)
    else if ¬ T.integral ∧ T.size = 8 then .ok (some_bits (msb_mask 8 k) N)
    else .ok (some_bits (msb_mask 1 k) (N * T.size))
  | .avx bytes, .vec k =>
    if bytes / T.size = 1 then .ok false
    else if c.sse4_1 then do
      let t ← testnzc c T k (implicit_mask T bytes 32)
      .ok (t ≠ 0)
    else .error .static
  | .avx512 bytes, .kmask k =>
    if bytes / T.size = 1 then .ok false
    else do
      if ← any_of c T (.avx512 bytes) (.kmask k) then
        let y ← all_of c T (.avx512 bytes) (.kmask k)
        .ok (!y)
      else .ok false
  | .neon bytes, .vec k =>
    let N := bytes / T.size
    if N = 1 then .ok false
    else
      let n_false := ((List.range N).filter fun i => lane T.size k i = 0).length
      .ok (0 < n_false ∧ n_false < N)
  | _, _ => .error .static

/-- The reductions of a plain `bool` (`_ExactBool`): `all_of`, `any_of`, `none_of` and
`some_of`. -/
def all_of_bool (x : Bool) : Bool := x

/-- `any_of(_ExactBool)`. -/
def any_of_bool (x : Bool) : Bool := x

/-- `none_of(_ExactBool)`. -/
def none_of_bool (x : Bool) : Bool := !x

/-- `some_of(_ExactBool)`. -/
def some_of_bool (_ : Bool) : Bool := false

/-- `simd_mask::operator!`. The last branch of the source complements the whole register of
a vector mask, the padding lanes of a partial ABI included; it does not compile for the array
of a combined ABI nor for a bitmask that none of the `_knot_mask` branches takes. -/
def mask_not (c : RCfg) (T : MaskTy) : Abi → MaskData → Except Err MaskData
  | .scalar, .scalar b => .ok (.scalar (!b))
  | .fixed_size n, .bitset x => .ok (.bitset (2 ^ n - 1 - x % 2 ^ n))
  | .avx512 bytes, .kmask k =>
    let N := bytes / T.size
    let w := 64 / T.size
    if c.avx512dq ∧ N ≤ 8 then .ok (.kmask ((2 ^ 8 - 1 - k % 2 ^ 8) % 2 ^ w))
    else if N ≤ 16 then .ok (.kmask ((2 ^ 16 - 1 - k % 2 ^ 16) % 2 ^ w))
    else if c.avx512bw ∧ N ≤ 32 then .ok (.kmask ((2 ^ 32 - 1 - k % 2 ^ 32) % 2 ^ w))
    else if c.avx512bw ∧ N ≤ 64 then .ok (.kmask ((2 ^ 64 - 1 - k % 2 ^ 64) % 2 ^ w))
    else .error .static
  | .sse _, .vec k => .ok (.vec (vnot k))
  | .avx _, .vec k => .ok (.vec (vnot k))
  | .neon _, .vec k => .ok (.vec (vnot k))
  | _, _ => .error .static
/-! ## Conversions between 64-bit lanes and floating point

A `float` or `double` lane is modelled by the number it holds. Every intermediate value of
the branches below is an integer, so rounding is needed on integers only. -/

/-- The exponent of the unit in the last place of a binary floating-point format with a
`p`-bit significand at magnitude `n`: the least `k` with `n < 2 ^ (p + k)`. -/
def ulp_exp (p n : Nat) : Nat := ((List.range 128).find? fun k => n < 2 ^ (p + k)).getD 0

/-- Round `n` to a multiple of `u`, to nearest, ties to the even multiple. -/
def round_even (n u : Nat) : Nat :=
  let q := n / u
  let r := n % u
  if 2 * r < u then q * u
  else if u < 2 * r then (q + 1) * u
  else if q % 2 = 0 then q * u else (q + 1) * u

/-- The value of the integer `z` after rounding to a `p`-bit significand in the default
rounding mode (to nearest, ties to even): `p = 24` for `float`, `p = 53` for `double`. -/
def rnd (p : Nat) (z : Int) : Int :=
  z.sign * (round_even z.natAbs (2 ^ ulp_exp p z.natAbs) : Nat)

/-- A vector of `float` or `double` lanes. -/
abbrev FVec := List Int

/-- `_mm*_cvtepu32_ps` (VCVTUDQ2PS): every unsigned 32-bit lane converted to `float`. -/
def cvtepu32_ps (a : Reg) : FVec := (List.range (a.length / 4)).map fun i => rnd 24 (lane 4 a i)

/-- `_mm*_cvtepi32_ps` (CVTDQ2PS): every signed 32-bit lane converted to `float`. -/
def cvtepi32_ps (a : Reg) : FVec :=
  (List.range (a.length / 4)).map fun i => rnd 24 (sint 4 (lane 4 a i))

/-- The GNU vector operator `v * k` on `float` lanes, `k` a scalar that converts exactly. -/
def fmul_scalar (v : FVec) (k : Int) : FVec := v.map fun x => rnd 24 (x * k)

/-- The GNU vector operator `a + b` on `float` lanes. -/
def fadd (a b : FVec) : FVec := List.zipWith (fun x y => rnd 24 (x + y)) a b

/-- `static_cast<float>(v[i])` for every lane of a vector of 64-bit integers. -/
def static_cast_f32 (T : ElemTy) (v : Reg) : FVec :=
  (List.range (v.length / 8)).map fun i => rnd 24 (T.toInt (lane 8 v i))

/-- The `__u64_to_f32` block of the one-argument overload: its `__z_to_y` branch without
AVX512DQ, the only one that goes through 32-bit halves; `none` stands for every other
branch (a direct instruction or no return). `__auto_bitcast` widens the 256-bit halves to
512 bits, and `__lo256` keeps the eight defined `float` lanes. -/
def conv1_u64_to_f32 (c : Cfg) (avx512dq : Bool) (tb : Nat) (v : Reg) :
    Option (Except Err FVec) :=
  let sv := v.length
  if z_to_y sv tb ∧ ¬ avx512dq then
    some (do
      let hi ← intrin_bitcast c 64 (cvt_down 8 4 (srai 8 v 32))
      let lo ← intrin_bitcast c 64 (cvt_down 8 4 v)
      .ok (fadd (fmul_scalar ((cvtepu32_ps hi).take 8) 4294967296) ((cvtepu32_ps lo).take 8)))
  else none

/-- The `__i64_to_f32` block of the two-argument overload: its `__z_to_z` branches without
AVX512DQ (`__v0 >> 32` on signed lanes is an arithmetic shift); `none` stands for the other
branches. -/
def conv2_i64_to_f32 (avx512dq : Bool) (T : ElemTy) (tb : Nat) (v0 v1 : Reg) :
    Option FVec :=
  let sv := v0.length
  if z_to_z sv tb ∧ ¬ avx512dq ∧ T.signed then
    let hi32 := cvtepi32_ps (concat (cvt_down 8 4 (srai 8 v0 32)) (cvt_down 8 4 (srai 8 v1 32)))
    let lo32 := concat (cvt_down 8 4 v0) (cvt_down 8 4 v1)
    let hi16 := cvtepu32_ps (vand (set1_epi32 64 0xffff0000) lo32)
    let lo16 := cvtepi32_ps (vand (set1_epi32 64 0x0000ffff) lo32)
    some (fadd (fadd (fmul_scalar hi32 4294967296) hi16) lo16)
  else if z_to_z sv tb ∧ ¬ avx512dq ∧ ¬ T.signed then
    some (fadd
      (fmul_scalar
        (cvtepu32_ps (concat (cvt_down 8 4 (srai 8 v0 32)) (cvt_down 8 4 (srai 8 v1 32))))
        4294967296)
      (cvtepu32_ps (concat (cvt_down 8 4 v0) (cvt_down 8 4 v1))))
  else none

/-- The arithmetic types of C++17: `__is_vectorizable` is asked about these. -/
inductive VTy where
  | bool | char | schar | uchar | wchar | char16 | char32
  | short | ushort | int | uint | long | ulong | llong | ullong
  | float | double | ldouble
  deriving DecidableEq, Repr

/-- The sizes that the target platform decides: `sizeof(long)`, `sizeof(wchar_t)` and
`sizeof(long double)`. -/
structure Target where
  long_size : Nat
  wchar_size : Nat
  ldouble_size : Nat

/-- The sizes found on the platforms the library builds for. -/
def Target.ok (tg : Target) : Prop :=
  (tg.long_size = 4 ∨ tg.long_size = 8) ∧ (tg.wchar_size = 2 ∨ tg.wchar_size = 4)
    ∧ (tg.ldouble_size = 8 ∨ tg.ldouble_size = 12 ∨ tg.ldouble_size = 16)

instance (tg : Target) : Decidable tg.ok := by unfold Target.ok; infer_instance

/-- `sizeof(_Tp)`. -/
def sizeof (tg : Target) : VTy → Nat
  | .bool | .char | .schar | .uchar => 1
  | .char16 | .short | .ushort => 2
  | .char32 | .int | .uint | .float => 4
  | .llong | .ullong | .double => 8
  | .long | .ulong => tg.long_size
  | .wchar => tg.wchar_size
  | .ldouble => tg.ldouble_size

/-- `__is_vectorizable<_Tp>`: arithmetic and not `bool`. -/
def is_vectorizable : VTy → Bool
  | .bool => false
  | _ => true

/-- `std::is_floating_point<_Tp>`. -/
def is_floating_point : VTy → Bool
  | .float | .double | .ldouble => true
  | _ => false

/-- The element type of a mask of `_Tp`, as the mask reductions see it. -/
def mask_ty (tg : Target) (T : VTy) : MaskTy :=
  { size := sizeof tg T, integral := !is_floating_point T }

/-- The ABI macros of `simd_detail.h` (`_GLIBCXX_SIMD_HAVE_SSE_ABI` ...) and the target
macros that `compatible` and `native` test. The header that defines them is not part of the
sources, so every combination is admitted. -/
structure AbiCfg where
  have_neon_abi : Bool
  have_full_neon_abi : Bool
  have_sse_abi : Bool
  have_full_sse_abi : Bool
  have_avx_abi : Bool
  have_full_avx_abi : Bool
  have_avx512_abi : Bool
  have_full_avx512_abi : Bool
  /-- `defined _GLIBCXX_SIMD_HAVE_FULL_NEON_ABI`, which `native` tests in place of the value
  of the macro. -/
  defined_full_neon_abi : Bool
  /-- `defined __x86_64__`. -/
  x86_64 : Bool
  /-- `defined _GLIBCXX_SIMD_IS_AARCH64`. -/
  aarch64 : Bool

/-- `__neon_is_vectorizable<_Tp>`. -/
def neon_is_vectorizable (f : AbiCfg) (T : VTy) : Bool :=
  if f.have_neon_abi then
    if T = .ldouble then false
    else if ¬ f.have_full_neon_abi ∧ T = .double then false
    else is_vectorizable T
  else false

/-- `__sse_is_vectorizable<_Tp>`. -/
def sse_is_vectorizable (f : AbiCfg) (T : VTy) : Bool :=
  if f.have_full_sse_abi then
    if T = .ldouble then false else is_vectorizable T
  else if f.have_sse_abi then T = .float
  else false

/-- `__avx_is_vectorizable<_Tp>`. -/
def avx_is_vectorizable (f : AbiCfg) (T : VTy) : Bool :=
  if T = .ldouble then false
  else if f.have_full_avx_abi then is_vectorizable T
  else if f.have_avx_abi then is_floating_point T
  else false

/-- `__avx512_is_vectorizable<_Tp>`. -/
def avx512_is_vectorizable (tg : Target) (f : AbiCfg) (T : VTy) : Bool :=
  if f.have_avx512_abi then
    if T = .ldouble then false
    else if ¬ f.have_full_avx512_abi then
      if T = .char ∨ T = .uchar ∨ T = .schar ∨ T = .short ∨ T = .ushort ∨ T = .char16 then false
      else if T = .wchar then 4 ≤ tg.wchar_size
      else is_vectorizable T
    else is_vectorizable T
  else false

/-- `_Abi::_IsValidAbiTag`. -/
def valid_abi_tag : Abi → Bool
  | .scalar => true
  | .fixed_size n => 0 < n
  | .sse b => 0 < b ∧ b ≤ 16
  | .avx b => b = 32
  | .avx512 b => b = 64
  | .neon b => b = 8 ∨ b = 16
  | .combine n a => (1 < n ∧ n ≤ 4) ∧ valid_abi_tag a

/-- `_Abi::_IsValid<_Tp>` for the scalar tag and the tags of the vector ISA classes. -/
def native_valid (tg : Target) (f : AbiCfg) (T : VTy) : Abi → Bool
  | .scalar => is_vectorizable T
  | .sse b =>
    valid_abi_tag (.sse b) ∧ sse_is_vectorizable f T ∧ (1 < b / sizeof tg T ∧ b % sizeof tg T = 0)
  | .avx b => valid_abi_tag (.avx b) ∧ avx_is_vectorizable f T ∧ b % sizeof tg T = 0
  | .avx512 b =>
    valid_abi_tag (.avx512 b) ∧ avx512_is_vectorizable tg f T ∧ b % sizeof tg T = 0
  | .neon b =>
    valid_abi_tag (.neon b) ∧ neon_is_vectorizable f T ∧ (1 < b / sizeof tg T ∧ b % sizeof tg T = 0)
  | _ => false

/-- Modelled from the spec: the alias `simd_abi::__sse` of `simd_detail.h`, which is not part
of the sources: the tag of the full 128-bit register. -/
def abi_sse : Abi := .sse 16

/-- Modelled from the spec: the alias `simd_abi::__avx` of `simd_detail.h`, which is not part
of the sources: the tag of the full 256-bit register. -/
def abi_avx : Abi := .avx 32

/-- Modelled from the spec: the alias `simd_abi::__avx512` of `simd_detail.h`, which is not
part of the sources: the tag of the full 512-bit register. -/
def abi_avx512 : Abi := .avx512 64

/-- Modelled from the spec: the alias `simd_abi::__neon` of `simd_detail.h`, which is not
part of the sources: the tag of the full 128-bit NEON register. -/
def abi_neon : Abi := .neon 16

/-- `simd_abi::max_fixed_size<_Tp>`. -/
def max_fixed_size : Nat := 32

/-- `_FixedAbi<n>::_IsValidSizeFor<_Tp>`. -/
def fixed_valid_size (tg : Target) (f : AbiCfg) (n : Nat) : Bool :=
  n ≤ max_fixed_size
    ∨ (native_valid tg f .char abi_neon ∧ n = simd_size (mask_ty tg .char) abi_neon)
    ∨ (native_valid tg f .char abi_sse ∧ n = simd_size (mask_ty tg .char) abi_sse)
    ∨ (native_valid tg f .char abi_avx ∧ n = simd_size (mask_ty tg .char) abi_avx)
    ∨ (native_valid tg f .char abi_avx512 ∧ n = simd_size (mask_ty tg .char) abi_avx512)

/-- `_Abi::_IsValid<_Tp>`. -/
def is_valid (tg : Target) (f : AbiCfg) (T : VTy) : Abi → Bool
  | .fixed_size n => valid_abi_tag (.fixed_size n) ∧ is_vectorizable T ∧ fixed_valid_size tg f n
  | .combine n a => valid_abi_tag (.combine n a) ∧ is_valid tg f T a
  | a => native_valid tg f T a

/-- The class templates that `_AbiList` is instantiated with: `_Avx512Abi`, `_AvxAbi`,
`_SseAbi`, `_NeonAbi` and `__scalar_abi_wrapper`. -/
inductive AbiClass where
  | avx512 | avx | sse | neon | scalar_wrapper
  deriving DecidableEq, Repr

/-- `__decay_abi<_A0<_Bytes>>::type`. -/
def AbiClass.tag : AbiClass → Nat → Abi
  | .avx512, b => .avx512 b
  | .avx, b => .avx b
  | .sse, b => .sse b
  | .neon, b => .neon b
  | .scalar_wrapper, _ => .scalar

/-- `_A0<_Bytes>::__is_valid_v<_Tp>`. -/
def class_valid (tg : Target) (f : AbiCfg) (T : VTy) : AbiClass → Nat → Bool
  | .scalar_wrapper, b => is_vectorizable T ∧ sizeof tg T = b
  | cls, b => native_valid tg f T (cls.tag b)

/-- `_AbiList<...>::_S_has_valid_abi<_Tp, _N>`. The byte width `sizeof(_Tp) * _N` is a
constant expression; it is taken in the natural numbers. -/
def has_valid_abi (tg : Target) (f : AbiCfg) (T : VTy) (N : Nat) : List AbiClass → Bool
  | [] => false
  | a0 :: rest => class_valid tg f T a0 (sizeof tg T * N) || has_valid_abi tg f T N rest

/-- `_AbiList<...>::_FirstValidAbi<_Tp, _N>`; `none` stands for `void`. -/
def FirstValidAbi (tg : Target) (f : AbiCfg) (T : VTy) (N : Nat) : List AbiClass → Option Abi
  | [] => none
  | a0 :: rest =>
    if class_valid tg f T a0 (sizeof tg T * N) then some (a0.tag (sizeof tg T * N))
    else FirstValidAbi tg f T N rest

/-- `_AllNativeAbis`. -/
def AllNativeAbis : List AbiClass := [.avx512, .avx, .sse, .neon, .scalar_wrapper]

/-- `simd_abi::deduce<_Tp, _N>::type`, through `__deduce_impl` and
`__deduce_fixed_size_fallback`; `none` when the member `type` does not exist. -/
def deduce (tg : Target) (f : AbiCfg) (T : VTy) (N : Nat) : Option Abi :=
  if has_valid_abi tg f T N AllNativeAbis then FirstValidAbi tg f T N AllNativeAbis
  else if is_valid tg f T (.fixed_size N) then some (.fixed_size N)
  else none

/-- `__fallback_abi_for_long_double_t<_Tp, _A0, _A1>`. -/
def fallback_abi_for_long_double (T : VTy) (a0 a1 : Abi) : Abi :=
  if T = .ldouble then a1 else a0

/-- `simd_abi::compatible<_Tp>`. -/
def compatible (f : AbiCfg) (T : VTy) : Abi :=
  if f.x86_64 then fallback_abi_for_long_double T abi_sse .scalar
  else if f.aarch64 then fallback_abi_for_long_double T abi_neon .scalar
  else .scalar

/-- `simd_abi::native<_Tp>`. -/
def native (tg : Target) (f : AbiCfg) (T : VTy) : Abi :=
  if f.have_full_avx512_abi then fallback_abi_for_long_double T abi_avx512 .scalar
  else if f.have_avx512_abi then
    if 4 ≤ sizeof tg T then fallback_abi_for_long_double T abi_avx512 .scalar else abi_avx
  else if f.have_full_avx_abi then fallback_abi_for_long_double T abi_avx .scalar
  else if f.have_avx_abi then
    if is_floating_point T then fallback_abi_for_long_double T abi_avx .scalar else abi_sse
  else if f.have_full_sse_abi then fallback_abi_for_long_double T abi_sse .scalar
  else if f.have_sse_abi then (if T = .float then abi_sse else .scalar)
  else if f.defined_full_neon_abi then fallback_abi_for_long_double T abi_neon .scalar
  else .scalar

/-- The selection as the specification words it: the first of AVX-512, AVX, SSE, NEON and
scalar whose validity predicate holds for `T` at `sizeof(T) * N` bytes, else `fixed_size<N>`
when that is valid for `T`, else nothing. -/
def deduce_spec (tg : Target) (f : AbiCfg) (T : VTy) (N : Nat) : Option Abi :=
  let b := sizeof tg T * N
  if class_valid tg f T .avx512 b then some (.avx512 b)
  else if class_valid tg f T .avx b then some (.avx b)
  else if class_valid tg f T .sse b then some (.sse b)
  else if class_valid tg f T .neon b then some (.neon b)
  else if class_valid tg f T .scalar_wrapper b then some .scalar
  else if is_valid tg f T (.fixed_size N) then some (.fixed_size N)
  else none

/-- The vector ISA classes. -/
def vector_classes : List AbiClass := [.avx512, .avx, .sse, .neon]
/-! ## Generic vector primitives of `simd.h`: alignment, concatenation, extraction,
zero extension, interleaving -/

/-- `memory_alignment_v<V, U>` for `sizeof(U) = su` and `V::size() = n`. -/
def memory_alignment (su n : Nat) : Nat := next_power_of_2 (su * n)

/-- The workaround macros of `simd_detail.h`, which is not part of the sources, and the ISA
flags that the workaround code tests. -/
structure WCfg where
  /-- `_GLIBCXX_SIMD_WORKAROUND_XXX_1` is defined. -/
  xxx_1 : Bool
  /-- `_GLIBCXX_SIMD_WORKAROUND_XXX_3` is defined. -/
  xxx_3 : Bool
  /-- `_GLIBCXX_SIMD_WORKAROUND_PR85480` is defined. -/
  pr85480 : Bool
  avx : Bool
  avx2 : Bool
  avx512f : Bool
  avx512dq : Bool

/-- `sizeof(_W)` in `__concat`: the element size, or under the workaround the 8 bytes of
`double` (floating-point elements) or of `long long` (vectors of 16 bytes and more). -/
def concat_unit (w : WCfg) (T : MaskTy) (a : Reg) : Nat :=
  if w.xxx_1 then (if ¬ T.integral then 8 else if 16 ≤ a.length then 8 else T.size) else T.size

/-- `__concat(a, b)` as the source has it: a braced list of the elements of `a` and `b` for
an `input_width` of 2, 4, 8, 16 or 32; for any other width no `return` is reached. Under the
workaround the operands are first cast to vectors of `_W`, which does not compile for
fewer than two units. -/
def __concat (w : WCfg) (T : MaskTy) (a b : Reg) : Except Err Reg :=
  let u := concat_unit w T a
  let iw := a.length / u
  if w.xxx_1 ∧ iw < 2 then .error .static
  else if iw = 2 ∨ iw = 4 ∨ iw = 8 ∨ iw = 16 ∨ iw = 32 then
    .ok (ofLanes u (2 * iw) fun i => if i < iw then lane u a i else lane u b (i - iw))
  else .error .undefined

/-- `sizeof(_R)` for the result type `__vector_type_t<value_type, lanes>` of `__extract`: a
single element is the scalar type itself. -/
def vector_bytes (T : MaskTy) (lanes : Nat) : Nat :=
  if lanes = 1 then T.size else next_power_of_2 (lanes * T.size)

/-- `__extract<_Offset, _SplitBy>(x)` as the source has it: a braced list of `return_width`
elements from offset `_Offset * return_width`, for a width of 2, 4, 8, 16 or 32. Under the
workaround the elements are the 8-byte units `double` or `long long`. -/
def __extract (w : WCfg) (T : MaskTy) (off split : Nat) (x : Reg) : Except Err Reg :=
  let width := x.length / T.size
  let u := if w.xxx_1 then 8 else T.size
  let rw := if w.xxx_1 then vector_bytes T (width / split) / 8 else width / split
  if rw = 2 ∨ rw = 4 ∨ rw = 8 ∨ rw = 16 ∨ rw = 32 then
    .ok (ofLanes u rw fun i => lane u x (off * rw + i))
  else .error .static

/-- The conversion of `__zero_extend(x)` to twice the lanes. The cases of
`_GLIBCXX_SIMD_WORKAROUND_XXX_3` insert `x` as the low half of a zero register. -/
def zero_extend_2 (w : WCfg) (T : MaskTy) (x : Reg) : Except Err Reg :=
  let fl4 := ¬ T.integral ∧ T.size = 4
  let fl8 := ¬ T.integral ∧ T.size = 8
  if w.xxx_3 ∧ ((w.avx ∧ fl4 ∧ x.length = 16) ∨ (w.avx ∧ fl8 ∧ x.length = 16)
      ∨ (w.avx2 ∧ x.length = 16) ∨ (w.avx512f ∧ fl4 ∧ x.length = 32)
      ∨ (w.avx512f ∧ fl8 ∧ x.length = 32) ∨ (w.avx512f ∧ x.length = 32)) then
    .ok (x ++ zeros x.length)
  else __concat w T x (zeros x.length)

/-- The conversion of `__zero_extend(x)` to four times the lanes. Under
`_GLIBCXX_SIMD_WORKAROUND_PR85480` the 128-bit cases are written with an `asm` statement
whose output operand is the `const` member `__x` under the constraint `"+__x"`; it does not
compile. `_mm512_insertf32x4` needs AVX512F and `_mm512_insertf64x2` needs AVX512DQ, which
the first two conditions do not test. -/
def zero_extend_4 (w : WCfg) (T : MaskTy) (x : Reg) : Except Err Reg :=
  if w.xxx_3 ∧ w.avx ∧ (¬ T.integral ∧ T.size = 4) ∧ x.length = 16 then
    if w.pr85480 then .error .static
    else if w.avx512f then .ok (x ++ zeros (3 * x.length)) else .error .static
  else if w.xxx_3 ∧ w.avx ∧ (¬ T.integral ∧ T.size = 8) ∧ x.length = 16 then
    if w.pr85480 then .error .static
    else if w.avx512dq then .ok (x ++ zeros (3 * x.length)) else .error .static
  else if w.xxx_3 ∧ w.avx512f ∧ x.length = 16 then
    if w.pr85480 then .error .static else .ok (x ++ zeros (3 * x.length))
  else do
    let h ← __concat w T x (zeros x.length)
    __concat w T h (zeros (2 * x.length))

/-- `_ZeroExtendProxy::operator _To()` for a `_To` of `to_n` lanes. -/
def zero_extend_to (w : WCfg) (T : MaskTy) (x : Reg) (to_n : Nat) : Except Err Reg :=
  let N := x.length / T.size
  if to_n = N then .ok x
  else if to_n = 2 * N then zero_extend_2 w T x
  else if to_n = 4 * N then zero_extend_4 w T x
  else if to_n = 8 * N then do
    let q ← zero_extend_4 w T x
    __concat w T q (zeros (4 * x.length))
  else if to_n = 16 * N then do
    let q ← zero_extend_4 w T x
    let e ← __concat w T q (zeros (4 * x.length))
    __concat w T e (zeros (8 * x.length))
  else .error .static

/-- `__interleave_lo(a, b)`. -/
def __interleave_lo (T : MaskTy) (a b : Reg) : Except Err Reg :=
  let W := a.length / T.size
  if W = 2 ∨ W = 4 ∨ W = 8 ∨ W = 16 ∨ W = 32 ∨ W = 64 then
    .ok (ofLanes T.size W fun i => if i % 2 = 0 then lane T.size a (i / 2)
      else lane T.size b (i / 2))
  else .error .static

/-- `__interleave_hi(a, b)`. -/
def __interleave_hi (T : MaskTy) (a b : Reg) : Except Err Reg :=
  let W := a.length / T.size
  if W = 2 ∨ W = 4 ∨ W = 8 ∨ W = 16 ∨ W = 32 ∨ W = 64 then
    .ok (ofLanes T.size W fun i => if i % 2 = 0 then lane T.size a (W / 2 + i / 2)
      else lane T.size b (W / 2 + i / 2))
  else .error .static
/-! ## Loads and stores: flags, `__vector_store`, the where-expressions -/

/-- The load/store flags `element_aligned`, `vector_aligned`, `overaligned<n>`. -/
inductive Flags where
  | element_aligned
  | vector_aligned
  | overaligned (n : Nat)
  deriving DecidableEq, Repr

/-- Byte-addressed memory. -/
abbrev Mem := Nat → Byte

/-- `std::memcpy(p, &src, n)`: the bytes `p .. p + n - 1` become the first `n` bytes of
`src`. -/
def memcpy_to (p n : Nat) (src : Reg) (M : Mem) : Mem :=
  fun a => if p ≤ a ∧ a < p + n then rd src (a - p) else M a

/-- `__builtin_assume_aligned(p, al)`: undefined when `p` is not a multiple of `al`. -/
def assume_aligned (p al : Nat) : Except Err Unit :=
  if p % al = 0 then .ok () else .error .undefined

/-- The alignment that `__vector_store` and `__vector_load` assume of the pointer: none for
`element_aligned`, `alignof` of the vector type for `vector_aligned`, otherwise the
`_S_alignment` of the flag. -/
def assume_flag (f : Flags) (al p : Nat) : Except Err Unit :=
  match f with
  | .element_aligned => .ok ()
  | .vector_aligned => assume_aligned p al
  | .overaligned n => assume_aligned p n

/-- `sizeof(_U)` of the unit that `__vector_store` casts the register to under
`_GLIBCXX_SIMD_WORKAROUND_PR90424`: `long long`, `float`, or the element type. -/
def store_unit (T : MaskTy) (bytes : Nat) : Nat :=
  if T.integral ∨ bytes < 4 then 8
  else if T.size = 8 ∨ bytes < 8 then 4
  else T.size

/-- `__vector_store<_M, _NElements>(v, p, flags)`. `pr90424` is
`_GLIBCXX_SIMD_WORKAROUND_PR90424` of `simd_detail.h`, which is not part of the sources.
The register is first viewed as `__vv` (a `__vector_bitcast` under the workaround, which
needs a whole number of units, otherwise the vector type of `_N` elements), the pointer is
assumed aligned as the flag says, and `_Bytes` bytes are copied: directly when `_Bytes` is a
power of two, otherwise through a buffer of `__next_power_of_2(_Bytes)` bytes. -/
def __vector_store (pr90424 : Bool) (T : MaskTy) (m nelem : Nat) (v : Reg) (p : Nat)
    (f : Flags) (M : Mem) : Except Err Mem :=
  let N := if nelem = 0 then v.length / T.size else nelem
  let bytes := if m = 0 then N * T.size else m
  if ¬ bytes ≤ v.length then .error .static
  else if pr90424 ∧ (v.length % store_unit T bytes ≠ 0 ∨ v.length / store_unit T bytes = 0)
    then .error .static
  else if ¬ pr90424 ∧ vector_bytes T N ≠ v.length then .error .static
  else do
    assume_flag f (vector_bytes T N) p
    if bytes &&& ((bytes + (2 ^ 64 - 1)) % 2 ^ 64) ≠ 0 then
      let more := next_power_of_2 bytes
      if v.length < more then .error .undefined
      else
        let tmp := mk more fun j => rd v j
        .ok (memcpy_to p bytes tmp M)
    else .ok (memcpy_to p bytes v M)

/-- Element `i` of an array of `s`-byte elements at address `p` (little-endian). -/
def mem_elem (s : Nat) (M : Mem) (p i : Nat) : Nat :=
  ((List.range s).map fun k => (M (p + i * s + k)).val * 256 ^ k).sum

/-- Modelled from the spec: `_SimdImpl::__masked_load(merge, k, mem, flags)` of the ABI
implementation headers, which are not part of the sources. Only the lanes selected by the
mask are read; unselected destination lanes are left unmodified. The lanes are visited from
lane `i` on. -/
def masked_load {α β : Type} (conv : β → α) (mem : Nat → β) :
    Nat → List α → List Bool → List α
  | _, [], _ => []
  | i, e :: v, k =>
    (if k.headD false then conv (mem i) else e) :: masked_load conv mem (i + 1) v k.tail

/-- Modelled from the spec: `_SimdImpl::__masked_store(v, mem, flags, k)` of the ABI
implementation headers, which are not part of the sources. Only the lanes selected by the
mask are written; unselected source lanes are not written. The lanes are visited from lane
`i` on, `mem[i]` being the element at index `p + i`. -/
def masked_store {α β : Type} (conv : α → β) (p : Nat) :
    Nat → List α → List Bool → (Nat → β) → (Nat → β)
  | _, [], _, M => M
  | i, e :: v, k, M =>
    masked_store conv p (i + 1) v k.tail
      (if k.headD false then Function.update M (p + i) (conv e) else M)

/-- `where_expression<_M, _Tp>::copy_from(mem, flags)`: the value becomes
`__masked_load(value, k, mem, flags)`. -/
def where_copy_from {α β : Type} (conv : β → α) (k : List Bool) (value : List α)
    (mem : Nat → β) (_f : Flags) : List α :=
  masked_load conv mem 0 value k

/-- `where_expression<bool, _Tp>::copy_from(mem, flags)`: `if (__k) _M_value = __mem[0]`. -/
def where_bool_copy_from {α β : Type} (conv : β → α) (k : Bool) (value : α)
    (mem : Nat → β) (_f : Flags) : α :=
  if k then conv (mem 0) else value

/-- `const_where_expression<_M, _Tp>::copy_to(mem, flags)`:
`__masked_store(value, mem, flags, k)`. -/
def where_copy_to {α β : Type} (conv : α → β) (k : List Bool) (value : List α)
    (p : Nat) (_f : Flags) (M : Nat → β) : Nat → β :=
  masked_store conv p 0 value k M

/-- `const_where_expression<bool, _Tp>::copy_to(mem, flags)`:
`if (__k) __mem[0] = _M_value`. -/
def where_bool_copy_to {α β : Type} (conv : α → β) (k : Bool) (value : α)
    (p : Nat) (_f : Flags) (M : Nat → β) : Nat → β :=
  if k then Function.update M p (conv value) else M

/-- The promise a flag makes about the pointer of a load or store of `al`-aligned
vectors. -/
def flag_ok (f : Flags) (al p : Nat) : Prop :=
  match f with
  | .element_aligned => True
  | .vector_aligned => p % al = 0
  | .overaligned n => p % n = 0

instance (f : Flags) (al p : Nat) : Decidable (flag_ok f al p) := by
  unfold flag_ok
  cases f <;> infer_instance
/-! ## Masks: load from `bool`, element access, broadcast, comparison -/

/-- The object representation of a `bool`. -/
def bool_byte (b : Bool) : Byte := if b then 1 else 0

/-- `-int(b)` in the 32 bits of an `int`. -/
def neg_int (b : Bool) : Nat := if b then 2 ^ 32 - 1 else 0

/-- The integer of `n` bytes that lies at element `off` of a `bool` array (little-endian). -/
def bools_int (mem : Nat → Bool) (off n : Nat) : Nat :=
  ((List.range n).map fun k => (bool_byte (mem (off + k))).val * 256 ^ k).sum

/-- `__vector_load<_Tp, _N, _M>(mem + off, f)` from a `bool` array at address `p`: a zeroed
register of `bytes = _N * sizeof(_Tp)` bytes receives the first `m` bytes; the pointer is
assumed aligned as the flag says. -/
def vector_load (bytes m : Nat) (mem : Nat → Bool) (p off : Nat) (f : Flags) :
    Except Err Reg :=
  (assume_flag f bytes (p + off)).bind fun _ =>
    .ok (mk bytes fun j => if j < m then bool_byte (mem (off + j)) else 0)

/-- `_mm_cmpgt_epi8`, `_mm_cmpgt_epi16`, `_mm256_cmpgt_epi8` and the vector `a > b` of signed
lanes: all-ones where the signed lane of `a` is greater. -/
def cmpgt_epi (s : Nat) (a b : Reg) : Reg :=
  zipLanes s (fun x y => if sint s x > sint s y then 2 ^ (8 * s) - 1 else 0) a b

/-- The vector `a != 0` of integer lanes. -/
def cmpne_zero (s : Nat) (a : Reg) : Reg :=
  mapLanes s (fun x => if x ≠ 0 then 2 ^ (8 * s) - 1 else 0) a

/-- `_mm*_test_epi8_mask`, `_mm512_test_epi32_mask`, `_mm512_test_epi64_mask`: bit `i` is set
when the AND of the lanes `i` is not zero. -/
def test_epi_mask (s : Nat) (a b : Reg) : Nat :=
  bitsOf (a.length / s) fun i => (lane s a i &&& lane s b i) ≠ 0

/-- The element type `long long` of `__m128i`. -/
def ty_llong : MaskTy := { size := 8, integral := true }

/-- The SSE branch of `simd_mask::__load_wrapper` for `n = size()` lanes. With only MMX the
four `bool` bytes go through `_mm_cvtpi8_ps` and `_mm_cmpgt_ps`: the conversion of an 8-bit
integer to `float` is exact, so that the comparison with `0.0f` is that of the integers. -/
def load_sse (c : RCfg) (mmx : Bool) (n : Nat) (mem : Nat → Bool) (p : Nat) (f : Flags) :
    Except Err Reg :=
  if n = 2 ∧ c.sse2 then
    .ok (setr_epi32 [neg_int (mem 0), neg_int (mem 0), neg_int (mem 1), neg_int (mem 1)])
  else if n = 4 ∧ c.sse2 then
    let k := _mm_cvtsi32_si128 (bools_int mem 0 4)
    let k := cmpgt_epi 2 (unpack 1 false k k) (zeros 16)
    .ok (unpack 2 false k k)
  else if n = 4 ∧ mmx then
    .ok (ofLanes 4 4 fun i => if 0 < sint 1 (bool_byte (mem i)).val then 2 ^ 32 - 1 else 0)
  else if n = 8 ∧ c.sse2 then
    let k := m128i_of (bools_int mem 0 8) 0
    .ok (cmpne_zero 2 (unpack 1 false k k))
  else if n = 16 ∧ c.sse2 then
    (vector_load 16 16 mem p 0 f).bind fun v => .ok (cmpgt_epi 1 v (zeros 16))
  else .error .static

/-- The AVX branch of `simd_mask::__load_wrapper` for `n = size()` lanes. -/
def load_avx (w : WCfg) (c : RCfg) (n : Nat) (mem : Nat → Bool) (p : Nat) (f : Flags) :
    Except Err Reg :=
  if n = 4 ∧ c.avx then
    let k := cmpne_zero 4
      (vand (set1_epi32 16 (bools_int mem 0 4)) (setr_epi32 [0x1, 0x100, 0x10000, 0x1000000]))
    __concat w ty_llong (unpack 4 false k k) (unpack 4 true k k)
  else if n = 8 ∧ c.avx then
    (vector_load 16 8 mem p 0 f).bind fun v =>
      let k := cmpgt_epi 2 (unpack 1 false v v) (zeros 16)
      __concat w ty_llong (unpack 2 false k k) (unpack 2 true k k)
  else if n = 16 ∧ c.avx then
    (vector_load 16 16 mem p 0 f).bind fun v =>
      let k := cmpgt_epi 1 v (zeros 16)
      __concat w ty_llong (unpack 1 false k k) (unpack 1 true k k)
  else if n = 32 ∧ c.avx2 then
    (vector_load 32 32 mem p 0 f).bind fun v => .ok (cmpgt_epi 1 v (zeros 32))
  else .error .static

/-- The AVX-512 branch of `simd_mask::__load_wrapper` for `n = size()` lanes. The masks of
the 16-lane halves are combined as `int`: `<< 16` wraps to the 32 bits of the result, while
`<< 32` and `<< 48` shift an `int` by its width and more. -/
def load_avx512 (c : RCfg) (n : Nat) (mem : Nat → Bool) (p : Nat) (f : Flags) :
    Except Err Nat :=
  if n = 8 then
    (vector_load 16 8 mem p 0 f).bind fun a =>
      .ok (if c.avx512bw_vl then test_epi_mask 1 a a
        else test_epi_mask 8 (cvt_up true 1 8 64 a) (cvt_up true 1 8 64 a))
  else if n = 16 then
    (vector_load 16 16 mem p 0 f).bind fun a =>
      .ok (if c.avx512bw_vl then test_epi_mask 1 a a
        else test_epi_mask 4 (cvt_up true 1 4 64 a) (cvt_up true 1 4 64 a))
  else if n = 32 then
    if c.avx512bw_vl then
      (vector_load 32 32 mem p 0 f).bind fun a => .ok (test_epi_mask 1 a a)
    else
      (vector_load 16 16 mem p 0 f).bind fun a =>
      (vector_load 16 16 mem p 16 f).bind fun b =>
        .ok ((test_epi_mask 4 (cvt_up true 1 4 64 a) (cvt_up true 1 4 64 a)
          ||| test_epi_mask 4 (cvt_up true 1 4 64 b) (cvt_up true 1 4 64 b) * 2 ^ 16)
          % 2 ^ 32)
  else if n = 64 then
    if c.avx512bw then
      (vector_load 64 64 mem p 0 f).bind fun a => .ok (test_epi_mask 1 a a)
    else .error .undefined
  else .error .static

/-- The last two branches of `simd_mask::__load_wrapper`, for the ABIs without an x86
branch: a vector compare `bools > 0` for an integral `_Tp` of the size of `bool` (the loaded
bytes are 0 or 1, so that the signedness of `_Tp` does not matter), otherwise
`__generate_vector` of `mem[i] ? ~_I() : _I()`. -/
def load_generic (T : MaskTy) (n : Nat) (mem : Nat → Bool) (p : Nat) (f : Flags) :
    Except Err Reg :=
  if T.size = 1 ∧ T.integral then
    (vector_load (vector_bytes T n) n mem p 0 f).bind fun v =>
      .ok (cmpgt_epi 1 v (zeros (vector_bytes T n)))
  else
    .ok (ofLanes T.size (vector_bytes T n / T.size) fun i =>
      if i < n ∧ mem i then 2 ^ (8 * T.size) - 1 else 0)

/-- Modelled from the spec: the load constructor and `operator!=` of
`fixed_size_simd<unsigned char, n>`, which the `fixed_size` branch of the load calls and
which are in the ABI implementation headers, not part of the sources: bit `i` of
`__data(__bools != 0)` is `mem[i] != 0`. -/
def load_fixed (n : Nat) (mem : Nat → Bool) : Nat := bitsOf n mem

/-- `simd_mask::__load_wrapper(mem, f)` for a `bool` array at address `p`. The array member
of a combined ABI is not what the generic branch returns. -/
def load_wrapper (w : WCfg) (c : RCfg) (mmx : Bool) (T : MaskTy) (a : Abi) (mem : Nat → Bool)
    (p : Nat) (f : Flags) : Except Err MaskData :=
  match a with
  | .scalar => .ok (.scalar (mem 0))
  | .fixed_size n => .ok (.bitset (load_fixed n mem))
  | .sse bytes => (load_sse c mmx (bytes / T.size) mem p f).map .vec
  | .avx bytes => (load_avx w c (bytes / T.size) mem p f).map .vec
  | .avx512 bytes => (load_avx512 c (bytes / T.size) mem p f).map .kmask
  | .neon bytes => (load_generic T (bytes / T.size) mem p f).map .vec
  | .combine _ _ => .error .static

/-- `_SimdWrapper<bool, _Width>::operator[](i)` on a mask type of `W` bits:
`_M_data & (_BuiltinType(1) << i)`, converted to `bool`. The shift is that of `int` for the
8- and 16-bit mask types. -/
def wrapper_bool_get (W x i : Nat) : Except Err Bool :=
  if (if W ≤ 32 then 32 else 64) ≤ i then .error .undefined
  else .ok ((x &&& (1 <<< i)) ≠ 0)

/-- `_SimdWrapper<bool, _Width>::__set(i, x)` on a mask type of `W` bits:
`_M_data |= (_BuiltinType(1) << i)` or `_M_data &= ~(_BuiltinType(1) << i)`; the result of
the `int` or 64-bit operation is stored back into the `W` bits. -/
def wrapper_bool_set (W x i : Nat) (b : Bool) : Except Err Nat :=
  if (if W ≤ 32 then 32 else 64) ≤ i then .error .undefined
  else if b then .ok ((x ||| (1 <<< i)) % 2 ^ W)
  else .ok ((x &&& (2 ^ 64 - 1 - (1 <<< i))) % 2 ^ W)

/-- `_SimdWrapper<_Tp, _Width>::operator[](i)`: `_M_data[i]`. -/
def wrapper_get (s : Nat) (v : Reg) (i : Nat) : Nat := lane s v i

/-- `_SimdWrapper<_Tp, _Width>::__set(i, x)`: `_M_data[i] = x`. -/
def wrapper_set (s : Nat) (v : Reg) (i x : Nat) : Reg :=
  ofLanes s (v.length / s) fun j => if j = i then x else lane s v j

/-- `_Smart_reference::__read()`: `obj[index]`. -/
def smart_reference_read {σ ν : Type} (get : σ → Nat → ν) (obj : σ) (index : Nat) : ν :=
  get obj index

/-- `_Smart_reference::__write(x)`, the body of `m[i] = x`: `_Accessor::__set(obj, index, x)`.
The accessor is the mask implementation of the ABI headers, which are not part of the
sources, and is an argument here. -/
def smart_reference_write {σ ν ρ : Type} (accessor_set : σ → Nat → ν → ρ) (obj : σ)
    (index : Nat) (x : ν) : ρ :=
  accessor_set obj index x

/-- The all-ones register `~_U()`. -/
def ones (n : Nat) : Reg := mk n fun _ => 255

/-- The number of bits of `__bool_storage_member_type_t<n>`: `__mmask8` up to 8 lanes, else
the mask type of the next power of two. -/
def mmask_bits (n : Nat) : Nat := if next_power_of_2 n ≤ 8 then 8 else next_power_of_2 n

/-- `_Avx512Abi<bytes>::__masked(x)` for a bitmask `x` of `W` bits. -/
def masked_kmask (bytes W x : Nat) : Nat :=
  if bytes < 64 then x &&& (2 ^ (bytes * W / 64) - 1) else x

/-- `simd_mask::__broadcast(x)`. For a vector mask `_U` is the integer vector of `size()`
lanes, which `__masked` and `_ToWrapper` accept only when it is as wide as the register of
the ABI. -/
def broadcast (T : MaskTy) (a : Abi) (x : Bool) : Except Err MaskData :=
  match a with
  | .scalar => .ok (.scalar x)
  | .fixed_size n => .ok (.bitset (if x then 2 ^ n - 1 else 0))
  | .avx512 bytes =>
    let W := mmask_bits (bytes / T.size)
    .ok (.kmask (if x then masked_kmask bytes W (2 ^ W - 1) else 0))
  | .combine _ _ => .error .static
  | .sse bytes =>
    if vector_bytes T (bytes / T.size) ≠ 16 then .error .static
    else .ok (.vec (if x then masked T bytes 16 (ones 16) else zeros 16))
  | .avx bytes =>
    if vector_bytes T (bytes / T.size) ≠ 32 then .error .static
    else .ok (.vec (if x then masked T bytes 32 (ones 32) else zeros 32))
  | .neon bytes =>
    if vector_bytes T (bytes / T.size) ≠ full_bytes (.neon bytes) then .error .static
    else .ok (.vec (if x then masked T bytes (full_bytes (.neon bytes))
      (ones (full_bytes (.neon bytes))) else zeros (full_bytes (.neon bytes))))

/-- Modelled from the spec: `_MaskImpl::__bit_xor(x, y)` of the ABI headers, which are not
part of the sources: the lane-wise xor of two mask members. -/
def bit_xor : MaskData → MaskData → Except Err MaskData
  | .scalar x, .scalar y => .ok (.scalar (xor x y))
  | .bitset x, .bitset y => .ok (.bitset (x ^^^ y))
  | .kmask x, .kmask y => .ok (.kmask (x ^^^ y))
  | .vec x, .vec y => .ok (.vec (vxor x y))
  | _, _ => .error .static

/-- `operator!=(x, y)` of `simd_mask`: `__impl::__bit_xor(x._M_data, y._M_data)`. -/
def mask_ne (x y : MaskData) : Except Err MaskData := bit_xor x y

/-- `operator==(x, y)` of `simd_mask`: `!operator!=(x, y)`. -/
def mask_eq (c : RCfg) (T : MaskTy) (a : Abi) (x y : MaskData) : Except Err MaskData :=
  (mask_ne x y).bind fun d => mask_not c T a d

/-! ## `_AbiList::_BestAbi` and the chunks of a `fixed_size` vector -/

/-- `__full_abi<_A0, _Bytes>::type`: the tag of the full register of a class. -/
def full_abi : AbiClass → Nat → Abi
  | .neon, b => .neon (if 16 ≤ b then 16 else 8)
  | .sse, _ => abi_sse
  | .avx, _ => abi_avx
  | .avx512, _ => abi_avx512
  | .scalar_wrapper, _ => .scalar

/-- `_AbiList<...>::_BestAbi<_Tp, _N>`; `none` stands for `void`. The first class decides:
its tag at exactly `sizeof(_Tp) * _N` bytes when that is valid, else its full register when
that is valid and has at most `_N` lanes, else the rest of the list is asked. -/
def BestAbi (tg : Target) (f : AbiCfg) (T : VTy) (N : Nat) : List AbiClass → Option Abi
  | [] => none
  | a0 :: rest =>
    let bytes := sizeof tg T * N
    let B := full_abi a0 bytes
    if class_valid tg f T a0 bytes then some (a0.tag bytes)
    else if native_valid tg f T B ∧ simd_size (mask_ty tg T) B ≤ N then some B
    else BestAbi tg f T N rest

/-- Modelled from the spec: the builder of `__fixed_size_storage<_Tp, _N>` is declared in the
sources but defined elsewhere. The storage of a `fixed_size` vector is built by asking
`_AllNativeAbis::_BestAbi` for the remaining lane count, taking one chunk of that ABI and
going on with the lanes that are left, widest chunk first. The result lists the ABIs of the
chunks in lane order; `none` when no ABI is found or the budget `fuel` of steps runs out. -/
def fixed_size_chunks (tg : Target) (f : AbiCfg) (T : VTy) : Nat → Nat → Option (List Abi)
  | _, 0 => some []
  | 0, _ + 1 => none
  | fuel + 1, n + 1 =>
    match BestAbi tg f T (n + 1) AllNativeAbis with
    | none => none
    | some a =>
      (fixed_size_chunks tg f T fuel (n + 1 - simd_size (mask_ty tg T) a)).map fun cs => a :: cs

/-! ## The portable returns of `__vector_to_bitset`, `__testz`, `__testc` and `__testnzc` -/

/-- The portable loop that ends `__vector_to_bitset`: `__r[i] = !(x[i] == 0)` for every lane
of the vector (a floating-point lane compares equal to zero when it is `+0` or `-0`). -/
def vector_to_bitset_loop (T : MaskTy) (x : Reg) : Nat :=
  bitsOf (x.length / T.size) fun i =>
    !(if T.integral then decide (lane T.size x i = 0)
      else decide (lane T.size x i % 2 ^ (8 * T.size - 1) = 0))

/-- What the target decides about the arithmetic types beyond their sizes: whether `char`
and `wchar_t` are signed, and the significand digits and the largest exponent of
`long double`. -/
structure NumCfg where
  char_signed : Bool
  wchar_signed : Bool
  ldouble_digits : Nat
  ldouble_max_exp : Nat

/-- `std::is_integral<_Tp>`. -/
def is_integral (T : VTy) : Bool := !is_floating_point T

/-- `std::is_signed<_Tp>`: true for the signed integer types and the floating-point types. -/
def is_signed (n : NumCfg) (T : VTy) : Bool :=
  if T = .char then n.char_signed
  else if T = .wchar then n.wchar_signed
  else if T = .bool ∨ T = .uchar ∨ T = .ushort ∨ T = .uint ∨ T = .ulong ∨ T = .ullong
      ∨ T = .char16 ∨ T = .char32 then false
  else true

/-- `std::is_unsigned<_Tp>`: true for `bool` and the unsigned integer types. -/
def is_unsigned (n : NumCfg) (T : VTy) : Bool := is_integral T && !is_signed n T

/-- `std::numeric_limits<_Tp>::digits`. -/
def digits (tg : Target) (n : NumCfg) (T : VTy) : Nat :=
  if T = .bool then 1
  else if T = .float then 24
  else if T = .double then 53
  else if T = .ldouble then n.ldouble_digits
  else 8 * sizeof tg T - (if is_signed n T then 1 else 0)

/-- `std::numeric_limits<_Tp>::max()`, as a number. -/
def limits_max (tg : Target) (n : NumCfg) (T : VTy) : Int :=
  if T = .bool then 1
  else if T = .float then (2 ^ 24 - 1) * 2 ^ 104
  else if T = .double then (2 ^ 53 - 1) * 2 ^ 971
  else if T = .ldouble then
    (2 ^ n.ldouble_digits - 1) * 2 ^ (n.ldouble_max_exp - n.ldouble_digits)
  else 2 ^ digits tg n T - 1

/-- `std::numeric_limits<_Tp>::lowest()`, as a number. -/
def limits_lowest (tg : Target) (n : NumCfg) (T : VTy) : Int :=
  if T = .bool then 0
  else if is_floating_point T then - limits_max tg n T
  else if is_signed n T then - 2 ^ digits tg n T
  else 0

/-- The type a comparison is evaluated in: an integer type of `size` bytes, or a
floating-point type with a significand of `digits` bits. -/
inductive CmpTy where
  | int (size : Nat) (signed : Bool)
  | fp (digits : Nat)
  deriving DecidableEq, Repr

/-- The integral promotions, with an `int` of 32 bits: an integer type smaller than `int`
becomes `int`, every other type stays. -/
def promoted (tg : Target) (n : NumCfg) (T : VTy) : CmpTy :=
  if is_integral T then
    if sizeof tg T < 4 then .int 4 true else .int (sizeof tg T) (is_signed n T)
  else .fp (digits tg n T)

/-- The usual arithmetic conversions: the common type of two promoted operands. A
floating-point operand decides; two integers of one signedness take the larger; of a signed
and an unsigned integer the unsigned decides unless the signed type is larger. Types of
equal size and signedness hold the same values, so the conversion rank is not recorded. -/
def common_type : CmpTy → CmpTy → CmpTy
  | .fp p, .fp q => .fp (max p q)
  | .fp p, .int _ _ => .fp p
  | .int _ _, .fp q => .fp q
  | .int s1 g1, .int s2 g2 =>
    if g1 = g2 then .int (max s1 s2) g1
    else
      let u := if g1 then s2 else s1
      let s := if g1 then s1 else s2
      if s ≤ u then .int u false else .int s true

/-- The value of the number `z` after conversion to a type: reduced modulo `2 ^ bits` for an
integer type, rounded to the significand for a floating-point type. -/
def convert_value : CmpTy → Int → Int
  | .int s g, z => ElemTy.toInt ⟨s, g⟩ (ElemTy.ofInt ⟨s, g⟩ z)
  | .fp p, z => rnd p z

/-- The primary template of `__is_narrowing_conversion<_From, _To>` for arithmetic types.
The comparisons of the limits are made between a `_From` and a `_To`, after the usual
arithmetic conversions. -/
def is_narrowing_primary (tg : Target) (n : NumCfg) (From To : VTy) : Bool :=
  let C := common_type (promoted tg n From) (promoted tg n To)
  decide (digits tg n From > digits tg n To)
    || decide (convert_value C (limits_max tg n From) > convert_value C (limits_max tg n To))
    || decide (convert_value C (limits_lowest tg n From)
        < convert_value C (limits_lowest tg n To))
    || (is_signed n From && is_unsigned n To)

/-- `__is_narrowing_conversion<_From, _To>::value` for arithmetic types: the
specializations for equal types and for `bool`, then the primary template. -/
def is_narrowing_conversion (tg : Target) (n : NumCfg) (From To : VTy) : Bool :=
  if From = To then false
  else if From = .bool then true
  else is_narrowing_primary tg n From To

/-! ## Conversions that change nothing -/

/-- `_SimdConverter<_Tp, _A, _Tp, _A>::operator()(x)`: the argument is returned, whatever the
member type `_U` of the vector is. -/
def SimdConverter_same {α : Type} (x : α) : α := x

/-- The macros `_GLIBCXX_SIMD_FIX_P2TS_ISSUE65` and `_GLIBCXX_SIMD_FIX_P2TS_ISSUE66`, which
`__static_simd_cast_return_type` tests; the header that sets them is not part of the
sources. -/
structure CastCfg where
  fix_issue65 : Bool
  fix_issue66 : Bool

/-- The template argument `_Tp` of `static_simd_cast<_Tp>`: an element type, or a `simd`
type given by its element type and ABI tag. -/
inductive CastArg where
  | elem (T : VTy)
  | simd (T : VTy) (a : Abi)

/-- `safe_make_signed_t<_Tp>`: `make_signed_t<make_unsigned_t<_Tp>>` for an integral type,
the type itself otherwise; `none` for `bool`, where `make_unsigned` is ill-formed. -/
def safe_make_signed (tg : Target) : VTy → Option VTy
  | .bool => none
  | .float => some .float
  | .double => some .double
  | .ldouble => some .ldouble
  | .char | .schar | .uchar => some .schar
  | .short | .ushort | .char16 => some .short
  | .int | .uint | .char32 => some .int
  | .long | .ulong => some .long
  | .llong | .ullong => some .llong
  | .wchar => if tg.wchar_size = 2 then some .short else some .int

/-- `__static_simd_cast_return_type<_Tp, _U, _A>::type` for a source `simd<_U, _A>`:
the element type and the ABI tag of the result, `none` when no specialization gives a
type. -/
def static_simd_cast_return_type (p : CastCfg) (tg : Target) (n : NumCfg)
    (arg : CastArg) (U : VTy) (A : Abi) : Option (VTy × Abi) :=
  match arg with
  | .simd T a0 =>
    if simd_size (mask_ty tg T) a0 = simd_size (mask_ty tg U) A then some (T, a0) else none
  | .elem T =>
    if p.fix_issue66 ∧ ¬ is_vectorizable T then none
    else if T = U then some (T, A)
    else
      match safe_make_signed tg U, safe_make_signed tg T with
      | some u, some t =>
        if is_integral U ∧ is_integral T ∧ (p.fix_issue65 ∨ is_signed n U ≠ is_signed n T)
            ∧ u = t then some (T, A)
        else some (T, .fixed_size (simd_size (mask_ty tg U) A))
      | _, _ => none

/-- `static_simd_cast<_Tp>(x)` for `x` of type `simd<_U, _A>`: `x` itself when the return
type is the type of `x`, otherwise what the `_SimdConverter` to the return type makes of
the data of `x` (`conv`, by element type and ABI tag of the result). -/
def static_simd_cast {α : Type} (p : CastCfg) (tg : Target) (n : NumCfg)
    (arg : CastArg) (U : VTy) (A : Abi) (conv : VTy → Abi → α → Except Err α) (x : α) :
    Except Err α :=
  match static_simd_cast_return_type p tg n arg U A with
  | none => .error .static
  | some (T, a) => if T = U ∧ a = A then .ok x else conv T a x

/-- The one-argument `__convert_x86<_To>(v)` between floating-point element types of equal
size `s` (`float` to `float`, `double` to `double`), for a `_To` of `tb` bytes:
`__i_to_i` is false, so the function reaches the bit reinterpretation of its first branch
without a `static_assert`. -/
def convert_x86_fp_same (c : Cfg) (s tb : Nat) (v : Reg) : Except Err Reg :=
  let N := v.length / s
  let M := tb / s
  if M ≤ N then intrin_bitcast c tb v else zero_extend tb v

/-! ## Conversions from 64-bit integers to `double` -/

/-- `_mm512_cvtepi32_pd` (VCVTDQ2PD): every signed 32-bit lane converted to `double`. -/
def cvtepi32_pd (a : Reg) : FVec :=
  (List.range (a.length / 4)).map fun i => rnd 53 (sint 4 (lane 4 a i))

/-- `_mm512_cvtepu32_pd` (VCVTUDQ2PD): every unsigned 32-bit lane converted to `double`. -/
def cvtepu32_pd (a : Reg) : FVec :=
  (List.range (a.length / 4)).map fun i => rnd 53 (lane 4 a i)

/-- The GNU vector operator `v * k` on `double` lanes, `k` a scalar that converts exactly. -/
def dmul_scalar (v : FVec) (k : Int) : FVec := v.map fun x => rnd 53 (x * k)

/-- The GNU vector operator `a + b` on `double` lanes. -/
def dadd (a b : FVec) : FVec := List.zipWith (fun x y => rnd 53 (x + y)) a b

/-- `static_cast<double>(v[i])` for every lane of a vector of 64-bit integers. -/
def static_cast_f64 (T : ElemTy) (v : Reg) : FVec :=
  (List.range (v.length / 8)).map fun i => rnd 53 (T.toInt (lane 8 v i))

/-- The `__s64_to_f64` and `__u64_to_f64` blocks of the one-argument overload: their
`__z_to_z` branches without AVX512DQ, which go through 32-bit halves (`__v >> 32` is an
arithmetic shift on signed lanes and a logical shift on unsigned lanes); `none` stands for
every other branch (a direct instruction or no return). -/
def conv1_i64_to_f64 (avx512dq : Bool) (T : ElemTy) (tb : Nat) (v : Reg) : Option FVec :=
  let sv := v.length
  if z_to_z sv tb ∧ ¬ avx512dq then
    if T.signed then
      some (dadd (dmul_scalar (cvtepi32_pd (cvt_down 8 4 (srai 8 v 32))) 4294967296)
        (cvtepu32_pd (cvt_down 8 4 v)))
    else
      some (dadd (dmul_scalar (cvtepu32_pd (cvt_down 8 4 (srli 8 v 32))) 4294967296)
        (cvtepu32_pd (cvt_down 8 4 v)))
  else none
/-! ## Statement helpers -/

/-- Byte `j` of the lane-wise `static_cast` from `T` to `U` of the register `v`: a byte of
the source lane where the source lane has one, else the sign or zero extension. -/
def cast_byte (T U : ElemTy) (v : Reg) (j : Nat) : Byte :=
  if j % U.size < T.size then rd v (j / U.size * T.size + j % U.size)
  else if T.signed then sign_fill (rd v (j / U.size * T.size + (T.size - 1))) else 0

/-- Logical lane `i` of the concatenation of equally sized source registers of `n` lanes each. -/
def src_lane (T : ElemTy) (n : Nat) (vs : List Reg) (i : Nat) : Nat :=
  lane T.size (vs.getD (i / n) []) (i % n)


/-- Concatenation of the source registers in argument order. -/
def cat (vs : List Reg) : Reg := vs.flatten

/-- The register `r` has `tb` bytes and its first `n` lanes are the lane-wise `static_cast`
from `T` to `U` of the first `n` lanes of `v`, byte for byte. -/
def conv_ok (T U : ElemTy) (tb n : Nat) (v r : Reg) : Prop :=
  r.length = tb ∧ ∀ j, j < n * U.size → rd r j = cast_byte T U v j

/-- An instantiation that a `static_assert` rejects has no result; every other outcome is a
register that satisfies `P`. Running out of the recursion budget is not admitted. -/
def Res (P : Reg → Prop) : Except Err Reg → Prop
  | .ok r => P r
  | .error e => e = .static

/-- Whether the logical lane `i` of a mask is true. -/
def lane_true (T : MaskTy) : Abi → MaskData → Nat → Bool
  | .scalar, .scalar b, _ => b
  | .fixed_size _, .bitset x, i => bit x i
  | .sse _, .vec v, i => lane T.size v i ≠ 0
  | .avx _, .vec v, i => lane T.size v i ≠ 0
  | .neon _, .vec v, i => lane T.size v i ≠ 0
  | .avx512 _, .kmask x, i => bit x i
  | .combine _ a, .array ms, i =>
    lane_true T a (ms.getD (i / simd_size T a) (.scalar false)) (i % simd_size T a)
  | _, _, _ => false

/-- The lanes `i < n` of a vector mask are each all-ones or all-zeros. -/
def lanes_ok (s n : Nat) (v : Reg) : Prop :=
  ∀ i, i < n → lane s v i = 0 ∨ lane s v i = 2 ^ (8 * s) - 1

instance (s n : Nat) (v : Reg) : Decidable (lanes_ok s n v) := by
  unfold lanes_ok; infer_instance

/-- A valid mask object: the ABI is valid for `_Tp` on the target (`_IsValid`), the data has
the ABI's member type, and every logical lane of a vector mask is all-ones or all-zeros. -/
def mask_ok (c : RCfg) (T : MaskTy) : Abi → MaskData → Prop
  | .scalar, .scalar _ => True
  | .fixed_size n, .bitset x => 0 < n ∧ n ≤ 64 ∧ x < 2 ^ n
  | .sse bytes, .vec v =>
    c.sse ∧ bytes ≤ 16 ∧ 1 < bytes / T.size ∧ bytes % T.size = 0 ∧ v.length = 16
      ∧ lanes_ok T.size (bytes / T.size) v
  | .avx bytes, .vec v =>
    c.avx ∧ c.sse4_1 ∧ bytes = 32 ∧ v.length = 32 ∧ lanes_ok T.size (bytes / T.size) v
  | .avx512 bytes, .kmask x => bytes = 64 ∧ x < 2 ^ (bytes / T.size)
  | .neon bytes, .vec v =>
    (bytes = 8 ∨ bytes = 16) ∧ 1 < bytes / T.size ∧ v.length = bytes
      ∧ lanes_ok T.size (bytes / T.size) v
  | .combine n a, .array ms => 1 < n ∧ ms.length = n ∧ ∀ m, m ∈ ms → mask_ok c T a m
  | _, _ => False

/-- The ISA extensions that `_Abi::_IsValid<_Tp>` asks for beyond those in `mask_ok`:
`__sse_is_vectorizable` admits only `float` without the full SSE ABI (SSE2), and
`__avx512_is_vectorizable` admits 8- and 16-bit elements only with the full AVX-512 ABI
(AVX512BW). -/
def isa_ok (c : RCfg) (T : MaskTy) : Abi → Prop
  | .sse _ => (T.integral ∨ T.size ≠ 4) → c.sse2
  | .avx512 _ => T.size ≤ 2 → c.avx512bw
  | .combine _ a => isa_ok c T a
  | _ => True

/-- Two raw mask values of the SSE, AVX or AVX-512 ABI `a` that agree on the lanes
`0 .. size() - 1`: vector registers of the full width with the same first `bytes` bytes, or
bitmasks of `64 / sizeof(_Tp)` bits with the same low `size()` bits. -/
def same_lanes (T : MaskTy) : Abi → MaskData → MaskData → Prop
  | .sse bytes, .vec v, .vec w =>
    bytes ≤ 16 ∧ v.length = 16 ∧ w.length = 16 ∧ ∀ j, j < bytes → rd v j = rd w j
  | .avx bytes, .vec v, .vec w =>
    bytes ≤ 32 ∧ v.length = 32 ∧ w.length = 32 ∧ ∀ j, j < bytes → rd v j = rd w j
  | .avx512 bytes, .kmask x, .kmask y =>
    bytes = 64 ∧ x < 2 ^ (64 / T.size) ∧ y < 2 ^ (64 / T.size)
      ∧ x % 2 ^ (bytes / T.size) = y % 2 ^ (bytes / T.size)
  | _, _, _ => False

/-- The number of true lanes among the `size()` logical lanes of a mask. -/
def true_lanes (T : MaskTy) (a : Abi) (m : MaskData) : Nat :=
  ((List.range (simd_size T a)).filter fun i => lane_true T a m i).length

/-- The vector mask of `n` bytes with `s`-byte lanes whose lane `i` is all-ones when
`bs[i]` is true and all-zeros otherwise. -/
def mask_of (s n : Nat) (bs : List Bool) : Reg :=
  mk n fun j => if bs.getD (j / s) false then 255 else 0

/-- A baseline x86-64 target: SSE and SSE2 only, no POPCNT. -/
def cfg_sse2 : RCfg :=
  { sse := true, sse2 := true, sse4_1 := false, avx := false, avx2 := false, popcnt := false,
    avx512vl := false, avx512bw_vl := false, ullong_align8 := true, avx512dq := false,
    avx512bw := false, workaround_pr85538 := false, bmi := false, lzcnt := false,
    lax_vector_conversions := false }

/-- The same target with POPCNT. -/
def cfg_sse2_popcnt : RCfg := { cfg_sse2 with popcnt := true }

/-- A target with the vector extensions up to AVX2 and with POPCNT, but without BMI1 and
LZCNT. -/
def cfg_avx2_nobmi : RCfg :=
  { cfg_sse2 with sse4_1 := true, avx := true, avx2 := true, popcnt := true }

/-- The same target with BMI1 and LZCNT. -/
def cfg_avx2_bmi : RCfg := { cfg_avx2_nobmi with bmi := true, lzcnt := true }

/-- `short`. -/
def ty_short : MaskTy := { size := 2, integral := true }

/-- `float`. -/
def ty_float : MaskTy := { size := 4, integral := false }

/-- An AVX-512F target without AVX512VL, AVX512BW and AVX512DQ; undefined bytes read zero. -/
def cfg_avx512f : Cfg :=
  { ssse3 := true, sse4_1 := true, avx := true, avx2 := true, avx512f := true,
    avx512vl := false, avx512bw := false, undef := fun _ => 0 }

/-- An SSE4.1 target. -/
def cfg_sse4_1 : Cfg :=
  { ssse3 := true, sse4_1 := true, avx := false, avx2 := false, avx512f := false,
    avx512vl := false, avx512bw := false, undef := fun _ => 0 }

/-- `unsigned long long`. -/
def ty_u64 : ElemTy := { size := 8, signed := false }

/-- `long long`. -/
def ty_i64 : ElemTy := { size := 8, signed := true }

/-- Eight 64-bit lanes: `x` in lane 0, zero elsewhere. -/
def first_lane (x : Nat) : Reg := ofLanes 8 8 fun i => if i = 0 then x else 0
/-! ## Targets used in the examples of the ABI claims -/

/-- A 64-bit Linux target: `long` has 8 bytes, `wchar_t` 4 and `long double` 16. -/
def tg_lp64 : Target := { long_size := 8, wchar_size := 4, ldouble_size := 16 }

/-- An x86-64 build with SSE2 and nothing beyond it. -/
def abi_cfg_sse2 : AbiCfg :=
  { have_neon_abi := false, have_full_neon_abi := false, have_sse_abi := true,
    have_full_sse_abi := true, have_avx_abi := false, have_full_avx_abi := false,
    have_avx512_abi := false, have_full_avx512_abi := false, defined_full_neon_abi := false,
    x86_64 := true, aarch64 := false }

/-- An x86-64 build with AVX-512F but without AVX512BW. -/
def abi_cfg_avx512f : AbiCfg :=
  { have_neon_abi := false, have_full_neon_abi := false, have_sse_abi := true,
    have_full_sse_abi := true, have_avx_abi := true, have_full_avx_abi := true,
    have_avx512_abi := true, have_full_avx512_abi := false, defined_full_neon_abi := false,
    x86_64 := true, aarch64 := false }
/-! ## Inputs used in the examples of the vector-primitive and load/store claims -/

/-- A build in which no workaround macro is defined, with AVX-512. -/
def wcfg_plain : WCfg :=
  { xxx_1 := false, xxx_3 := false, pr85480 := false, avx := true, avx2 := true,
    avx512f := true, avx512dq := true }

/-- A build in which `_GLIBCXX_SIMD_WORKAROUND_XXX_1` and `_GLIBCXX_SIMD_WORKAROUND_XXX_3`
are defined, with AVX-512. -/
def wcfg_workarounds : WCfg :=
  { xxx_1 := true, xxx_3 := true, pr85480 := false, avx := true, avx2 := true,
    avx512f := true, avx512dq := true }

/-- `char`. -/
def ty_char : MaskTy := { size := 1, integral := true }

/-- `double`. -/
def ty_double : MaskTy := { size := 8, integral := false }

/-- The register of `n` lanes of `s` bytes that holds `first`, `first + 1`, ... -/
def iota (s n first : Nat) : Reg := ofLanes s n fun i => first + i

/-- Memory filled with the byte `0xAA`. -/
def mem_aa : Mem := fun _ => 170
/-! ## Canonical vector masks -/

/-- Every byte of `v` is all-ones or zero and constant on the aligned groups of `g` bytes:
byte `j` is all-ones exactly when `q (j / g)`. -/
def granule (g : Nat) (v : Reg) (q : Nat → Bool) : Prop :=
  ∀ j, j < v.length → rd v j = if q (j / g) then 255 else 0

/-- A canonical boolean-vector mask: each lane of the register is all-ones or all-zeros. -/
def canonical (T : MaskTy) : MaskData → Prop
  | .vec v => lanes_ok T.size (v.length / T.size) v
  | _ => True

/-- A mask in memory: `false, true`. -/
def mem_ft : Nat → Bool := fun i => decide (i = 1)

/-- A mask in memory: `false, true, false, true, ...`. -/
def mem_alternating : Nat → Bool := fun i => decide (i % 2 = 1)

/-! ## Inputs used in the examples of the last claims -/

/-- An x86-64 Linux target: `char` and `wchar_t` are signed, `long double` is the 80-bit
format of the x87 unit. -/
def num_x86 : NumCfg :=
  { char_signed := true, wchar_signed := true, ldouble_digits := 64, ldouble_max_exp := 16384 }

/-- Neither of the two fixes of `static_simd_cast` is enabled. -/
def cast_cfg_plain : CastCfg := { fix_issue65 := false, fix_issue66 := false }

/-- Four `float` bit patterns: a NaN, negative zero, positive infinity and the lowest finite
number. -/
def float_patterns : Reg :=
  ofLanes 4 4 fun i => [0x7FC00000, 0x80000000, 0x7F800000, 0xFF7FFFFF].getD i 0

/-- Eight 64-bit lanes: the lowest `long long`, `-1`, `2^53 + 1`, then zeros. -/
def llong_patterns : Reg :=
  ofLanes 8 8 fun i => [0x8000000000000000, 0xFFFFFFFFFFFFFFFF, 0x20000000000001].getD i 0

/-- An x86 build with AVX2 and nothing beyond it, without POPCNT. -/
def cfg_avx2_nopopcnt : RCfg := { cfg_sse2 with sse4_1 := true, avx := true, avx2 := true }
/-! ## Reading registers -/

theorem length_mk (n : Nat) (f : Nat → Byte) : (mk n f).length = n := by
  simp [mk]

theorem rd_mk (n : Nat) (f : Nat → Byte) (j : Nat) :
    rd (mk n f) j = if j < n then f j else 0 := by
  unfold rd mk
  by_cases h : j < n
  · simp [h, List.getD_eq_getElem?_getD, List.getElem?_map, List.getElem?_range h]
  · have h2 : n ≤ j := Nat.le_of_not_lt h
    simp [h, List.getD_eq_getElem?_getD, List.getElem?_eq_none, h2]

theorem rd_mk_lt {n : Nat} {f : Nat → Byte} {j : Nat} (h : j < n) : rd (mk n f) j = f j := by
  rw [rd_mk, if_pos h]

theorem rd_cons_zero (a : Byte) (l : Reg) : rd (a :: l) 0 = a := rfl

theorem rd_cons_succ (a : Byte) (l : Reg) (n : Nat) : rd (a :: l) (n + 1) = rd l n := rfl

theorem rd_nil (n : Nat) : rd [] n = 0 := rfl

theorem rd_of_le {v : Reg} {j : Nat} (h : v.length ≤ j) : rd v j = 0 := by
  unfold rd
  simp [List.getD_eq_getElem?_getD, List.getElem?_eq_none, h]

theorem rd_append_lt {a b : Reg} {j : Nat} (h : j < a.length) : rd (a ++ b) j = rd a j := by
  unfold rd
  simp [List.getD_eq_getElem?_getD, List.getElem?_append_left h]

theorem rd_append_ge {a b : Reg} {j : Nat} (h : a.length ≤ j) :
    rd (a ++ b) j = rd b (j - a.length) := by
  unfold rd
  simp [List.getD_eq_getElem?_getD, List.getElem?_append_right h]

/-- Two registers with the same bytes are equal. -/
theorem ext_rd {a b : Reg} (hl : a.length = b.length)
    (h : ∀ j, j < a.length → rd a j = rd b j) : a = b := by
  apply List.ext_getElem hl
  intro j h1 h2
  have := h j h1
  unfold rd at this
  simpa [List.getD_eq_getElem?_getD, List.getElem?_eq_getElem h1, List.getElem?_eq_getElem h2]
    using this

theorem byteOf_val (b : Byte) : byteOf b.val = b := by
  apply Fin.ext
  simp [byteOf, Nat.mod_eq_of_lt b.isLt]

theorem val_byteOf (x : Nat) : (byteOf x).val = x % 256 := rfl

theorem length_ofLanes (s n : Nat) (f : Nat → Nat) : (ofLanes s n f).length = n * s := by
  simp [ofLanes, length_mk]

theorem length_zeros (n : Nat) : (zeros n).length = n := by simp [zeros, length_mk]

theorem rd_zeros (n j : Nat) : rd (zeros n) j = 0 := by
  simp [zeros, rd_mk]

/-! ## Lanes -/

theorem lane_1 (v : Reg) (i : Nat) : lane 1 v i = (rd v i).val := by
  simp [lane, List.range_succ]

theorem lane_2 (v : Reg) (i : Nat) :
    lane 2 v i = (rd v (i * 2)).val + (rd v (i * 2 + 1)).val * 256 := by
  simp [lane, List.range_succ]

theorem lane_4 (v : Reg) (i : Nat) :
    lane 4 v i = (rd v (i * 4)).val + (rd v (i * 4 + 1)).val * 256
      + (rd v (i * 4 + 2)).val * 65536 + (rd v (i * 4 + 3)).val * 16777216 := by
  simp [lane, List.range_succ]
  omega

theorem lane_8 (v : Reg) (i : Nat) :
    lane 8 v i = (rd v (i * 8)).val + (rd v (i * 8 + 1)).val * 256
      + (rd v (i * 8 + 2)).val * 65536 + (rd v (i * 8 + 3)).val * 16777216
      + (rd v (i * 8 + 4)).val * 4294967296 + (rd v (i * 8 + 5)).val * 1099511627776
      + (rd v (i * 8 + 6)).val * 281474976710656
      + (rd v (i * 8 + 7)).val * 72057594037927936 := by
  simp [lane, List.range_succ]
  omega

/-- A lane is determined by its bytes. -/
theorem lane_congr {s : Nat} {a b : Reg} {i i2 : Nat}
    (h : ∀ k, k < s → rd a (i * s + k) = rd b (i2 * s + k)) : lane s a i = lane s b i2 := by
  unfold lane
  congr 1
  apply List.map_congr_left
  intro k hk
  rw [h k (List.mem_range.mp hk)]

theorem lane_lt (s : Nat) (v : Reg) (i : Nat) (hs : s = 1 ∨ s = 2 ∨ s = 4 ∨ s = 8) :
    lane s v i < 2 ^ (8 * s) := by
  rcases hs with h | h | h | h <;> subst h
  · rw [lane_1]; have := (rd v i).isLt; omega
  · rw [lane_2]
    have := (rd v (i * 2)).isLt; have := (rd v (i * 2 + 1)).isLt; omega
  · rw [lane_4]
    have := (rd v (i * 4)).isLt; have := (rd v (i * 4 + 1)).isLt
    have := (rd v (i * 4 + 2)).isLt; have := (rd v (i * 4 + 3)).isLt; omega
  · rw [lane_8]
    have := (rd v (i * 8)).isLt; have := (rd v (i * 8 + 1)).isLt
    have := (rd v (i * 8 + 2)).isLt; have := (rd v (i * 8 + 3)).isLt
    have := (rd v (i * 8 + 4)).isLt; have := (rd v (i * 8 + 5)).isLt
    have := (rd v (i * 8 + 6)).isLt; have := (rd v (i * 8 + 7)).isLt; omega

/-! ## Byte routing of the lane-wise operations -/

theorem byte_of_lane (s : Nat) (v : Reg) (i p : Nat) (hs : s = 1 ∨ s = 2 ∨ s = 4 ∨ s = 8)
    (hp : p < s) : byteOf (lane s v i / 256 ^ p) = rd v (i * s + p) := by
  apply Fin.ext
  rw [val_byteOf]
  rcases hs with h | h | h | h <;> subst h <;> interval_cases p <;>
    simp only [lane_1, lane_2, lane_4, lane_8, Nat.reducePow, Nat.div_one, Nat.add_zero,
      Nat.mul_one] <;> omega

theorem div_mul_add_mod (j s : Nat) : j / s * s + j % s = j := by
  have := Nat.div_add_mod j s
  rw [Nat.mul_comm] at this
  exact this

theorem rd_ofLanes (s n : Nat) (f : Nat → Nat) (j : Nat) (hj : j < n * s) :
    rd (ofLanes s n f) j = byteOf (f (j / s) / 256 ^ (j % s)) := by
  simp [ofLanes, rd_mk, hj]

theorem rd_mapLanes (s : Nat) (f : Nat → Nat) (v : Reg) (j : Nat) (hj : j < v.length / s * s) :
    rd (mapLanes s f v) j = byteOf (f (lane s v (j / s)) / 256 ^ (j % s)) := by
  simp [mapLanes, ofLanes, rd_mk, hj]

theorem length_mapLanes (s : Nat) (f : Nat → Nat) (v : Reg) :
    (mapLanes s f v).length = v.length / s * s := by
  simp [mapLanes, length_ofLanes]

theorem rd_shl_scalar (s n : Nat) (v : Reg) (j : Nat) (hs : s = 1 ∨ s = 2 ∨ s = 4 ∨ s = 8)
    (hn : n % 8 = 0) (hj : j < v.length / s * s) :
    rd (shl_scalar s v n) j = if j % s < n / 8 then 0 else rd v (j - n / 8) := by
  unfold shl_scalar
  rw [rd_mapLanes _ _ _ _ hj]
  obtain ⟨k, rfl⟩ : ∃ k, n = 8 * k := ⟨n / 8, by omega⟩
  have h8 : 8 * k / 8 = k := by omega
  rw [h8]
  have hpow : (2:Nat) ^ (8 * k) = 256 ^ k := by rw [pow_mul]; norm_num
  rw [hpow]
  have hsp : 0 < s := by omega
  have hp : j % s < s := Nat.mod_lt _ hsp
  by_cases hlt : j % s < k
  · rw [if_pos hlt]
    apply Fin.ext
    rw [val_byteOf]
    obtain ⟨d, hd⟩ : ∃ d, k = j % s + (d + 1) := ⟨k - j % s - 1, by omega⟩
    have : lane s v (j / s) * 256 ^ k / 256 ^ (j % s) = lane s v (j / s) * 256 ^ d * 256 := by
      rw [hd, pow_add, pow_succ, ← mul_assoc, ← mul_assoc]
      rw [Nat.mul_right_comm _ (256 ^ (j % s)), Nat.mul_right_comm _ (256 ^ (j % s)),
        Nat.mul_div_cancel _ (by positivity)]
    rw [this]
    simp
  · rw [if_neg hlt]
    obtain ⟨d, hd⟩ : ∃ d, j % s = k + d := ⟨j % s - k, by omega⟩
    rw [hd, pow_add, Nat.mul_comm (lane s v (j / s)), Nat.mul_div_mul_left _ _ (by positivity)]
    have := byte_of_lane s v (j / s) d hs (by omega)
    rw [this]
    congr 1
    have := div_mul_add_mod j s
    omega

theorem length_shl_scalar (s n : Nat) (v : Reg) :
    (shl_scalar s v n).length = v.length / s * s := length_mapLanes _ _ _

theorem rd_slli (s n : Nat) (v : Reg) (j : Nat) (hs : s = 1 ∨ s = 2 ∨ s = 4 ∨ s = 8)
    (hn : n % 8 = 0) (hn2 : n < 8 * s) (hj : j < v.length / s * s) :
    rd (slli s v n) j = if j % s < n / 8 then 0 else rd v (j - n / 8) := by
  have h : slli s v n = shl_scalar s v n := by
    unfold slli shl_scalar
    simp [hn2]
  rw [h, rd_shl_scalar s n v j hs hn hj]

theorem length_slli (s n : Nat) (v : Reg) : (slli s v n).length = v.length / s * s :=
  length_mapLanes _ _ _

theorem rd_srli (s n : Nat) (v : Reg) (j : Nat) (hs : s = 1 ∨ s = 2 ∨ s = 4 ∨ s = 8)
    (hn : n % 8 = 0) (hn2 : n < 8 * s) (hj : j < v.length / s * s) :
    rd (srli s v n) j = if j % s + n / 8 < s then rd v (j + n / 8) else 0 := by
  unfold srli
  rw [rd_mapLanes _ _ _ _ hj, if_pos hn2]
  obtain ⟨k, rfl⟩ : ∃ k, n = 8 * k := ⟨n / 8, by omega⟩
  have h8 : 8 * k / 8 = k := by omega
  rw [h8]
  have hpow : (2:Nat) ^ (8 * k) = 256 ^ k := by rw [pow_mul]; norm_num
  rw [hpow, Nat.div_div_eq_div_mul, ← pow_add]
  have hl := lane_lt s v (j / s) hs
  by_cases hlt : j % s + k < s
  · rw [if_pos hlt, Nat.add_comm k, byte_of_lane s v (j / s) _ hs hlt]
    congr 1
    have := div_mul_add_mod j s
    omega
  · rw [if_neg hlt]
    have h256 : (2:Nat) ^ (8 * s) = 256 ^ s := by rw [pow_mul]; norm_num
    have : lane s v (j / s) / 256 ^ (k + j % s) = 0 := by
      apply Nat.div_eq_of_lt
      calc lane s v (j / s) < 256 ^ s := by rw [← h256]; exact hl
        _ ≤ 256 ^ (k + j % s) := Nat.pow_le_pow_right (by norm_num) (by omega)
    rw [this]
    rfl

theorem length_srli (s n : Nat) (v : Reg) : (srli s v n).length = v.length / s * s :=
  length_mapLanes _ _ _

theorem rd_and_scalar_ff (s : Nat) (v : Reg) (j : Nat) (hs : s = 1 ∨ s = 2 ∨ s = 4 ∨ s = 8)
    (hj : j < v.length / s * s) :
    rd (and_scalar s v 0xff) j = if j % s = 0 then rd v j else 0 := by
  unfold and_scalar
  rw [rd_mapLanes _ _ _ _ hj]
  have h255 : ∀ x : Nat, x &&& 255 = x % 256 := fun x => Nat.and_pow_two_sub_one_eq_mod x 8
  rw [h255]
  have hsp : 0 < s := by omega
  by_cases h0 : j % s = 0
  · rw [if_pos h0, h0]
    have := byte_of_lane s v (j / s) 0 hs hsp
    simp only [Nat.pow_zero, Nat.div_one, Nat.add_zero] at this ⊢
    have hj2 : j / s * s = j := by have := div_mul_add_mod j s; omega
    rw [hj2] at this
    rw [← this]
    apply Fin.ext
    simp [val_byteOf]
  · rw [if_neg h0]
    obtain ⟨d, hd⟩ : ∃ d, j % s = d + 1 := ⟨j % s - 1, by omega⟩
    apply Fin.ext
    rw [val_byteOf, hd, pow_succ]
    have : lane s v (j / s) % 256 / (256 ^ d * 256) = 0 := by
      apply Nat.div_eq_of_lt
      calc lane s v (j / s) % 256 < 256 := Nat.mod_lt _ (by norm_num)
        _ ≤ 256 ^ d * 256 := Nat.le_mul_of_pos_left _ (by positivity)
    rw [this]
    rfl

theorem length_and_scalar (s n : Nat) (v : Reg) :
    (and_scalar s v n).length = v.length / s * s := length_mapLanes _ _ _

theorem rd_vor (a b : Reg) (j : Nat) (hj : j < a.length) :
    rd (vor a b) j = byteOf ((rd a j).val ||| (rd b j).val) := by
  simp [vor, rd_mk, hj]

theorem rd_vand (a b : Reg) (j : Nat) (hj : j < a.length) :
    rd (vand a b) j = byteOf ((rd a j).val &&& (rd b j).val) := by
  simp [vand, rd_mk, hj]

theorem length_vor (a b : Reg) : (vor a b).length = a.length := by simp [vor, length_mk]

theorem length_vand (a b : Reg) : (vand a b).length = a.length := by simp [vand, length_mk]

theorem byteOf_or_zero (b : Byte) : byteOf (b.val ||| (0 : Byte).val) = b := by
  simp [byteOf_val]

theorem byteOf_zero_or (b : Byte) : byteOf ((0 : Byte).val ||| b.val) = b := by
  simp [byteOf_val]

theorem byteOf_and_ff (b : Byte) : byteOf (b.val &&& (255 : Byte).val) = b := by
  have h255 : ∀ x : Nat, x &&& 255 = x % 256 := fun x => Nat.and_pow_two_sub_one_eq_mod x 8
  apply Fin.ext
  have : ((255 : Byte)).val = 255 := rfl
  rw [this, h255, val_byteOf]
  have := b.isLt
  omega

theorem byteOf_and_zero (b : Byte) : byteOf (b.val &&& (0 : Byte).val) = 0 := by
  apply Fin.ext
  simp [val_byteOf]

theorem byteOf_zero : byteOf 0 = 0 := rfl


/-! ## Lanes of lane-wise built registers -/

theorem rd_ofLanes_at (s n : Nat) (f : Nat → Nat) (i k : Nat) (hk : k < s) (hi : i < n) :
    (rd (ofLanes s n f) (i * s + k)).val = f i / 256 ^ k % 256 := by
  have hb : i * s + k < n * s := by
    have : (i + 1) * s ≤ n * s := Nat.mul_le_mul_right _ hi
    rw [Nat.add_mul, Nat.one_mul] at this
    omega
  have h1 : (i * s + k) % s = k := by
    rw [Nat.add_comm, Nat.add_mul_mod_self_right, Nat.mod_eq_of_lt hk]
  have h2 : (i * s + k) / s = i := by
    rw [Nat.add_comm, Nat.add_mul_div_right _ _ (by omega), Nat.div_eq_of_lt hk, Nat.zero_add]
  rw [rd_ofLanes _ _ _ _ hb, h1, h2, val_byteOf]

theorem digits4 (y : Nat) : y % 256 + y / 256 % 256 * 256 + y / 65536 % 256 * 65536
    + y / 16777216 % 256 * 16777216 = y % 4294967296 := by omega

theorem digits8 (y : Nat) : y % 256 + y / 256 % 256 * 256
      + y / 65536 % 256 * 65536 + y / 16777216 % 256 * 16777216
      + y / 4294967296 % 256 * 4294967296 + y / 1099511627776 % 256 * 1099511627776
      + y / 281474976710656 % 256 * 281474976710656
      + y / 72057594037927936 % 256 * 72057594037927936 = y % 18446744073709551616 := by
  have h1 := digits4 y
  have h2 := digits4 (y / 4294967296)
  have e5 : y / 4294967296 / 256 = y / 1099511627776 := by omega
  have e6 : y / 4294967296 / 65536 = y / 281474976710656 := by omega
  have e7 : y / 4294967296 / 16777216 = y / 72057594037927936 := by omega
  rw [e5, e6, e7] at h2
  omega

/-- A lane whose bytes are the base-256 digits of `y`. -/
theorem lane_of_digits (s : Nat) (v : Reg) (i y : Nat)
    (hs : s = 1 ∨ s = 2 ∨ s = 4 ∨ s = 8)
    (e : ∀ k, k < s → (rd v (i * s + k)).val = y / 256 ^ k % 256) :
    lane s v i = y % 2 ^ (8 * s) := by
  rcases hs with hs | hs | hs | hs <;> subst hs
  · have e0 := e 0 (by decide)
    simp only [Nat.add_zero, Nat.mul_one] at e0
    rw [lane_1, e0]
    simp
  · have e0 := e 0 (by decide)
    have e1 := e 1 (by decide)
    simp only [Nat.add_zero] at e0
    rw [lane_2, e0, e1]
    simp only [Nat.reducePow, Nat.reduceMul, Nat.div_one]
    omega
  · have e0 := e 0 (by decide)
    have e1 := e 1 (by decide)
    have e2 := e 2 (by decide)
    have e3 := e 3 (by decide)
    simp only [Nat.add_zero] at e0
    rw [lane_4, e0, e1, e2, e3]
    simp only [Nat.reducePow, Nat.reduceMul, Nat.div_one]
    exact digits4 y
  · have e0 := e 0 (by decide)
    have e1 := e 1 (by decide)
    have e2 := e 2 (by decide)
    have e3 := e 3 (by decide)
    have e4 := e 4 (by decide)
    have e5 := e 5 (by decide)
    have e6 := e 6 (by decide)
    have e7 := e 7 (by decide)
    simp only [Nat.add_zero] at e0
    rw [lane_8, e0, e1, e2, e3, e4, e5, e6, e7]
    simp only [Nat.reducePow, Nat.reduceMul, Nat.div_one]
    exact digits8 y

theorem lane_ofLanes (s n : Nat) (f : Nat → Nat) (i : Nat)
    (hs : s = 1 ∨ s = 2 ∨ s = 4 ∨ s = 8) (hi : i < n) :
    lane s (ofLanes s n f) i = f i % 2 ^ (8 * s) :=
  lane_of_digits s _ i (f i) hs fun k hk => rd_ofLanes_at s n f i k hk hi


/-! ## Byte routing of the shuffles -/

theorem rd_unpack (w : Nat) (hi : Bool) (a b : Reg) (j : Nat) (hj : j < a.length) :
    rd (unpack w hi a b) j =
      rd (if j % 16 / w % 2 = 0 then a else b)
        (j / 16 * 16 + (j % 16 / w / 2 + if hi then 8 / w else 0) * w + j % w) := by
  simp only [unpack, rd_mk_lt hj]
  split <;> rfl

theorem length_unpack (w : Nat) (hi : Bool) (a b : Reg) :
    (unpack w hi a b).length = a.length := by
  simp [unpack, length_mk]

theorem lane_append_lt (s : Nat) (a b : Reg) (i : Nat) (h : i * s + s ≤ a.length) :
    lane s (a ++ b) i = lane s a i := by
  apply lane_congr
  intro k hk
  exact rd_append_lt (by omega)

theorem lane_append_ge (s : Nat) (a b : Reg) (n i : Nat) (h : a.length = n * s) :
    lane s (a ++ b) (n + i) = lane s b i := by
  apply lane_congr
  intro k hk
  rw [rd_append_ge (by rw [h, Nat.add_mul]; omega)]
  congr 1
  rw [h, Nat.add_mul]
  omega

theorem sign_fill_val (b : Byte) : (sign_fill b).val = if 128 ≤ b.val then 255 else 0 := by
  unfold sign_fill
  split <;> rfl

theorem length_srai (s n : Nat) (v : Reg) : (srai s v n).length = v.length / s * s :=
  length_mapLanes _ _ _

/-- The bytes of an arithmetic right shift, for the lane widths and counts that occur. -/
theorem rd_srai (s k : Nat) (a : Reg) (j : Nat)
    (hsk : (s = 2 ∧ (k = 8 ∨ k = 15)) ∨ (s = 4 ∧ (k = 16 ∨ k = 24 ∨ k = 31)))
    (hj : j < a.length / s * s) :
    rd (srai s a k) j =
      if j % s + (k + 1) / 8 < s then rd a (j + (k + 1) / 8)
      else sign_fill (rd a (j / s * s + (s - 1))) := by
  unfold srai
  rw [rd_mapLanes _ _ _ _ hj]
  have hs0 : 0 < s := by omega
  obtain ⟨i, p, hp, rfl⟩ : ∃ i p, p < s ∧ j = i * s + p :=
    ⟨j / s, j % s, Nat.mod_lt _ hs0, (div_mul_add_mod j s).symm⟩
  have h1 : (i * s + p) % s = p := by
    rw [Nat.add_comm, Nat.add_mul_mod_self_right, Nat.mod_eq_of_lt hp]
  have h2 : (i * s + p) / s = i := by
    rw [Nat.add_comm, Nat.add_mul_div_right _ _ hs0, Nat.div_eq_of_lt hp, Nat.zero_add]
  rw [h1, h2]
  apply Fin.ext
  rw [val_byteOf]
  rcases hsk with ⟨hs, hk⟩ | ⟨hs, hk⟩ <;> subst hs
  · have b0 := (rd a (i * 2)).isLt
    have b1 := (rd a (i * 2 + 1)).isLt
    rcases hk with hk | hk <;> subst hk <;> interval_cases p <;>
      simp only [sar, lane_2, Nat.reduceMul, Nat.reduceSub, Nat.reducePow, Nat.reduceAdd,
        Nat.reduceDiv, Nat.reduceLT, if_true, if_false, Nat.add_zero,
        Nat.div_one, sign_fill_val, Nat.add_assoc, apply_ite Fin.val, Nat.min_def,
        Nat.reduceLeDiff, ↓reduceIte] <;>
      split_ifs <;> omega
  · have b0 := (rd a (i * 4)).isLt
    have b1 := (rd a (i * 4 + 1)).isLt
    have b2 := (rd a (i * 4 + 2)).isLt
    have b3 := (rd a (i * 4 + 3)).isLt
    rcases hk with hk | hk | hk <;> subst hk <;> interval_cases p <;>
      simp only [sar, lane_4, Nat.reduceMul, Nat.reduceSub, Nat.reducePow, Nat.reduceAdd,
        Nat.reduceDiv, Nat.reduceLT, if_true, if_false, Nat.add_zero,
        Nat.div_one, sign_fill_val, Nat.add_assoc, apply_ite Fin.val, Nat.min_def,
        Nat.reduceLeDiff, ↓reduceIte] <;>
      split_ifs <;> omega

theorem rd_setr_epi8 (bs : List Nat) (j : Nat) : rd (setr_epi8 bs) j = byteOf (bs.getD j 0) := by
  unfold rd setr_epi8
  simp only [List.getD_eq_getElem?_getD, List.getElem?_map]
  cases bs[j]? <;> rfl

theorem length_setr_epi8 (bs : List Nat) : (setr_epi8 bs).length = bs.length := by
  simp [setr_epi8]

theorem rd_shuffle_epi8 (a m : Reg) (j : Nat) (hj : j < a.length) :
    rd (shuffle_epi8 a m) j =
      rd (if 128 ≤ (rd m j).val then [] else a) (j / 16 * 16 + (rd m j).val % 16) := by
  simp only [shuffle_epi8, rd_mk_lt hj]
  split <;> rfl

theorem length_shuffle_epi8 (a m : Reg) : (shuffle_epi8 a m).length = a.length := by
  simp [shuffle_epi8, length_mk]

theorem rd_shuffle_ps (a b : Reg) (imm j : Nat) (hj : j < a.length) :
    rd (shuffle_ps a b imm) j =
      rd (if j % 16 / 4 < 2 then a else b)
        (j / 16 * 16 + field imm (2 * (j % 16 / 4)) 2 * 4 + j % 4) := by
  simp only [shuffle_ps, rd_mk_lt hj]
  split <;> rfl

theorem length_shuffle_ps (a b : Reg) (i : Nat) : (shuffle_ps a b i).length = a.length := by
  simp [shuffle_ps, length_mk]

theorem rd_shuffle_epi32 (a : Reg) (imm j : Nat) (hj : j < a.length) :
    rd (shuffle_epi32 a imm) j =
      rd a (j / 16 * 16 + field imm (2 * (j % 16 / 4)) 2 * 4 + j % 4) := by
  simp only [shuffle_epi32, rd_mk_lt hj]

theorem length_shuffle_epi32 (a : Reg) (i : Nat) : (shuffle_epi32 a i).length = a.length := by
  simp [shuffle_epi32, length_mk]

theorem rd_permute4x64 (a : Reg) (imm j : Nat) (hj : j < 32) :
    rd (_mm256_permute4x64_epi64 a imm) j = rd a (field imm (2 * (j / 8)) 2 * 8 + j % 8) := by
  simp only [_mm256_permute4x64_epi64, rd_mk_lt hj]

theorem length_permute4x64 (a : Reg) (i : Nat) :
    (_mm256_permute4x64_epi64 a i).length = 32 := by
  simp [_mm256_permute4x64_epi64, length_mk]

theorem rd_permutevar8x32 (a idx : Reg) (j : Nat) (hj : j < 32) :
    rd (_mm256_permutevar8x32_epi32 a idx) j = rd a (lane 4 idx (j / 4) % 8 * 4 + j % 4) := by
  simp only [_mm256_permutevar8x32_epi32, rd_mk_lt hj]

theorem length_permutevar8x32 (a idx : Reg) :
    (_mm256_permutevar8x32_epi32 a idx).length = 32 := by
  simp [_mm256_permutevar8x32_epi32, length_mk]

theorem rd_blend_epi16 (a b : Reg) (imm j : Nat) (hj : j < a.length) :
    rd (blend_epi16 a b imm) j = rd (if bit imm (j % 16 / 2) then b else a) j := by
  simp only [blend_epi16, rd_mk_lt hj]
  split <;> rfl

theorem length_blend_epi16 (a b : Reg) (i : Nat) : (blend_epi16 a b i).length = a.length := by
  simp [blend_epi16, length_mk]

theorem rd_blend_epi32 (a b : Reg) (imm j : Nat) (hj : j < 32) :
    rd (_mm256_blend_epi32 a b imm) j = rd (if bit imm (j / 4) then b else a) j := by
  simp only [_mm256_blend_epi32, rd_mk_lt hj]
  split <;> rfl

theorem length_blend_epi32 (a b : Reg) (i : Nat) : (_mm256_blend_epi32 a b i).length = 32 := by
  simp [_mm256_blend_epi32, length_mk]

theorem rd_slli_si128 (a : Reg) (n j : Nat) (hj : j < 16) :
    rd (_mm_slli_si128 a n) j = rd (if n ≤ j ∧ n ≤ 15 then a else []) (j - n) := by
  simp only [_mm_slli_si128, rd_mk_lt hj]
  split <;> rfl

theorem length_slli_si128 (a : Reg) (n : Nat) : (_mm_slli_si128 a n).length = 16 := by
  simp [_mm_slli_si128, length_mk]

theorem rd_extract (o p : Nat) (x : Reg) (j : Nat) (hj : j < x.length / p) :
    rd (extract o p x) j = rd x (o * (x.length / p) + j) := by
  simp only [extract, rd_mk_lt hj]

theorem length_extract (o p : Nat) (x : Reg) : (extract o p x).length = x.length / p := by
  simp [extract, length_mk]

theorem rd_lo128 (x : Reg) (j : Nat) (hj : j < 16) (hx : 16 ≤ x.length) (h16 : x.length % 16 = 0) :
    rd (lo128 x) j = rd x j := by
  unfold lo128
  have : x.length / (x.length / 16) = 16 := by
    obtain ⟨k, hk⟩ : ∃ k, x.length = 16 * k := ⟨x.length / 16, by omega⟩
    rw [hk, Nat.mul_div_cancel_left _ (by decide : 0 < 16)]
    have hk0 : 0 < k := by omega
    rw [Nat.mul_comm, Nat.mul_div_cancel_left _ hk0]
  rw [rd_extract _ _ _ _ (by omega)]
  simp

theorem length_lo128 (x : Reg) (hx : 16 ≤ x.length) (h16 : x.length % 16 = 0) :
    (lo128 x).length = 16 := by
  unfold lo128
  rw [length_extract]
  obtain ⟨k, hk⟩ : ∃ k, x.length = 16 * k := ⟨x.length / 16, by omega⟩
  rw [hk, Nat.mul_div_cancel_left _ (by decide : 0 < 16)]
  have hk0 : 0 < k := by omega
  rw [Nat.mul_comm, Nat.mul_div_cancel_left _ hk0]

theorem rd_xzyw (a : Reg) (j : Nat) (hj : j < a.length) :
    rd (xzyw a) j =
      rd a (if j / (a.length / 4) = 1 then j + a.length / 4
        else if j / (a.length / 4) = 2 then j - a.length / 4 else j) := by
  simp only [xzyw, rd_mk_lt hj]
  split_ifs <;> rfl

theorem length_xzyw (a : Reg) : (xzyw a).length = a.length := by
  simp [xzyw, length_mk]

theorem rd_cvt_down (s u : Nat) (a : Reg) (j : Nat) (hj : j < a.length / s * u) :
    rd (cvt_down s u a) j = rd a (j / u * s + j % u) := by
  unfold cvt_down
  rw [rd_mk_lt (by omega), if_pos hj]

theorem length_cvt_down (s u : Nat) (a : Reg) :
    (cvt_down s u a).length = max 16 (a.length / s * u) := by
  simp [cvt_down, length_mk]

theorem rd_cvt_up (sg : Bool) (s u n : Nat) (a : Reg) (j : Nat) (hj : j < n) :
    rd (cvt_up sg s u n a) j =
      if j % u < s then rd a (j / u * s + j % u)
      else if sg then sign_fill (rd a (j / u * s + (s - 1))) else 0 := by
  simp only [cvt_up, rd_mk_lt hj]

theorem length_cvt_up (sg : Bool) (s u n : Nat) (a : Reg) : (cvt_up sg s u n a).length = n := by
  simp [cvt_up, length_mk]

theorem rd_set1_epi32 (n x j : Nat) (hj : j < n / 4 * 4) :
    rd (set1_epi32 n x) j = byteOf (x / 256 ^ (j % 4)) := by
  unfold set1_epi32
  rw [rd_ofLanes _ _ _ _ hj]

theorem length_set1_epi32 (n x : Nat) : (set1_epi32 n x).length = n / 4 * 4 := by
  simp [set1_epi32, length_ofLanes]

theorem rd_cvtsi32 (x j : Nat) (hj : j < 16) :
    rd (_mm_cvtsi32_si128 x) j = byteOf ((if j / 4 = 0 then x else 0) / 256 ^ (j % 4)) := by
  unfold _mm_cvtsi32_si128
  rw [rd_ofLanes _ _ _ _ (by omega)]

theorem rd_m128i_of (a b j : Nat) (hj : j < 16) :
    rd (m128i_of a b) j = byteOf ((if j / 8 = 0 then a else b) / 256 ^ (j % 8)) := by
  unfold m128i_of
  rw [rd_ofLanes _ _ _ _ (by omega)]

theorem lane4_setr_epi32 (ds : List Nat) (i : Nat) (hi : i < ds.length) :
    lane 4 (setr_epi32 ds) i = ds.getD i 0 % 4294967296 := by
  unfold setr_epi32
  rw [lane_ofLanes 4 _ _ i (by decide) hi]
  rfl

/-! ## Results of the casts between vector types -/

theorem rd_append (a b : Reg) (j : Nat) :
    rd (a ++ b) j = if j < a.length then rd a j else rd b (j - a.length) := by
  split
  · exact rd_append_lt (by assumption)
  · exact rd_append_ge (by omega)

theorem intrin_bitcast_ok (c : Cfg) (n : Nat) (v r : Reg) (h : intrin_bitcast c n v = .ok r) :
    r.length = n ∧ ∀ j, j < n → j < v.length → rd r j = rd v j := by
  unfold intrin_bitcast at h
  split_ifs at h with h1 h2 h3
  · simp only [Except.ok.injEq] at h
    subst h
    exact ⟨h1.symm, fun _ _ _ => rfl⟩
  · simp only [Except.ok.injEq] at h
    subst h
    exact ⟨length_mk _ _, fun j hj _ => rd_mk_lt hj⟩
  · simp only [Except.ok.injEq] at h
    subst h
    refine ⟨length_mk _ _, fun j hj hv => ?_⟩
    rw [rd_mk_lt hj, if_pos hv]

theorem zero_extend_ok (n : Nat) (x r : Reg) (h : zero_extend n x = .ok r) :
    r.length = n ∧ (∀ j, j < n → j < x.length → rd r j = rd x j) := by
  unfold zero_extend at h
  split_ifs at h with h1
  · simp only [Except.ok.injEq] at h
    subst h
    refine ⟨length_mk _ _, fun j hj hv => ?_⟩
    rw [rd_mk_lt hj, if_pos hv]

theorem hi128_eq (x : Reg) (h : x.length = 32) : hi128 x = .ok (extract 1 2 x) := by
  simp [hi128, h]

theorem lo256_eq (x : Reg) (h : x.length = 64) : lo256 x = .ok (extract 0 2 x) := by
  simp [lo256, h]

theorem intrin_bitcast_same (c : Cfg) (n : Nat) (v : Reg) (h : v.length = n) :
    intrin_bitcast c n v = .ok v := by
  simp [intrin_bitcast, h]

theorem bind_ok {α β : Type} (x : Except Err α) (f : α → Except Err β) (r : β)
    (h : (x >>= f) = .ok r) : ∃ a, x = .ok a ∧ f a = .ok r := by
  cases x with
  | error e => exact absurd h (by simp [bind, Except.bind])
  | ok a => exact ⟨a, rfl, h⟩

theorem ite_eq_cases {α : Type} {p : Prop} [Decidable p] {a b x : α} (h : ite p a b = x) :
    (p ∧ a = x) ∨ (¬ p ∧ b = x) := by
  by_cases hp : p
  · left; exact ⟨hp, by rwa [if_pos hp] at h⟩
  · right; exact ⟨hp, by rwa [if_neg hp] at h⟩

theorem byteOf_and_255 (b : Byte) : byteOf (b.val &&& 255) = b := byteOf_and_ff b

theorem ite_eq_cases_acc {α : Type} {p q : Prop} [Decidable p] {a b x : α} (hq : q)
    (h : ite p a b = x) : (p ∧ q ∧ a = x) ∨ ((¬ p ∧ q) ∧ b = x) := by
  by_cases hp : p
  · left; exact ⟨hp, hq, by rwa [if_pos hp] at h⟩
  · right; exact ⟨⟨hp, hq⟩, by rwa [if_neg hp] at h⟩
/-! ## Bytes of a lane-wise cast and lanes of a byte-wise one -/

theorem cast_byte_at (T U : ElemTy) (v : Reg) (i k : Nat) (hk : k < U.size) :
    cast_byte T U v (i * U.size + k) =
      if k < T.size then rd v (i * T.size + k)
      else if T.signed then sign_fill (rd v (i * T.size + (T.size - 1))) else 0 := by
  unfold cast_byte
  have h1 : (i * U.size + k) % U.size = k := by
    rw [Nat.add_comm, Nat.add_mul_mod_self_right, Nat.mod_eq_of_lt hk]
  have h2 : (i * U.size + k) / U.size = i := by
    rw [Nat.add_comm, Nat.add_mul_div_right _ _ (by omega), Nat.div_eq_of_lt hk, Nat.zero_add]
  rw [h1, h2]

set_option maxHeartbeats 1000000 in
theorem lane_of_cast_bytes (T U : ElemTy) (r v : Reg) (i : Nat) (hT : T.valid) (hU : U.valid)
    (h : ∀ k, k < U.size → rd r (i * U.size + k) = cast_byte T U v (i * U.size + k)) :
    lane U.size r i = static_cast T U (lane T.size v i) := by
  obtain ⟨sT, gT⟩ := T
  obtain ⟨sU, gU⟩ := U
  simp only [ElemTy.valid] at hT hU
  simp only at h ⊢
  have h' : ∀ k, k < sU → rd r (i * sU + k) = if k < sT then rd v (i * sT + k)
      else if gT then sign_fill (rd v (i * sT + (sT - 1))) else 0 := by
    intro k hk
    rw [h k hk]
    exact cast_byte_at ⟨sT, gT⟩ ⟨sU, gU⟩ v i k hk
  clear h
  rcases hT with hT | hT | hT | hT <;> rcases hU with hU | hU | hU | hU <;> subst hT <;> subst hU
  all_goals
    have e0 := h' 0 (by norm_num)
    have e1 := h' 1
    have e2 := h' 2
    have e3 := h' 3
    have e4 := h' 4
    have e5 := h' 5
    have e6 := h' 6
    have e7 := h' 7
    clear h'
    simp only [Nat.add_zero, Nat.lt_irrefl, Nat.reduceLT, if_true, if_false, forall_true_left,
      Nat.reduceAdd, Nat.reduceSub, Nat.reduceMul, false_implies, true_implies, Nat.one_lt_ofNat,
      Nat.zero_lt_one, Nat.lt_one_iff, OfNat.ofNat_ne_zero, Nat.zero_lt_succ, zero_lt_one,
      Nat.ofNat_pos, not_false_eq_true, one_ne_zero, OfNat.ofNat_ne_one, OfNat.zero_ne_ofNat,
      Nat.mul_one, ↓reduceIte] at e0 e1 e2 e3 e4 e5 e6 e7
    simp only [lane_1, lane_2, lane_4, lane_8, Nat.mul_one, static_cast, ElemTy.ofInt,
      ElemTy.toInt, ElemTy.bits, Nat.reduceMul, Nat.reduceSub, Nat.reducePow]
    rcases Bool.eq_false_or_eq_true gT with hg | hg <;> subst hg <;>
    simp only [e0, e1, e2, e3, e4, e5, e6, e7, Bool.false_eq_true, if_false, if_true, and_true,
      false_and, true_and, sign_fill, Nat.add_sub_cancel, ↓reduceIte, Nat.reduceAdd,
      Nat.reduceSub, Fin.val_zero] <;>
    (try split_ifs) <;> (try simp only [Fin.val_zero, Fin.isValue, Nat.reducePow, Nat.cast_add, Nat.cast_mul, Nat.cast_ofNat]) <;>
    (try omega)

/-- Byte `k` of `static_cast<U>(v[i])`. -/
theorem byte_static_cast (T U : ElemTy) (v : Reg) (i k : Nat) (hT : T.valid) (hU : U.valid)
    (hk : k < U.size) :
    byteOf (static_cast T U (lane T.size v i) / 256 ^ k) = cast_byte T U v (i * U.size + k) := by
  have hb : i * U.size + k < (i + 1) * U.size := by rw [Nat.add_mul, Nat.one_mul]; omega
  have hl := lane_of_cast_bytes T U (mk ((i + 1) * U.size) fun j => cast_byte T U v j) v i hT hU
    (fun k2 hk2 => rd_mk_lt (by rw [Nat.add_mul, Nat.one_mul]; omega))
  rw [← hl, byte_of_lane _ _ _ _ hU hk, rd_mk_lt hb]

theorem cast_byte_congr (T U : ElemTy) (v w : Reg) (j : Nat) (hT : 0 < T.size)
    (h : ∀ x, x < (j / U.size + 1) * T.size → rd v x = rd w x) :
    cast_byte T U v j = cast_byte T U w j := by
  unfold cast_byte
  have hm : (j / U.size + 1) * T.size = j / U.size * T.size + T.size := by
    rw [Nat.add_mul, Nat.one_mul]
  split_ifs with h1 h2
  · exact h _ (by omega)
  · rw [h _ (by omega)]
  · rfl

/-! ## Braced initialisation and the horizontal add -/

theorem length_init4 (T U : ElemTy) (tb : Nat) (v0 v1 : Reg) :
    (init4 T U tb v0 v1).length = tb / U.size * U.size := by
  simp [init4, length_ofLanes]

theorem rd_init4 (T U : ElemTy) (tb : Nat) (v0 v1 : Reg) (j : Nat) (hT : T.size = 8)
    (hU : U.size = 1 ∨ U.size = 2 ∨ U.size = 4 ∨ U.size = 8) (hv : v0.length = 16)
    (hj : j < 4 * U.size) (htb : 4 ≤ tb / U.size) :
    rd (init4 T U tb v0 v1) j = cast_byte T U (v0 ++ v1) j := by
  have hTv : T.valid := Or.inr (Or.inr (Or.inr hT))
  have hup : 0 < U.size := by omega
  have hjm : j % U.size < U.size := Nat.mod_lt _ hup
  have hjd : j / U.size < 4 := (Nat.div_lt_iff_lt_mul hup).mpr hj
  have hjb : j < tb / U.size * U.size :=
    Nat.lt_of_lt_of_le hj (Nat.mul_le_mul_right _ htb)
  have hrec : j / U.size * U.size + j % U.size = j := div_mul_add_mod j U.size
  unfold init4
  rw [rd_ofLanes _ _ _ _ hjb]
  have key : ∀ i, i < 4 → (if i = 0 then static_cast T U (lane T.size v0 0)
      else if i = 1 then static_cast T U (lane T.size v0 1)
      else if i = 2 then static_cast T U (lane T.size v1 0)
      else if i = 3 then static_cast T U (lane T.size v1 1)
      else 0) = static_cast T U (lane T.size (v0 ++ v1) i) := by
    intro i hi
    have l0 : lane T.size (v0 ++ v1) 0 = lane T.size v0 0 :=
      lane_append_lt _ _ _ _ (by rw [hT, hv] <;> decide)
    have l1 : lane T.size (v0 ++ v1) 1 = lane T.size v0 1 :=
      lane_append_lt _ _ _ _ (by rw [hT, hv] <;> decide)
    have l2 : lane T.size (v0 ++ v1) (2 + 0) = lane T.size v1 0 :=
      lane_append_ge _ _ _ 2 0 (by rw [hT, hv])
    have l3 : lane T.size (v0 ++ v1) (2 + 1) = lane T.size v1 1 :=
      lane_append_ge _ _ _ 2 1 (by rw [hT, hv])
    interval_cases i
    · rw [if_pos rfl, l0]
    · rw [if_neg (by decide), if_pos rfl, l1]
    · rw [if_neg (by decide), if_neg (by decide), if_pos rfl, ← l2]
    · rw [if_neg (by decide), if_neg (by decide), if_neg (by decide), if_pos rfl, ← l3]
  rw [key _ hjd, byte_static_cast T U _ _ _ hTv hU hjm, hrec]

theorem length_hadd_epi16 (a b : Reg) : (_mm_hadd_epi16 a b).length = 16 := by
  simp [_mm_hadd_epi16, length_ofLanes]

set_option maxHeartbeats 1000000 in
theorem rd_hadd_shl (a b : Reg) (j : Nat) (ha : a.length = 16) (hb : b.length = 16)
    (hj : j < 16) :
    rd (_mm_hadd_epi16 (shl_scalar 4 a 16) (shl_scalar 4 b 16)) j =
      rd (if j < 8 then a else b) (j % 8 / 2 * 4 + j % 2) := by
  have hs : (4 : Nat) = 1 ∨ (4 : Nat) = 2 ∨ (4 : Nat) = 4 ∨ (4 : Nat) = 8 := by decide
  have ra : ∀ x, x < 16 → rd (shl_scalar 4 a 16) x = if x % 4 < 2 then 0 else rd a (x - 2) :=
    fun x hx => rd_shl_scalar 4 16 a x hs (by decide) (by rw [ha]; exact hx)
  have rb : ∀ x, x < 16 → rd (shl_scalar 4 b 16) x = if x % 4 < 2 then 0 else rd b (x - 2) :=
    fun x hx => rd_shl_scalar 4 16 b x hs (by decide) (by rw [hb]; exact hx)
  unfold _mm_hadd_epi16
  rw [rd_ofLanes _ _ _ _ (by omega)]
  apply Fin.ext
  rw [val_byteOf]
  interval_cases j <;>
    simp only [lane_2, Nat.reduceMul, Nat.reduceAdd, Nat.reduceDiv, Nat.reduceMod, Nat.reduceSub,
      Nat.reduceLT, ↓reduceIte, Nat.reducePow, Nat.div_one, ra _ (by decide : (0:Nat) < 16),
      ra _ (by decide : (1:Nat) < 16), ra _ (by decide : (2:Nat) < 16),
      ra _ (by decide : (3:Nat) < 16), ra _ (by decide : (4:Nat) < 16),
      ra _ (by decide : (5:Nat) < 16), ra _ (by decide : (6:Nat) < 16),
      ra _ (by decide : (7:Nat) < 16), ra _ (by decide : (8:Nat) < 16),
      ra _ (by decide : (9:Nat) < 16), ra _ (by decide : (10:Nat) < 16),
      ra _ (by decide : (11:Nat) < 16), ra _ (by decide : (12:Nat) < 16),
      ra _ (by decide : (13:Nat) < 16), ra _ (by decide : (14:Nat) < 16),
      ra _ (by decide : (15:Nat) < 16), rb _ (by decide : (0:Nat) < 16),
      rb _ (by decide : (1:Nat) < 16), rb _ (by decide : (2:Nat) < 16),
      rb _ (by decide : (3:Nat) < 16), rb _ (by decide : (4:Nat) < 16),
      rb _ (by decide : (5:Nat) < 16), rb _ (by decide : (6:Nat) < 16),
      rb _ (by decide : (7:Nat) < 16), rb _ (by decide : (8:Nat) < 16),
      rb _ (by decide : (9:Nat) < 16), rb _ (by decide : (10:Nat) < 16),
      rb _ (by decide : (11:Nat) < 16), rb _ (by decide : (12:Nat) < 16),
      rb _ (by decide : (13:Nat) < 16), rb _ (by decide : (14:Nat) < 16),
      rb _ (by decide : (15:Nat) < 16), Fin.val_zero, Nat.zero_add, Nat.zero_mul,
      Nat.add_zero] <;>
    omega

/-! ## Bits of numbers -/

theorem bit_eq_testBit (x i : Nat) : bit x i = x.testBit i := by
  simp [bit, Nat.testBit_to_div_mod]

theorem bitsOf_succ (n : Nat) (f : Nat → Bool) :
    bitsOf (n + 1) f = bitsOf n f + (if f n then 2 ^ n else 0) := by
  simp [bitsOf, List.range_succ]

theorem bitsOf_lt (n : Nat) (f : Nat → Bool) : bitsOf n f < 2 ^ n := by
  induction n with
  | zero => simp [bitsOf]
  | succ n ih =>
    rw [bitsOf_succ, Nat.pow_succ]
    split <;> omega

theorem testBit_bitsOf (n : Nat) (f : Nat → Bool) (i : Nat) :
    (bitsOf n f).testBit i = (decide (i < n) && f i) := by
  induction n with
  | zero => simp [bitsOf]
  | succ n ih =>
    rw [bitsOf_succ]
    have hlt := bitsOf_lt n f
    by_cases hf : f n
    · simp only [hf, if_true]
      rw [Nat.add_comm]
      rcases Nat.lt_trichotomy i n with h | h | h
      · rw [Nat.testBit_two_pow_add_gt h, ih]
        simp [h, Nat.lt_succ_of_lt h]
      · subst h
        rw [Nat.testBit_two_pow_add_eq, Nat.testBit_lt_two_pow hlt]
        simp [hf]
      · have h1 : 2 ^ n + bitsOf n f < 2 ^ i := by
          have : 2 ^ (n + 1) ≤ 2 ^ i := Nat.pow_le_pow_right (by decide) h
          rw [Nat.pow_succ] at this
          omega
        rw [Nat.testBit_lt_two_pow h1]
        have : ¬ i < n + 1 := by omega
        simp [this]
    · simp only [hf, Bool.false_eq_true, if_false, Nat.add_zero, ih]
      by_cases h : i = n
      · subst h
        simp [hf]
      · have : (i < n + 1) = (i < n) := by
          apply propext
          omega
        simp [this]

theorem bit_bitsOf (n : Nat) (f : Nat → Bool) (i : Nat) :
    bit (bitsOf n f) i = (decide (i < n) && f i) := by
  rw [bit_eq_testBit, testBit_bitsOf]

theorem bit_mod_two_pow (x w i : Nat) : bit (x % 2 ^ w) i = (decide (i < w) && bit x i) := by
  simp [bit_eq_testBit]

theorem bit_div_two_pow (x w i : Nat) : bit (x / 2 ^ w) i = bit x (w + i) := by
  simp only [bit_eq_testBit, ← Nat.shiftRight_eq_div_pow, Nat.testBit_shiftRight]

theorem find_range_first (p : Nat → Bool) (w i : Nat) (hi : i < w) (h1 : p i = true)
    (h0 : ∀ j, j < i → p j = false) : (List.range w).find? p = some i := by
  induction w with
  | zero => omega
  | succ w ih =>
    rw [List.range_succ, List.find?_append]
    by_cases h : i < w
    · rw [ih h]
      rfl
    · have hw : i = w := by omega
      subst hw
      have hn : (List.range i).find? p = none := by
        rw [List.find?_eq_none]
        intro x hx
        simp [h0 x (List.mem_range.mp hx)]
      rw [hn]
      simp [h1]

theorem ctz_first (w x i : Nat) (hi : i < w) (h1 : bit x i = true)
    (h0 : ∀ j, j < i → bit x j = false) : ctz w x = i := by
  unfold ctz
  rw [find_range_first (fun i => bit x i) w i hi h1 h0]
  rfl

theorem firstbit_first (c : RCfg) (x i : Nat) (hi : i < 64) (h1 : bit x i = true)
    (h0 : ∀ j, j < i → bit x j = false) : firstbit c 8 x = i := by
  unfold firstbit
  simp only [show ¬ (8 ≤ 4) by decide, if_false]
  split
  · exact ctz_first 64 x i hi h1 h0
  · by_cases h : i < 32
    · have hne : x % 2 ^ 32 ≠ 0 := by
        intro hz
        have := bit_mod_two_pow x 32 i
        rw [hz] at this
        simp [bit, h] at this
        simp [bit] at h1
        omega
      simp only [hne, if_false]
      apply ctz_first 32 _ i h
      · rw [bit_mod_two_pow]
        simp [h, h1]
      · intro j hj
        rw [bit_mod_two_pow, h0 j hj]
        simp
    · have hz : x % 2 ^ 32 = 0 := by
        apply Nat.eq_of_testBit_eq
        intro j
        rw [← bit_eq_testBit, bit_mod_two_pow]
        by_cases hj : j < 32
        · simp [h0 j (by omega)]
        · simp [hj]
      simp only [hz, if_true]
      have : ctz 32 (x / 2 ^ 32) = i - 32 := by
        apply ctz_first 32 _ (i - 32) (by omega)
        · rw [bit_div_two_pow]
          have : 32 + (i - 32) = i := by omega
          rw [this, h1]
        · intro j hj
          rw [bit_div_two_pow]
          exact h0 _ (by omega)
      rw [this]
      omega

/-! ## `__vector_to_bitset` and `__any_of` on well-formed masks -/

theorem bit_msb_mask (s : Nat) (x : Reg) (i : Nat) (hi : i < x.length / s) :
    bit (msb_mask s x) i = decide (128 ≤ (rd x (i * s + (s - 1))).val) := by
  simp [msb_mask, bit_bitsOf, hi]

theorem top_byte_of_lane_ok (s : Nat) (x : Reg) (i : Nat)
    (hs : s = 1 ∨ s = 2 ∨ s = 4 ∨ s = 8)
    (h : lane s x i = 0 ∨ lane s x i = 2 ^ (8 * s) - 1) :
    decide (128 ≤ (rd x (i * s + (s - 1))).val) = decide (lane s x i ≠ 0) := by
  rcases hs with hs | hs | hs | hs <;> subst hs <;>
    simp only [lane_1, lane_2, lane_4, lane_8, Nat.reduceMul, Nat.reducePow, Nat.reduceSub,
      Nat.mul_one, Nat.add_zero] at h ⊢ <;>
    rw [decide_eq_decide] <;> omega

theorem sat8_ok (x : Nat) (h : x = 0 ∨ x = 2 ^ (8 * 2) - 1) :
    decide (128 ≤ sat8 x % 256) = decide (x ≠ 0) := by
  rcases h with h | h <;> subst h <;> decide

theorem lane2_extract (o : Nat) (x : Reg) (k : Nat) (hx : x.length = 32) (hk : k < 8) :
    lane 2 (extract o 2 x) k = lane 2 x (o * 8 + k) := by
  have h1 : k * 2 < 16 := by omega
  have h2 : k * 2 + 1 < 16 := by omega
  simp only [lane_2, extract, hx, Nat.reduceDiv, rd_mk, h1, h2, if_true]
  have e1 : o * 16 + k * 2 = (o * 8 + k) * 2 := by omega
  have e2 : o * 16 + (k * 2 + 1) = (o * 8 + k) * 2 + 1 := by omega
  rw [e1, e2]

theorem vector_to_bitset_x86 (c : RCfg) (T : MaskTy) (x : Reg) (N : Nat)
    (hs : T.size = 1 ∨ T.size = 2 ∨ T.size = 4 ∨ T.size = 8)
    (hlen : (c.sse = true ∧ x.length = 16) ∨ (c.avx = true ∧ x.length = 32))
    (hN : N ≤ x.length / T.size) (hl : lanes_ok T.size N x) :
    ∃ b, vector_to_bitset c false T x = .ok b ∧
      ∀ i, i < N → bit b i = decide (lane T.size x i ≠ 0) := by
  have key : ∀ i, i < N →
      decide (128 ≤ (rd x (i * T.size + (T.size - 1))).val) = decide (lane T.size x i ≠ 0) :=
    fun i hi => top_byte_of_lane_ok T.size x i hs (hl i hi)
  have direct : ∀ i, i < N →
      bit (msb_mask T.size x % 2 ^ (x.length / T.size)) i = decide (lane T.size x i ≠ 0) := by
    intro i hi
    rw [bit_mod_two_pow, bit_msb_mask _ _ _ (by omega), key i hi]
    simp [show i < x.length / T.size by omega]
  rcases hlen with ⟨hc, hx⟩ | ⟨hc, hx⟩ <;> rcases hs with hs | hs | hs | hs
  all_goals simp only [vector_to_bitset, hc, hx, hs, Bool.false_eq_true, if_false, true_and,
    Nat.reduceEqDiff, and_self, and_true, and_false, if_true, false_and, Nat.reduceDiv,
    OfNat.ofNat_ne_one, one_ne_zero, reduceCtorEq]
  all_goals try (simp only [hx, hs] at direct; exact ⟨_, rfl, direct⟩)
  all_goals split
  all_goals try (simp only [hx, hs] at direct; exact ⟨_, rfl, direct⟩)
  all_goals
    refine ⟨_, rfl, ?_⟩
    intro i hi
    simp only [hx, hs, Nat.reduceDiv] at hN
    have hli := hl i hi
    rw [hs] at hli
    rw [bit_mod_two_pow, bit_msb_mask _ _ _ (by simp [_mm_packs_epi16, length_ofLanes]; omega)]
    simp only [_mm_packs_epi16, Nat.mul_one, Nat.sub_self, Nat.add_zero]
    rw [rd_ofLanes _ _ _ _ (by omega)]
    simp only [Nat.div_one, Nat.mod_one, Nat.pow_zero, val_byteOf, hs]
  · have : lane 2 (if i < 8 then x else zeros 16) (i % 8) = lane 2 x i := by
      rw [if_pos (by omega), Nat.mod_eq_of_lt (by omega)]
    rw [this, sat8_ok _ hli]
    simp [show i < 8 by omega]
  · have : lane 2 (if i < 8 then extract 0 2 x else extract 1 2 x) (i % 8) = lane 2 x i := by
      by_cases h8 : i < 8
      · rw [if_pos h8, Nat.mod_eq_of_lt h8, lane2_extract 0 x i hx h8]
        simp
      · rw [if_neg h8, lane2_extract 1 x (i % 8) hx (Nat.mod_lt _ (by decide))]
        congr 1
        omega
    rw [this, sat8_ok _ hli]
    simp [show i < 16 by omega]

theorem lane_bytes (s : Nat) (x : Reg) (i k : Nat) (hs : s = 1 ∨ s = 2 ∨ s = 4 ∨ s = 8)
    (h : lane s x i = 0 ∨ lane s x i = 2 ^ (8 * s) - 1) (hk : k < s) :
    (rd x (i * s + k)).val = if lane s x i ≠ 0 then 255 else 0 := by
  rcases hs with hs | hs | hs | hs <;> subst hs <;> interval_cases k <;>
    simp only [lane_1, lane_2, lane_4, lane_8, Nat.reduceMul, Nat.reducePow, Nat.reduceSub,
      Nat.mul_one, Nat.add_zero] at h ⊢ <;>
    split <;> omega

theorem ne_zero_iff_bit (y : Nat) : y ≠ 0 ↔ ∃ i, bit y i = true := by
  constructor
  · intro h
    obtain ⟨i, hi⟩ := Nat.ne_zero_implies_bit_true h
    exact ⟨i, by rw [bit_eq_testBit]; exact hi⟩
  · rintro ⟨i, hi⟩ h
    subst h
    simp [bit] at hi

theorem bit_lt_of_lt_two_pow (x n i : Nat) (hx : x < 2 ^ n) (h : bit x i = true) : i < n := by
  by_contra hn
  have : x < 2 ^ i := Nat.lt_of_lt_of_le hx (Nat.pow_le_pow_right (by decide) (by omega))
  rw [bit_eq_testBit, Nat.testBit_lt_two_pow this] at h
  exact Bool.false_ne_true h

/-- A mask of most significant bits, cut to `n` lanes, is non-zero exactly when one of these
lanes has its top bit set. -/
theorem msb_mask_mod_ne_zero (s : Nat) (v : Reg) (n : Nat) (hn : n ≤ v.length / s) :
    msb_mask s v % 2 ^ n ≠ 0 ↔ ∃ i, i < n ∧ 128 ≤ (rd v (i * s + (s - 1))).val := by
  rw [ne_zero_iff_bit]
  constructor
  · rintro ⟨i, hi⟩
    rw [bit_mod_two_pow] at hi
    simp only [Bool.and_eq_true, decide_eq_true_eq] at hi
    rw [bit_msb_mask _ _ _ (by omega)] at hi
    exact ⟨i, hi.1, by simpa using hi.2⟩
  · rintro ⟨i, hi, h⟩
    refine ⟨i, ?_⟩
    rw [bit_mod_two_pow, bit_msb_mask _ _ _ (by omega)]
    simp [hi, h]

theorem is_zero_iff (a : Reg) : is_zero a = true ↔ ∀ j, j < a.length → (rd a j).val = 0 := by
  unfold is_zero
  rw [List.all_eq_true]
  constructor
  · intro h j hj
    have := h (a.get ⟨j, hj⟩) (List.get_mem a j hj)
    simp only [decide_eq_true_eq] at this
    rw [rd, List.getD_eq_getElem _ _ hj]
    simpa using this
  · intro h b hb
    obtain ⟨n, hn⟩ := List.mem_iff_get.mp hb
    have := h n.val n.isLt
    simp only [decide_eq_true_eq]
    rw [← hn]
    rw [rd, List.getD_eq_getElem _ _ n.isLt] at this
    simpa using this

/-! ## The NEON branches of `__vector_to_bitset` -/

theorem lane_zeros (s n i : Nat) : lane s (zeros n) i = 0 := by
  simp [lane, rd_zeros]

theorem length_vpadd (s : Nat) (a b : Reg) : (vpadd s a b).length = a.length / s * s := by
  simp [vpadd, length_ofLanes]

theorem lane_past_end (s : Nat) (v : Reg) (i : Nat) (h : v.length ≤ i * s) : lane s v i = 0 := by
  unfold lane
  apply List.sum_eq_zero
  intro y hy
  obtain ⟨k, _, rfl⟩ := List.mem_map.mp hy
  rw [rd_of_le (by omega)]
  simp

theorem lane_vpadd_zero (s : Nat) (a : Reg) (n i : Nat)
    (hs : s = 1 ∨ s = 2 ∨ s = 4 ∨ s = 8) :
    lane s (vpadd s a (zeros n)) i =
      if i < a.length / s then
        (if i < a.length / s / 2 then lane s a (2 * i) + lane s a (2 * i + 1) else 0)
          % 2 ^ (8 * s)
      else 0 := by
  split
  · unfold vpadd
    simp only []
    rw [lane_ofLanes _ _ _ _ hs (by assumption)]
    simp only [lane_zeros, Nat.add_zero]
  · apply lane_past_end
    rw [length_vpadd]
    apply Nat.mul_le_mul_right
    omega

theorem lane_vpadd1 (a : Reg) (n i : Nat) :
    lane 1 (vpadd 1 a (zeros n)) i =
      if i < a.length then
        (if i < a.length / 2 then lane 1 a (2 * i) + lane 1 a (2 * i + 1) else 0) % 256
      else 0 := by
  have := lane_vpadd_zero 1 a n i (by decide)
  simpa using this

theorem lane_vpadd2 (a : Reg) (n i : Nat) :
    lane 2 (vpadd 2 a (zeros n)) i =
      if i < a.length / 2 then
        (if i < a.length / 2 / 2 then lane 2 a (2 * i) + lane 2 a (2 * i + 1) else 0) % 65536
      else 0 := by
  have := lane_vpadd_zero 2 a n i (by decide)
  simpa using this

theorem lane_vpadd4 (a : Reg) (n i : Nat) :
    lane 4 (vpadd 4 a (zeros n)) i =
      if i < a.length / 4 then
        (if i < a.length / 4 / 2 then lane 4 a (2 * i) + lane 4 a (2 * i + 1) else 0)
          % 4294967296
      else 0 := by
  have := lane_vpadd_zero 4 a n i (by decide)
  simpa using this

/-- Whether a lane of a mask is set, as a number. -/
theorem lane_vand_bits (s : Nat) (x : Reg) (i : Nat)
    (hs : s = 1 ∨ s = 2 ∨ s = 4 ∨ s = 8) (hi : i < x.length / s)
    (h : lane s x i = 0 ∨ lane s x i = 2 ^ (8 * s) - 1) :
    lane s (vand x (neon_bit_values s x.length)) i =
      if lane s x i ≠ 0 then 2 ^ (i % 8) else 0 := by
  have hpos : 0 < s := by omega
  have hp : 2 ^ (i % 8) < 256 := by
    have : i % 8 < 8 := Nat.mod_lt _ (by decide)
    calc 2 ^ (i % 8) < 2 ^ 8 := Nat.pow_lt_pow_right (by decide) this
      _ = 256 := by decide
  have hbyte : ∀ k, k < s → (rd (vand x (neon_bit_values s x.length)) (i * s + k)).val =
      if lane s x i ≠ 0 then 2 ^ (i % 8) / 256 ^ k % 256 else 0 := by
    intro k hk
    have hj : i * s + k < x.length := by
      have h1 : (i + 1) * s ≤ x.length / s * s := Nat.mul_le_mul_right _ hi
      have h2 : x.length / s * s ≤ x.length := Nat.div_mul_le_self _ _
      rw [Nat.add_mul, Nat.one_mul] at h1
      omega
    rw [rd_vand _ _ _ hj, val_byteOf, neon_bit_values, rd_ofLanes_at _ _ _ _ _ hk hi,
      lane_bytes s x i k hs h hk]
    split
    · have : (255 : Nat) = 2 ^ 8 - 1 := by decide
      rw [Nat.and_comm, this, Nat.and_pow_two_sub_one_eq_mod]
      simp
    · simp
  have hy : ∀ k, k < s → (rd (vand x (neon_bit_values s x.length)) (i * s + k)).val =
      (if lane s x i ≠ 0 then 2 ^ (i % 8) else 0) / 256 ^ k % 256 := by
    intro k hk
    rw [hbyte k hk]
    split <;> simp
  rw [lane_of_digits s _ i _ hs hy]
  apply Nat.mod_eq_of_lt
  have h8 : 8 ≤ 8 * s := by omega
  have : (256 : Nat) ≤ 2 ^ (8 * s) := by
    calc (256 : Nat) = 2 ^ 8 := by decide
      _ ≤ 2 ^ (8 * s) := Nat.pow_le_pow_right (by decide) h8
  split <;> omega

theorem tau_exists (s : Nat) (x : Reg) : ∃ tau : Nat → Nat, ∀ j,
    tau j ≤ 1 ∧ (∀ c : Nat, (if lane s x j ≠ 0 then c else 0) = c * tau j) := by
  refine ⟨fun j => if lane s x j ≠ 0 then 1 else 0, fun j => ?_⟩
  by_cases h : lane s x j ≠ 0 <;> simp [h]

theorem bitsOf_tau (s : Nat) (x : Reg) (tau : Nat → Nat)
    (ht : ∀ j, tau j ≤ 1 ∧ (∀ c : Nat, (if lane s x j ≠ 0 then c else 0) = c * tau j))
    (n : Nat) :
    bitsOf n (fun i => decide (lane s x i ≠ 0))
      = ((List.range n).map fun i => 2 ^ i * tau i).sum := by
  unfold bitsOf
  congr 1
  apply List.map_congr_left
  intro i _
  rw [← (ht i).2]
  simp

theorem lane2_split (v : Reg) (i : Nat) :
    lane 2 v i = lane 1 v (i * 2) + lane 1 v (i * 2 + 1) * 256 := by
  rw [lane_2, lane_1, lane_1]

/-- The NEON branches of `__vector_to_bitset` on a well-formed mask. -/
theorem vector_to_bitset_neon (c : RCfg) (T : MaskTy) (x : Reg)
    (hs : T.size = 1 ∨ T.size = 2 ∨ T.size = 4 ∨ T.size = 8)
    (hlen : x.length = 8 ∨ x.length = 16)
    (hl : lanes_ok T.size (x.length / T.size) x) :
    ∃ b, vector_to_bitset c true T x = .ok b ∧
      ∀ i, i < x.length / T.size → bit b i = decide (lane T.size x i ≠ 0) := by
  obtain ⟨tau, ht⟩ := tau_exists T.size x
  have hb := bitsOf_tau T.size x tau ht (x.length / T.size)
  have hv : ∀ i, i < x.length / T.size →
      lane T.size (vand x (neon_bit_values T.size x.length)) i = 2 ^ (i % 8) * tau i :=
    fun i hi => by rw [lane_vand_bits T.size x i hs hi (hl i hi), (ht i).2]
  have t0 := (ht 0).1; have t1 := (ht 1).1; have t2 := (ht 2).1; have t3 := (ht 3).1
  have t4 := (ht 4).1; have t5 := (ht 5).1; have t6 := (ht 6).1; have t7 := (ht 7).1
  have t8 := (ht 8).1; have t9 := (ht 9).1; have t10 := (ht 10).1; have t11 := (ht 11).1
  have t12 := (ht 12).1; have t13 := (ht 13).1; have t14 := (ht 14).1; have t15 := (ht 15).1
  have hr16 : List.range 16 = [0, 1, 2, 3, 4, 5, 6, 7, 8, 9, 10, 11, 12, 13, 14, 15] := by
    decide
  have hr8 : List.range 8 = [0, 1, 2, 3, 4, 5, 6, 7] := by decide
  have hr4 : List.range 4 = [0, 1, 2, 3] := by decide
  have hr2 : List.range 2 = [0, 1] := by decide
  have h8 : ∀ i, i < x.length / T.size → T.size = 8 →
      lane 8 x i = 0 ∨ lane 8 x i = 18446744073709551615 := by
    intro i hi h
    have := hl i hi
    rw [h] at this
    exact this
  rcases hlen with hlen | hlen <;> rcases hs with hs | hs | hs | hs <;>
    simp only [hs, hlen, Nat.div_one, Nat.reduceDiv] at hv hb h8 ⊢
  · -- 8 bytes, 8 lanes
    refine ⟨bitsOf 8 (fun i => decide (lane 1 x i ≠ 0)), ?_,
      fun i hi => by rw [bit_bitsOf]; simp [hi]⟩
    simp only [vector_to_bitset, hs, hlen, if_true, Nat.reduceEqDiff, if_false, Nat.reduceDiv,
      OfNat.ofNat_ne_one, one_ne_zero, reduceCtorEq]
    rw [Except.ok.injEq]
    rw [hb]
    simp only [lane_vpadd1, lane_vpadd2, lane_vpadd4, length_vpadd, length_vand, hlen, hv,
      Nat.reduceDiv, Nat.reduceMul, Nat.reduceAdd, Nat.reduceLT, if_true, if_false,
      Nat.reduceMod, Nat.reducePow, List.map_cons, List.map_nil, List.sum_cons, List.sum_nil,
      ↓reduceIte, Nat.div_one, Nat.mul_one, hr16, hr8, hr4, hr2]
    simp (disch := omega) only [Nat.mod_eq_of_lt]
    omega
  · -- 8 bytes, 4 lanes
    refine ⟨bitsOf 4 (fun i => decide (lane 2 x i ≠ 0)), ?_,
      fun i hi => by rw [bit_bitsOf]; simp [hi]⟩
    simp only [vector_to_bitset, hs, hlen, if_true, Nat.reduceEqDiff, if_false, Nat.reduceDiv,
      OfNat.ofNat_ne_one, one_ne_zero, reduceCtorEq]
    rw [Except.ok.injEq]
    rw [hb]
    simp only [lane_vpadd1, lane_vpadd2, lane_vpadd4, length_vpadd, length_vand, hlen, hv,
      Nat.reduceDiv, Nat.reduceMul, Nat.reduceAdd, Nat.reduceLT, if_true, if_false,
      Nat.reduceMod, Nat.reducePow, List.map_cons, List.map_nil, List.sum_cons, List.sum_nil,
      ↓reduceIte, Nat.div_one, Nat.mul_one, hr16, hr8, hr4, hr2]
    simp (disch := omega) only [Nat.mod_eq_of_lt]
    omega
  · -- 8 bytes, 2 lanes
    refine ⟨bitsOf 2 (fun i => decide (lane 4 x i ≠ 0)), ?_,
      fun i hi => by rw [bit_bitsOf]; simp [hi]⟩
    simp only [vector_to_bitset, hs, hlen, if_true, Nat.reduceEqDiff, if_false, Nat.reduceDiv,
      OfNat.ofNat_ne_one, one_ne_zero, reduceCtorEq]
    rw [Except.ok.injEq]
    rw [hb]
    simp only [lane_vpadd1, lane_vpadd2, lane_vpadd4, length_vpadd, length_vand, hlen, hv,
      Nat.reduceDiv, Nat.reduceMul, Nat.reduceAdd, Nat.reduceLT, if_true, if_false,
      Nat.reduceMod, Nat.reducePow, List.map_cons, List.map_nil, List.sum_cons, List.sum_nil,
      ↓reduceIte, Nat.div_one, Nat.mul_one, hr16, hr8, hr4, hr2]
    simp (disch := omega) only [Nat.mod_eq_of_lt]
    omega
  · -- 8 bytes, one lane
    refine ⟨_, by simp only [vector_to_bitset, hs, hlen, if_true, Nat.reduceEqDiff, if_false,
      OfNat.ofNat_ne_one, one_ne_zero, reduceCtorEq]; rfl, ?_⟩
    intro i hi
    have : i = 0 := by omega
    subst this
    rcases h8 0 (by decide) trivial with h | h <;> rw [h] <;> decide
  · -- 16 bytes, 16 lanes
    refine ⟨bitsOf 16 (fun i => decide (lane 1 x i ≠ 0)), ?_,
      fun i hi => by rw [bit_bitsOf]; simp [hi]⟩
    simp only [vector_to_bitset, hs, hlen, if_true, Nat.reduceEqDiff, if_false, Nat.reduceDiv,
      OfNat.ofNat_ne_one, one_ne_zero, reduceCtorEq]
    rw [Except.ok.injEq]
    rw [hb, lane2_split]
    simp only [lane_vpadd1, lane_vpadd2, lane_vpadd4, length_vpadd, length_vand, hlen, hv,
      Nat.reduceDiv, Nat.reduceMul, Nat.reduceAdd, Nat.reduceLT, if_true, if_false,
      Nat.reduceMod, Nat.reducePow, List.map_cons, List.map_nil, List.sum_cons, List.sum_nil,
      ↓reduceIte, Nat.div_one, Nat.mul_one, hr16, hr8, hr4, hr2]
    simp (disch := omega) only [Nat.mod_eq_of_lt]
    omega
  · -- 16 bytes, 8 lanes
    refine ⟨bitsOf 8 (fun i => decide (lane 2 x i ≠ 0)), ?_,
      fun i hi => by rw [bit_bitsOf]; simp [hi]⟩
    simp only [vector_to_bitset, hs, hlen, if_true, Nat.reduceEqDiff, if_false, Nat.reduceDiv,
      OfNat.ofNat_ne_one, one_ne_zero, reduceCtorEq]
    rw [Except.ok.injEq]
    rw [hb]
    simp only [lane_vpadd1, lane_vpadd2, lane_vpadd4, length_vpadd, length_vand, hlen, hv,
      Nat.reduceDiv, Nat.reduceMul, Nat.reduceAdd, Nat.reduceLT, if_true, if_false,
      Nat.reduceMod, Nat.reducePow, List.map_cons, List.map_nil, List.sum_cons, List.sum_nil,
      ↓reduceIte, Nat.div_one, Nat.mul_one, hr16, hr8, hr4, hr2]
    simp (disch := omega) only [Nat.mod_eq_of_lt]
    omega
  · -- 16 bytes, 4 lanes
    refine ⟨bitsOf 4 (fun i => decide (lane 4 x i ≠ 0)), ?_,
      fun i hi => by rw [bit_bitsOf]; simp [hi]⟩
    simp only [vector_to_bitset, hs, hlen, if_true, Nat.reduceEqDiff, if_false, Nat.reduceDiv,
      OfNat.ofNat_ne_one, one_ne_zero, reduceCtorEq]
    rw [Except.ok.injEq]
    rw [hb]
    simp only [lane_vpadd1, lane_vpadd2, lane_vpadd4, length_vpadd, length_vand, hlen, hv,
      Nat.reduceDiv, Nat.reduceMul, Nat.reduceAdd, Nat.reduceLT, if_true, if_false,
      Nat.reduceMod, Nat.reducePow, List.map_cons, List.map_nil, List.sum_cons, List.sum_nil,
      ↓reduceIte, Nat.div_one, Nat.mul_one, hr16, hr8, hr4, hr2]
    simp (disch := omega) only [Nat.mod_eq_of_lt]
    omega
  · -- 16 bytes, 2 lanes
    refine ⟨_, by simp only [vector_to_bitset, hs, hlen, if_true, Nat.reduceEqDiff, if_false,
      OfNat.ofNat_ne_one, one_ne_zero, reduceCtorEq]; rfl, ?_⟩
    intro i hi
    rcases h8 0 (by decide) trivial with h0 | h0 <;>
      rcases h8 1 (by decide) trivial with h1 | h1 <;>
      rw [h0, h1] <;> interval_cases i <;> simp only [h0, h1] <;> decide

/-! ## `__any_of` on well-formed masks -/

/-- A byte of a logical lane of a well-formed vector mask. -/
theorem mask_byte (s n : Nat) (k : Reg) (j : Nat) (hs : s = 1 ∨ s = 2 ∨ s = 4 ∨ s = 8)
    (hl : lanes_ok s n k) (hj : j / s < n) :
    (rd k j).val = if lane s k (j / s) ≠ 0 then 255 else 0 := by
  have hpos : 0 < s := by omega
  have := lane_bytes s k (j / s) (j % s) hs (hl _ hj) (Nat.mod_lt _ hpos)
  rwa [Nat.div_add_mod'] at this

/-- The bytes of `k & __implicit_mask()`. -/
theorem rd_implicit (T : MaskTy) (bytes : Nat) (k : Reg) (j : Nat)
    (hs : T.size = 1 ∨ T.size = 2 ∨ T.size = 4 ∨ T.size = 8)
    (hfull : k.length = 16 ∨ k.length = 32) (hb : bytes ≤ k.length) (hj : j < k.length) :
    rd (vand k (implicit_mask T bytes k.length)) j =
      if j / T.size < bytes / T.size then rd k j else 0 := by
  rw [rd_vand _ _ _ hj, implicit_mask, rd_mk_lt hj]
  by_cases hp : bytes < k.length
  · simp only [hp, if_true]
    split
    · exact byteOf_and_ff _
    · exact byteOf_and_zero _
  · have hbe : bytes = k.length := by omega
    have : j / T.size < bytes / T.size := by
      rw [hbe]
      rcases hs with hs | hs | hs | hs <;> rw [hs] <;> rcases hfull with hf | hf <;>
        rw [hf] at hj ⊢ <;> omega
    simp only [hp, if_false, this, if_true]
    exact byteOf_and_ff _

theorem exists_lane_iff_byte (s n : Nat) (k : Reg) (hs : s = 1 ∨ s = 2 ∨ s = 4 ∨ s = 8)
    (hl : lanes_ok s n k) :
    (∃ j, j / s < n ∧ (rd k j).val ≠ 0) ↔ ∃ i, i < n ∧ lane s k i ≠ 0 := by
  have hpos : 0 < s := by omega
  constructor
  · rintro ⟨j, hj, hne⟩
    refine ⟨j / s, hj, ?_⟩
    intro hz
    rw [mask_byte s n k j hs hl hj] at hne
    simp [hz] at hne
  · rintro ⟨i, hi, hne⟩
    have hd : (i * s) / s = i := Nat.mul_div_cancel _ hpos
    refine ⟨i * s, by rw [hd]; exact hi, ?_⟩
    rw [mask_byte s n k (i * s) hs hl (by rw [hd]; exact hi), hd]
    simp [hne]

theorem exists_lane_iff_top (s n : Nat) (k : Reg) (hs : s = 1 ∨ s = 2 ∨ s = 4 ∨ s = 8)
    (hl : lanes_ok s n k) :
    (∃ i, i < n ∧ 128 ≤ (rd k (i * s + (s - 1))).val) ↔ ∃ i, i < n ∧ lane s k i ≠ 0 := by
  constructor
  · rintro ⟨i, hi, h⟩
    have := top_byte_of_lane_ok s k i hs (hl i hi)
    rw [decide_eq_decide] at this
    exact ⟨i, hi, this.mp h⟩
  · rintro ⟨i, hi, h⟩
    have := top_byte_of_lane_ok s k i hs (hl i hi)
    rw [decide_eq_decide] at this
    exact ⟨i, hi, this.mpr h⟩

/-- All-zero test of `k & __implicit_mask()`. -/
theorem is_zero_implicit (T : MaskTy) (bytes : Nat) (k : Reg)
    (hs : T.size = 1 ∨ T.size = 2 ∨ T.size = 4 ∨ T.size = 8)
    (hfull : k.length = 16 ∨ k.length = 32) (hb : bytes ≤ k.length)
    (hl : lanes_ok T.size (bytes / T.size) k) :
    is_zero (vand k (implicit_mask T bytes k.length)) = true ↔
      ¬ ∃ i, i < bytes / T.size ∧ lane T.size k i ≠ 0 := by
  rw [← exists_lane_iff_byte T.size _ k hs hl, is_zero_iff, length_vand]
  constructor
  · rintro h ⟨j, hj, hne⟩
    have hjl : j < k.length := by
      have hpos : 0 < T.size := by omega
      have h1 : j / T.size < k.length / T.size :=
        Nat.lt_of_lt_of_le hj (Nat.div_le_div_right hb)
      by_contra hge
      have := Nat.div_le_div_right (c := T.size) (Nat.le_of_not_lt hge)
      omega
    have := h j hjl
    rw [rd_implicit T bytes k j hs hfull hb hjl, if_pos hj] at this
    exact hne this
  · intro h j hj
    rw [rd_implicit T bytes k j hs hfull hb hj]
    split
    · by_contra hne
      exact h ⟨j, by assumption, hne⟩
    · rfl

/-- Sign-bit test of `k & __implicit_mask()`. -/
theorem msb_implicit (T : MaskTy) (bytes : Nat) (k : Reg)
    (hs : T.size = 1 ∨ T.size = 2 ∨ T.size = 4 ∨ T.size = 8)
    (hfull : k.length = 16 ∨ k.length = 32) (hb : bytes ≤ k.length)
    (hl : lanes_ok T.size (bytes / T.size) k) :
    msb_mask T.size (vand k (implicit_mask T bytes k.length)) = 0 ↔
      ¬ ∃ i, i < bytes / T.size ∧ lane T.size k i ≠ 0 := by
  rw [← exists_lane_iff_top T.size _ k hs hl]
  have hpos : 0 < T.size := by omega
  have hlt := bitsOf_lt ((vand k (implicit_mask T bytes k.length)).length / T.size)
    (fun i => decide (128 ≤ (rd (vand k (implicit_mask T bytes k.length))
      (i * T.size + (T.size - 1))).val))
  have hmod : msb_mask T.size (vand k (implicit_mask T bytes k.length)) =
      msb_mask T.size (vand k (implicit_mask T bytes k.length)) %
        2 ^ ((vand k (implicit_mask T bytes k.length)).length / T.size) :=
    (Nat.mod_eq_of_lt hlt).symm
  have hiff := msb_mask_mod_ne_zero T.size (vand k (implicit_mask T bytes k.length))
    ((vand k (implicit_mask T bytes k.length)).length / T.size) (Nat.le_refl _)
  rw [← hmod] at hiff
  rw [← not_iff_not, not_not, ← ne_eq, hiff, length_vand]
  have hidx : ∀ i, i < k.length / T.size → i * T.size + (T.size - 1) < k.length := by
    intro i hi
    rcases hs with hs | hs | hs | hs <;> rw [hs] at hi ⊢ <;> omega
  have hdiv : ∀ i, (i * T.size + (T.size - 1)) / T.size = i := by
    intro i
    rcases hs with hs | hs | hs | hs <;> rw [hs] <;> omega
  constructor
  · rintro ⟨i, hi, h⟩
    rw [rd_implicit T bytes k _ hs hfull hb (hidx i hi), hdiv] at h
    by_cases hc : i < bytes / T.size
    · rw [if_pos hc] at h
      exact ⟨i, hc, h⟩
    · rw [if_neg hc] at h
      simp at h
  · rintro ⟨i, hi, h⟩
    have hi2 : i < k.length / T.size := Nat.lt_of_lt_of_le hi (Nat.div_le_div_right hb)
    refine ⟨i, hi2, ?_⟩
    rw [rd_implicit T bytes k _ hs hfull hb (hidx i hi2), hdiv, if_pos hi]
    exact h

/-- The byte mask of a well-formed vector mask, cut to the logical lanes. -/
theorem msb1_mask_mod_ne_zero (s n : Nat) (k : Reg) (hs : s = 1 ∨ s = 2 ∨ s = 4 ∨ s = 8)
    (hl : lanes_ok s n k) (hn : n * s ≤ k.length) :
    msb_mask 1 k % 2 ^ (n * s) ≠ 0 ↔ ∃ i, i < n ∧ lane s k i ≠ 0 := by
  have hpos : 0 < s := by omega
  rw [msb_mask_mod_ne_zero 1 k (n * s) (by rw [Nat.div_one]; exact hn),
    ← exists_lane_iff_byte s n k hs hl]
  constructor
  · rintro ⟨j, hj, h⟩
    have hj' : j / s < n := Nat.div_lt_of_lt_mul (by rw [Nat.mul_comm]; exact hj)
    refine ⟨j, hj', ?_⟩
    simp only [Nat.mul_one, Nat.sub_self, Nat.add_zero] at h
    omega
  · rintro ⟨j, hj, h⟩
    have hj' : j < n * s := by
      by_contra hge
      have := Nat.div_le_div_right (c := s) (Nat.le_of_not_lt hge)
      rw [Nat.mul_div_cancel _ hpos] at this
      omega
    refine ⟨j, hj', ?_⟩
    simp only [Nat.mul_one, Nat.sub_self, Nat.add_zero]
    have := mask_byte s n k j hs hl hj
    split at this <;> omega

theorem testz_implicit (c : RCfg) (T : MaskTy) (bytes : Nat) (k : Reg)
    (hs : T.size = 1 ∨ T.size = 2 ∨ T.size = 4 ∨ T.size = 8)
    (hfull : k.length = 16 ∨ k.length = 32) (hb : bytes ≤ k.length)
    (hl : lanes_ok T.size (bytes / T.size) k) (hc : c.avx = true ∨ c.sse4_1 = true) :
    ∃ t, testz c T k (implicit_mask T bytes k.length) = .ok t ∧
      (t = 0 ↔ ∃ i, i < bytes / T.size ∧ lane T.size k i ≠ 0) := by
  have e1 := is_zero_implicit T bytes k hs hfull hb hl
  have e2 := msb_implicit T bytes k hs hfull hb hl
  have r1 : ∃ t, (Except.ok (if is_zero (vand k (implicit_mask T bytes k.length)) = true
      then 1 else 0) : Except Err Nat) = .ok t ∧
      (t = 0 ↔ ∃ i, i < bytes / T.size ∧ lane T.size k i ≠ 0) := by
    refine ⟨_, rfl, ?_⟩
    by_cases hz : is_zero (vand k (implicit_mask T bytes k.length)) = true
    · rw [if_pos hz]
      have := e1.mp hz
      constructor
      · intro h
        exact absurd h (by decide)
      · intro h
        exact absurd h this
    · rw [if_neg hz]
      have := not_not.mp (mt e1.mpr hz)
      exact ⟨fun _ => this, fun _ => rfl⟩
  have r2 : ∃ t, (Except.ok (if msb_mask T.size (vand k (implicit_mask T bytes k.length)) = 0
      then 1 else 0) : Except Err Nat) = .ok t ∧
      (t = 0 ↔ ∃ i, i < bytes / T.size ∧ lane T.size k i ≠ 0) := by
    refine ⟨_, rfl, ?_⟩
    by_cases hz : msb_mask T.size (vand k (implicit_mask T bytes k.length)) = 0
    · rw [if_pos hz]
      have := e2.mp hz
      constructor
      · intro h
        exact absurd h (by decide)
      · intro h
        exact absurd h this
    · rw [if_neg hz]
      have := not_not.mp (mt e2.mpr hz)
      exact ⟨fun _ => this, fun _ => rfl⟩
  unfold testz
  simp only []
  by_cases h1 : c.avx = true
  · rw [if_pos h1]
    by_cases h2 : k.length = 32 ∧ ¬ T.integral = true ∧ T.size = 4
    · rw [if_pos h2, ← h2.2.2]
      exact r2
    rw [if_neg h2]
    by_cases h3 : k.length = 32 ∧ ¬ T.integral = true ∧ T.size = 8
    · rw [if_pos h3, ← h3.2.2]
      exact r2
    rw [if_neg h3]
    by_cases h4 : k.length = 32
    · rw [if_pos h4]
      exact r1
    rw [if_neg h4]
    by_cases h5 : ¬ T.integral = true ∧ T.size = 4 ∧ k.length = 16
    · rw [if_pos h5, ← h5.2.1]
      exact r2
    rw [if_neg h5]
    by_cases h6 : ¬ T.integral = true ∧ T.size = 8 ∧ k.length = 16
    · rw [if_pos h6, ← h6.2.1]
      exact r2
    rw [if_neg h6]
    exact r1
  · rw [if_neg h1]
    have h7 : c.sse4_1 = true := by
      rcases hc with hc | hc
      · exact absurd hc h1
      · exact hc
    rw [if_pos h7]
    exact r1

theorem combine_any_spec (any : MaskData → Except Err Bool) (ms : List MaskData)
    (P : Nat → Prop) (steps : Nat) : ∀ i0,
    (∀ i, i0 ≤ i → i < i0 + steps →
      ∃ b, any (ms.getD i (.scalar false)) = .ok b ∧ (b = true ↔ P i)) →
    ∃ b, combine_any any ms steps i0 = .ok b ∧
      (b = true ↔ ∃ i, i0 ≤ i ∧ i < i0 + steps ∧ P i) := by
  induction steps with
  | zero =>
    intro i0 _
    refine ⟨false, rfl, ?_⟩
    constructor
    · intro h
      exact absurd h (by decide)
    · rintro ⟨i, h1, h2, _⟩
      omega
  | succ steps ih =>
    intro i0 h
    obtain ⟨b0, hb0, hP0⟩ := h i0 (Nat.le_refl _) (by omega)
    cases b0 with
    | true =>
      refine ⟨true, ?_, ?_⟩
      · rw [combine_any, hb0]
        rfl
      · constructor
        · intro _
          exact ⟨i0, Nat.le_refl _, by omega, hP0.mp rfl⟩
        · intro _
          rfl
    | false =>
      obtain ⟨b, hb, hP⟩ := ih (i0 + 1) (fun i h1 h2 => h i (by omega) (by omega))
      refine ⟨b, ?_, ?_⟩
      · rw [combine_any, hb0]
        exact hb
      · rw [hP]
        constructor
        · rintro ⟨i, h1, h2, h3⟩
          exact ⟨i, by omega, by omega, h3⟩
        · rintro ⟨i, h1, h2, h3⟩
          by_cases hi : i = i0
          · subst hi
            have := hP0.mpr h3
            exact absurd this (by decide)
          · exact ⟨i, by omega, by omega, h3⟩

theorem getD_mem_of_lt (ms : List MaskData) (i : Nat) (d : MaskData) (h : i < ms.length) :
    ms.getD i d ∈ ms := by
  rw [List.getD_eq_getElem _ _ h]
  exact List.getElem_mem h

theorem combine_index (n size i : Nat) (h : i < n * size) :
    i / size < n ∧ i % size < size := by
  have hpos : 0 < size := by
    rcases Nat.eq_zero_or_pos size with h0 | h0
    · subst h0
      simp at h
    · exact h0
  exact ⟨Nat.div_lt_of_lt_mul (by rw [Nat.mul_comm]; exact h), Nat.mod_lt _ hpos⟩

theorem any_of_spec (c : RCfg) (T : MaskTy)
    (hs : T.size = 1 ∨ T.size = 2 ∨ T.size = 4 ∨ T.size = 8) :
    ∀ (a : Abi) (m : MaskData), mask_ok c T a m →
      ∃ b, any_of c T a m = .ok b ∧
        (b = true ↔ ∃ i, i < simd_size T a ∧ lane_true T a m i = true) := by
  intro a
  induction a with
  | scalar =>
    intro m h
    cases m <;> simp only [mask_ok] at h
    rename_i b
    refine ⟨b, rfl, ?_⟩
    simp [simd_size, lane_true]
  | fixed_size n =>
    intro m h
    cases m <;> simp only [mask_ok] at h
    rename_i x
    refine ⟨decide (x ≠ 0), rfl, ?_⟩
    simp only [decide_eq_true_eq, simd_size, lane_true, ne_zero_iff_bit]
    constructor
    · rintro ⟨i, hi⟩
      exact ⟨i, bit_lt_of_lt_two_pow x n i h.2.2 hi, hi⟩
    · rintro ⟨i, _, hi⟩
      exact ⟨i, hi⟩
  | sse bytes =>
    intro m h
    cases m <;> simp only [mask_ok] at h
    rename_i k
    obtain ⟨hc, hb, _, _, hlen, hl⟩ := h
    have hb' : bytes ≤ k.length := by omega
    have hN : bytes / T.size ≤ k.length / T.size := Nat.div_le_div_right hb'
    have e3 := (msb_mask_mod_ne_zero T.size k (bytes / T.size) hN).trans
      (exists_lane_iff_top T.size _ k hs hl)
    have e4 := msb1_mask_mod_ne_zero T.size (bytes / T.size) k hs hl
      (by rw [hlen]; exact Nat.le_trans (Nat.div_mul_le_self _ _) hb)
    simp only [any_of, simd_size, lane_true, decide_eq_true_eq]
    by_cases h41 : c.sse4_1 = true
    · obtain ⟨t, ht, he⟩ := testz_implicit c T bytes k hs (Or.inl hlen) hb' hl (Or.inr h41)
      rw [hlen] at ht
      rw [if_pos h41, ht]
      exact ⟨decide (t = 0), rfl, by rw [decide_eq_true_eq]; exact he⟩
    · rw [if_neg h41]
      split_ifs with h1 h2
      · rw [← h1.2]
        exact ⟨_, rfl, by rw [decide_eq_true_eq]; exact e3⟩
      · rw [← h2.2]
        exact ⟨_, rfl, by rw [decide_eq_true_eq]; exact e3⟩
      · exact ⟨_, rfl, by rw [decide_eq_true_eq]; exact e4⟩
  | avx bytes =>
    intro m h
    cases m <;> simp only [mask_ok] at h
    rename_i k
    obtain ⟨hc, h41, hb, hlen, hl⟩ := h
    obtain ⟨t, ht, he⟩ := testz_implicit c T bytes k hs (Or.inr hlen) (by omega) hl (Or.inl hc)
    rw [hlen] at ht
    simp only [any_of, simd_size, lane_true, decide_eq_true_eq]
    rw [if_pos h41, ht]
    exact ⟨decide (t = 0), rfl, by rw [decide_eq_true_eq]; exact he⟩
  | avx512 bytes =>
    intro m h
    cases m <;> simp only [mask_ok] at h
    rename_i x
    obtain ⟨hb, hx⟩ := h
    subst hb
    simp only [any_of, simd_size, lane_true, if_true]
    refine ⟨_, rfl, ?_⟩
    rw [decide_eq_true_eq, Nat.and_pow_two_sub_one_of_lt_two_pow hx, ne_zero_iff_bit]
    constructor
    · rintro ⟨i, hi⟩
      exact ⟨i, bit_lt_of_lt_two_pow x _ i hx hi, hi⟩
    · rintro ⟨i, _, hi⟩
      exact ⟨i, hi⟩
  | neon bytes =>
    intro m h
    cases m <;> simp only [mask_ok] at h
    rename_i k
    simp only [any_of, simd_size, lane_true]
    refine ⟨_, rfl, ?_⟩
    rw [List.any_eq_true]
    constructor
    · rintro ⟨i, hi, h⟩
      exact ⟨i, List.mem_range.mp hi, h⟩
    · rintro ⟨i, hi, h⟩
      exact ⟨i, List.mem_range.mpr hi, h⟩
  | combine n a ih =>
    intro m h
    cases m <;> simp only [mask_ok] at h
    rename_i ms
    obtain ⟨_, hlen, hms⟩ := h
    have hmem : ∀ i, i < n → mask_ok c T a (ms.getD i (.scalar false)) := fun i hi =>
      hms _ (getD_mem_of_lt ms i _ (by omega))
    obtain ⟨b, hb, hP⟩ := combine_any_spec (fun m => any_of c T a m) ms
      (fun i => ∃ l, l < simd_size T a ∧ lane_true T a (ms.getD i (.scalar false)) l = true)
      n 0 (fun i _ hi => ih _ (hmem i (by omega)))
    refine ⟨b, hb, ?_⟩
    rw [hP]
    simp only [simd_size, lane_true]
    constructor
    · rintro ⟨q, _, hq, l, hl, ht⟩
      have hpos : 0 < simd_size T a := by omega
      refine ⟨q * simd_size T a + l, ?_, ?_⟩
      · calc q * simd_size T a + l < q * simd_size T a + simd_size T a := by omega
          _ = (q + 1) * simd_size T a := by rw [Nat.add_mul, Nat.one_mul]
          _ ≤ n * simd_size T a := Nat.mul_le_mul_right _ (by omega)
      · have e1 : (q * simd_size T a + l) / simd_size T a = q := by
          rw [Nat.add_comm, Nat.add_mul_div_right _ _ hpos, Nat.div_eq_of_lt hl, Nat.zero_add]
        have e2 : (q * simd_size T a + l) % simd_size T a = l := by
          rw [Nat.add_comm, Nat.add_mul_mod_self_right, Nat.mod_eq_of_lt hl]
        rw [e1, e2]
        exact ht
    · rintro ⟨i, hi, ht⟩
      obtain ⟨h1, h2⟩ := combine_index n _ i hi
      exact ⟨i / simd_size T a, Nat.zero_le _, by omega, i % simd_size T a, h2, ht⟩

/-! ## `__find_first_set` returns the lowest true lane -/

theorem find_first_set_spec (c : RCfg) (T : MaskTy)
    (hs : T.size = 1 ∨ T.size = 2 ∨ T.size = 4 ∨ T.size = 8) :
    ∀ (a : Abi) (m : MaskData) (i : Nat), mask_ok c T a m →
      (∀ n a2, a ≠ .combine n a2) →
      (∀ bytes, a = .avx512 bytes → bytes / T.size ≤ 32 → c.bmi = true) →
      i < simd_size T a →
      lane_true T a m i = true → (∀ j, j < i → lane_true T a m j = false) →
      find_first_set c T a m = .ok (i : Int) := by
  intro a
  cases a with
  | scalar =>
    intro m i h _ _ hi _ _
    cases m <;> simp only [mask_ok] at h
    simp only [simd_size] at hi
    have : i = 0 := by omega
    subst this
    rfl
  | fixed_size n =>
    intro m i h hnc hbmi hi ht hlow
    cases m <;> simp only [mask_ok] at h
    rename_i x
    simp only [simd_size] at hi
    simp only [lane_true] at ht hlow
    simp only [find_first_set]
    rw [firstbit_first c x i (by omega) ht hlow]
  | sse bytes =>
    intro m i h hnc hbmi hi ht hlow
    cases m <;> simp only [mask_ok] at h
    rename_i k
    obtain ⟨hc, hb, _, _, hlen, hl⟩ := h
    simp only [simd_size] at hi
    simp only [lane_true, decide_eq_true_eq, decide_eq_false_iff_not] at ht hlow
    obtain ⟨b, hb1, hb2⟩ := vector_to_bitset_x86 c T k (bytes / T.size) hs (Or.inl ⟨hc, hlen⟩)
      (Nat.div_le_div_right (by omega)) hl
    simp only [find_first_set, hb1, bind, Except.bind]
    have hi16 : i < 16 := by
      have : bytes / T.size ≤ bytes := Nat.div_le_self _ _
      omega
    rw [firstbit_first c b i (by omega) (by rw [hb2 i hi]; simpa using ht)
      (fun j hj => by rw [hb2 j (by omega)]; simpa using hlow j hj)]
  | avx bytes =>
    intro m i h hnc hbmi hi ht hlow
    cases m <;> simp only [mask_ok] at h
    rename_i k
    obtain ⟨hc, _, hb, hlen, hl⟩ := h
    simp only [simd_size] at hi
    simp only [lane_true, decide_eq_true_eq, decide_eq_false_iff_not] at ht hlow
    obtain ⟨b, hb1, hb2⟩ := vector_to_bitset_x86 c T k (bytes / T.size) hs (Or.inr ⟨hc, hlen⟩)
      (Nat.div_le_div_right (by omega)) hl
    simp only [find_first_set, hb1, bind, Except.bind]
    have hi32 : i < 32 := by
      have : bytes / T.size ≤ bytes := Nat.div_le_self _ _
      omega
    rw [firstbit_first c b i (by omega) (by rw [hb2 i hi]; simpa using ht)
      (fun j hj => by rw [hb2 j (by omega)]; simpa using hlow j hj)]
  | avx512 bytes =>
    intro m i h hnc hbmi hi ht hlow
    cases m <;> simp only [mask_ok] at h
    rename_i x
    obtain ⟨hb, hx⟩ := h
    simp only [simd_size] at hi
    simp only [lane_true] at ht hlow
    simp only [find_first_set]
    split
    · rename_i h32
      rw [if_pos (hbmi bytes rfl h32), ctz_first 32 x i (by omega) ht hlow]
    · have : bytes / T.size ≤ bytes := Nat.div_le_self _ _
      rw [firstbit_first c x i (by omega) ht hlow]
  | neon bytes =>
    intro m i h hnc hbmi hi ht hlow
    cases m <;> simp only [mask_ok] at h
    rename_i k
    obtain ⟨hb, _, hlen, hl⟩ := h
    simp only [simd_size] at hi
    simp only [lane_true, decide_eq_true_eq, decide_eq_false_iff_not] at ht hlow
    rw [← hlen] at hl hi
    obtain ⟨b, hb1, hb2⟩ := vector_to_bitset_neon c T k hs (by omega) hl
    simp only [find_first_set, hb1, bind, Except.bind]
    have hi16 : i < 16 := by
      have : k.length / T.size ≤ k.length := Nat.div_le_self _ _
      omega
    rw [firstbit_first c b i (by omega) (by rw [hb2 i hi]; simpa using ht)
      (fun j hj => by rw [hb2 j (by omega)]; simpa using hlow j hj)]
  | combine n a2 =>
    intro m i h hnc hbmi hi ht hlow
    exact absurd rfl (hnc n a2)
/-! ## `__testc` and `__testnzc` through `__testz` -/

theorem mk_congr {n : Nat} {f g : Nat → Byte} (h : ∀ j, j < n → f j = g j) : mk n f = mk n g := by
  unfold mk
  apply List.map_congr_left
  intro j hj
  exact h j (List.mem_range.mp hj)

theorem length_vnot (a : Reg) : (vnot a).length = a.length := by simp [vnot, length_mk]

theorem rd_vnot (a : Reg) (j : Nat) (hj : j < a.length) :
    rd (vnot a) j = byteOf (255 - (rd a j).val) := by
  simp [vnot, rd_mk, hj]

theorem val_rd_vnot (a : Reg) (j : Nat) (hj : j < a.length) :
    (rd (vnot a) j).val = 255 - (rd a j).val := by
  rw [rd_vnot a j hj, val_byteOf]
  have := (rd a j).isLt
  omega

theorem vandnot_eq (a b : Reg) : vandnot a b = vand (vnot a) b := by
  unfold vandnot vand
  rw [length_vnot]
  apply mk_congr
  intro j hj
  rw [val_rd_vnot a j hj]

/-- The carry flag of a test is the zero flag of the test of the complement. -/
theorem testc_eq_testz (c : RCfg) (T : MaskTy) (a b : Reg) :
    testc c T a b = testz c T (vnot a) b := by
  simp only [testc, testz, vandnot_eq, length_vnot]

theorem lane_vnot (s : Nat) (a : Reg) (i : Nat) (hs : s = 1 ∨ s = 2 ∨ s = 4 ∨ s = 8)
    (hi : (i + 1) * s ≤ a.length) : lane s (vnot a) i = 2 ^ (8 * s) - 1 - lane s a i := by
  rcases hs with hs | hs | hs | hs <;> subst hs
  · rw [lane_1, lane_1, val_rd_vnot a i (by omega)]
    norm_num
  · rw [lane_2, lane_2, val_rd_vnot a _ (by omega), val_rd_vnot a _ (by omega)]
    have := (rd a (i * 2)).isLt
    have := (rd a (i * 2 + 1)).isLt
    omega
  · rw [lane_4, lane_4, val_rd_vnot a _ (by omega), val_rd_vnot a _ (by omega),
      val_rd_vnot a _ (by omega), val_rd_vnot a _ (by omega)]
    have := (rd a (i * 4)).isLt
    have := (rd a (i * 4 + 1)).isLt
    have := (rd a (i * 4 + 2)).isLt
    have := (rd a (i * 4 + 3)).isLt
    omega
  · rw [lane_8, lane_8, val_rd_vnot a _ (by omega), val_rd_vnot a _ (by omega),
      val_rd_vnot a _ (by omega), val_rd_vnot a _ (by omega), val_rd_vnot a _ (by omega),
      val_rd_vnot a _ (by omega), val_rd_vnot a _ (by omega), val_rd_vnot a _ (by omega)]
    have := (rd a (i * 8)).isLt
    have := (rd a (i * 8 + 1)).isLt
    have := (rd a (i * 8 + 2)).isLt
    have := (rd a (i * 8 + 3)).isLt
    have := (rd a (i * 8 + 4)).isLt
    have := (rd a (i * 8 + 5)).isLt
    have := (rd a (i * 8 + 6)).isLt
    have := (rd a (i * 8 + 7)).isLt
    omega

theorem two_pow_lane_pos (s : Nat) (hs : s = 1 ∨ s = 2 ∨ s = 4 ∨ s = 8) :
    1 < 2 ^ (8 * s) := by
  rcases hs with hs | hs | hs | hs <;> subst hs <;> decide

/-- The complement of a well-formed mask is well-formed, with every lane flipped. -/
theorem lanes_ok_vnot (s n : Nat) (k : Reg) (hs : s = 1 ∨ s = 2 ∨ s = 4 ∨ s = 8)
    (hl : lanes_ok s n k) (hn : n * s ≤ k.length) :
    lanes_ok s n (vnot k) ∧ ∀ i, i < n → (lane s (vnot k) i ≠ 0 ↔ lane s k i = 0) := by
  have hbound : ∀ i, i < n → (i + 1) * s ≤ k.length := fun i hi =>
    Nat.le_trans (Nat.mul_le_mul_right s hi) hn
  have h1 := two_pow_lane_pos s hs
  constructor
  · intro i hi
    rw [lane_vnot s k i hs (hbound i hi)]
    rcases hl i hi with h | h <;> rw [h]
    · right; rfl
    · left; omega
  · intro i hi
    rw [lane_vnot s k i hs (hbound i hi)]
    rcases hl i hi with h | h <;> rw [h] <;> omega

theorem testc_implicit (c : RCfg) (T : MaskTy) (bytes : Nat) (k : Reg)
    (hs : T.size = 1 ∨ T.size = 2 ∨ T.size = 4 ∨ T.size = 8)
    (hfull : k.length = 16 ∨ k.length = 32) (hb : bytes ≤ k.length)
    (hl : lanes_ok T.size (bytes / T.size) k) (hc : c.avx = true ∨ c.sse4_1 = true) :
    ∃ t, testc c T k (implicit_mask T bytes k.length) = .ok t ∧
      (t ≠ 0 ↔ ∀ i, i < bytes / T.size → lane T.size k i ≠ 0) := by
  have hn : bytes / T.size * T.size ≤ k.length :=
    Nat.le_trans (Nat.div_mul_le_self _ _) hb
  obtain ⟨hl2, hflip⟩ := lanes_ok_vnot T.size _ k hs hl hn
  obtain ⟨t, ht, he⟩ := testz_implicit c T bytes (vnot k) hs (by rw [length_vnot]; exact hfull)
    (by rw [length_vnot]; exact hb) hl2 hc
  rw [length_vnot] at ht
  refine ⟨t, by rw [testc_eq_testz]; exact ht, ?_⟩
  rw [ne_eq, he]
  constructor
  · intro h i hi hz
    exact h ⟨i, hi, (hflip i hi).mpr hz⟩
  · rintro h ⟨i, hi, hne⟩
    exact h i hi ((hflip i hi).mp hne)

theorem testnzc_eq (c : RCfg) (T : MaskTy) (a b : Reg) (z cc : Nat)
    (hc : c.avx = true ∨ c.sse4_1 = true)
    (hz : testz c T a b = .ok z) (hcc : testc c T a b = .ok cc) :
    ∃ t, testnzc c T a b = .ok t ∧ (t ≠ 0 ↔ z = 0 ∧ cc = 0) := by
  unfold testz at hz
  unfold testc at hcc
  unfold testnzc
  simp only [] at hz hcc ⊢
  by_cases h1 : c.avx = true
  · simp only [h1, if_true] at hz hcc ⊢
    split_ifs at hz hcc ⊢ <;>
      simp only [Except.ok.injEq] at hz hcc <;> subst hz <;> subst hcc <;>
      refine ⟨_, rfl, ?_⟩ <;> simp_all
  · have h2 : c.sse4_1 = true := by
      rcases hc with hc | hc
      · exact absurd hc h1
      · exact hc
    simp only [h1, h2, if_true, if_false, Bool.false_eq_true] at hz hcc ⊢
    simp only [Except.ok.injEq] at hz hcc
    subst hz
    subst hcc
    refine ⟨_, rfl, ?_⟩
    simp_all

/-! ## Masks with every bit set -/

theorem bit_two_pow_sub_one (n i : Nat) : bit (2 ^ n - 1) i = decide (i < n) := by
  rw [bit_eq_testBit, Nat.testBit_two_pow_sub_one]

theorem mod_eq_ones_iff (x n : Nat) :
    x % 2 ^ n = 2 ^ n - 1 ↔ ∀ i, i < n → bit x i = true := by
  constructor
  · intro h i hi
    have := bit_mod_two_pow x n i
    rw [h, bit_two_pow_sub_one] at this
    simpa [hi] using this.symm
  · intro h
    apply Nat.eq_of_testBit_eq
    intro i
    rw [← bit_eq_testBit, ← bit_eq_testBit, bit_mod_two_pow, bit_two_pow_sub_one]
    by_cases hi : i < n
    · simp [hi, h i hi]
    · simp [hi]

theorem eq_ones_iff (x n : Nat) (hx : x < 2 ^ n) :
    x = 2 ^ n - 1 ↔ ∀ i, i < n → bit x i = true := by
  have := mod_eq_ones_iff x n
  rwa [Nat.mod_eq_of_lt hx] at this

theorem msb_mask_mod_all (s : Nat) (v : Reg) (n : Nat) (hn : n ≤ v.length / s) :
    msb_mask s v % 2 ^ n = 2 ^ n - 1 ↔ ∀ i, i < n → 128 ≤ (rd v (i * s + (s - 1))).val := by
  rw [mod_eq_ones_iff]
  constructor
  · intro h i hi
    have := h i hi
    rw [bit_msb_mask _ _ _ (by omega)] at this
    simpa using this
  · intro h i hi
    rw [bit_msb_mask _ _ _ (by omega)]
    simp [h i hi]

theorem forall_lane_iff_top (s n : Nat) (k : Reg) (hs : s = 1 ∨ s = 2 ∨ s = 4 ∨ s = 8)
    (hl : lanes_ok s n k) :
    (∀ i, i < n → 128 ≤ (rd k (i * s + (s - 1))).val) ↔ ∀ i, i < n → lane s k i ≠ 0 := by
  constructor
  · intro h i hi
    have := top_byte_of_lane_ok s k i hs (hl i hi)
    rw [decide_eq_decide] at this
    exact this.mp (h i hi)
  · intro h i hi
    have := top_byte_of_lane_ok s k i hs (hl i hi)
    rw [decide_eq_decide] at this
    exact this.mpr (h i hi)

/-- Every byte of the logical lanes is `0xff` exactly when every logical lane is true. -/
theorem all_bytes_iff_lanes (s n : Nat) (k : Reg) (hs : s = 1 ∨ s = 2 ∨ s = 4 ∨ s = 8)
    (hl : lanes_ok s n k) :
    (∀ j, j < n * s → (rd k j).val = 255) ↔ ∀ i, i < n → lane s k i ≠ 0 := by
  have hpos : 0 < s := by omega
  have hdiv : ∀ j, j < n * s → j / s < n := fun j hj =>
    Nat.div_lt_of_lt_mul (by rw [Nat.mul_comm]; exact hj)
  constructor
  · intro h i hi hz
    have hj : i * s < n * s := Nat.mul_lt_mul_of_pos_right hi hpos
    have := mask_byte s n k (i * s) hs hl (hdiv _ hj)
    rw [Nat.mul_div_cancel _ hpos, h _ hj] at this
    simp [hz] at this
  · intro h j hj
    rw [mask_byte s n k j hs hl (hdiv j hj), if_pos (h _ (hdiv j hj))]

theorem msb1_mask_mod_all (s n : Nat) (k : Reg) (hs : s = 1 ∨ s = 2 ∨ s = 4 ∨ s = 8)
    (hl : lanes_ok s n k) (hn : n * s ≤ k.length) :
    msb_mask 1 k % 2 ^ (n * s) = 2 ^ (n * s) - 1 ↔ ∀ i, i < n → lane s k i ≠ 0 := by
  have hpos : 0 < s := by omega
  rw [msb_mask_mod_all 1 k (n * s) (by rw [Nat.div_one]; exact hn),
    ← all_bytes_iff_lanes s n k hs hl]
  simp only [Nat.mul_one, Nat.sub_self, Nat.add_zero]
  constructor
  · intro h j hj
    have h1 := h j hj
    have h2 := mask_byte s n k j hs hl
      (Nat.div_lt_of_lt_mul (by rw [Nat.mul_comm]; exact hj))
    split at h2 <;> omega
  · intro h j hj
    rw [h j hj]
    decide

theorem kortestc_self (w k : Nat) (hk : k < 2 ^ w) : kortestc w k k ≠ 0 ↔ k = 2 ^ w - 1 := by
  unfold kortestc
  rw [Nat.or_self, Nat.mod_eq_of_lt hk]
  split <;> simp [*]

/-! ## The NEON branch of `__all_of` -/

theorem byte_canon (s n : Nat) (k : Reg) (hs : s = 1 ∨ s = 2 ∨ s = 4 ∨ s = 8)
    (hl : lanes_ok s n k) (j : Nat) (hj : j < n * s) :
    (rd k j).val = 0 ∨ (rd k j).val = 255 := by
  have := mask_byte s n k j hs hl (Nat.div_lt_of_lt_mul (by rw [Nat.mul_comm]; exact hj))
  split at this
  · right; exact this
  · left; exact this

/-- A 64-bit lane whose bytes are `0` or `0xff` is a multiple of 255, and it is all-ones
exactly when each byte is `0xff`. -/
theorem lane8_canon (k : Reg) (i : Nat)
    (hB : ∀ t, t < 8 → (rd k (i * 8 + t)).val = 0 ∨ (rd k (i * 8 + t)).val = 255) :
    lane 8 k i % 255 = 0 ∧
      (lane 8 k i = 2 ^ 64 - 1 ↔ ∀ t, t < 8 → (rd k (i * 8 + t)).val = 255) := by
  have c : ∀ t, t < 8 → ∃ c, (rd k (i * 8 + t)).val = 255 * c ∧ c ≤ 1 := by
    intro t ht
    rcases hB t ht with h | h
    · exact ⟨0, by omega, by omega⟩
    · exact ⟨1, by omega, by omega⟩
  obtain ⟨c0, e0, l0⟩ := c 0 (by decide)
  obtain ⟨c1, e1, l1⟩ := c 1 (by decide)
  obtain ⟨c2, e2, l2⟩ := c 2 (by decide)
  obtain ⟨c3, e3, l3⟩ := c 3 (by decide)
  obtain ⟨c4, e4, l4⟩ := c 4 (by decide)
  obtain ⟨c5, e5, l5⟩ := c 5 (by decide)
  obtain ⟨c6, e6, l6⟩ := c 6 (by decide)
  obtain ⟨c7, e7, l7⟩ := c 7 (by decide)
  rw [Nat.add_zero] at e0
  have hl := lane_8 k i
  constructor
  · omega
  · constructor
    · intro h t ht
      interval_cases t
      · rw [Nat.add_zero]; omega
      all_goals omega
    · intro h
      have h0 := h 0 (by decide)
      have h1 := h 1 (by decide)
      have h2 := h 2 (by decide)
      have h3 := h 3 (by decide)
      have h4 := h 4 (by decide)
      have h5 := h 5 (by decide)
      have h6 := h 6 (by decide)
      have h7 := h 7 (by decide)
      rw [Nat.add_zero] at h0
      omega

theorem sint8_sum (u0 u1 : Nat) (h0 : u0 % 255 = 0) (h1 : u1 % 255 = 0)
    (l0 : u0 < 2 ^ 64) (l1 : u1 < 2 ^ 64) :
    sint 8 u0 + sint 8 u1 = -2 ↔ u0 = 2 ^ 64 - 1 ∧ u1 = 2 ^ 64 - 1 := by
  simp only [sint, Nat.reduceMul, Nat.reduceSub, Nat.reducePow] at l0 l1 ⊢
  split_ifs <;> omega

theorem sint8_neg_one (u : Nat) (l : u < 2 ^ 64) : sint 8 u = -1 ↔ u = 2 ^ 64 - 1 := by
  simp only [sint, Nat.reduceMul, Nat.reduceSub, Nat.reducePow] at l ⊢
  split_ifs
  · omega
  · constructor
    · intro h
      exact h.elim
    · intro h
      omega

theorem neon_all_16 (s : Nat) (k : Reg) (hs : s = 1 ∨ s = 2 ∨ s = 4 ∨ s = 8)
    (hl : lanes_ok s (16 / s) k) :
    sint 8 (lane 8 k 0) + sint 8 (lane 8 k 1) = -2 ↔ ∀ i, i < 16 / s → lane s k i ≠ 0 := by
  have e : 16 / s * s = 16 := by rcases hs with h | h | h | h <;> subst h <;> rfl
  have hB : ∀ j, j < 16 → (rd k j).val = 0 ∨ (rd k j).val = 255 := fun j hj =>
    byte_canon s _ k hs hl j (by rw [e]; exact hj)
  obtain ⟨m0, a0⟩ := lane8_canon k 0 (fun t ht => hB _ (by omega))
  obtain ⟨m1, a1⟩ := lane8_canon k 1 (fun t ht => hB _ (by omega))
  rw [sint8_sum _ _ m0 m1 (lane_lt 8 k 0 (by decide)) (lane_lt 8 k 1 (by decide)), a0, a1,
    ← all_bytes_iff_lanes s _ k hs hl, e]
  constructor
  · rintro ⟨h0, h1⟩ j hj
    by_cases hlt : j < 8
    · have := h0 j hlt
      rwa [Nat.zero_mul, Nat.zero_add] at this
    · have := h1 (j - 8) (by omega)
      rwa [show 1 * 8 + (j - 8) = j by omega] at this
  · intro h
    exact ⟨fun t ht => h _ (by omega), fun t ht => h _ (by omega)⟩

theorem neon_all_8 (s : Nat) (k : Reg) (hs : s = 1 ∨ s = 2 ∨ s = 4 ∨ s = 8)
    (hl : lanes_ok s (8 / s) k) :
    sint 8 (lane 8 k 0) = -1 ↔ ∀ i, i < 8 / s → lane s k i ≠ 0 := by
  have e : 8 / s * s = 8 := by rcases hs with h | h | h | h <;> subst h <;> rfl
  have hB : ∀ j, j < 8 → (rd k j).val = 0 ∨ (rd k j).val = 255 := fun j hj =>
    byte_canon s _ k hs hl j (by rw [e]; exact hj)
  obtain ⟨_, a0⟩ := lane8_canon k 0 (fun t ht => hB _ (by omega))
  rw [sint8_neg_one _ (lane_lt 8 k 0 (by decide)), a0, ← all_bytes_iff_lanes s _ k hs hl, e]
  constructor
  · intro h0 j hj
    have := h0 j hj
    rwa [Nat.zero_mul, Nat.zero_add] at this
  · intro h t ht
    rw [Nat.zero_mul, Nat.zero_add]
    exact h t ht
/-! ## `__all_of` on well-formed masks -/

theorem combine_all_spec (all : MaskData → Except Err Bool) (ms : List MaskData)
    (P : Nat → Prop) (steps : Nat) : ∀ i0,
    (∀ i, i0 ≤ i → i < i0 + steps →
      ∃ b, all (ms.getD i (.scalar false)) = .ok b ∧ (b = true ↔ P i)) →
    ∃ b, combine_all all ms steps i0 = .ok b ∧
      (b = true ↔ ∀ i, i0 ≤ i → i < i0 + steps → P i) := by
  induction steps with
  | zero =>
    intro i0 _
    refine ⟨true, rfl, ?_⟩
    constructor
    · intro _ i h1 h2
      omega
    · intro _
      rfl
  | succ steps ih =>
    intro i0 h
    obtain ⟨b0, hb0, hP0⟩ := h i0 (Nat.le_refl _) (by omega)
    cases b0 with
    | false =>
      refine ⟨false, ?_, ?_⟩
      · rw [combine_all, hb0]
        rfl
      · constructor
        · intro h
          exact absurd h (by decide)
        · intro hall
          exact absurd (hP0.mpr (hall i0 (Nat.le_refl _) (by omega))) (by decide)
    | true =>
      obtain ⟨b, hb, hP⟩ := ih (i0 + 1) (fun i h1 h2 => h i (by omega) (by omega))
      refine ⟨b, ?_, ?_⟩
      · rw [combine_all, hb0]
        exact hb
      · rw [hP]
        constructor
        · intro hall i h1 h2
          by_cases hi : i = i0
          · subst hi
            exact hP0.mp rfl
          · exact hall i (by omega) (by omega)
        · intro hall i h1 h2
          exact hall i (by omega) (by omega)

/-- The AVX-512 branch of `__all_of` for a full mask register. -/
theorem all_of_kmask (c : RCfg) (T : MaskTy) (x : Nat)
    (hs : T.size = 1 ∨ T.size = 2 ∨ T.size = 4 ∨ T.size = 8)
    (hx : x < 2 ^ (64 / T.size)) (hbw : T.size ≤ 2 → c.avx512bw = true) :
    all_of c T (.avx512 64) (.kmask x) = .ok (decide (x = 2 ^ (64 / T.size) - 1)) := by
  have hk := kortestc_self (64 / T.size) x hx
  rcases hs with h | h | h | h <;> rw [h] at hx hk ⊢ <;> simp only [Nat.reduceDiv] at hx hk
  · have hb := hbw (by omega)
    simp only [all_of, implicit_kmask, h, Nat.reduceDiv, if_true, Nat.reduceEqDiff, if_false,
      true_or, or_true, hb]
    split_ifs <;> simp only [Except.ok.injEq, decide_eq_decide] <;> first | rfl | exact hk
  · have hb := hbw (by omega)
    simp only [all_of, implicit_kmask, h, Nat.reduceDiv, if_true, Nat.reduceEqDiff, if_false,
      true_or, or_true, hb]
    split_ifs <;> simp only [Except.ok.injEq, decide_eq_decide] <;> first | rfl | exact hk
  · simp only [all_of, implicit_kmask, h, Nat.reduceDiv, if_true, Nat.reduceEqDiff, if_false,
      true_or, or_true, Except.ok.injEq, decide_eq_decide]
    exact hk
  · simp only [all_of, implicit_kmask, h, Nat.reduceDiv, if_true, Nat.reduceEqDiff, if_false,
      true_or, or_true]
    split_ifs <;> simp only [Except.ok.injEq, decide_eq_decide] <;> first | rfl | exact hk

theorem all_of_spec (c : RCfg) (T : MaskTy)
    (hs : T.size = 1 ∨ T.size = 2 ∨ T.size = 4 ∨ T.size = 8) :
    ∀ (a : Abi) (m : MaskData), mask_ok c T a m → isa_ok c T a →
      ∃ b, all_of c T a m = .ok b ∧
        (b = true ↔ ∀ i, i < simd_size T a → lane_true T a m i = true) := by
  intro a
  induction a with
  | scalar =>
    intro m h _
    cases m <;> simp only [mask_ok] at h
    rename_i b
    refine ⟨b, rfl, ?_⟩
    simp [simd_size, lane_true]
  | fixed_size n =>
    intro m h _
    cases m <;> simp only [mask_ok] at h
    rename_i x
    refine ⟨decide (x = 2 ^ n - 1), rfl, ?_⟩
    simp only [decide_eq_true_eq, simd_size, lane_true]
    exact eq_ones_iff x n h.2.2
  | sse bytes =>
    intro m h _
    cases m <;> simp only [mask_ok] at h
    rename_i k
    obtain ⟨hc, hb, _, _, hlen, hl⟩ := h
    have hb' : bytes ≤ k.length := by omega
    have hN : bytes / T.size ≤ k.length / T.size := Nat.div_le_div_right hb'
    have e3 := (msb_mask_mod_all T.size k (bytes / T.size) hN).trans
      (forall_lane_iff_top T.size _ k hs hl)
    have e4 := msb1_mask_mod_all T.size (bytes / T.size) k hs hl
      (by rw [hlen]; exact Nat.le_trans (Nat.div_mul_le_self _ _) hb)
    simp only [all_of, simd_size, lane_true, decide_eq_true_eq]
    by_cases h41 : c.sse4_1 = true
    · obtain ⟨t, ht, he⟩ := testc_implicit c T bytes k hs (Or.inl hlen) hb' hl (Or.inr h41)
      rw [hlen] at ht
      rw [if_pos h41, ht]
      exact ⟨decide (t ≠ 0), rfl, by rw [decide_eq_true_eq]; exact he⟩
    · rw [if_neg h41]
      split_ifs with h1 h2
      · rw [← h1.2]
        exact ⟨_, rfl, by rw [decide_eq_true_eq]; exact e3⟩
      · rw [← h2.2]
        exact ⟨_, rfl, by rw [decide_eq_true_eq]; exact e3⟩
      · exact ⟨_, rfl, by rw [decide_eq_true_eq]; exact e4⟩
  | avx bytes =>
    intro m h _
    cases m <;> simp only [mask_ok] at h
    rename_i k
    obtain ⟨hc, h41, hb, hlen, hl⟩ := h
    obtain ⟨t, ht, he⟩ := testc_implicit c T bytes k hs (Or.inr hlen) (by omega) hl (Or.inl hc)
    rw [hlen] at ht
    simp only [all_of, simd_size, lane_true, decide_eq_true_eq]
    rw [if_pos h41, ht]
    exact ⟨decide (t ≠ 0), rfl, by rw [decide_eq_true_eq]; exact he⟩
  | avx512 bytes =>
    intro m h hisa
    cases m <;> simp only [mask_ok] at h
    rename_i x
    obtain ⟨hb, hx⟩ := h
    subst hb
    simp only [isa_ok] at hisa
    refine ⟨_, all_of_kmask c T x hs hx hisa, ?_⟩
    simp only [decide_eq_true_eq, simd_size, lane_true]
    exact eq_ones_iff x _ hx
  | neon bytes =>
    intro m h _
    cases m <;> simp only [mask_ok] at h
    rename_i k
    obtain ⟨hb, _, hlen, hl⟩ := h
    simp only [all_of, simd_size, lane_true, decide_eq_true_eq]
    rcases hb with hb | hb <;> subst hb
    · rw [if_neg (by omega), if_pos hlen]
      exact ⟨_, rfl, by rw [decide_eq_true_eq]; exact neon_all_8 T.size k hs hl⟩
    · rw [if_pos hlen]
      exact ⟨_, rfl, by rw [decide_eq_true_eq]; exact neon_all_16 T.size k hs hl⟩
  | combine n a ih =>
    intro m h hisa
    cases m <;> simp only [mask_ok] at h
    rename_i ms
    obtain ⟨_, hlen, hms⟩ := h
    simp only [isa_ok] at hisa
    have hmem : ∀ i, i < n → mask_ok c T a (ms.getD i (.scalar false)) := fun i hi =>
      hms _ (getD_mem_of_lt ms i _ (by omega))
    obtain ⟨b, hb, hP⟩ := combine_all_spec (fun m => all_of c T a m) ms
      (fun i => ∀ l, l < simd_size T a → lane_true T a (ms.getD i (.scalar false)) l = true)
      n 0 (fun i _ hi => ih _ (hmem i (by omega)) hisa)
    refine ⟨b, hb, ?_⟩
    rw [hP]
    simp only [simd_size, lane_true]
    constructor
    · intro hall i hi
      obtain ⟨h1, h2⟩ := combine_index n _ i hi
      exact hall (i / simd_size T a) (Nat.zero_le _) (by omega) (i % simd_size T a) h2
    · intro hall q _ hq l hl
      have hpos : 0 < simd_size T a := by omega
      have hlt : q * simd_size T a + l < n * simd_size T a := by
        calc q * simd_size T a + l < q * simd_size T a + simd_size T a := by omega
          _ = (q + 1) * simd_size T a := by rw [Nat.add_mul, Nat.one_mul]
          _ ≤ n * simd_size T a := Nat.mul_le_mul_right _ (by omega)
      have e1 : (q * simd_size T a + l) / simd_size T a = q := by
        rw [Nat.add_comm, Nat.add_mul_div_right _ _ hpos, Nat.div_eq_of_lt hl, Nat.zero_add]
      have e2 : (q * simd_size T a + l) % simd_size T a = l := by
        rw [Nat.add_comm, Nat.add_mul_mod_self_right, Nat.mod_eq_of_lt hl]
      have := hall _ hlt
      rwa [e1, e2] at this
/-! ## `__none_of` and `__some_of` against `__any_of` and `__all_of` -/

theorem combine_none_eq (any : MaskData → Except Err Bool) (ms : List MaskData) (steps : Nat) :
    ∀ i b, combine_any any ms steps i = .ok b → combine_none any ms steps i = .ok (!b) := by
  induction steps with
  | zero =>
    intro i b h
    simp only [combine_any, Except.ok.injEq] at h
    subst h
    rfl
  | succ steps ih =>
    intro i b h
    rw [combine_any] at h
    rw [combine_none]
    rcases hm : any (ms.getD i (.scalar false)) with e | v
    · rw [hm] at h
      cases h
    · rw [hm] at h
      cases v
      · exact ih (i + 1) b h
      · simp only [bind, Except.bind, if_true, Except.ok.injEq] at h
        subst h
        rfl

/-- `__movemask` of a 16-byte mask register. -/
theorem movemask_sse (c : RCfg) (T : MaskTy) (k : Reg) (hlen : k.length = 16)
    (hsse : c.sse = true) (hisa : (T.integral = true ∨ T.size ≠ 4) → c.sse2 = true) :
    movemask c T k = .ok (if ¬ T.integral = true ∧ T.size = 4 then msb_mask 4 k
      else if ¬ T.integral = true ∧ T.size = 8 then msb_mask 8 k else msb_mask 1 k) := by
  unfold movemask
  by_cases h1 : ¬ T.integral = true ∧ T.size = 4
  · rw [if_pos ⟨hsse, h1.1, h1.2, hlen⟩, if_pos h1]
  · have h2 : c.sse2 = true := hisa (by
      by_cases hi : T.integral = true
      · exact Or.inl hi
      · exact Or.inr (fun h4 => h1 ⟨hi, h4⟩))
    rw [if_neg (fun h => h1 ⟨h.2.1, h.2.2.1⟩), if_neg (by rw [hlen]; simp), if_neg h1]
    by_cases h3 : ¬ T.integral = true ∧ T.size = 8
    · rw [if_pos ⟨h2, h3.1, h3.2, hlen⟩, if_pos h3]
    · rw [if_neg (fun h => h3 ⟨h.2.1, h.2.2.1⟩), if_neg (by rw [hlen]; simp), if_neg h3,
        if_pos ⟨h2, hlen⟩]

theorem decide_eq_zero_not (x : Nat) : decide (x = 0) = !decide (x ≠ 0) := by
  by_cases h : x = 0 <;> simp [h]

theorem none_of_eq (c : RCfg) (T : MaskTy)
    (hs : T.size = 1 ∨ T.size = 2 ∨ T.size = 4 ∨ T.size = 8)
    (a : Abi) (m : MaskData) (hm : mask_ok c T a m) (hisa : isa_ok c T a) (b : Bool)
    (hb : any_of c T a m = .ok b) : none_of c T a m = .ok (!b) := by
  cases a with
  | scalar =>
    cases m <;> simp only [mask_ok] at hm
    simp only [any_of, Except.ok.injEq] at hb
    subst hb
    rfl
  | fixed_size n =>
    cases m <;> simp only [mask_ok] at hm
    simp only [any_of, Except.ok.injEq] at hb
    subst hb
    simp only [none_of, Except.ok.injEq]
    exact decide_eq_zero_not _
  | sse bytes =>
    cases m <;> simp only [mask_ok] at hm
    rename_i k
    obtain ⟨hc, hbl, _, _, hlen, hl⟩ := hm
    simp only [isa_ok] at hisa
    simp only [any_of, none_of] at hb ⊢
    by_cases h41 : c.sse4_1 = true
    · obtain ⟨t, ht, _⟩ := testz_implicit c T bytes k hs (Or.inl hlen) (by omega) hl (Or.inr h41)
      rw [hlen] at ht
      rw [if_pos h41, ht] at hb ⊢
      simp only [bind, Except.bind, Except.ok.injEq] at hb ⊢
      subst hb
      simp
    · rw [if_neg h41] at hb ⊢
      rw [movemask_sse c T k hlen hc hisa]
      by_cases h1 : ¬ T.integral = true ∧ T.size = 4
      · rw [if_pos h1] at hb
        rw [if_pos ⟨h1.1, Or.inl h1.2⟩, if_pos h1]
        simp only [Except.ok.injEq] at hb
        subst hb
        simp only [bind, Except.bind, Except.ok.injEq]
        exact decide_eq_zero_not _
      · rw [if_neg h1] at hb
        by_cases h2 : ¬ T.integral = true ∧ T.size = 8
        · rw [if_pos h2] at hb
          rw [if_pos ⟨h2.1, Or.inr h2.2⟩, if_neg h1, if_pos h2]
          simp only [Except.ok.injEq] at hb
          subst hb
          simp only [bind, Except.bind, Except.ok.injEq]
          exact decide_eq_zero_not _
        · rw [if_neg h2] at hb
          have h3 : ¬ (¬ T.integral = true ∧ (T.size = 4 ∨ T.size = 8)) := by
            rintro ⟨hi, h4 | h8⟩
            · exact h1 ⟨hi, h4⟩
            · exact h2 ⟨hi, h8⟩
          rw [if_neg h3, if_neg h1, if_neg h2]
          simp only [Except.ok.injEq] at hb
          subst hb
          simp only [bind, Except.bind, Except.ok.injEq]
          exact decide_eq_zero_not _
  | avx bytes =>
    cases m <;> simp only [mask_ok] at hm
    rename_i k
    obtain ⟨hc, h41, hbl, hlen, hl⟩ := hm
    simp only [any_of, none_of] at hb ⊢
    obtain ⟨t, ht, _⟩ := testz_implicit c T bytes k hs (Or.inr hlen) (by omega) hl (Or.inl hc)
    rw [hlen] at ht
    rw [if_pos h41, ht] at hb ⊢
    simp only [bind, Except.bind, Except.ok.injEq] at hb ⊢
    subst hb
    simp
  | avx512 bytes =>
    cases m <;> simp only [mask_ok] at hm
    rename_i x
    obtain ⟨hbl, hx⟩ := hm
    subst hbl
    simp only [any_of, none_of, implicit_kmask, if_true, Except.ok.injEq] at hb ⊢
    subst hb
    exact decide_eq_zero_not _
  | neon bytes =>
    cases m <;> simp only [mask_ok] at hm
    rename_i k
    simp only [any_of, none_of, Except.ok.injEq] at hb ⊢
    subst hb
    rw [List.all_eq_not_any_not]
    congr 2
    funext i
    by_cases h : lane T.size k i = 0 <;> simp [h]
  | combine n a =>
    cases m <;> simp only [mask_ok] at hm
    rename_i ms
    simp only [any_of, none_of] at hb ⊢
    exact combine_none_eq _ ms n 0 b hb

theorem some_bits_eq (bits n : Nat) :
    some_bits bits n = (decide (bits % 2 ^ n ≠ 0) && !decide (bits % 2 ^ n = 2 ^ n - 1)) := by
  have hlt : bits % 2 ^ n < 2 ^ n := Nat.mod_lt _ (Nat.two_pow_pos n)
  unfold some_bits
  rw [Bool.eq_iff_iff]
  simp only [decide_eq_true_eq, Bool.and_eq_true, Bool.not_eq_true', decide_eq_false_iff_not]
  omega

theorem filter_length_pos (p : Nat → Bool) (n : Nat) :
    0 < ((List.range n).filter p).length ↔ ∃ i, i < n ∧ p i = true := by
  rw [List.length_pos_iff_exists_mem]
  constructor
  · rintro ⟨i, hi⟩
    rw [List.mem_filter, List.mem_range] at hi
    exact ⟨i, hi⟩
  · rintro ⟨i, hi⟩
    exact ⟨i, by rw [List.mem_filter, List.mem_range]; exact hi⟩

theorem filter_length_lt (p : Nat → Bool) (n : Nat) :
    ((List.range n).filter p).length < n ↔ ∃ i, i < n ∧ p i = false := by
  have := @List.length_filter_lt_length_iff_exists Nat p (List.range n)
  rw [List.length_range] at this
  rw [this]
  constructor
  · rintro ⟨i, hi, h⟩
    exact ⟨i, List.mem_range.mp hi, by simpa using h⟩
  · rintro ⟨i, hi, h⟩
    exact ⟨i, List.mem_range.mpr hi, by simp [h]⟩

theorem some_of_eq (c : RCfg) (T : MaskTy)
    (hs : T.size = 1 ∨ T.size = 2 ∨ T.size = 4 ∨ T.size = 8)
    (a : Abi) (m : MaskData) (hm : mask_ok c T a m) (hisa : isa_ok c T a)
    (hnc : ∀ n a2, a ≠ .combine n a2) (x y : Bool)
    (hx : any_of c T a m = .ok x) (hy : all_of c T a m = .ok y) :
    some_of c T a m = .ok (if simd_size T a = 1 then false else (x && !y)) := by
  cases a with
  | scalar =>
    cases m <;> simp only [mask_ok] at hm
    rfl
  | fixed_size n =>
    cases m <;> simp only [mask_ok] at hm
    simp only [any_of, all_of, Except.ok.injEq] at hx hy
    subst hx
    subst hy
    simp only [some_of, simd_size]
    split_ifs
    · rfl
    · simp only [Bool.decide_and, Except.ok.injEq, decide_not]
  | sse bytes =>
    cases m <;> simp only [mask_ok] at hm
    rename_i k
    obtain ⟨hc, hbl, hN, _, hlen, hl⟩ := hm
    have hN1 : ¬ bytes / T.size = 1 := by omega
    simp only [any_of, all_of, some_of, simd_size, if_neg hN1] at hx hy ⊢
    by_cases h41 : c.sse4_1 = true
    · obtain ⟨tz, hz, _⟩ := testz_implicit c T bytes k hs (Or.inl hlen) (by omega) hl (Or.inr h41)
      obtain ⟨tc, hcc, _⟩ := testc_implicit c T bytes k hs (Or.inl hlen) (by omega) hl
        (Or.inr h41)
      rw [hlen] at hz hcc
      obtain ⟨t, ht, he⟩ := testnzc_eq c T k _ tz tc (Or.inr h41) hz hcc
      rw [if_pos h41, hz] at hx
      rw [if_pos h41, hcc] at hy
      rw [if_pos h41, ht]
      simp only [bind, Except.bind, Except.ok.injEq] at hx hy ⊢
      subst hx
      subst hy
      rw [Bool.eq_iff_iff]
      simp only [decide_eq_true_eq, Bool.and_eq_true, Bool.not_eq_true', decide_eq_false_iff_not,
        not_not]
      exact he
    · rw [if_neg h41] at hx hy ⊢
      split_ifs at hx hy ⊢ <;> simp only [Except.ok.injEq] at hx hy ⊢ <;> subst hx <;>
        subst hy <;> exact some_bits_eq _ _
  | avx bytes =>
    cases m <;> simp only [mask_ok] at hm
    rename_i k
    obtain ⟨hc, h41, hbl, hlen, hl⟩ := hm
    subst hbl
    have hN1 : ¬ 32 / T.size = 1 := by
      rcases hs with h | h | h | h <;> rw [h] <;> decide
    simp only [any_of, all_of, some_of, simd_size, if_neg hN1] at hx hy ⊢
    obtain ⟨tz, hz, _⟩ := testz_implicit c T 32 k hs (Or.inr hlen) (by omega) hl (Or.inl hc)
    obtain ⟨tc, hcc, _⟩ := testc_implicit c T 32 k hs (Or.inr hlen) (by omega) hl (Or.inl hc)
    rw [hlen] at hz hcc
    obtain ⟨t, ht, he⟩ := testnzc_eq c T k _ tz tc (Or.inl hc) hz hcc
    rw [if_pos h41, hz] at hx
    rw [if_pos h41, hcc] at hy
    rw [if_pos h41, ht]
    simp only [bind, Except.bind, Except.ok.injEq] at hx hy ⊢
    subst hx
    subst hy
    rw [Bool.eq_iff_iff]
    simp only [decide_eq_true_eq, Bool.and_eq_true, Bool.not_eq_true', decide_eq_false_iff_not,
      not_not]
    exact he
  | avx512 bytes =>
    cases m <;> simp only [mask_ok] at hm
    rename_i k
    obtain ⟨hbl, _⟩ := hm
    subst hbl
    have hN1 : ¬ 64 / T.size = 1 := by
      rcases hs with h | h | h | h <;> rw [h] <;> decide
    rw [some_of]
    simp only [simd_size, if_neg hN1, hx, hy]
    cases x <;> rfl
  | neon bytes =>
    cases m <;> simp only [mask_ok] at hm
    rename_i k
    have hm' : mask_ok c T (.neon bytes) (.vec k) := by
      simp only [mask_ok]
      exact hm
    obtain ⟨_, hN, _, _⟩ := hm
    have hN1 : ¬ bytes / T.size = 1 := by omega
    obtain ⟨x', hx', ex⟩ := any_of_spec c T hs _ _ hm'
    obtain ⟨y', hy', ey⟩ := all_of_spec c T hs _ _ hm' hisa
    rw [hx] at hx'
    rw [hy] at hy'
    cases hx'
    cases hy'
    simp only [simd_size, lane_true, decide_eq_true_eq] at ex ey
    simp only [some_of, simd_size, if_neg hN1, Except.ok.injEq]
    rw [Bool.eq_iff_iff]
    simp only [decide_eq_true_eq, Bool.and_eq_true, Bool.not_eq_true', filter_length_pos,
      filter_length_lt, decide_eq_false_iff_not, ex]
    rw [and_comm]
    refine and_congr Iff.rfl ?_
    rw [← Bool.not_eq_true, ey]
    constructor
    · rintro ⟨i, hi, h⟩ hall
      exact hall i hi h
    · intro h
      by_contra hne
      exact h (fun i hi hz => hne ⟨i, hi, hz⟩)
  | combine n a2 => exact absurd rfl (hnc n a2)
/-! ## The reductions read the logical lanes only -/

theorem implicit_zero_or_lt (T : MaskTy) (bytes full j : Nat) (hj : j < full) :
    rd (implicit_mask T bytes full) j = 0 ∨ j < bytes := by
  rw [implicit_mask, rd_mk_lt hj]
  by_cases hp : bytes < full
  · rw [if_pos hp]
    by_cases hq : j / T.size < bytes / T.size
    · right
      by_contra hge
      have := Nat.div_le_div_right (c := T.size) (Nat.le_of_not_lt hge)
      omega
    · left
      rw [if_neg hq]
  · right
    omega

theorem vand_implicit_congr (T : MaskTy) (bytes : Nat) (v w : Reg) (hl : v.length = w.length)
    (h : ∀ j, j < bytes → rd v j = rd w j) :
    vand v (implicit_mask T bytes v.length) = vand w (implicit_mask T bytes v.length) := by
  unfold vand
  rw [← hl]
  apply mk_congr
  intro j hj
  rcases implicit_zero_or_lt T bytes v.length j hj with hz | hlt
  · rw [hz]
    simp
  · rw [h j hlt]

theorem vandnot_implicit_congr (T : MaskTy) (bytes : Nat) (v w : Reg)
    (hl : v.length = w.length) (h : ∀ j, j < bytes → rd v j = rd w j) :
    vandnot v (implicit_mask T bytes v.length) = vandnot w (implicit_mask T bytes v.length) := by
  unfold vandnot
  rw [← hl]
  apply mk_congr
  intro j hj
  rcases implicit_zero_or_lt T bytes v.length j hj with hz | hlt
  · rw [hz]
    simp
  · rw [h j hlt]

theorem masked_congr (T : MaskTy) (bytes : Nat) (v w : Reg) (hl : v.length = w.length)
    (h : ∀ j, j < bytes → rd v j = rd w j) :
    masked T bytes v.length v = masked T bytes v.length w := by
  unfold masked
  by_cases hp : bytes < v.length
  · rw [if_pos hp, if_pos hp]
    exact vand_implicit_congr T bytes v w hl h
  · rw [if_neg hp, if_neg hp]
    exact ext_rd hl (fun j hj => h j (by omega))

theorem msb_mask_mod_congr (s n : Nat) (v w : Reg) (hl : v.length = w.length)
    (hn : n ≤ v.length / s) (hs : 0 < s) (h : ∀ j, j < n * s → rd v j = rd w j) :
    msb_mask s v % 2 ^ n = msb_mask s w % 2 ^ n := by
  apply Nat.eq_of_testBit_eq
  intro i
  rw [← bit_eq_testBit, ← bit_eq_testBit, bit_mod_two_pow, bit_mod_two_pow]
  by_cases hi : i < n
  · have hlt : i * s + (s - 1) < n * s := by
      calc i * s + (s - 1) < i * s + s := by omega
        _ = (i + 1) * s := by rw [Nat.add_mul, Nat.one_mul]
        _ ≤ n * s := Nat.mul_le_mul_right _ hi
    rw [bit_msb_mask s v i (by omega), bit_msb_mask s w i (by rw [← hl]; omega), h _ hlt]
  · simp [hi]

theorem testz_congr (c : RCfg) (T : MaskTy) (v w b : Reg) (hl : v.length = w.length)
    (h : vand v b = vand w b) : testz c T v b = testz c T w b := by
  simp only [testz, hl, h]

theorem testc_congr (c : RCfg) (T : MaskTy) (v w b : Reg) (hl : v.length = w.length)
    (h : vandnot v b = vandnot w b) : testc c T v b = testc c T w b := by
  simp only [testc, hl, h]

theorem testnzc_congr (c : RCfg) (T : MaskTy) (v w b : Reg) (hl : v.length = w.length)
    (h1 : vand v b = vand w b) (h2 : vandnot v b = vandnot w b) :
    testnzc c T v b = testnzc c T w b := by
  simp only [testnzc, hl, h1, h2]

/-- The bits of `__movemask` below `n` depend on the first `bytes` bytes only. -/
theorem movemask_mod_congr (c : RCfg) (T : MaskTy) (v w : Reg) (bytes n : Nat)
    (hl : v.length = w.length) (hb : bytes ≤ v.length)
    (h : ∀ j, j < bytes → rd v j = rd w j) (hn : n * 8 ≤ bytes)
    (P : Nat → Bool) :
    (do let m ← movemask c T v; (Except.ok (P (m % 2 ^ n)) : Except Err Bool)) =
      (do let m ← movemask c T w; Except.ok (P (m % 2 ^ n))) := by
  have e1 := msb_mask_mod_congr 1 n v w hl (by omega) (by decide) (fun j hj => h j (by omega))
  have e4 := msb_mask_mod_congr 4 n v w hl (by omega) (by decide) (fun j hj => h j (by omega))
  have e8 := msb_mask_mod_congr 8 n v w hl (by omega) (by decide) (fun j hj => h j (by omega))
  simp only [movemask, ← hl]
  split_ifs <;> simp only [bind, Except.bind, e1, e4, e8]

/-- The SSE and AVX branches of the reductions, for two registers of `full` bytes that agree
on the first `bytes` bytes. -/
theorem vec_congr (c : RCfg) (T : MaskTy) (bytes full : Nat) (v w : Reg)
    (hv : v.length = full) (hw : w.length = full) (hb : bytes ≤ full)
    (h : ∀ j, j < bytes → rd v j = rd w j) :
    testz c T v (implicit_mask T bytes full) = testz c T w (implicit_mask T bytes full)
    ∧ testc c T v (implicit_mask T bytes full) = testc c T w (implicit_mask T bytes full)
    ∧ testnzc c T v (implicit_mask T bytes full) = testnzc c T w (implicit_mask T bytes full)
    ∧ masked T bytes full v = masked T bytes full w
    ∧ (T.size = 4 → msb_mask 4 v % 2 ^ (bytes / T.size) = msb_mask 4 w % 2 ^ (bytes / T.size))
    ∧ (T.size = 8 → msb_mask 8 v % 2 ^ (bytes / T.size) = msb_mask 8 w % 2 ^ (bytes / T.size))
    ∧ msb_mask 1 v % 2 ^ (bytes / T.size * T.size)
        = msb_mask 1 w % 2 ^ (bytes / T.size * T.size) := by
  have hl : v.length = w.length := by rw [hv, hw]
  have h1 := vand_implicit_congr T bytes v w hl h
  have h2 := vandnot_implicit_congr T bytes v w hl h
  have h3 := masked_congr T bytes v w hl h
  rw [hv] at h1 h2 h3
  have hle : bytes / T.size * T.size ≤ bytes := Nat.div_mul_le_self _ _
  refine ⟨testz_congr c T v w _ hl h1, testc_congr c T v w _ hl h2,
    testnzc_congr c T v w _ hl h1 h2, h3, ?_, ?_, ?_⟩
  · intro h4
    rw [h4] at hle ⊢
    exact msb_mask_mod_congr 4 _ v w hl (by omega) (by decide) (fun j hj => h j (by omega))
  · intro h8
    rw [h8] at hle ⊢
    exact msb_mask_mod_congr 8 _ v w hl (by omega) (by decide) (fun j hj => h j (by omega))
  · exact msb_mask_mod_congr 1 _ v w hl (by omega) (by decide) (fun j hj => h j (by omega))

theorem bind_congr_ok {α : Type} (x y : Except Err Nat) (f : Nat → Except Err α) (h : x = y) :
    (x >>= f) = (y >>= f) := by rw [h]

/-- `__none_of` without SSE4.1 reads the bits of `__movemask` below the lane count. -/
theorem movemask_congr (c : RCfg) (T : MaskTy) (bytes full n : Nat) (v w : Reg)
    (hv : v.length = full) (hw : w.length = full) (hb : bytes ≤ full)
    (h : ∀ j, j < bytes → rd v j = rd w j)
    (h1 : n ≤ bytes) (h4 : ¬ T.integral = true → T.size = 4 → n * 4 ≤ bytes)
    (h8 : ¬ T.integral = true → T.size = 8 → n * 8 ≤ bytes) :
    (do let m ← movemask c T v; (Except.ok (decide (m % 2 ^ n = 0)) : Except Err Bool)) =
      (do let m ← movemask c T w; Except.ok (decide (m % 2 ^ n = 0))) := by
  have hl : v.length = w.length := by rw [hv, hw]
  have e1 := msb_mask_mod_congr 1 n v w hl (by omega) (by decide) (fun j hj => h j (by omega))
  simp only [movemask, hv, hw]
  split_ifs with c1 c2 c3 c4 c5 c6 <;> simp only [bind, Except.bind, e1]
  · rw [msb_mask_mod_congr 4 n v w hl (by have := h4 c1.2.1 c1.2.2.1; omega) (by decide)
      (fun j hj => h j (by have := h4 c1.2.1 c1.2.2.1; omega))]
  · rw [msb_mask_mod_congr 4 n v w hl (by have := h4 c2.2.1 c2.2.2.1; omega) (by decide)
      (fun j hj => h j (by have := h4 c2.2.1 c2.2.2.1; omega))]
  · rw [msb_mask_mod_congr 8 n v w hl (by have := h8 c3.2.1 c3.2.2.1; omega) (by decide)
      (fun j hj => h j (by have := h8 c3.2.1 c3.2.2.1; omega))]
  · rw [msb_mask_mod_congr 8 n v w hl (by have := h8 c4.2.1 c4.2.2.1; omega) (by decide)
      (fun j hj => h j (by have := h8 c4.2.1 c4.2.2.1; omega))]

theorem kmask_eq (T : MaskTy) (x y : Nat) (hx : x < 2 ^ (64 / T.size))
    (hy : y < 2 ^ (64 / T.size)) (h : x % 2 ^ (64 / T.size) = y % 2 ^ (64 / T.size)) : x = y := by
  rwa [Nat.mod_eq_of_lt hx, Nat.mod_eq_of_lt hy] at h

theorem reductions_congr (c : RCfg) (T : MaskTy) (a : Abi) (m1 m2 : MaskData)
    (h : same_lanes T a m1 m2) :
    all_of c T a m1 = all_of c T a m2 ∧ any_of c T a m1 = any_of c T a m2
      ∧ none_of c T a m1 = none_of c T a m2 ∧ some_of c T a m1 = some_of c T a m2
      ∧ popcount c T a m1 = popcount c T a m2 := by
  cases a <;> cases m1 <;> cases m2 <;> simp only [same_lanes] at h
  case sse.vec.vec bytes v w =>
    obtain ⟨hb, hv, hw, hj⟩ := h
    obtain ⟨e1, e2, e3, e4, e5, e6, e7⟩ := vec_congr c T bytes 16 v w hv hw hb hj
    have hN : bytes / T.size ≤ bytes := Nat.div_le_self _ _
    have hNs : bytes / T.size * T.size ≤ bytes := Nat.div_mul_le_self _ _
    have n1 := movemask_congr c T bytes 16 (bytes / T.size) v w hv hw hb hj hN
      (fun _ h4 => by rw [h4] at hNs ⊢; exact hNs) (fun _ h8 => by rw [h8] at hNs ⊢; exact hNs)
    refine ⟨?_, ?_, ?_, ?_, ?_⟩
    · simp only [all_of, e2]
      split_ifs with c1 c2 c3
      · rfl
      · rw [e5 c2.2]
      · rw [e6 c3.2]
      · rw [e7]
    · simp only [any_of, e1]
      split_ifs with c1 c2 c3
      · rfl
      · rw [e5 c2.2]
      · rw [e6 c3.2]
      · rw [e7]
    · simp only [none_of, e1]
      split_ifs with c1 c2
      · rfl
      · exact n1
      · by_cases hi : T.integral = true
        · exact movemask_congr c T bytes 16 _ v w hv hw hb hj hNs
            (fun hn _ => absurd hi hn) (fun hn _ => absurd hi hn)
        · exact movemask_congr c T bytes 16 _ v w hv hw hb hj hNs
            (fun _ h4 => absurd ⟨hi, Or.inl h4⟩ c2) (fun _ h8 => absurd ⟨hi, Or.inr h8⟩ c2)
    · simp only [some_of, e3, some_bits]
      split_ifs with c0 c1 c2 c3
      · rfl
      · rfl
      · rw [e5 c2.2]
      · rw [e6 c3.2]
      · rw [e7]
    · simp only [popcount, e4]
  case avx.vec.vec bytes v w =>
    obtain ⟨hb, hv, hw, hj⟩ := h
    obtain ⟨e1, e2, e3, e4, e5, e6, e7⟩ := vec_congr c T bytes 32 v w hv hw hb hj
    have hN : bytes / T.size ≤ bytes := Nat.div_le_self _ _
    have hNs : bytes / T.size * T.size ≤ bytes := Nat.div_mul_le_self _ _
    have n1 := movemask_congr c T bytes 32 (bytes / T.size) v w hv hw hb hj hN
      (fun _ h4 => by rw [h4] at hNs ⊢; exact hNs) (fun _ h8 => by rw [h8] at hNs ⊢; exact hNs)
    refine ⟨?_, ?_, ?_, ?_, ?_⟩
    · simp only [all_of, e2]
    · simp only [any_of, e1]
    · simp only [none_of, e1]
      split_ifs with c1 c2
      · rfl
      · exact n1
      · by_cases hi : T.integral = true
        · exact movemask_congr c T bytes 32 _ v w hv hw hb hj hNs
            (fun hn _ => absurd hi hn) (fun hn _ => absurd hi hn)
        · exact movemask_congr c T bytes 32 _ v w hv hw hb hj hNs
            (fun _ h4 => absurd ⟨hi, Or.inl h4⟩ c2) (fun _ h8 => absurd ⟨hi, Or.inr h8⟩ c2)
    · simp only [some_of, e3]
    · simp only [popcount, e4]
  case avx512.kmask.kmask bytes x y =>
    obtain ⟨hb, hx, hy, hxy⟩ := h
    subst hb
    have := kmask_eq T x y hx hy hxy
    subst this
    exact ⟨rfl, rfl, rfl, rfl, rfl⟩

/-! ## The conversion `double` to `uint32_t` through `cvttpd_epi32` -/

theorem ulp_exp_small (p n : Nat) (h : n < 2 ^ p) : ulp_exp p n = 0 := by
  unfold ulp_exp
  have : List.range 128 = 0 :: (List.range 127).map Nat.succ := List.range_succ_eq_map 127
  rw [this, List.find?_cons]
  simp [h]

theorem round_even_one (n : Nat) : round_even n 1 = n := by
  simp [round_even, Nat.mod_one]

theorem rnd_small (p : Nat) (z : Int) (h : z.natAbs < 2 ^ p) : rnd p z = z := by
  unfold rnd
  rw [ulp_exp_small p _ h, Nat.pow_zero, round_even_one]
  exact Int.sign_mul_natAbs z

theorem rd_vxor (a b : Reg) (j : Nat) (hj : j < a.length) :
    rd (vxor a b) j = byteOf ((rd a j).val ^^^ (rd b j).val) := by
  simp [vxor, rd_mk, hj]

theorem sizeof_pos (tg : Target) (h : tg.ok) (T : VTy) : 0 < sizeof tg T := by
  obtain ⟨h1, h2, h3⟩ := h
  cases T <;> simp only [sizeof] <;> omega

/-- The recursion over `_AllNativeAbis` written out. -/
theorem deduce_unfold (tg : Target) (f : AbiCfg) (T : VTy) (N : Nat) :
    deduce tg f T N = deduce_spec tg f T N := by
  simp only [deduce, deduce_spec, has_valid_abi, FirstValidAbi, AllNativeAbis, AbiClass.tag,
    Bool.or_false, Bool.or_eq_true]
  by_cases h1 : class_valid tg f T .avx512 (sizeof tg T * N) = true
  · simp only [h1, true_or, if_true]
  by_cases h2 : class_valid tg f T .avx (sizeof tg T * N) = true
  · simp only [h1, h2, true_or, or_true, if_true, if_false, Bool.false_eq_true]
  by_cases h3 : class_valid tg f T .sse (sizeof tg T * N) = true
  · simp only [h1, h2, h3, true_or, or_true, if_true, if_false, Bool.false_eq_true]
  by_cases h4 : class_valid tg f T .neon (sizeof tg T * N) = true
  · simp only [h1, h2, h3, h4, true_or, or_true, if_true, if_false, Bool.false_eq_true]
  by_cases h5 : class_valid tg f T .scalar_wrapper (sizeof tg T * N) = true
  · simp only [h1, h2, h3, h4, h5, true_or, or_true, if_true, if_false, Bool.false_eq_true]
  · simp only [h1, h2, h3, h4, h5, or_self, if_false, Bool.false_eq_true]

/-- What a result of `deduce` says about the request. -/
theorem deduce_some (tg : Target) (f : AbiCfg) (T : VTy) (N : Nat) (a : Abi)
    (h : deduce tg f T N = some a) :
    (a = .avx512 (sizeof tg T * N) ∧ native_valid tg f T (.avx512 (sizeof tg T * N)) = true)
    ∨ (a = .avx (sizeof tg T * N) ∧ native_valid tg f T (.avx (sizeof tg T * N)) = true)
    ∨ (a = .sse (sizeof tg T * N) ∧ native_valid tg f T (.sse (sizeof tg T * N)) = true)
    ∨ (a = .neon (sizeof tg T * N) ∧ native_valid tg f T (.neon (sizeof tg T * N)) = true)
    ∨ (a = .scalar ∧ is_vectorizable T = true ∧ sizeof tg T = sizeof tg T * N)
    ∨ (a = .fixed_size N ∧ is_valid tg f T (.fixed_size N) = true) := by
  rw [deduce_unfold] at h
  simp only [deduce_spec, class_valid, AbiClass.tag] at h
  split_ifs at h with h1 h2 h3 h4 h5 h6
  · left; exact ⟨(Option.some.inj h).symm, h1⟩
  · right; left; exact ⟨(Option.some.inj h).symm, h2⟩
  · right; right; left; exact ⟨(Option.some.inj h).symm, h3⟩
  · right; right; right; left; exact ⟨(Option.some.inj h).symm, h4⟩
  · right; right; right; right; left
    simp only [Bool.decide_and, Bool.decide_eq_true, Bool.and_eq_true, decide_eq_true_eq] at h5
    exact ⟨(Option.some.inj h).symm, h5.1, h5.2⟩
  · right; right; right; right; right; exact ⟨(Option.some.inj h).symm, h6⟩

theorem mul_eq_self_iff (s N : Nat) (hs : 0 < s) (h : s = s * N) : N = 1 := by
  have : s * 1 = s * N := by rw [Nat.mul_one]; exact h
  exact (Nat.eq_of_mul_eq_mul_left hs this).symm

theorem deduce_size (tg : Target) (f : AbiCfg) (T : VTy) (N : Nat) (a : Abi)
    (htg : tg.ok) (h : deduce tg f T N = some a) : simd_size (mask_ty tg T) a = N := by
  have hpos := sizeof_pos tg htg T
  rcases deduce_some tg f T N a h with ⟨rfl, _⟩ | ⟨rfl, _⟩ | ⟨rfl, _⟩ | ⟨rfl, _⟩ | ⟨rfl, _, h2⟩
    | ⟨rfl, _⟩
  · simp only [simd_size, mask_ty]; exact Nat.mul_div_cancel_left _ hpos
  · simp only [simd_size, mask_ty]; exact Nat.mul_div_cancel_left _ hpos
  · simp only [simd_size, mask_ty]; exact Nat.mul_div_cancel_left _ hpos
  · simp only [simd_size, mask_ty]; exact Nat.mul_div_cancel_left _ hpos
  · simp only [simd_size]; exact (mul_eq_self_iff _ _ hpos h2).symm
  · simp only [simd_size]

/-- The byte width of a selected vector tag. -/
theorem deduce_width (tg : Target) (f : AbiCfg) (T : VTy) (N : Nat) (a : Abi)
    (htg : tg.ok) (h : deduce tg f T N = some a) :
    (∀ b, a = .avx512 b ∨ a = .avx b ∨ a = .neon b → N * sizeof tg T = full_bytes a)
    ∧ (∀ b, a = .sse b → N * sizeof tg T = b ∧ b ≤ full_bytes a ∧ 2 ≤ N) := by
  have hpos := sizeof_pos tg htg T
  rcases deduce_some tg f T N a h with ⟨rfl, hv⟩ | ⟨rfl, hv⟩ | ⟨rfl, hv⟩ | ⟨rfl, hv⟩
    | ⟨rfl, _, _⟩ | ⟨rfl, _⟩
  · simp only [native_valid, valid_abi_tag, Bool.decide_and, Bool.and_eq_true,
      decide_eq_true_eq] at hv
    refine ⟨fun b _ => ?_, fun b hb => by cases hb⟩
    simp only [full_bytes]
    rw [Nat.mul_comm]
    exact hv.1
  · simp only [native_valid, valid_abi_tag, Bool.decide_and, Bool.and_eq_true,
      decide_eq_true_eq] at hv
    refine ⟨fun b _ => ?_, fun b hb => by cases hb⟩
    simp only [full_bytes]
    rw [Nat.mul_comm]
    exact hv.1
  · simp only [native_valid, valid_abi_tag, Bool.decide_and, Bool.and_eq_true,
      decide_eq_true_eq] at hv
    refine ⟨fun b hb => (by rcases hb with hb | hb | hb <;> cases hb), fun b hb => ?_⟩
    cases hb
    refine ⟨Nat.mul_comm _ _, ?_, ?_⟩
    · simp only [full_bytes]
      exact hv.1.2
    · have := hv.2.2.1
      rwa [Nat.mul_div_cancel_left _ hpos] at this
  · simp only [native_valid, valid_abi_tag, Bool.decide_and, Bool.and_eq_true,
      decide_eq_true_eq, Bool.decide_or, Bool.or_eq_true] at hv
    refine ⟨fun b _ => ?_, fun b hb => by cases hb⟩
    simp only [full_bytes]
    rw [Nat.mul_comm]
    rcases hv.1 with h8 | h16
    · rw [h8]; rfl
    · rw [h16]; rfl
  · exact ⟨fun b hb => (by rcases hb with hb | hb | hb <;> cases hb), fun b hb => by cases hb⟩
  · exact ⟨fun b hb => (by rcases hb with hb | hb | hb <;> cases hb), fun b hb => by cases hb⟩

/-- Whether `N` is the `char` lane count of one of the full vector tags that is valid for
`char`. -/
theorem fixed_valid_size_iff (tg : Target) (f : AbiCfg) (N : Nat) :
    fixed_valid_size tg f N = true ↔
      N ≤ 32 ∨ ∃ a, a ∈ [abi_neon, abi_sse, abi_avx, abi_avx512] ∧
        native_valid tg f .char a = true ∧ N = simd_size (mask_ty tg .char) a := by
  simp only [fixed_valid_size, max_fixed_size, Bool.decide_or, Bool.decide_and,
    Bool.or_eq_true, Bool.and_eq_true, decide_eq_true_eq, List.mem_cons, List.mem_singleton,
    List.not_mem_nil, or_false, exists_eq_or_imp, exists_eq_left]

/-- No tag of `_AllNativeAbis` is valid for more than 32 lanes, but for the 64 `char` lanes
of AVX-512. -/
theorem native_small (tg : Target) (f : AbiCfg) (T : VTy) (N : Nat) (htg : tg.ok)
    (hN : 32 < N) (cls : AbiClass) (hv : class_valid tg f T cls (sizeof tg T * N) = true) :
    native_valid tg f .char abi_avx512 = true ∧ N = simd_size (mask_ty tg .char) abi_avx512 := by
  have hpos := sizeof_pos tg htg T
  have hge : 33 * sizeof tg T ≤ sizeof tg T * N := by
    rw [Nat.mul_comm]
    exact Nat.mul_le_mul_left _ hN
  cases cls
  · simp only [class_valid, AbiClass.tag, native_valid, valid_abi_tag, Bool.decide_and,
      Bool.and_eq_true, decide_eq_true_eq] at hv
    obtain ⟨h64, hvec, _⟩ := hv
    have hs : sizeof tg T = 1 := by omega
    have hN64 : N = 64 := by rw [hs, Nat.one_mul] at h64; exact h64
    obtain ⟨h1, h2, h3⟩ := htg
    have hfull : f.have_avx512_abi = true ∧ f.have_full_avx512_abi = true := by
      revert hvec
      rcases f with ⟨n1, n2, s1, s2, a1, a2, k1, k2, d, x, aa⟩
      cases T <;> simp only [sizeof] at hs <;>
        first
        | omega
        | (cases k1 <;> cases k2 <;> simp [avx512_is_vectorizable, is_vectorizable])
    refine ⟨?_, ?_⟩
    · simp [abi_avx512, native_valid, valid_abi_tag, avx512_is_vectorizable, hfull.1,
        hfull.2, sizeof, is_vectorizable]
    · rw [hN64]
      simp [abi_avx512, simd_size, mask_ty, sizeof]
  · simp only [class_valid, AbiClass.tag, native_valid, valid_abi_tag, Bool.decide_and,
      Bool.and_eq_true, decide_eq_true_eq] at hv
    omega
  · simp only [class_valid, AbiClass.tag, native_valid, valid_abi_tag, Bool.decide_and,
      Bool.and_eq_true, decide_eq_true_eq] at hv
    omega
  · simp only [class_valid, AbiClass.tag, native_valid, valid_abi_tag, Bool.decide_and,
      Bool.and_eq_true, decide_eq_true_eq, Bool.decide_or, Bool.or_eq_true] at hv
    omega
  · simp only [class_valid, Bool.decide_and, Bool.and_eq_true, decide_eq_true_eq,
      Bool.decide_eq_true] at hv
    have := mul_eq_self_iff _ _ hpos hv.2
    omega

/-- `deduce` has no member `type` exactly when every class and `fixed_size` are invalid. -/
theorem deduce_none_iff (tg : Target) (f : AbiCfg) (T : VTy) (N : Nat) :
    deduce tg f T N = none ↔
      (∀ cls, cls ∈ AllNativeAbis → class_valid tg f T cls (sizeof tg T * N) = false)
        ∧ is_valid tg f T (.fixed_size N) = false := by
  rw [deduce_unfold]
  simp only [deduce_spec, AllNativeAbis, List.mem_cons, List.mem_singleton, List.not_mem_nil,
    or_false, forall_eq_or_imp, forall_eq]
  split_ifs with h1 h2 h3 h4 h5 h6 <;>
    simp only [reduceCtorEq, false_iff, true_iff, not_and, Bool.not_eq_false] <;>
    simp only [Bool.not_eq_true] at * <;> simp [*]

theorem fixed_is_valid_iff (tg : Target) (f : AbiCfg) (T : VTy) (N : Nat)
    (hT : is_vectorizable T = true) (hN : 1 ≤ N) :
    is_valid tg f T (.fixed_size N) = true ↔ fixed_valid_size tg f N = true := by
  simp only [is_valid, valid_abi_tag, hT, Bool.decide_and, Bool.and_eq_true, decide_eq_true_eq,
    Bool.decide_eq_true, true_and, and_iff_right_iff_imp]
  intro _
  omega

theorem deduce_none_large (tg : Target) (f : AbiCfg) (T : VTy) (N : Nat) (htg : tg.ok)
    (hT : is_vectorizable T = true) (hN : 1 ≤ N) :
    deduce tg f T N = none ↔
      32 < N ∧ ¬ ∃ a, a ∈ [abi_neon, abi_sse, abi_avx, abi_avx512] ∧
        native_valid tg f .char a = true ∧ N = simd_size (mask_ty tg .char) a := by
  have hfix := fixed_is_valid_iff tg f T N hT hN
  have hsz := fixed_valid_size_iff tg f N
  rw [deduce_none_iff]
  constructor
  · rintro ⟨_, h2⟩
    have h3 : ¬ fixed_valid_size tg f N = true := by
      rw [← hfix, h2]
      decide
    rw [hsz, not_or] at h3
    exact ⟨by omega, h3.2⟩
  · rintro ⟨h1, h2⟩
    have h3 : ¬ fixed_valid_size tg f N = true := by
      rw [hsz, not_or]
      exact ⟨by omega, h2⟩
    refine ⟨fun cls _ => ?_, ?_⟩
    · by_contra hv
      rw [Bool.not_eq_false] at hv
      have := native_small tg f T N htg h1 cls hv
      exact h2 ⟨abi_avx512, by simp, this.1, this.2⟩
    · rw [← hfix] at h3
      exact Bool.eq_false_iff.mpr h3

theorem deduce_small (tg : Target) (f : AbiCfg) (T : VTy) (N : Nat)
    (hT : is_vectorizable T = true) (hN : 1 ≤ N) (h32 : N ≤ 32) :
    ∃ a, deduce tg f T N = some a := by
  rcases hd : deduce tg f T N with _ | a
  · rw [deduce_none_iff] at hd
    have h3 : fixed_valid_size tg f N = true := by
      rw [fixed_valid_size_iff]
      exact Or.inl h32
    rw [← fixed_is_valid_iff tg f T N hT hN, hd.2] at h3
    exact absurd h3 (by decide)
  · exact ⟨a, rfl⟩

/-- No vector ISA class is valid for `long double`. -/
theorem ldouble_not_vector (tg : Target) (f : AbiCfg) (cls : AbiClass) (b : Nat)
    (h : cls ∈ vector_classes) : class_valid tg f .ldouble cls b = false := by
  simp only [vector_classes, List.mem_cons, List.mem_singleton, List.not_mem_nil, or_false] at h
  rcases h with rfl | rfl | rfl | rfl <;>
    simp [class_valid, AbiClass.tag, native_valid, avx512_is_vectorizable, avx_is_vectorizable,
      sse_is_vectorizable, neon_is_vectorizable]

theorem native_ldouble (tg : Target) (f : AbiCfg) (htg : tg.ok) :
    native tg f .ldouble = .scalar := by
  obtain ⟨_, _, h3⟩ := htg
  have h4 : 4 ≤ tg.ldouble_size := by omega
  simp only [native, fallback_abi_for_long_double, if_true, sizeof, h4, is_floating_point,
    reduceCtorEq, if_false, ite_self]

theorem compatible_ldouble (f : AbiCfg) : compatible f .ldouble = .scalar := by
  simp only [compatible, fallback_abi_for_long_double, if_true, ite_self]
/-! ## `__next_power_of_2` -/

theorem pow_succ_split (k i : Nat) (h : i ≤ k) : 2 ^ (k + 1) = 2 ^ (k + 1 - i) * 2 ^ i := by
  rw [← Nat.pow_add]
  congr 1
  omega

/-- A number in the top `2^m` values below `2^(k+1)` has the bits `m .. k` set. -/
theorem bit_of_top (k m x i : Nat) (hx : x < 2 ^ (k + 1)) (hlo : 2 ^ (k + 1) - 2 ^ m ≤ x)
    (hm : m ≤ i) (hi : i ≤ k) : bit x i = true := by
  have hs := pow_succ_split k i hi
  have hmi : 2 ^ m ≤ 2 ^ i := Nat.pow_le_pow_right (by decide) hm
  have hpi : 0 < 2 ^ i := Nat.two_pow_pos i
  have hq1 : x / 2 ^ i < 2 ^ (k + 1 - i) := by
    apply Nat.div_lt_of_lt_mul
    rw [Nat.mul_comm, ← hs]
    exact hx
  have hq2 : 2 ^ (k + 1 - i) - 1 ≤ x / 2 ^ i := by
    rw [Nat.le_div_iff_mul_le hpi, Nat.sub_mul, ← hs]
    omega
  have h2 : 2 ^ (k + 1 - i) = 2 * 2 ^ (k - i) := by
    rw [show k + 1 - i = (k - i) + 1 by omega, Nat.pow_succ, Nat.mul_comm]
  have hp : 0 < 2 ^ (k - i) := Nat.two_pow_pos _
  unfold bit
  simp only [decide_eq_true_eq]
  omega

/-- A number below `2^(k+1)` with the bits `m .. k` set is among the top `2^m` values. -/
theorem top_of_bits (k m z : Nat) (hz : z < 2 ^ (k + 1)) (hm : m ≤ k)
    (hb : ∀ i, m ≤ i → i ≤ k → bit z i = true) : 2 ^ (k + 1) - 2 ^ m ≤ z := by
  have hs := pow_succ_split k m hm
  have hq1 : z / 2 ^ m < 2 ^ (k + 1 - m) := by
    apply Nat.div_lt_of_lt_mul
    rw [Nat.mul_comm, ← hs]
    exact hz
  have hq : z / 2 ^ m = 2 ^ (k + 1 - m) - 1 := by
    rw [← Nat.mod_eq_of_lt hq1]
    apply (mod_eq_ones_iff _ _).mpr
    intro i hi
    rw [bit_div_two_pow]
    exact hb _ (by omega) (by omega)
  have hle : z / 2 ^ m * 2 ^ m ≤ z := Nat.div_mul_le_self z (2 ^ m)
  rw [hq, Nat.sub_mul, ← hs] at hle
  omega

theorem bit_or_half (x i : Nat) : bit (x ||| x / 2) i = (bit x i || bit x (i + 1)) := by
  have h := bit_div_two_pow x 1 i
  rw [Nat.pow_one] at h
  rw [bit_eq_testBit, Nat.testBit_or, ← bit_eq_testBit, ← bit_eq_testBit, h, Nat.add_comm]

/-- One round of `x | (x >> 1)` doubles the run of set bits at the top. -/
theorem or_half_top (k m x : Nat) (hx : x < 2 ^ (k + 1)) (hlo : 2 ^ (k + 1) - 2 ^ m ≤ x)
    (hm : m ≤ k) : (x ||| x / 2) < 2 ^ (k + 1) ∧ 2 ^ (k + 1) - 2 ^ (m - 1) ≤ (x ||| x / 2) := by
  have hz : (x ||| x / 2) < 2 ^ (k + 1) :=
    Nat.or_lt_two_pow hx (lt_of_le_of_lt (Nat.div_le_self x 2) hx)
  refine ⟨hz, top_of_bits k (m - 1) _ hz (by omega) ?_⟩
  intro i h1 h2
  rw [bit_or_half]
  by_cases h : m ≤ i
  · rw [bit_of_top k m x i hx hlo h h2]
    rfl
  · rw [bit_of_top k m x (i + 1) hx hlo (by omega) (by omega)]
    simp

theorem wrap_pred (x : Nat) (h1 : 1 ≤ x) (h2 : x < 2 ^ 64) :
    (x + (2 ^ 64 - 1)) % 2 ^ 64 = x - 1 := by
  norm_num at h2 ⊢
  omega

theorem pow2_test (j : Nat) (hj : j ≤ 63) :
    2 ^ j &&& ((2 ^ j + (2 ^ 64 - 1)) % 2 ^ 64) = 0 := by
  have hp : 0 < 2 ^ j := Nat.two_pow_pos j
  have hlt : 2 ^ j < 2 ^ 64 := Nat.pow_lt_pow_right (by decide) (by omega)
  rw [wrap_pred _ hp hlt, Nat.and_pow_two_sub_one_eq_mod, Nat.mod_self]

theorem not_pow2_test (k x : Nat) (hk : k ≤ 62) (h1 : 2 ^ k < x) (h2 : x < 2 ^ (k + 1)) :
    x &&& ((x + (2 ^ 64 - 1)) % 2 ^ 64) ≠ 0 := by
  have hp : 0 < 2 ^ k := Nat.two_pow_pos k
  have hlt : 2 ^ (k + 1) ≤ 2 ^ 64 := Nat.pow_le_pow_right (by decide) (by omega)
  have h2k : 2 ^ (k + 1) = 2 * 2 ^ k := by rw [Nat.pow_succ, Nat.mul_comm]
  rw [wrap_pred _ (by omega) (by omega)]
  intro h0
  have ha := bit_of_top k k x k h2 (by omega) (le_refl _) (le_refl _)
  have hb := bit_of_top k k (x - 1) k (by omega) (by omega) (le_refl _) (le_refl _)
  have hc : bit (x &&& (x - 1)) k = true := by
    rw [bit_eq_testBit, Nat.testBit_and, ← bit_eq_testBit, ← bit_eq_testBit, ha, hb]
    rfl
  rw [h0] at hc
  simp [bit] at hc

theorem next_power_of_2_fuel_pow2 (fuel j : Nat) (hj : j ≤ 63) :
    next_power_of_2_fuel (fuel + 1) (2 ^ j) = some (2 ^ j) := by
  simp only [next_power_of_2_fuel, pow2_test j hj, if_true]

/-- From a number whose bits `m .. k` are set the recursion reaches `2^(k+1)` within `m + 2`
calls. -/
theorem next_power_of_2_fuel_run (k : Nat) (hk : k ≤ 62) :
    ∀ m x, m ≤ k → 2 ^ k < x → x < 2 ^ (k + 1) → 2 ^ (k + 1) - 2 ^ m ≤ x →
      next_power_of_2_fuel (m + 2) x = some (2 ^ (k + 1)) := by
  have hlt : 2 ^ (k + 1) < 2 ^ 64 := Nat.pow_lt_pow_right (by decide) (by omega)
  have h2k : 2 ^ (k + 1) = 2 * 2 ^ k := by rw [Nat.pow_succ, Nat.mul_comm]
  intro m
  induction m with
  | zero =>
    intro x hm h1 h2 h3
    obtain ⟨hz, hz2⟩ := or_half_top k 0 x h2 h3 hm
    have hy : ((x ||| x / 2) + 1) % 2 ^ 64 = 2 ^ (k + 1) := by
      rw [Nat.mod_eq_of_lt (by omega)]
      simp only [Nat.zero_sub, Nat.pow_zero] at hz2
      omega
    rw [next_power_of_2_fuel, if_neg (not_pow2_test k x hk h1 h2), hy]
    exact next_power_of_2_fuel_pow2 0 (k + 1) (by omega)
  | succ m ih =>
    intro x hm h1 h2 h3
    obtain ⟨hz, hz2⟩ := or_half_top k (m + 1) x h2 h3 hm
    simp only [Nat.add_sub_cancel] at hz2
    have hmk : 2 ^ m ≤ 2 ^ k := Nat.pow_le_pow_right (by decide) (by omega)
    have hp : 0 < 2 ^ m := Nat.two_pow_pos m
    have hy : ((x ||| x / 2) + 1) % 2 ^ 64 = (x ||| x / 2) + 1 := Nat.mod_eq_of_lt (by omega)
    rw [next_power_of_2_fuel, if_neg (not_pow2_test k x hk h1 h2), hy]
    by_cases he : (x ||| x / 2) + 1 = 2 ^ (k + 1)
    · rw [he]
      exact next_power_of_2_fuel_pow2 (m + 1) (k + 1) (by omega)
    · exact ih _ (by omega) (by omega) (by omega) (by omega)

theorem next_power_of_2_fuel_mono (f : Nat) :
    ∀ x r, next_power_of_2_fuel f x = some r → ∀ d, next_power_of_2_fuel (f + d) x = some r := by
  induction f with
  | zero => intro x r h; simp [next_power_of_2_fuel] at h
  | succ f ih =>
    intro x r h d
    rw [show f + 1 + d = (f + d) + 1 by omega]
    rw [next_power_of_2_fuel] at h ⊢
    by_cases hc : x &&& ((x + (2 ^ 64 - 1)) % 2 ^ 64) = 0
    · rw [if_pos hc] at h ⊢
      exact h
    · rw [if_neg hc] at h ⊢
      exact ih _ _ h d

/-- Every `x` from 1 to `2^63` lies in a unique `(2^k, 2^(k+1)]`, and the recursion stops
there. -/
theorem next_power_of_2_fuel_spec (x : Nat) (h1 : 1 ≤ x) (h2 : x ≤ 2 ^ 63) :
    ∃ k, k ≤ 63 ∧ next_power_of_2_fuel 65 x = some (2 ^ k) ∧ x ≤ 2 ^ k ∧
      ∀ j, x ≤ 2 ^ j → 2 ^ k ≤ 2 ^ j := by
  have hx0 : x ≠ 0 := by omega
  have hlo : 2 ^ Nat.log2 x ≤ x := Nat.log2_self_le hx0
  have hhi : x < 2 ^ (Nat.log2 x + 1) := Nat.lt_log2_self
  generalize Nat.log2 x = k at hlo hhi
  have h2k : 2 ^ (k + 1) = 2 * 2 ^ k := by rw [Nat.pow_succ, Nat.mul_comm]
  have hk : k ≤ 63 := by
    by_contra hcon
    have : 2 ^ 64 ≤ 2 ^ k := Nat.pow_le_pow_right (by decide) (by omega)
    omega
  by_cases he : x = 2 ^ k
  · refine ⟨k, hk, ?_, by omega, fun j hj => by omega⟩
    rw [he]
    exact next_power_of_2_fuel_pow2 64 k hk
  · have hk2 : k ≤ 62 := by
      by_contra hcon
      have : k = 63 := by omega
      subst this
      omega
    refine ⟨k + 1, by omega, ?_, by omega, ?_⟩
    · have := next_power_of_2_fuel_run k hk2 k x (le_refl _) (by omega) hhi (by omega)
      have h3 := next_power_of_2_fuel_mono _ _ _ this (63 - k)
      rw [show k + 2 + (63 - k) = 65 by omega] at h3
      exact h3
    · intro j hj
      apply Nat.pow_le_pow_right (by decide)
      by_contra hcon
      have : 2 ^ j ≤ 2 ^ k := Nat.pow_le_pow_right (by decide) (by omega)
      omega

theorem next_power_of_2_spec (x : Nat) (h1 : 1 ≤ x) (h2 : x ≤ 2 ^ 63) :
    ∃ k, k ≤ 63 ∧ next_power_of_2 x = 2 ^ k ∧ x ≤ 2 ^ k ∧ ∀ j, x ≤ 2 ^ j → 2 ^ k ≤ 2 ^ j := by
  obtain ⟨k, hk, hf, hle, hmin⟩ := next_power_of_2_fuel_spec x h1 h2
  refine ⟨k, hk, ?_, hle, hmin⟩
  have hlt : x < 2 ^ 64 := by
    norm_num at h2 ⊢
    omega
  unfold next_power_of_2
  rw [Nat.mod_eq_of_lt hlt, hf]
  rfl

/-- Below a power of two the next power of two stays below it. -/
theorem next_power_of_2_le (x j : Nat) (h1 : 1 ≤ x) (hj : j ≤ 63) (h2 : x ≤ 2 ^ j) :
    next_power_of_2 x ≤ 2 ^ j := by
  have h63 : 2 ^ j ≤ 2 ^ 63 := Nat.pow_le_pow_right (by decide) hj
  obtain ⟨k, _, hf, _, hmin⟩ := next_power_of_2_spec x h1 (by omega)
  rw [hf]
  exact hmin j h2
/-! ## Concatenation, extraction, zero extension, interleaving -/

theorem window_index (o j s : Nat) : (o + j / s) * s + j % s = o * s + j := by
  have := div_mul_add_mod j s
  rw [Nat.add_mul]
  omega

/-- A braced list of consecutive lanes is a copy of the bytes. -/
theorem rd_ofLanes_window (s n o : Nat) (v : Reg) (j : Nat)
    (hs : s = 1 ∨ s = 2 ∨ s = 4 ∨ s = 8) (hj : j < n * s) :
    rd (ofLanes s n fun i => lane s v (o + i)) j = rd v (o * s + j) := by
  have hpos : 0 < s := by omega
  rw [rd_ofLanes s n _ j hj, byte_of_lane s v _ _ hs (Nat.mod_lt j hpos), window_index]

theorem ofLanes_window (s n o : Nat) (v : Reg) (hs : s = 1 ∨ s = 2 ∨ s = 4 ∨ s = 8) :
    (ofLanes s n fun i => lane s v (o + i)) = mk (n * s) fun j => rd v (o * s + j) := by
  apply ext_rd
  · rw [length_ofLanes, length_mk]
  · intro j hj
    rw [length_ofLanes] at hj
    rw [rd_ofLanes_window s n o v j hs hj, rd_mk_lt hj]

theorem ofLanes_concat (u iw : Nat) (a b : Reg) (hu : u = 1 ∨ u = 2 ∨ u = 4 ∨ u = 8)
    (ha : a.length = iw * u) (hb : b.length = iw * u) :
    (ofLanes u (2 * iw) fun i => if i < iw then lane u a i else lane u b (i - iw)) = a ++ b := by
  have hpos : 0 < u := by omega
  apply ext_rd
  · rw [length_ofLanes, List.length_append, ha, hb]
    ring
  · intro j hj
    rw [length_ofLanes] at hj
    rw [rd_ofLanes u _ _ j hj]
    by_cases h : j / u < iw
    · have hj2 : j < iw * u := by
        have := (Nat.div_lt_iff_lt_mul hpos).mp h
        exact this
      rw [if_pos h, byte_of_lane u a _ _ hu (Nat.mod_lt j hpos), div_mul_add_mod,
        rd_append_lt (by omega)]
    · have hj2 : iw * u ≤ j := by
        have := (Nat.le_div_iff_mul_le hpos).mp (Nat.le_of_not_lt h)
        exact this
      have he : (j / u - iw) * u + j % u = j - a.length := by
        have := div_mul_add_mod j u
        rw [Nat.sub_mul]
        have h2 : iw * u ≤ j / u * u := Nat.mul_le_mul_right u (Nat.le_of_not_lt h)
        omega
      rw [if_neg h, byte_of_lane u b _ _ hu (Nat.mod_lt j hpos), he, rd_append_ge (by omega)]

theorem concat_of_unit (w : WCfg) (T : MaskTy) (a b : Reg) (u iw : Nat)
    (hu : u = 1 ∨ u = 2 ∨ u = 4 ∨ u = 8) (hcu : concat_unit w T a = u)
    (ha : a.length = iw * u) (hb : b.length = iw * u)
    (hiw : iw = 2 ∨ iw = 4 ∨ iw = 8 ∨ iw = 16 ∨ iw = 32) :
    __concat w T a b = .ok (a ++ b) := by
  have hpos : 0 < u := by omega
  have hd : a.length / u = iw := by rw [ha, Nat.mul_div_cancel _ hpos]
  have h2 : ¬ (w.xxx_1 = true ∧ iw < 2) := fun h => by omega
  simp only [__concat, hcu, hd, if_neg h2, if_pos hiw, ofLanes_concat u iw a b hu ha hb]

theorem concat_unit_cases (w : WCfg) (T : MaskTy) (a : Reg)
    (hw : w.xxx_1 = true → T.integral = false → 16 ≤ a.length) :
    concat_unit w T a = T.size ∨ (concat_unit w T a = 8 ∧ 16 ≤ a.length) := by
  unfold concat_unit
  rcases T with ⟨sz, ig⟩
  cases hx : w.xxx_1 <;> cases ig <;> simp_all
  by_cases h : 16 ≤ a.length <;> simp [h]

/-- `__concat(a, b)` is `a` followed by `b`; with the workaround, floating-point operands
need 16 bytes. -/
theorem concat_ok (w : WCfg) (T : MaskTy) (n : Nat) (a b : Reg)
    (hs : T.size = 1 ∨ T.size = 2 ∨ T.size = 4 ∨ T.size = 8)
    (hn : n = 2 ∨ n = 4 ∨ n = 8 ∨ n = 16 ∨ n = 32)
    (ha : a.length = n * T.size) (hb : b.length = n * T.size)
    (hw : w.xxx_1 = true → T.integral = false → 16 ≤ a.length) :
    __concat w T a b = .ok (a ++ b) := by
  rcases concat_unit_cases w T a hw with h | ⟨h, h16⟩
  · exact concat_of_unit w T a b T.size n hs h ha hb hn
  · refine concat_of_unit w T a b 8 (a.length / 8) (by omega) h ?_ ?_ ?_
    · rcases hs with h1 | h1 | h1 | h1 <;> rcases hn with h2 | h2 | h2 | h2 | h2 <;>
        rw [h1, h2] at ha <;> omega
    · rcases hs with h1 | h1 | h1 | h1 <;> rcases hn with h2 | h2 | h2 | h2 | h2 <;>
        rw [h1, h2] at ha hb <;> omega
    · rcases hs with h1 | h1 | h1 | h1 <;> rcases hn with h2 | h2 | h2 | h2 | h2 <;>
        rw [h1, h2] at ha <;> omega

theorem next_power_of_2_pow2 (j : Nat) (hj : j ≤ 63) : next_power_of_2 (2 ^ j) = 2 ^ j := by
  have hlt : 2 ^ j < 2 ^ 64 := Nat.pow_lt_pow_right (by decide) (by omega)
  unfold next_power_of_2
  rw [Nat.mod_eq_of_lt hlt, next_power_of_2_fuel_pow2 64 j hj]
  rfl

theorem vector_bytes_eq (T : MaskTy) (n : Nat)
    (hs : T.size = 1 ∨ T.size = 2 ∨ T.size = 4 ∨ T.size = 8)
    (hn : n = 2 ∨ n = 4 ∨ n = 8 ∨ n = 16 ∨ n = 32) : vector_bytes T n = n * T.size := by
  have h1 : n ≠ 1 := by omega
  unfold vector_bytes
  rw [if_neg h1]
  rcases hs with h | h | h | h <;> rcases hn with h2 | h2 | h2 | h2 | h2 <;> rw [h, h2]
  · exact next_power_of_2_pow2 1 (by omega)
  · exact next_power_of_2_pow2 2 (by omega)
  · exact next_power_of_2_pow2 3 (by omega)
  · exact next_power_of_2_pow2 4 (by omega)
  · exact next_power_of_2_pow2 5 (by omega)
  · exact next_power_of_2_pow2 2 (by omega)
  · exact next_power_of_2_pow2 3 (by omega)
  · exact next_power_of_2_pow2 4 (by omega)
  · exact next_power_of_2_pow2 5 (by omega)
  · exact next_power_of_2_pow2 6 (by omega)
  · exact next_power_of_2_pow2 3 (by omega)
  · exact next_power_of_2_pow2 4 (by omega)
  · exact next_power_of_2_pow2 5 (by omega)
  · exact next_power_of_2_pow2 6 (by omega)
  · exact next_power_of_2_pow2 7 (by omega)
  · exact next_power_of_2_pow2 4 (by omega)
  · exact next_power_of_2_pow2 5 (by omega)
  · exact next_power_of_2_pow2 6 (by omega)
  · exact next_power_of_2_pow2 7 (by omega)
  · exact next_power_of_2_pow2 8 (by omega)

/-- `__extract<off, 2>(x)` is half `off` of the bytes of `x`; with the workaround the half
needs 16 bytes. -/
theorem extract_ok (w : WCfg) (T : MaskTy) (n off : Nat) (x : Reg)
    (hs : T.size = 1 ∨ T.size = 2 ∨ T.size = 4 ∨ T.size = 8)
    (hn : n = 2 ∨ n = 4 ∨ n = 8 ∨ n = 16 ∨ n = 32)
    (hx : x.length = 2 * n * T.size)
    (hw : w.xxx_1 = true → 16 ≤ n * T.size) :
    __extract w T off 2 x = .ok (extract off 2 x) := by
  have hpos : 0 < T.size := by omega
  have hwd : x.length / T.size = 2 * n := by rw [hx, Nat.mul_div_cancel _ hpos]
  have hh : x.length / 2 = n * T.size := by rw [hx, Nat.mul_assoc]; omega
  have h2n : 2 * n / 2 = n := by omega
  unfold __extract extract
  simp only [hwd, h2n, hh, vector_bytes_eq T n hs hn]
  cases hx1 : w.xxx_1
  · simp only [Bool.false_eq_true, if_false, if_pos hn]
    rw [ofLanes_window _ _ _ _ hs, Nat.mul_assoc]
  · have h16 := hw hx1
    have hr : n * T.size / 8 = 2 ∨ n * T.size / 8 = 4 ∨ n * T.size / 8 = 8 ∨
        n * T.size / 8 = 16 ∨ n * T.size / 8 = 32 := by
      rcases hs with h1 | h1 | h1 | h1 <;> rcases hn with h2 | h2 | h2 | h2 | h2 <;>
        rw [h1, h2] at h16 ⊢ <;> omega
    have hm : n * T.size / 8 * 8 = n * T.size := by
      rcases hs with h1 | h1 | h1 | h1 <;> rcases hn with h2 | h2 | h2 | h2 | h2 <;>
        rw [h1, h2] at h16 ⊢ <;> omega
    simp only [if_true, if_pos hr]
    rw [ofLanes_window _ _ _ _ (by omega), Nat.mul_assoc, hm]

theorem extract_append_lo (a b : Reg) (h : b.length = a.length) : extract 0 2 (a ++ b) = a := by
  have hl : (a ++ b).length / 2 = a.length := by rw [List.length_append, h]; omega
  apply ext_rd
  · rw [length_extract, hl]
  · intro j hj
    rw [length_extract, hl] at hj
    rw [rd_extract _ _ _ _ (by omega), Nat.zero_mul, Nat.zero_add, rd_append_lt (by omega)]

theorem extract_append_hi (a b : Reg) (h : b.length = a.length) : extract 1 2 (a ++ b) = b := by
  have hl : (a ++ b).length / 2 = a.length := by rw [List.length_append, h]; omega
  apply ext_rd
  · rw [length_extract, hl, h]
  · intro j hj
    rw [length_extract, hl] at hj
    rw [rd_extract _ _ _ _ (by omega), hl, rd_append_ge (by omega)]
    congr 1
    omega

theorem extract_halves (x : Reg) (h : x.length % 2 = 0) :
    extract 0 2 x ++ extract 1 2 x = x := by
  apply ext_rd
  · rw [List.length_append, length_extract, length_extract]
    omega
  · intro j hj
    rw [List.length_append, length_extract, length_extract] at hj
    by_cases hlt : j < x.length / 2
    · rw [rd_append_lt (by rw [length_extract]; exact hlt), rd_extract _ _ _ _ hlt]
      congr 1
      omega
    · rw [rd_append_ge (by rw [length_extract]; omega), length_extract,
        rd_extract _ _ _ _ (by omega)]
      congr 1
      omega

theorem zeros_append (m n : Nat) : zeros m ++ zeros n = zeros (m + n) := by
  apply ext_rd
  · simp [length_zeros]
  · intro j _
    by_cases h : j < m
    · rw [rd_append_lt (by rw [length_zeros]; exact h), rd_zeros, rd_zeros]
    · rw [rd_append_ge (by rw [length_zeros]; omega), rd_zeros, rd_zeros]

theorem zero_extend_2_ok (w : WCfg) (T : MaskTy) (n : Nat) (x : Reg)
    (hs : T.size = 1 ∨ T.size = 2 ∨ T.size = 4 ∨ T.size = 8)
    (hn : n = 2 ∨ n = 4 ∨ n = 8 ∨ n = 16 ∨ n = 32) (hx : x.length = n * T.size)
    (hw : w.xxx_1 = true → T.integral = false → 16 ≤ x.length) :
    zero_extend_2 w T x = .ok (x ++ zeros x.length) := by
  unfold zero_extend_2
  dsimp only
  split
  · rfl
  · exact concat_ok w T n x _ hs hn hx (by rw [length_zeros, hx]) hw

theorem concat_twice (w : WCfg) (T : MaskTy) (n : Nat) (x : Reg)
    (hs : T.size = 1 ∨ T.size = 2 ∨ T.size = 4 ∨ T.size = 8)
    (hn : n = 2 ∨ n = 4 ∨ n = 8 ∨ n = 16) (hx : x.length = n * T.size)
    (hw : w.xxx_1 = true → T.integral = false → 16 ≤ x.length) :
    (do let h ← __concat w T x (zeros x.length)
        __concat w T h (zeros (2 * x.length))) = .ok (x ++ zeros (3 * x.length)) := by
  rw [concat_ok w T n x _ hs (by omega) hx (by rw [length_zeros, hx]) hw]
  have hl : (x ++ zeros x.length).length = 2 * n * T.size := by
    rw [List.length_append, length_zeros, hx]
    ring
  show __concat w T (x ++ zeros x.length) (zeros (2 * x.length)) = _
  rw [concat_ok w T (2 * n) _ _ hs (by omega) hl (by rw [length_zeros, hx]; ring)
    (fun h1 h2 => by have := hw h1 h2; rw [List.length_append, length_zeros]; omega), List.append_assoc, zeros_append]
  congr 3
  omega

/-- The condition under which the `_GLIBCXX_SIMD_WORKAROUND_XXX_3` code for four times the
lanes compiles: the PR85480 variant is off and the intrinsics it names are available. -/
theorem zero_extend_4_ok (w : WCfg) (T : MaskTy) (n : Nat) (x : Reg)
    (hs : T.size = 1 ∨ T.size = 2 ∨ T.size = 4 ∨ T.size = 8)
    (hn : n = 2 ∨ n = 4 ∨ n = 8 ∨ n = 16) (hx : x.length = n * T.size)
    (hw : w.xxx_1 = true → T.integral = false → 16 ≤ x.length)
    (hz : w.xxx_3 = true → x.length = 16 → w.pr85480 = false ∧
      (w.avx = true → T.integral = false →
        (T.size = 4 → w.avx512f = true) ∧ (T.size = 8 → w.avx512dq = true))) :
    zero_extend_4 w T x = .ok (x ++ zeros (3 * x.length)) := by
  unfold zero_extend_4
  split
  · rename_i h
    obtain ⟨h3, hav, ⟨hi, h4⟩, hl⟩ := h
    obtain ⟨hp, hq⟩ := hz h3 hl
    have := (hq hav (by simpa using hi)).1 h4
    simp [hp, this]
  · split
    · rename_i h
      obtain ⟨h3, hav, ⟨hi, h8⟩, hl⟩ := h
      obtain ⟨hp, hq⟩ := hz h3 hl
      have := (hq hav (by simpa using hi)).2 h8
      simp [hp, this]
    · split
      · rename_i h
        obtain ⟨h3, _, hl⟩ := h
        obtain ⟨hp, _⟩ := hz h3 hl
        simp [hp]
      · exact concat_twice w T n x hs hn hx hw

/-- `_ZeroExtendProxy::operator _To()` appends zero bytes to `x`. -/
theorem zero_extend_to_ok (w : WCfg) (T : MaskTy) (n k : Nat) (x : Reg)
    (hs : T.size = 1 ∨ T.size = 2 ∨ T.size = 4 ∨ T.size = 8)
    (hn : n = 2 ∨ n = 4 ∨ n = 8 ∨ n = 16 ∨ n = 32 ∨ n = 64) (hx : x.length = n * T.size)
    (hk : k = 1 ∨ k = 2 ∨ k = 4 ∨ k = 8 ∨ k = 16) (hle : k * n ≤ 64)
    (hw : w.xxx_1 = true → T.integral = false → 2 ≤ k → 16 ≤ x.length)
    (hz : w.xxx_3 = true → 4 ≤ k → x.length = 16 → w.pr85480 = false ∧
      (w.avx = true → T.integral = false →
        (T.size = 4 → w.avx512f = true) ∧ (T.size = 8 → w.avx512dq = true))) :
    zero_extend_to w T x (k * n) = .ok (x ++ zeros ((k - 1) * x.length)) := by
  have hpos : 0 < T.size := by omega
  have hN : x.length / T.size = n := by rw [hx, Nat.mul_div_cancel _ hpos]
  unfold zero_extend_to
  simp only [hN]
  rcases hk with h | h | h | h | h <;> subst h
  · have h0 : zeros ((1 - 1) * x.length) = [] := by simp [zeros, mk]
    rw [if_pos (by omega), h0, List.append_nil]
  · rw [if_neg (by omega), if_pos rfl,
      zero_extend_2_ok w T n x hs (by omega) hx (fun a b => hw a b (by omega))]
    congr 3
    omega
  · rw [if_neg (by omega), if_neg (by omega), if_pos rfl,
      zero_extend_4_ok w T n x hs (by omega) hx (fun a b => hw a b (by omega))
        (fun a b => hz a (by omega) b)]
  · rw [if_neg (by omega), if_neg (by omega), if_neg (by omega), if_pos rfl,
      zero_extend_4_ok w T n x hs (by omega) hx (fun a b => hw a b (by omega))
        (fun a b => hz a (by omega) b)]
    have hl : (x ++ zeros (3 * x.length)).length = 4 * n * T.size := by
      rw [List.length_append, length_zeros, hx]
      ring
    show __concat w T (x ++ zeros (3 * x.length)) (zeros (4 * x.length)) = _
    rw [concat_ok w T (4 * n) _ _ hs (by omega) hl (by rw [length_zeros, hx]; ring)
      (fun h1 h2 => by have := hw h1 h2 (by omega); rw [List.length_append, length_zeros]; omega), List.append_assoc, zeros_append]
    congr 3
    omega
  · rw [if_neg (by omega), if_neg (by omega), if_neg (by omega), if_neg (by omega), if_pos rfl,
      zero_extend_4_ok w T n x hs (by omega) hx (fun a b => hw a b (by omega))
        (fun a b => hz a (by omega) b)]
    have hl : (x ++ zeros (3 * x.length)).length = 4 * n * T.size := by
      rw [List.length_append, length_zeros, hx]
      ring
    have hl2 : (x ++ zeros (7 * x.length)).length = 8 * n * T.size := by
      rw [List.length_append, length_zeros, hx]
      ring
    show (do let e ← __concat w T (x ++ zeros (3 * x.length)) (zeros (4 * x.length))
             __concat w T e (zeros (8 * x.length))) = _
    rw [concat_ok w T (4 * n) _ _ hs (by omega) hl (by rw [length_zeros, hx]; ring)
      (fun h1 h2 => by have := hw h1 h2 (by omega); rw [List.length_append, length_zeros]; omega), List.append_assoc, zeros_append,
      show 3 * x.length + 4 * x.length = 7 * x.length by omega]
    show __concat w T (x ++ zeros (7 * x.length)) (zeros (8 * x.length)) = _
    rw [concat_ok w T (8 * n) _ _ hs (by omega) hl2 (by rw [length_zeros, hx]; ring)
      (fun h1 h2 => by have := hw h1 h2 (by omega); rw [List.length_append, length_zeros]; omega), List.append_assoc, zeros_append]
    congr 3
    omega

/-- The register that alternates the lanes of `a` and `b` from lane `o` on. -/
theorem lane_alternate (s W o : Nat) (a b : Reg) (i : Nat)
    (hs : s = 1 ∨ s = 2 ∨ s = 4 ∨ s = 8) (hi : 2 * i + 1 < W) :
    lane s (ofLanes s W fun p => if p % 2 = 0 then lane s a (o + p / 2)
      else lane s b (o + p / 2)) (2 * i) = lane s a (o + i) ∧
    lane s (ofLanes s W fun p => if p % 2 = 0 then lane s a (o + p / 2)
      else lane s b (o + p / 2)) (2 * i + 1) = lane s b (o + i) := by
  constructor
  · rw [lane_ofLanes s W _ _ hs (by omega), if_pos (by omega),
      show 2 * i / 2 = i by omega, Nat.mod_eq_of_lt (lane_lt s a _ hs)]
  · rw [lane_ofLanes s W _ _ hs (by omega), if_neg (by omega),
      show (2 * i + 1) / 2 = i by omega, Nat.mod_eq_of_lt (lane_lt s b _ hs)]

theorem interleave_lo_ok (T : MaskTy) (W : Nat) (a b : Reg)
    (hs : T.size = 1 ∨ T.size = 2 ∨ T.size = 4 ∨ T.size = 8)
    (hW : W = 2 ∨ W = 4 ∨ W = 8 ∨ W = 16 ∨ W = 32 ∨ W = 64) (ha : a.length = W * T.size) :
    ∃ r, __interleave_lo T a b = .ok r ∧ r.length = W * T.size ∧
      ∀ i, i < W / 2 → lane T.size r (2 * i) = lane T.size a i ∧
        lane T.size r (2 * i + 1) = lane T.size b i := by
  have hpos : 0 < T.size := by omega
  have hwd : a.length / T.size = W := by rw [ha, Nat.mul_div_cancel _ hpos]
  refine ⟨_, by simp only [__interleave_lo, hwd, if_pos hW]; rfl, length_ofLanes _ _ _, ?_⟩
  intro i hi
  have h := lane_alternate T.size W 0 a b i hs (by omega)
  simp only [Nat.zero_add] at h
  exact h

theorem interleave_hi_ok (T : MaskTy) (W : Nat) (a b : Reg)
    (hs : T.size = 1 ∨ T.size = 2 ∨ T.size = 4 ∨ T.size = 8)
    (hW : W = 2 ∨ W = 4 ∨ W = 8 ∨ W = 16 ∨ W = 32 ∨ W = 64) (ha : a.length = W * T.size) :
    ∃ r, __interleave_hi T a b = .ok r ∧ r.length = W * T.size ∧
      ∀ i, i < W / 2 → lane T.size r (2 * i) = lane T.size a (W / 2 + i) ∧
        lane T.size r (2 * i + 1) = lane T.size b (W / 2 + i) := by
  have hpos : 0 < T.size := by omega
  have hwd : a.length / T.size = W := by rw [ha, Nat.mul_div_cancel _ hpos]
  refine ⟨_, by simp only [__interleave_hi, hwd, if_pos hW]; rfl, length_ofLanes _ _ _, ?_⟩
  intro i hi
  exact lane_alternate T.size W (W / 2) a b i hs (by omega)

/-- The lanes of `lo` followed by `hi` are `a[0], b[0], a[1], b[1], ...`. -/
theorem interleave_both (s W : Nat) (a b lo hi : Reg) (hW : W % 2 = 0)
    (hlo : lo.length = W * s)
    (h1 : ∀ i, i < W / 2 → lane s lo (2 * i) = lane s a i ∧ lane s lo (2 * i + 1) = lane s b i)
    (h2 : ∀ i, i < W / 2 → lane s hi (2 * i) = lane s a (W / 2 + i) ∧
      lane s hi (2 * i + 1) = lane s b (W / 2 + i)) :
    ∀ j, j < W → lane s (lo ++ hi) (2 * j) = lane s a j ∧
      lane s (lo ++ hi) (2 * j + 1) = lane s b j := by
  intro j hj
  by_cases h : j < W / 2
  · have hle : (2 * j + 1 + 1) * s ≤ W * s := Nat.mul_le_mul_right s (by omega)
    have e1 : 2 * j * s + s ≤ lo.length := by
      rw [hlo]
      have : 2 * j * s + s ≤ (2 * j + 1 + 1) * s := by
        rw [Nat.add_mul (2 * j + 1), Nat.add_mul (2 * j)]
        omega
      omega
    have e2 : (2 * j + 1) * s + s ≤ lo.length := by
      rw [hlo]
      have : (2 * j + 1) * s + s = (2 * j + 1 + 1) * s := by
        rw [Nat.add_mul (2 * j + 1)]
        omega
      omega
    rw [lane_append_lt s lo hi _ e1, lane_append_lt s lo hi _ e2]
    exact h1 j h
  · have hq := h2 (j - W / 2) (by omega)
    rw [show W / 2 + (j - W / 2) = j by omega] at hq
    rw [show 2 * j = W + 2 * (j - W / 2) by omega,
      show W + 2 * (j - W / 2) + 1 = W + (2 * (j - W / 2) + 1) by omega,
      lane_append_ge s lo hi W _ hlo, lane_append_ge s lo hi W _ hlo]
    exact hq

set_option maxRecDepth 100000 in
/-- Eight `double` lanes cannot be widened to 128 lanes: the last `__concat` has operands of
64 lanes. -/
theorem zero_extend_double_128 :
    zero_extend_to wcfg_workarounds ty_double (iota 8 8 1) 128 = .error .undefined := by
  rfl
/-! ## Loads and stores -/

theorem masked_load_length {α β : Type} (conv : β → α) (mem : Nat → β) :
    ∀ (v : List α) (i : Nat) (k : List Bool), (masked_load conv mem i v k).length = v.length := by
  intro v
  induction v with
  | nil => intro i k; rfl
  | cons e v ih =>
    intro i k
    simp only [masked_load, List.length_cons, ih]

theorem getD_tail (k : List Bool) (j : Nat) : k.tail.getD j false = k.getD (j + 1) false := by
  cases k with
  | nil => rfl
  | cons b k => rfl

theorem headD_eq_getD (k : List Bool) : k.headD false = k.getD 0 false := by
  cases k with
  | nil => rfl
  | cons b k => rfl

/-- Lane `j` of a masked load is the memory element where the mask is set and the old lane
where it is not. -/
theorem masked_load_get {α β : Type} (conv : β → α) (mem : Nat → β) :
    ∀ (v : List α) (i : Nat) (k : List Bool) (j : Nat) (e : α), v[j]? = some e →
      (masked_load conv mem i v k)[j]? =
        some (if k.getD j false then conv (mem (i + j)) else e) := by
  intro v
  induction v with
  | nil => intro i k j e h; simp at h
  | cons e0 v ih =>
    intro i k j e h
    cases j with
    | zero =>
      simp only [List.getElem?_cons_zero, Option.some.injEq] at h
      simp only [masked_load, List.getElem?_cons_zero, headD_eq_getD, Nat.add_zero, h]
    | succ j =>
      simp only [List.getElem?_cons_succ] at h
      simp only [masked_load, List.getElem?_cons_succ]
      rw [ih (i + 1) k.tail j e h, getD_tail, show i + 1 + j = i + (j + 1) by omega]

/-- A masked store leaves everything outside the lanes alone. -/
theorem masked_store_frame {α β : Type} (conv : α → β) (p : Nat) :
    ∀ (v : List α) (i : Nat) (k : List Bool) (M : Nat → β) (a : Nat),
      (a < p + i ∨ p + i + v.length ≤ a) → masked_store conv p i v k M a = M a := by
  intro v
  induction v with
  | nil => intro i k M a _; rfl
  | cons e v ih =>
    intro i k M a h
    simp only [List.length_cons] at h
    simp only [masked_store]
    rw [ih (i + 1) k.tail _ a (by omega)]
    split
    · exact Function.update_noteq (by omega) _ _
    · rfl

/-- A masked store writes lane `j` where the mask is set and nothing where it is not. -/
theorem masked_store_at {α β : Type} (conv : α → β) (p : Nat) :
    ∀ (v : List α) (i : Nat) (k : List Bool) (M : Nat → β) (j : Nat) (e : α), v[j]? = some e →
      masked_store conv p i v k M (p + i + j) =
        if k.getD j false then conv e else M (p + i + j) := by
  intro v
  induction v with
  | nil => intro i k M j e h; simp at h
  | cons e0 v ih =>
    intro i k M j e h
    cases j with
    | zero =>
      simp only [List.getElem?_cons_zero, Option.some.injEq] at h
      simp only [masked_store, Nat.add_zero]
      rw [masked_store_frame conv p v (i + 1) k.tail _ (p + i) (by omega), headD_eq_getD, h]
      split
      · exact Function.update_same _ _ _
      · rfl
    | succ j =>
      simp only [List.getElem?_cons_succ] at h
      simp only [masked_store]
      rw [show p + i + (j + 1) = p + (i + 1) + j by omega, ih (i + 1) k.tail _ j e h,
        getD_tail]
      congr 1
      split
      · exact Function.update_noteq (by omega) _ _
      · rfl

theorem memcpy_to_in (p n : Nat) (src : Reg) (M : Mem) (a : Nat) (h1 : p ≤ a) (h2 : a < p + n) :
    memcpy_to p n src M a = rd src (a - p) := by
  simp [memcpy_to, h1, h2]

theorem memcpy_to_out (p n : Nat) (src : Reg) (M : Mem) (a : Nat) (h : a < p ∨ p + n ≤ a) :
    memcpy_to p n src M a = M a := by
  unfold memcpy_to
  rw [if_neg (by omega)]

/-- Copying through a buffer of `more` leading bytes stores the same bytes. -/
theorem memcpy_to_buffer (p n more : Nat) (v : Reg) (M : Mem) (h : n ≤ more) :
    memcpy_to p n (mk more fun j => rd v j) M = memcpy_to p n v M := by
  funext a
  unfold memcpy_to
  split
  · rw [rd_mk_lt (by omega)]
  · rfl

/-- The elements of memory that a copy has filled are the lanes of the source. -/
theorem mem_elem_memcpy (s p n : Nat) (v : Reg) (M : Mem) (i : Nat) (h : i * s + s ≤ n) :
    mem_elem s (memcpy_to p n v M) p i = lane s v i := by
  unfold mem_elem lane
  congr 1
  apply List.map_congr_left
  intro k hk
  have hk2 := List.mem_range.mp hk
  rw [memcpy_to_in p n v M _ (by omega) (by omega)]
  congr 3
  omega

theorem vector_bytes_cases (T : MaskTy) (n : Nat)
    (hs : T.size = 1 ∨ T.size = 2 ∨ T.size = 4 ∨ T.size = 8)
    (hn : 2 ≤ n) (h64 : n * T.size ≤ 64) :
    n * T.size ≤ vector_bytes T n ∧ ∃ k, 1 ≤ k ∧ k ≤ 6 ∧ vector_bytes T n = 2 ^ k := by
  have hpos : 0 < T.size := by omega
  have h2 : 2 ≤ n * T.size := by
    have := Nat.mul_le_mul hn hpos
    omega
  obtain ⟨k, hk, hf, hle, hmin⟩ := next_power_of_2_spec (n * T.size) (by omega)
    (by norm_num; omega)
  have hvb : vector_bytes T n = 2 ^ k := by
    unfold vector_bytes
    rw [if_neg (by omega), hf]
  have h6 : 2 ^ k ≤ 2 ^ 6 := hmin 6 (by norm_num; omega)
  have hk6 : k ≤ 6 := (Nat.pow_le_pow_iff_right (by decide)).mp h6
  refine ⟨by rw [hvb]; exact hle, k, ?_, hk6, hvb⟩
  by_contra hcon
  have : k = 0 := by omega
  subst this
  simp at hle
  omega

/-- The unmasked store writes `_Bytes` bytes of the register and nothing else. -/
theorem vector_store_ok (pr : Bool) (T : MaskTy) (m n : Nat) (v : Reg) (p : Nat) (f : Flags)
    (M : Mem) (hs : T.size = 1 ∨ T.size = 2 ∨ T.size = 4 ∨ T.size = 8)
    (hn : 2 ≤ n) (h64 : n * T.size ≤ 64) (hv : v.length = vector_bytes T n)
    (hm : m ≤ v.length) (hpr : pr = true → 8 ≤ v.length)
    (hal : flag_ok f (vector_bytes T n) p) :
    __vector_store pr T m n v p f M =
      .ok (memcpy_to p (if m = 0 then n * T.size else m) v M) := by
  obtain ⟨hle, k, hk1, hk6, hk⟩ := vector_bytes_cases T n hs hn h64
  have hn0 : n ≠ 0 := by omega
  unfold __vector_store
  simp only [if_neg hn0]
  generalize hb : (if m = 0 then n * T.size else m) = bytes
  have hbv : bytes ≤ v.length := by
    rw [← hb]
    split
    · rw [hv]; exact hle
    · exact hm
  have hvl : v.length = 2 ^ k := by rw [hv, hk]
  have hunit : pr = true →
      ¬ (v.length % store_unit T bytes ≠ 0 ∨ v.length / store_unit T bytes = 0) := by
    intro h
    have h8 := hpr h
    have hsu : store_unit T bytes = 8 ∨ store_unit T bytes = 4 ∨
        store_unit T bytes = T.size := by
      unfold store_unit
      split
      · exact Or.inl rfl
      · split
        · exact Or.inr (Or.inl rfl)
        · exact Or.inr (Or.inr rfl)
    have hcases : k = 3 ∨ k = 4 ∨ k = 5 ∨ k = 6 := by
      have : k ≠ 1 := by rintro rfl; norm_num at hvl; omega
      have : k ≠ 2 := by rintro rfl; norm_num at hvl; omega
      omega
    rcases hcases with h | h | h | h <;> subst h <;> norm_num at hvl <;>
      rcases hsu with h2 | h2 | h2 <;> rw [h2, hvl] <;>
      first
        | omega
        | (rcases hs with h3 | h3 | h3 | h3 <;> rw [h3] <;> omega)
  rw [if_neg (by omega)]
  rw [if_neg (by
    intro hc
    exact hunit hc.1 hc.2)]
  rw [if_neg (by
    intro hc
    exact hc.2 hv.symm)]
  have hflag : assume_flag f (vector_bytes T n) p = .ok () := by
    cases f with
    | element_aligned => rfl
    | vector_aligned =>
      have : p % vector_bytes T n = 0 := hal
      simp [assume_flag, assume_aligned, this]
    | overaligned al =>
      have : p % al = 0 := hal
      simp [assume_flag, assume_aligned, this]
  rw [hflag]
  show (if bytes &&& ((bytes + (2 ^ 64 - 1)) % 2 ^ 64) ≠ 0 then _ else _) = _
  split
  · rename_i hne
    have hb1 : 1 ≤ bytes := by
      by_contra hcon
      have : bytes = 0 := by omega
      rw [this] at hne
      simp at hne
    have hmore := next_power_of_2_le bytes k hb1 (by omega) (by rw [← hvl]; exact hbv)
    obtain ⟨k2, _, hf2, hle2, _⟩ := next_power_of_2_spec bytes hb1 (by
      have : 2 ^ k ≤ 2 ^ 63 := Nat.pow_le_pow_right (by decide) (by omega)
      omega)
    rw [if_neg (by rw [hvl]; omega), memcpy_to_buffer p bytes _ v M (by rw [hf2]; exact hle2)]
  · rfl
/-! ## Element access of masks -/

theorem and_two_pow_ne_zero (x i : Nat) : (x &&& 2 ^ i ≠ 0) ↔ x.testBit i = true := by
  constructor
  · intro h
    by_contra hb
    apply h
    apply Nat.eq_of_testBit_eq
    intro k
    rw [Nat.testBit_and, Nat.testBit_two_pow, Nat.zero_testBit]
    by_cases hk : i = k
    · subst hk
      simp [hb]
    · simp [hk]
  · intro h h0
    have : (x &&& 2 ^ i).testBit i = true := by
      rw [Nat.testBit_and, Nat.testBit_two_pow, h]
      simp
    rw [h0, Nat.zero_testBit] at this
    exact Bool.noConfusion this

theorem testBit_set_bit (W x i j : Nat) (hx : x < 2 ^ W) (hi : i < W) :
    ((x ||| 2 ^ i) % 2 ^ W).testBit j = (x.testBit j || decide (i = j)) := by
  have hlt : (x ||| 2 ^ i) < 2 ^ W :=
    Nat.or_lt_two_pow hx (Nat.pow_lt_pow_right (by decide) hi)
  rw [Nat.mod_eq_of_lt hlt, Nat.testBit_or, Nat.testBit_two_pow]

theorem testBit_all_but (i j : Nat) (hi : i < 64) :
    (2 ^ 64 - 1 - 2 ^ i).testBit j = (decide (j < 64) && !decide (i = j)) := by
  have hsplit : (2 : Nat) ^ 64 = 2 ^ (i + 1) * 2 ^ (63 - i) := by
    rw [← Nat.pow_add]
    congr 1
    omega
  have hp1 : 0 < 2 ^ i := Nat.two_pow_pos i
  have hp2 : 0 < 2 ^ (63 - i) := Nat.two_pow_pos _
  have h2 : 2 ^ (i + 1) = 2 * 2 ^ i := by rw [Nat.pow_succ, Nat.mul_comm]
  have he : 2 ^ 64 - 1 - 2 ^ i = 2 ^ (i + 1) * (2 ^ (63 - i) - 1) + (2 ^ i - 1) := by
    rw [Nat.mul_sub, ← hsplit, Nat.mul_one, h2]
    have : 2 * 2 ^ i ≤ 2 ^ 64 := by
      rw [hsplit, h2]
      exact Nat.le_mul_of_pos_right _ hp2
    omega
  rw [he, Nat.testBit_mul_pow_two_add _ (by omega), Nat.testBit_two_pow_sub_one,
    Nat.testBit_two_pow_sub_one]
  by_cases h1 : j < i + 1
  · rw [if_pos h1]
    by_cases h2 : i = j
    · subst h2
      simp
    · have h3 : j < i := by omega
      have h4 : j < 64 := by omega
      simp [h2, h3, h4]
  · rw [if_neg h1]
    have h2 : ¬ i = j := by omega
    by_cases h4 : j < 64
    · have : j - (i + 1) < 63 - i := by omega
      simp [h2, h4, this]
    · have : ¬ j - (i + 1) < 63 - i := by omega
      simp [h4, this]

theorem testBit_clear_bit (W x i j : Nat) (hx : x < 2 ^ W) (hW : W ≤ 64) (hi : i < W) :
    ((x &&& (2 ^ 64 - 1 - 2 ^ i)) % 2 ^ W).testBit j = (x.testBit j && !decide (i = j)) := by
  have hlt : (x &&& (2 ^ 64 - 1 - 2 ^ i)) < 2 ^ W :=
    lt_of_le_of_lt Nat.and_le_left hx
  rw [Nat.mod_eq_of_lt hlt, Nat.testBit_and, testBit_all_but i j (by omega)]
  by_cases hj : j < 64
  · simp [hj]
  · have : x.testBit j = false := by
      apply Nat.testBit_lt_two_pow
      exact lt_of_lt_of_le hx (Nat.pow_le_pow_right (by decide) (by omega))
    rw [this]
    rfl

/-- `__set(i, b)` on bitmask storage, read back with `operator[]`: lane `i` is `b` and every
other lane is as before. -/
theorem wrapper_bool_set_get (W x i : Nat) (b : Bool)
    (hW : W = 8 ∨ W = 16 ∨ W = 32 ∨ W = 64) (hx : x < 2 ^ W) (hi : i < W) :
    ∃ y, wrapper_bool_set W x i b = .ok y ∧ y < 2 ^ W ∧ wrapper_bool_get W y i = .ok b
      ∧ ∀ j, j < W → j ≠ i → wrapper_bool_get W y j = wrapper_bool_get W x j := by
  have hW64 : W ≤ 64 := by omega
  have hguard : ∀ j, j < W → ¬ (if W ≤ 32 then 32 else 64) ≤ j := by
    intro j hj
    split <;> omega
  have hp : 0 < 2 ^ W := Nat.two_pow_pos W
  have hget : ∀ z j, j < W → wrapper_bool_get W z j = .ok (z.testBit j) := by
    intro z j hj
    unfold wrapper_bool_get
    rw [if_neg (hguard j hj), Nat.one_shiftLeft]
    congr 1
    by_cases h : z.testBit j = true
    · rw [h]
      exact decide_eq_true ((and_two_pow_ne_zero z j).mpr h)
    · rw [Bool.not_eq_true] at h
      rw [h]
      apply decide_eq_false
      intro hne
      have := (and_two_pow_ne_zero z j).mp hne
      rw [h] at this
      exact Bool.noConfusion this
  cases b with
  | true =>
    refine ⟨(x ||| 2 ^ i) % 2 ^ W, ?_, Nat.mod_lt _ hp, ?_, ?_⟩
    · unfold wrapper_bool_set
      rw [if_neg (hguard i hi), if_pos rfl, Nat.one_shiftLeft]
    · rw [hget _ i hi, testBit_set_bit W x i i hx hi]
      simp
    · intro j hj hne
      rw [hget _ j hj, hget _ j hj, testBit_set_bit W x i j hx hi]
      have : ¬ i = j := fun h => hne h.symm
      simp [this]
  | false =>
    refine ⟨(x &&& (2 ^ 64 - 1 - 2 ^ i)) % 2 ^ W, ?_, Nat.mod_lt _ hp, ?_, ?_⟩
    · unfold wrapper_bool_set
      rw [if_neg (hguard i hi), if_neg (by simp), Nat.one_shiftLeft]
    · rw [hget _ i hi, testBit_clear_bit W x i i hx hW64 hi]
      simp
    · intro j hj hne
      rw [hget _ j hj, hget _ j hj, testBit_clear_bit W x i j hx hW64 hi]
      have : ¬ i = j := fun h => hne h.symm
      simp [this]

/-- `__set(i, x)` on vector storage, read back with `operator[]`. -/
theorem wrapper_set_get (s : Nat) (v : Reg) (i x : Nat)
    (hs : s = 1 ∨ s = 2 ∨ s = 4 ∨ s = 8) (hv : v.length % s = 0) (hi : i < v.length / s) :
    (wrapper_set s v i x).length = v.length
    ∧ wrapper_get s (wrapper_set s v i x) i = x % 2 ^ (8 * s)
    ∧ ∀ j, j < v.length / s → j ≠ i →
        wrapper_get s (wrapper_set s v i x) j = wrapper_get s v j := by
  refine ⟨?_, ?_, ?_⟩
  · unfold wrapper_set
    rw [length_ofLanes]
    exact Nat.div_mul_cancel (Nat.dvd_of_mod_eq_zero hv)
  · unfold wrapper_get wrapper_set
    rw [lane_ofLanes s _ _ i hs hi, if_pos rfl]
  · intro j hj hne
    unfold wrapper_get wrapper_set
    rw [lane_ofLanes s _ _ j hs hj, if_neg hne, Nat.mod_eq_of_lt (lane_lt s v j hs)]
/-! ## Canonical vector masks: broadcast, load, negation, comparison -/

/-- A lane whose bytes are all zero is zero, one whose bytes are all `0xff` is all-ones. -/
theorem lane_const (s : Nat) (v : Reg) (i : Nat) (b : Bool)
    (hs : s = 1 ∨ s = 2 ∨ s = 4 ∨ s = 8)
    (h : ∀ k, k < s → rd v (i * s + k) = if b then 255 else 0) :
    lane s v i = if b then 2 ^ (8 * s) - 1 else 0 := by
  have hv : ∀ k, k < s → (rd v (i * s + k)).val = if b then 255 else 0 := by
    intro k hk
    rw [h k hk]
    cases b <;> rfl
  rcases hs with hs | hs | hs | hs <;> subst hs
  · have h0 := hv 0 (by omega)
    rw [lane_1]
    simp only [Nat.mul_one, Nat.add_zero] at h0
    rw [h0]
    cases b <;> rfl
  · have h0 := hv 0 (by omega)
    have h1 := hv 1 (by omega)
    rw [lane_2]
    simp only [Nat.add_zero] at h0
    rw [h0, h1]
    cases b <;> rfl
  · have h0 := hv 0 (by omega)
    have h1 := hv 1 (by omega)
    have h2 := hv 2 (by omega)
    have h3 := hv 3 (by omega)
    rw [lane_4]
    simp only [Nat.add_zero] at h0
    rw [h0, h1, h2, h3]
    cases b <;> rfl
  · have h0 := hv 0 (by omega)
    have h1 := hv 1 (by omega)
    have h2 := hv 2 (by omega)
    have h3 := hv 3 (by omega)
    have h4 := hv 4 (by omega)
    have h5 := hv 5 (by omega)
    have h6 := hv 6 (by omega)
    have h7 := hv 7 (by omega)
    rw [lane_8]
    simp only [Nat.add_zero] at h0
    rw [h0, h1, h2, h3, h4, h5, h6, h7]
    cases b <;> rfl

/-- Bytes that are constant on groups of `g` bytes make canonical lanes of every size that
divides `g`. -/
theorem lanes_ok_of_granule (g s : Nat) (v : Reg) (q : Nat → Bool)
    (hs : s = 1 ∨ s = 2 ∨ s = 4 ∨ s = 8) (hg : s ∣ g) (hg0 : 0 < g) (h : granule g v q) :
    lanes_ok s (v.length / s) v := by
  have hpos : 0 < s := by omega
  obtain ⟨t, rfl⟩ := hg
  have ht : 0 < t := Nat.pos_of_mul_pos_left hg0
  intro i hi
  have hb : ∀ k, k < s → rd v (i * s + k) = if q (i / t) then 255 else 0 := by
    intro k hk
    have hlt : i * s + k < v.length := by
      have h1 : (i + 1) * s ≤ v.length / s * s := Nat.mul_le_mul_right s hi
      have h2 : v.length / s * s ≤ v.length := Nat.div_mul_le_self _ _
      rw [Nat.add_mul] at h1
      omega
    rw [h _ hlt, ← Nat.div_div_eq_div_mul]
    congr 3
    rw [Nat.mul_comm i s, Nat.mul_add_div hpos, Nat.div_eq_of_lt hk, Nat.add_zero]
  rw [lane_const s v i (q (i / t)) hs hb]
  cases q (i / t)
  · left; rfl
  · right; rfl

theorem byteOf_ones_div (s k : Nat) (hs : s = 1 ∨ s = 2 ∨ s = 4 ∨ s = 8) (hk : k < s) :
    byteOf ((2 ^ (8 * s) - 1) / 256 ^ k) = 255 := by
  rcases hs with hs | hs | hs | hs <;> subst hs <;> interval_cases k <;> rfl

/-- A register built from lanes that are all-ones or zero. -/
theorem granule_ofLanes (s n : Nat) (q : Nat → Bool) (hs : s = 1 ∨ s = 2 ∨ s = 4 ∨ s = 8) :
    granule s (ofLanes s n fun i => if q i then 2 ^ (8 * s) - 1 else 0) q := by
  have hpos : 0 < s := by omega
  intro j hj
  rw [length_ofLanes] at hj
  rw [rd_ofLanes s n _ j hj]
  cases q (j / s)
  · simp only [Bool.false_eq_true, if_false, Nat.zero_div]
    rfl
  · simp only [if_true]
    exact byteOf_ones_div s _ hs (Nat.mod_lt j hpos)

theorem granule_congr (g : Nat) (v : Reg) (q r : Nat → Bool) (h : granule g v q)
    (hqr : ∀ i, q i = r i) : granule g v r := by
  intro j hj
  rw [h j hj, hqr]

/-- The vector compares produce canonical lanes. -/
theorem granule_cmpgt (s : Nat) (a b : Reg) (hs : s = 1 ∨ s = 2 ∨ s = 4 ∨ s = 8) :
    granule s (cmpgt_epi s a b) fun i => decide (sint s (lane s a i) > sint s (lane s b i)) := by
  have := granule_ofLanes s (a.length / s)
    (fun i => decide (sint s (lane s a i) > sint s (lane s b i))) hs
  simp only [decide_eq_true_eq] at this
  exact this

theorem granule_cmpne (s : Nat) (a : Reg) (hs : s = 1 ∨ s = 2 ∨ s = 4 ∨ s = 8) :
    granule s (cmpne_zero s a) fun i => decide (lane s a i ≠ 0) := by
  have := granule_ofLanes s (a.length / s) (fun i => decide (lane s a i ≠ 0)) hs
  simp only [decide_eq_true_eq] at this
  exact this

theorem length_cmpgt (s : Nat) (a b : Reg) : (cmpgt_epi s a b).length = a.length / s * s := by
  simp [cmpgt_epi, zipLanes, length_ofLanes]

theorem length_cmpne (s : Nat) (a : Reg) : (cmpne_zero s a).length = a.length / s * s := by
  simp [cmpne_zero, mapLanes, length_ofLanes]

/-- Interleaving a canonical 128-bit register with itself doubles the group size. -/
theorem granule_unpack (w : Nat) (hi : Bool) (k : Reg) (P : Nat → Bool)
    (hw : w = 1 ∨ w = 2 ∨ w = 4) (hk : k.length = 16) (h : granule w k P) :
    granule (2 * w) (unpack w hi k k) fun i => P (i + if hi then 8 / w else 0) := by
  intro j hj
  rw [length_unpack, hk] at hj
  rw [rd_unpack w hi k k j (by rw [hk]; exact hj), ite_self]
  have hsrc : j / 16 * 16 + (j % 16 / w / 2 + if hi then 8 / w else 0) * w + j % w < 16 := by
    rcases hw with h1 | h1 | h1 <;> subst h1 <;> cases hi <;> interval_cases j <;> decide
  rw [h _ (by rw [hk]; exact hsrc)]
  congr 2
  rcases hw with h1 | h1 | h1 <;> subst h1 <;> cases hi <;> interval_cases j <;> rfl

theorem granule_append (g : Nat) (a b : Reg) (qa qb : Nat → Bool) (hg : 0 < g)
    (hd : g ∣ a.length) (ha : granule g a qa) (hb : granule g b qb) :
    granule g (a ++ b) fun i => if i < a.length / g then qa i else qb (i - a.length / g) := by
  obtain ⟨m, hm⟩ := hd
  have hdiv : a.length / g = m := by rw [hm, Nat.mul_div_cancel_left _ hg]
  intro j hj
  rw [List.length_append] at hj
  simp only [hdiv]
  by_cases hlt : j < a.length
  · have : j / g < m := by
      apply Nat.div_lt_of_lt_mul
      rw [← hm]
      exact hlt
    rw [rd_append_lt hlt, ha j hlt, if_pos this]
  · have hge : a.length ≤ j := Nat.le_of_not_lt hlt
    have : ¬ j / g < m := by
      intro hc
      have := (Nat.div_lt_iff_lt_mul hg).mp hc
      rw [Nat.mul_comm, ← hm] at this
      omega
    rw [rd_append_ge hge, hb _ (by omega), if_neg this]
    congr 2
    rw [hm, Nat.sub_mul_div j g m (by rw [← hm]; exact hge)]

theorem vector_load_ok (bytes m : Nat) (mem : Nat → Bool) (p off : Nat) (f : Flags) (r : Reg)
    (h : vector_load bytes m mem p off f = .ok r) :
    r = mk bytes fun j => if j < m then bool_byte (mem (off + j)) else 0 := by
  unfold vector_load at h
  cases hf : assume_flag f bytes (p + off) with
  | error e => rw [hf] at h; cases h
  | ok u =>
    rw [hf] at h
    simp only [Except.bind] at h
    cases h
    rfl

theorem vector_load_of_flag (bytes m : Nat) (mem : Nat → Bool) (p off : Nat) (f : Flags)
    (h : flag_ok f bytes (p + off)) :
    vector_load bytes m mem p off f =
      .ok (mk bytes fun j => if j < m then bool_byte (mem (off + j)) else 0) := by
  have hf : assume_flag f bytes (p + off) = .ok () := by
    cases f with
    | element_aligned => rfl
    | vector_aligned =>
      have : (p + off) % bytes = 0 := h
      simp [assume_flag, assume_aligned, this]
    | overaligned al =>
      have : (p + off) % al = 0 := h
      simp [assume_flag, assume_aligned, this]
  unfold vector_load
  rw [hf]
  rfl

theorem neg_int_eq (b : Bool) : neg_int b = if b then 2 ^ (8 * 4) - 1 else 0 := by
  cases b <;> rfl

/-- Every SSE branch of the load returns a 16-byte register whose bytes are constant on the
groups of `16 / n` bytes. -/
theorem load_sse_granule (c : RCfg) (mmx : Bool) (n : Nat) (mem : Nat → Bool) (p : Nat)
    (f : Flags) (r : Reg) (h : load_sse c mmx n mem p f = .ok r) :
    r.length = 16 ∧ (n = 2 ∨ n = 4 ∨ n = 8 ∨ n = 16) ∧ ∃ q, granule (16 / n) r q := by
  unfold load_sse at h
  split at h
  · rename_i hc
    obtain ⟨rfl, _⟩ := hc
    cases h
    refine ⟨by simp [setr_epi32, length_ofLanes], by omega, fun i => mem i, ?_⟩
    intro j hj
    have hj16 : j < 16 := by simpa [setr_epi32, length_ofLanes] using hj
    have hlane : ∀ i, i < 4 →
        [neg_int (mem 0), neg_int (mem 0), neg_int (mem 1), neg_int (mem 1)].getD i 0
          = if mem (i / 2) then 2 ^ (8 * 4) - 1 else 0 := by
      intro i hi
      interval_cases i <;> simp [neg_int_eq]
    unfold setr_epi32
    simp only [List.length_cons, List.length_nil]
    rw [rd_ofLanes 4 _ _ j (by omega), hlane _ (by omega)]
    have hd : j / 4 / 2 = j / (16 / 2) := by omega
    rw [hd]
    by_cases hm : mem (j / (16 / 2)) = true
    · rw [if_pos hm, if_pos hm]
      exact byteOf_ones_div 4 _ (by omega) (Nat.mod_lt j (by omega))
    · rw [if_neg hm, if_neg hm, Nat.zero_div]
      rfl
  · split at h
    · rename_i hc
      obtain ⟨rfl, _⟩ := hc
      cases h
      have hk := granule_cmpgt 2
        (unpack 1 false (_mm_cvtsi32_si128 (bools_int mem 0 4))
          (_mm_cvtsi32_si128 (bools_int mem 0 4))) (zeros 16) (by omega)
      have hl : (cmpgt_epi 2 (unpack 1 false (_mm_cvtsi32_si128 (bools_int mem 0 4))
          (_mm_cvtsi32_si128 (bools_int mem 0 4))) (zeros 16)).length = 16 := by
        rw [length_cmpgt, length_unpack]
        simp [_mm_cvtsi32_si128, length_ofLanes]
      refine ⟨by rw [length_unpack, hl], by omega, _,
        granule_unpack 2 false _ _ (by omega) hl hk⟩
    · split at h
      · rename_i hc
        obtain ⟨rfl, _⟩ := hc
        cases h
        refine ⟨by simp [length_ofLanes], by omega,
          fun i => decide (0 < sint 1 (bool_byte (mem i)).val), ?_⟩
        have := granule_ofLanes 4 4 (fun i => decide (0 < sint 1 (bool_byte (mem i)).val))
          (by omega)
        simp only [decide_eq_true_eq] at this
        exact this
      · split at h
        · rename_i hc
          obtain ⟨rfl, _⟩ := hc
          cases h
          refine ⟨?_, by omega, _, granule_cmpne 2 _ (by omega)⟩
          rw [length_cmpne, length_unpack]
          simp [m128i_of, length_ofLanes]
        · split at h
          · rename_i hc
            obtain ⟨rfl, _⟩ := hc
            cases hv : vector_load 16 16 mem p 0 f with
            | error e => rw [hv] at h; cases h
            | ok v =>
              rw [hv] at h
              simp only [Except.bind] at h
              cases h
              have hvl : v.length = 16 := by
                rw [vector_load_ok _ _ _ _ _ _ _ hv, length_mk]
              refine ⟨by rw [length_cmpgt, hvl], by omega, _, granule_cmpgt 1 _ _ (by omega)⟩
          · cases h

theorem concat_m128i (w : WCfg) (a b : Reg) (ha : a.length = 16) (hb : b.length = 16) :
    __concat w ty_llong a b = .ok (a ++ b) :=
  concat_ok w ty_llong 2 a b (by decide) (by decide) ha hb (fun _ h => by cases h)

/-- The two interleaved halves of a canonical 128-bit register, concatenated. -/
theorem granule_unpack_concat (w : WCfg) (s : Nat) (k r : Reg) (P : Nat → Bool)
    (hs : s = 1 ∨ s = 2 ∨ s = 4) (hk : k.length = 16) (h : granule s k P)
    (hr : __concat w ty_llong (unpack s false k k) (unpack s true k k) = .ok r) :
    r.length = 32 ∧ ∃ q, granule (2 * s) r q := by
  have hl1 : (unpack s false k k).length = 16 := by rw [length_unpack, hk]
  have hl2 : (unpack s true k k).length = 16 := by rw [length_unpack, hk]
  rw [concat_m128i w _ _ hl1 hl2] at hr
  cases hr
  refine ⟨by rw [List.length_append, hl1, hl2], _,
    granule_append (2 * s) _ _ _ _ (by omega) ?_
      (granule_unpack s false k P hs hk h) (granule_unpack s true k P hs hk h)⟩
  rw [hl1]
  rcases hs with h1 | h1 | h1 <;> subst h1 <;> decide

/-- Every AVX branch of the load returns a 32-byte register whose bytes are constant on the
groups of `32 / n` bytes. -/
theorem load_avx_granule (w : WCfg) (c : RCfg) (n : Nat) (mem : Nat → Bool) (p : Nat)
    (f : Flags) (r : Reg) (h : load_avx w c n mem p f = .ok r) :
    r.length = 32 ∧ (n = 4 ∨ n = 8 ∨ n = 16 ∨ n = 32) ∧ ∃ q, granule (32 / n) r q := by
  unfold load_avx at h
  split at h
  · rename_i hc
    obtain ⟨rfl, _⟩ := hc
    have hl : (cmpne_zero 4 (vand (set1_epi32 16 (bools_int mem 0 4))
        (setr_epi32 [0x1, 0x100, 0x10000, 0x1000000]))).length = 16 := by
      rw [length_cmpne, length_vand, length_set1_epi32]
    obtain ⟨h1, q, h2⟩ := granule_unpack_concat w 4 _ r _ (by omega) hl
      (granule_cmpne 4 _ (by omega)) h
    exact ⟨h1, by omega, q, h2⟩
  · split at h
    · rename_i hc
      obtain ⟨rfl, _⟩ := hc
      cases hv : vector_load 16 8 mem p 0 f with
      | error e => rw [hv] at h; cases h
      | ok v =>
        rw [hv] at h
        simp only [Except.bind] at h
        have hvl : v.length = 16 := by rw [vector_load_ok _ _ _ _ _ _ _ hv, length_mk]
        have hl : (cmpgt_epi 2 (unpack 1 false v v) (zeros 16)).length = 16 := by
          rw [length_cmpgt, length_unpack, hvl]
        obtain ⟨h1, q, h2⟩ := granule_unpack_concat w 2 _ r _ (by omega) hl
          (granule_cmpgt 2 _ _ (by omega)) h
        exact ⟨h1, by omega, q, h2⟩
    · split at h
      · rename_i hc
        obtain ⟨rfl, _⟩ := hc
        cases hv : vector_load 16 16 mem p 0 f with
        | error e => rw [hv] at h; cases h
        | ok v =>
          rw [hv] at h
          simp only [Except.bind] at h
          have hvl : v.length = 16 := by rw [vector_load_ok _ _ _ _ _ _ _ hv, length_mk]
          have hl : (cmpgt_epi 1 v (zeros 16)).length = 16 := by
            rw [length_cmpgt, hvl]
          obtain ⟨h1, q, h2⟩ := granule_unpack_concat w 1 _ r _ (by omega) hl
            (granule_cmpgt 1 _ _ (by omega)) h
          exact ⟨h1, by omega, q, h2⟩
      · split at h
        · rename_i hc
          obtain ⟨rfl, _⟩ := hc
          cases hv : vector_load 32 32 mem p 0 f with
          | error e => rw [hv] at h; cases h
          | ok v =>
            rw [hv] at h
            simp only [Except.bind] at h
            cases h
            have hvl : v.length = 32 := by rw [vector_load_ok _ _ _ _ _ _ _ hv, length_mk]
            exact ⟨by rw [length_cmpgt, hvl], by omega, _, granule_cmpgt 1 _ _ (by omega)⟩
        · cases h

/-- The generic branches of the load return a register whose bytes are constant on the
lanes. -/
theorem load_generic_granule (T : MaskTy) (n : Nat) (mem : Nat → Bool) (p : Nat) (f : Flags)
    (r : Reg) (hs : T.size = 1 ∨ T.size = 2 ∨ T.size = 4 ∨ T.size = 8)
    (h : load_generic T n mem p f = .ok r) : ∃ q, granule T.size r q := by
  unfold load_generic at h
  split at h
  · rename_i hc
    cases hv : vector_load (vector_bytes T n) n mem p 0 f with
    | error e => rw [hv] at h; cases h
    | ok v =>
      rw [hv] at h
      simp only [Except.bind] at h
      cases h
      rw [hc.1]
      exact ⟨_, granule_cmpgt 1 _ _ (by omega)⟩
  · cases h
    have := granule_ofLanes T.size (vector_bytes T n / T.size)
      (fun i => decide (i < n ∧ mem i = true)) hs
    simp only [decide_eq_true_eq] at this
    exact ⟨_, this⟩

theorem granule_zeros (g n : Nat) : granule g (zeros n) fun _ => false := by
  intro j _
  rw [rd_zeros]
  rfl

theorem rd_ones (n j : Nat) (hj : j < n) : rd (ones n) j = 255 := by
  simp [ones, rd_mk_lt hj]

theorem length_ones (n : Nat) : (ones n).length = n := by simp [ones, length_mk]

theorem length_masked (T : MaskTy) (bytes full : Nat) (x : Reg) (hx : x.length = full) :
    (masked T bytes full x).length = full := by
  unfold masked
  split
  · rw [length_vand, hx]
  · exact hx

/-- `__masked(~_U())`: all-ones in the lanes of the ABI, zero in the padding. -/
theorem granule_masked_ones (T : MaskTy) (bytes full : Nat) :
    granule T.size (masked T bytes full (ones full))
      fun i => decide (bytes < full → i < bytes / T.size) := by
  intro j hj
  rw [length_masked T bytes full _ (length_ones full)] at hj
  unfold masked
  by_cases hp : bytes < full
  · rw [if_pos hp, rd_vand _ _ _ (by rw [length_ones]; exact hj), rd_ones _ _ hj,
      implicit_mask, rd_mk_lt hj, if_pos hp]
    by_cases hl : j / T.size < bytes / T.size
    · simp only [hl, if_true, implies_true, decide_True]
      rfl
    · simp only [hl, if_false, hp, forall_true_left, decide_False, Bool.false_eq_true]
      rfl
  · rw [if_neg hp, rd_ones _ _ hj]
    simp [hp]

theorem map_ok {α β : Type} (g : α → β) (x : Except Err α) (m : β) (h : x.map g = .ok m) :
    ∃ r, x = .ok r ∧ m = g r := by
  cases x with
  | error e => cases h
  | ok r =>
    cases h
    exact ⟨r, rfl, rfl⟩

/-- The load of a mask from `bool` produces canonical lanes on every vector path. -/
theorem load_canonical (w : WCfg) (c : RCfg) (mmx : Bool) (T : MaskTy) (a : Abi)
    (mem : Nat → Bool) (p : Nat) (f : Flags) (m : MaskData)
    (hs : T.size = 1 ∨ T.size = 2 ∨ T.size = 4 ∨ T.size = 8)
    (ha : valid_abi_tag a = true) (h : load_wrapper w c mmx T a mem p f = .ok m) :
    canonical T m := by
  have hpos : 0 < T.size := by omega
  cases a with
  | scalar => cases h; trivial
  | fixed_size n => cases h; trivial
  | combine n a => cases h
  | avx512 bytes =>
    simp only [load_wrapper] at h
    obtain ⟨r, _, rfl⟩ := map_ok _ _ _ h
    trivial
  | sse bytes =>
    have hb : bytes ≤ 16 := by
      simp only [valid_abi_tag, decide_eq_true_eq] at ha
      exact ha.2
    simp only [load_wrapper] at h
    obtain ⟨r, hr, rfl⟩ := map_ok _ _ _ h
    obtain ⟨hl, hn, q, hq⟩ := load_sse_granule c mmx _ mem p f r hr
    have hle : bytes / T.size * T.size ≤ 16 :=
      Nat.le_trans (Nat.div_mul_le_self _ _) hb
    apply lanes_ok_of_granule (16 / (bytes / T.size)) T.size r q hs ?_ ?_ hq
    · rcases hs with h1 | h1 | h1 | h1 <;> rw [h1] at hle hn ⊢ <;>
        rcases hn with h2 | h2 | h2 | h2 <;> rw [h2] at hle ⊢ <;>
        omega
    · rcases hn with h2 | h2 | h2 | h2 <;> rw [h2] <;> decide
  | avx bytes =>
    have hb : bytes = 32 := by
      simp only [valid_abi_tag, decide_eq_true_eq] at ha
      exact ha
    simp only [load_wrapper] at h
    obtain ⟨r, hr, rfl⟩ := map_ok _ _ _ h
    obtain ⟨hl, hn, q, hq⟩ := load_avx_granule w c _ mem p f r hr
    have hle : bytes / T.size * T.size ≤ 32 := by
      rw [← hb]
      exact Nat.div_mul_le_self _ _
    apply lanes_ok_of_granule (32 / (bytes / T.size)) T.size r q hs ?_ ?_ hq
    · rcases hs with h1 | h1 | h1 | h1 <;> rw [h1] at hle hn ⊢ <;>
        rcases hn with h2 | h2 | h2 | h2 <;> rw [h2] at hle ⊢ <;>
        omega
    · rcases hn with h2 | h2 | h2 | h2 <;> rw [h2] <;> decide
  | neon bytes =>
    simp only [load_wrapper] at h
    obtain ⟨r, hr, rfl⟩ := map_ok _ _ _ h
    obtain ⟨q, hq⟩ := load_generic_granule T _ mem p f r hs hr
    exact lanes_ok_of_granule T.size T.size r q hs (dvd_refl _) hpos hq

/-- A broadcast produces canonical lanes. -/
theorem broadcast_canonical (T : MaskTy) (a : Abi) (x : Bool) (m : MaskData)
    (hs : T.size = 1 ∨ T.size = 2 ∨ T.size = 4 ∨ T.size = 8)
    (h : broadcast T a x = .ok m) : canonical T m := by
  have hpos : 0 < T.size := by omega
  have key : ∀ bytes full, canonical T
      (.vec (if x then masked T bytes full (ones full) else zeros full)) := by
    intro bytes full
    cases x
    · exact lanes_ok_of_granule T.size T.size _ _ hs (dvd_refl _) hpos (granule_zeros _ _)
    · exact lanes_ok_of_granule T.size T.size _ _ hs (dvd_refl _) hpos
        (granule_masked_ones T bytes full)
  cases a with
  | scalar => cases h; trivial
  | fixed_size n => cases h; trivial
  | combine n a => cases h
  | avx512 bytes => cases h; trivial
  | sse bytes =>
    simp only [broadcast] at h
    split at h
    · cases h
    · cases h
      exact key bytes 16
  | avx bytes =>
    simp only [broadcast] at h
    split at h
    · cases h
    · cases h
      exact key bytes 32
  | neon bytes =>
    simp only [broadcast] at h
    split at h
    · cases h
    · cases h
      exact key bytes _

theorem xor_canon_byte (x y : Byte) (a b : Bool) (hx : x.val = if a then 255 else 0)
    (hy : y.val = if b then 255 else 0) :
    byteOf (x.val ^^^ y.val) = if xor a b then 255 else 0 := by
  rw [hx, hy]
  cases a <;> cases b <;> rfl

/-- The lane-wise xor of two canonical registers of the same size is canonical. -/
theorem lanes_ok_vxor (s n : Nat) (a b : Reg) (hs : s = 1 ∨ s = 2 ∨ s = 4 ∨ s = 8)
    (hn : n * s ≤ a.length) (ha : lanes_ok s n a) (hb : lanes_ok s n b) :
    lanes_ok s n (vxor a b) := by
  have hpos : 0 < s := by omega
  intro i hi
  have hbytes : ∀ k, k < s → rd (vxor a b) (i * s + k) =
      if xor (decide (lane s a i ≠ 0)) (decide (lane s b i ≠ 0)) then 255 else 0 := by
    intro k hk
    have hlt : i * s + k < a.length := by
      have h1 : (i + 1) * s ≤ n * s := Nat.mul_le_mul_right s hi
      rw [Nat.add_mul] at h1
      omega
    have hdiv : (i * s + k) / s = i := by
      rw [Nat.mul_comm, Nat.mul_add_div hpos, Nat.div_eq_of_lt hk, Nat.add_zero]
    have h1 := mask_byte s n a (i * s + k) hs ha (by rw [hdiv]; exact hi)
    have h2 := mask_byte s n b (i * s + k) hs hb (by rw [hdiv]; exact hi)
    rw [hdiv] at h1 h2
    rw [rd_vxor a b _ hlt]
    apply xor_canon_byte
    · rw [h1]
      by_cases hz : lane s a i ≠ 0 <;> simp [hz]
    · rw [h2]
      by_cases hz : lane s b i ≠ 0 <;> simp [hz]
  rw [lane_const s _ i _ hs hbytes]
  cases xor (decide (lane s a i ≠ 0)) (decide (lane s b i ≠ 0))
  · left; rfl
  · right; rfl

theorem length_vxor (a b : Reg) : (vxor a b).length = a.length := by simp [vxor, length_mk]

/-- `operator!` keeps a vector mask canonical. -/
theorem mask_not_canonical (c : RCfg) (T : MaskTy) (a : Abi) (m r : MaskData)
    (hs : T.size = 1 ∨ T.size = 2 ∨ T.size = 4 ∨ T.size = 8)
    (hm : canonical T m) (h : mask_not c T a m = .ok r) : canonical T r := by
  have key : ∀ k, canonical T (.vec k) → canonical T (.vec (vnot k)) := by
    intro k hk
    have := (lanes_ok_vnot T.size (k.length / T.size) k hs hk (Nat.div_mul_le_self _ _)).1
    show lanes_ok T.size ((vnot k).length / T.size) (vnot k)
    rw [length_vnot]
    exact this
  cases m with
  | vec k =>
    cases a with
    | sse b => cases h; exact key k hm
    | avx b => cases h; exact key k hm
    | neon b => cases h; exact key k hm
    | scalar => cases h
    | fixed_size n => cases h
    | avx512 b => cases h
    | combine n a => cases h
  | scalar b =>
    cases a with
    | scalar => cases h; trivial
    | sse b => cases h
    | avx b => cases h
    | neon b => cases h
    | fixed_size n => cases h
    | avx512 b => cases h
    | combine n a => cases h
  | bitset x =>
    cases a with
    | fixed_size n => cases h; trivial
    | sse b => cases h
    | avx b => cases h
    | neon b => cases h
    | scalar => cases h
    | avx512 b => cases h
    | combine n a => cases h
  | kmask x =>
    cases r with
    | vec v =>
      cases a with
      | avx512 b =>
        simp only [mask_not] at h
        split at h
        · cases h
        · split at h
          · cases h
          · split at h
            · cases h
            · split at h
              · cases h
              · cases h
      | sse b => cases h
      | avx b => cases h
      | neon b => cases h
      | scalar => cases h
      | fixed_size n => cases h
      | combine n a => cases h
    | scalar b => trivial
    | bitset x => trivial
    | kmask x => trivial
    | array ms => trivial
  | array ms =>
    cases a with
    | combine n a => cases h
    | sse b => cases h
    | avx b => cases h
    | neon b => cases h
    | scalar => cases h
    | fixed_size n => cases h
    | avx512 b => cases h

/-- `operator!=` keeps two vector masks of one type canonical. -/
theorem mask_ne_canonical (T : MaskTy) (x y r : MaskData)
    (hs : T.size = 1 ∨ T.size = 2 ∨ T.size = 4 ∨ T.size = 8)
    (hx : canonical T x) (hy : canonical T y)
    (hl : ∀ v u, x = .vec v → y = .vec u → v.length = u.length)
    (h : mask_ne x y = .ok r) : canonical T r := by
  cases x <;> cases y <;> first
    | (cases h; trivial)
    | cases h
  rename_i v u
  have hvu := hl v u rfl rfl
  show lanes_ok T.size ((vxor v u).length / T.size) (vxor v u)
  rw [length_vxor]
  apply lanes_ok_vxor T.size _ v u hs (Nat.div_mul_le_self _ _) hx
  have : lanes_ok T.size (u.length / T.size) u := hy
  rw [← hvu] at this
  exact this

/-- `operator==` keeps two vector masks of one type canonical. -/
theorem mask_eq_canonical (c : RCfg) (T : MaskTy) (a : Abi) (x y r : MaskData)
    (hs : T.size = 1 ∨ T.size = 2 ∨ T.size = 4 ∨ T.size = 8)
    (hx : canonical T x) (hy : canonical T y)
    (hl : ∀ v u, x = .vec v → y = .vec u → v.length = u.length)
    (h : mask_eq c T a x y = .ok r) : canonical T r := by
  unfold mask_eq at h
  cases hd : mask_ne x y with
  | error e => rw [hd] at h; cases h
  | ok d =>
    rw [hd] at h
    exact mask_not_canonical c T a d r hs (mask_ne_canonical T x y d hs hx hy hl hd) h

/-! ## `_BestAbi`: the chunk it picks is valid and fits -/

theorem size_tag_of_valid (tg : Target) (f : AbiCfg) (T : VTy) (N : Nat) (cls : AbiClass)
    (hN : 1 ≤ N) (h : class_valid tg f T cls (sizeof tg T * N) = true) :
    is_valid tg f T (cls.tag (sizeof tg T * N)) = true
    ∧ 1 ≤ simd_size (mask_ty tg T) (cls.tag (sizeof tg T * N))
    ∧ simd_size (mask_ty tg T) (cls.tag (sizeof tg T * N)) ≤ N := by
  have hdiv : 0 < sizeof tg T → sizeof tg T * N / sizeof tg T = N := fun h0 =>
    Nat.mul_div_cancel_left N h0
  cases cls
  case scalar_wrapper =>
    simp only [class_valid, Bool.decide_and, Bool.and_eq_true, decide_eq_true_eq] at h
    simp [AbiClass.tag, is_valid, native_valid, simd_size, h.1, hN]
  all_goals
    simp only [class_valid, AbiClass.tag, native_valid, valid_abi_tag, Bool.decide_and,
      Bool.and_eq_true, decide_eq_true_eq, Bool.decide_eq_true, Bool.decide_or,
      Bool.or_eq_true] at h
    have h0 : 0 < sizeof tg T := by
      rcases Nat.eq_zero_or_pos (sizeof tg T) with hz | hz
      · rw [hz] at h
        simp at h
      · exact hz
    refine ⟨?_, ?_, ?_⟩
    · simp only [AbiClass.tag, is_valid, native_valid, valid_abi_tag, Bool.decide_and,
        Bool.and_eq_true, decide_eq_true_eq, Bool.decide_eq_true, Bool.decide_or,
        Bool.or_eq_true]
      exact h
    · simp only [AbiClass.tag, simd_size, mask_ty, hdiv h0]
      exact hN
    · simp only [AbiClass.tag, simd_size, mask_ty, hdiv h0]
      exact Nat.le_refl _

theorem size_full_of_valid (tg : Target) (f : AbiCfg) (T : VTy) (cls : AbiClass) (b : Nat)
    (h : native_valid tg f T (full_abi cls b) = true) :
    is_valid tg f T (full_abi cls b) = true
    ∧ 1 ≤ simd_size (mask_ty tg T) (full_abi cls b) := by
  cases cls
  case scalar_wrapper => exact ⟨h, Nat.le_refl 1⟩
  case neon =>
    refine ⟨h, ?_⟩
    simp only [full_abi, native_valid, valid_abi_tag, Bool.decide_and, Bool.and_eq_true,
      decide_eq_true_eq, Bool.decide_eq_true] at h
    simp only [full_abi, simd_size, mask_ty]
    omega
  case sse =>
    refine ⟨h, ?_⟩
    simp only [full_abi, abi_sse, native_valid, valid_abi_tag, Bool.decide_and,
      Bool.and_eq_true, decide_eq_true_eq, Bool.decide_eq_true] at h
    simp only [full_abi, abi_sse, simd_size, mask_ty]
    omega
  case avx =>
    refine ⟨h, ?_⟩
    simp only [full_abi, abi_avx, native_valid, valid_abi_tag, Bool.decide_and,
      Bool.and_eq_true, decide_eq_true_eq, Bool.decide_eq_true] at h
    simp only [full_abi, abi_avx, simd_size, mask_ty]
    have hd : sizeof tg T ∣ 32 := Nat.dvd_of_mod_eq_zero h.2.2
    have hp : 0 < sizeof tg T := Nat.pos_of_dvd_of_pos hd (by decide)
    exact (Nat.one_le_div_iff hp).2 (Nat.le_of_dvd (by decide) hd)
  case avx512 =>
    refine ⟨h, ?_⟩
    simp only [full_abi, abi_avx512, native_valid, valid_abi_tag, Bool.decide_and,
      Bool.and_eq_true, decide_eq_true_eq, Bool.decide_eq_true] at h
    simp only [full_abi, abi_avx512, simd_size, mask_ty]
    have hd : sizeof tg T ∣ 64 := Nat.dvd_of_mod_eq_zero h.2.2
    have hp : 0 < sizeof tg T := Nat.pos_of_dvd_of_pos hd (by decide)
    exact (Nat.one_le_div_iff hp).2 (Nat.le_of_dvd (by decide) hd)

/-- Whatever `_BestAbi` returns is valid for `T` and has between 1 and `N` lanes. -/
theorem BestAbi_sound (tg : Target) (f : AbiCfg) (T : VTy) (N : Nat) (hN : 1 ≤ N)
    (l : List AbiClass) (a : Abi) (h : BestAbi tg f T N l = some a) :
    is_valid tg f T a = true ∧ 1 ≤ simd_size (mask_ty tg T) a
      ∧ simd_size (mask_ty tg T) a ≤ N := by
  induction l with
  | nil => simp [BestAbi] at h
  | cons a0 rest ih =>
    simp only [BestAbi] at h
    split at h
    · rename_i hv
      cases h
      exact size_tag_of_valid tg f T N a0 hN hv
    · split at h
      · rename_i hv
        cases h
        have := size_full_of_valid tg f T a0 (sizeof tg T * N) hv.1
        exact ⟨this.1, this.2, hv.2⟩
      · exact ih h

/-- A list that holds the scalar wrapper gives an ABI for every vectorizable type. -/
theorem BestAbi_total (tg : Target) (f : AbiCfg) (T : VTy) (N : Nat) (hN : 1 ≤ N)
    (hT : is_vectorizable T = true) (l : List AbiClass) (hl : AbiClass.scalar_wrapper ∈ l) :
    ∃ a, BestAbi tg f T N l = some a := by
  induction l with
  | nil => simp at hl
  | cons a0 rest ih =>
    simp only [BestAbi]
    split
    · exact ⟨_, rfl⟩
    · split
      · exact ⟨_, rfl⟩
      · rename_i h1 h2
        rcases List.mem_cons.1 hl with h | h
        · subst h
          exfalso
          apply h2
          simp [full_abi, native_valid, hT, simd_size, hN]
        · exact ih h

/-- With enough budget the chunks of a `fixed_size` vector are found: every chunk is valid
and not empty, and the lane counts of the chunks add up to `N`. -/
theorem fixed_size_chunks_spec (tg : Target) (f : AbiCfg) (T : VTy)
    (hT : is_vectorizable T = true) (fuel N : Nat) (hf : N ≤ fuel) :
    ∃ cs, fixed_size_chunks tg f T fuel N = some cs
      ∧ (cs.map fun a => simd_size (mask_ty tg T) a).sum = N
      ∧ ∀ a ∈ cs, is_valid tg f T a = true ∧ 1 ≤ simd_size (mask_ty tg T) a := by
  induction fuel generalizing N with
  | zero =>
    have : N = 0 := by omega
    subst this
    exact ⟨[], by simp [fixed_size_chunks]⟩
  | succ fuel ih =>
    cases N with
    | zero => exact ⟨[], by simp [fixed_size_chunks]⟩
    | succ n =>
      obtain ⟨a, ha⟩ := BestAbi_total tg f T (n + 1) (by omega) hT AllNativeAbis
        (by simp [AllNativeAbis])
      obtain ⟨hv, h1, h2⟩ := BestAbi_sound tg f T (n + 1) (by omega) AllNativeAbis a ha
      obtain ⟨cs, hcs, hsum, hall⟩ := ih (n + 1 - simd_size (mask_ty tg T) a) (by omega)
      refine ⟨a :: cs, ?_, ?_, ?_⟩
      · simp only [fixed_size_chunks, ha, hcs, Option.map_some']
      · simp only [List.map_cons, List.sum_cons, hsum]
        omega
      · intro b hb
        rcases List.mem_cons.1 hb with h | h
        · subst h
          exact ⟨hv, h1⟩
        · exact hall b h

/-! ## At most one native class is valid at a byte width -/

theorem sizeof_le (tg : Target) (h : tg.ok) (T : VTy) : sizeof tg T ≤ 16 := by
  obtain ⟨h1, h2, h3⟩ := h
  cases T <;> simp only [sizeof] <;> omega

theorem class_valid_width (tg : Target) (f : AbiCfg) (T : VTy) (N : Nat) (cls : AbiClass)
    (htg : tg.ok) (hx : f.have_neon_abi = false)
    (h : class_valid tg f T cls (sizeof tg T * N) = true) :
    (cls = .avx512 ∧ sizeof tg T * N = 64) ∨ (cls = .avx ∧ sizeof tg T * N = 32)
    ∨ (cls = .sse ∧ sizeof tg T * N ≤ 16 ∧ 1 < N) ∨ (cls = .scalar_wrapper ∧ N = 1) := by
  cases cls
  case avx512 =>
    simp only [class_valid, AbiClass.tag, native_valid, valid_abi_tag, Bool.decide_and,
      Bool.and_eq_true, decide_eq_true_eq] at h
    exact Or.inl ⟨rfl, h.1⟩
  case avx =>
    simp only [class_valid, AbiClass.tag, native_valid, valid_abi_tag, Bool.decide_and,
      Bool.and_eq_true, decide_eq_true_eq] at h
    exact Or.inr (Or.inl ⟨rfl, h.1⟩)
  case sse =>
    simp only [class_valid, AbiClass.tag, native_valid, valid_abi_tag, Bool.decide_and,
      Bool.and_eq_true, decide_eq_true_eq] at h
    refine Or.inr (Or.inr (Or.inl ⟨rfl, h.1.2, ?_⟩))
    have h0 : 0 < sizeof tg T := sizeof_pos tg htg T
    have := h.2.2.1
    rwa [Nat.mul_div_cancel_left N h0] at this
  case neon =>
    simp [class_valid, AbiClass.tag, native_valid, neon_is_vectorizable, hx] at h
  case scalar_wrapper =>
    simp only [class_valid, Bool.decide_and, Bool.and_eq_true, decide_eq_true_eq] at h
    refine Or.inr (Or.inr (Or.inr ⟨rfl, ?_⟩))
    have h0 : 0 < sizeof tg T := sizeof_pos tg htg T
    have h2 : sizeof tg T * 1 = sizeof tg T * N := by rw [Nat.mul_one]; exact h.2
    exact (Nat.eq_of_mul_eq_mul_left h0 h2).symm

theorem class_valid_unique (tg : Target) (f : AbiCfg) (T : VTy) (N : Nat)
    (htg : tg.ok) (hx : f.have_neon_abi = false) (a b : AbiClass)
    (ha : class_valid tg f T a (sizeof tg T * N) = true)
    (hb : class_valid tg f T b (sizeof tg T * N) = true) : a = b := by
  have hs := sizeof_le tg htg T
  have ha2 := class_valid_width tg f T N a htg hx ha
  have hb2 := class_valid_width tg f T N b htg hx hb
  have hone : N = 1 → sizeof tg T * N ≤ 16 := by
    intro h
    rw [h, Nat.mul_one]
    exact hs
  rcases ha2 with ⟨e1, h1⟩ | ⟨e1, h1⟩ | ⟨e1, h1⟩ | ⟨e1, h1⟩ <;>
    rcases hb2 with ⟨e2, h2⟩ | ⟨e2, h2⟩ | ⟨e2, h2⟩ | ⟨e2, h2⟩ <;>
    first
    | (exfalso; omega)
    | (exfalso; have h3 := hone (by omega); omega)
    | (rw [e1, e2])

theorem FirstValidAbi_of_mem (tg : Target) (f : AbiCfg) (T : VTy) (N : Nat)
    (hu : ∀ a b, class_valid tg f T a (sizeof tg T * N) = true →
      class_valid tg f T b (sizeof tg T * N) = true → a = b)
    (l : List AbiClass) (a : AbiClass) (ha : a ∈ l)
    (hv : class_valid tg f T a (sizeof tg T * N) = true) :
    FirstValidAbi tg f T N l = some (a.tag (sizeof tg T * N)) := by
  induction l with
  | nil => simp at ha
  | cons a0 rest ih =>
    simp only [FirstValidAbi]
    split
    · rename_i h0
      rw [hu a0 a h0 hv]
    · rename_i h0
      rcases List.mem_cons.1 ha with h | h
      · subst h
        exact absurd hv h0
      · exact ih h

theorem FirstValidAbi_none (tg : Target) (f : AbiCfg) (T : VTy) (N : Nat)
    (l : List AbiClass) (h : ∀ a ∈ l, class_valid tg f T a (sizeof tg T * N) = false) :
    FirstValidAbi tg f T N l = none := by
  induction l with
  | nil => rfl
  | cons a0 rest ih =>
    simp only [FirstValidAbi, h a0 (List.mem_cons_self _ _), Bool.false_eq_true, if_false]
    exact ih fun a ha => h a (List.mem_cons_of_mem _ ha)

/-- When at most one class is valid, two lists with the same members give the same ABI. -/
theorem FirstValidAbi_order (tg : Target) (f : AbiCfg) (T : VTy) (N : Nat)
    (hu : ∀ a b, class_valid tg f T a (sizeof tg T * N) = true →
      class_valid tg f T b (sizeof tg T * N) = true → a = b)
    (l l2 : List AbiClass) (hm : ∀ a, a ∈ l ↔ a ∈ l2) :
    FirstValidAbi tg f T N l = FirstValidAbi tg f T N l2 := by
  by_cases h : ∃ a ∈ l, class_valid tg f T a (sizeof tg T * N) = true
  · obtain ⟨a, ha, hv⟩ := h
    rw [FirstValidAbi_of_mem tg f T N hu l a ha hv,
      FirstValidAbi_of_mem tg f T N hu l2 a ((hm a).1 ha) hv]
  · have hn : ∀ a ∈ l, class_valid tg f T a (sizeof tg T * N) = false := by
      intro a ha
      cases hc : class_valid tg f T a (sizeof tg T * N)
      · rfl
      · exact absurd ⟨a, ha, hc⟩ h
    rw [FirstValidAbi_none tg f T N l hn,
      FirstValidAbi_none tg f T N l2 fun a ha => hn a ((hm a).2 ha)]

/-! ## `__firstbit` and `__lastbit` -/

theorem clz_last (w x k : Nat) (hk : k < w) (h1 : bit x k = true)
    (h0 : ∀ j, k < j → j < w → bit x j = false) : clz w x = w - 1 - k := by
  unfold clz
  rw [find_range_first (fun i => bit x (w - 1 - i)) w (w - 1 - k) (by omega)]
  · rfl
  · have : w - 1 - (w - 1 - k) = k := by omega
    simp only [this, h1]
  · intro j hj
    exact h0 (w - 1 - j) (by omega) (by omega)

theorem lastbit_last (c : RCfg) (x k : Nat) (hk : k < 64) (h1 : bit x k = true)
    (h0 : ∀ j, k < j → j < 64 → bit x j = false) : lastbit c 8 x = (k : Int) := by
  unfold lastbit
  simp only [show ¬ (8 ≤ 4) by decide, if_false]
  split
  · rw [clz_last 64 x k hk h1 h0]
    omega
  · by_cases h : k < 32
    · have hz : x / 2 ^ 32 % 2 ^ 32 = 0 := by
        apply Nat.eq_of_testBit_eq
        intro j
        rw [← bit_eq_testBit, bit_mod_two_pow, bit_div_two_pow]
        by_cases hj : j < 32
        · simp [h0 (32 + j) (by omega) (by omega)]
        · simp [hj]
      simp only [hz, if_true]
      rw [clz_last 32 (x % 2 ^ 32) k h]
      · omega
      · rw [bit_mod_two_pow]
        simp [h, h1]
      · intro j hj1 hj2
        rw [bit_mod_two_pow, h0 j hj1 (by omega)]
        simp
    · have hb : bit (x / 2 ^ 32 % 2 ^ 32) (k - 32) = true := by
        rw [bit_mod_two_pow, bit_div_two_pow]
        have : 32 + (k - 32) = k := by omega
        rw [this, h1]
        simp
        omega
      have hne : x / 2 ^ 32 % 2 ^ 32 ≠ 0 := by
        intro hz
        rw [hz] at hb
        simp [bit] at hb
      simp only [hne, if_false]
      rw [clz_last 32 _ (k - 32) (by omega) hb]
      · omega
      · intro j hj1 hj2
        rw [bit_mod_two_pow, bit_div_two_pow, h0 (32 + j) (by omega) (by omega)]
        simp

/-- A nonzero 64-bit number has a lowest set bit. -/
theorem exists_lowest_bit (b : Nat) (h0 : b ≠ 0) (h : b < 2 ^ 64) :
    ∃ i, i < 64 ∧ bit b i = true ∧ ∀ j, j < i → bit b j = false := by
  have hex : ∃ i, b.testBit i = true := Nat.ne_zero_implies_bit_true h0
  refine ⟨Nat.find hex, ?_, ?_, ?_⟩
  · by_contra hge
    have h2 : b.testBit (Nat.find hex) = false :=
      Nat.testBit_lt_two_pow (Nat.lt_of_lt_of_le h (Nat.pow_le_pow_right (by decide) (by omega)))
    rw [Nat.find_spec hex] at h2
    cases h2
  · rw [bit_eq_testBit]
    exact Nat.find_spec hex
  · intro j hj
    rw [bit_eq_testBit]
    have := Nat.find_min hex hj
    simpa using this

/-- A nonzero 64-bit number has a highest set bit. -/
theorem exists_highest_bit (b : Nat) (h0 : b ≠ 0) (h : b < 2 ^ 64) :
    ∃ k, k < 64 ∧ bit b k = true ∧ ∀ j, k < j → bit b j = false := by
  obtain ⟨i, hi, hb, _⟩ := exists_lowest_bit b h0 h
  have hs : bit b (Nat.findGreatest (fun k => bit b k = true) 63) = true :=
    Nat.findGreatest_spec (P := fun k => bit b k = true) (Nat.le_of_lt_succ hi) hb
  refine ⟨Nat.findGreatest (fun k => bit b k = true) 63, ?_, hs, ?_⟩
  · exact Nat.lt_succ_of_le (Nat.findGreatest_le 63)
  · intro j hj
    by_cases hj2 : j ≤ 63
    · have := Nat.findGreatest_is_greatest (P := fun k => bit b k = true) hj hj2
      simpa using this
    · rw [bit_eq_testBit]
      exact Nat.testBit_lt_two_pow
        (Nat.lt_of_lt_of_le h (Nat.pow_le_pow_right (by decide) (by omega)))

/-! ## `__is_narrowing_conversion` on the integer types -/

theorem integral_cases (tg : Target) (htg : tg.ok) (T : VTy) (h : is_integral T = true)
    (hb : T ≠ .bool) :
    T ≠ .float ∧ T ≠ .double ∧ T ≠ .ldouble ∧ is_floating_point T = false
    ∧ (sizeof tg T = 1 ∨ sizeof tg T = 2 ∨ sizeof tg T = 4 ∨ sizeof tg T = 8) := by
  obtain ⟨h1, h2, _⟩ := htg
  cases T <;> simp [is_integral, is_floating_point, sizeof] at h hb ⊢ <;> omega

/-- The primary template on two integer types given by size and signedness. -/
theorem narrowing_sizes (s1 s2 : Nat) (g1 g2 : Bool)
    (h1 : s1 = 1 ∨ s1 = 2 ∨ s1 = 4 ∨ s1 = 8) (h2 : s2 = 1 ∨ s2 = 2 ∨ s2 = 4 ∨ s2 = 8) :
    let d1 := 8 * s1 - (if g1 = true then 1 else 0)
    let d2 := 8 * s2 - (if g2 = true then 1 else 0)
    let C := common_type (if s1 < 4 then .int 4 true else .int s1 g1)
      (if s2 < 4 then .int 4 true else .int s2 g2)
    ((decide (d1 > d2)
      || decide (convert_value C (2 ^ d1 - 1) > convert_value C (2 ^ d2 - 1))
      || decide (convert_value C (if g1 = true then - 2 ^ d1 else 0)
          < convert_value C (if g2 = true then - 2 ^ d2 else 0))
      || (g1 && (true && !g2))) = false)
    ↔ ((if g2 = true then - 2 ^ d2 else (0 : Int)) ≤ (if g1 = true then - 2 ^ d1 else 0)
      ∧ ((2 : Int) ^ d1 - 1 ≤ 2 ^ d2 - 1)) := by
  rcases h1 with h | h | h | h <;> subst h <;> rcases h2 with h | h | h | h <;> subst h <;>
    cases g1 <;> cases g2 <;> decide

/-- On two integer types other than `bool` the primary template says "not narrowing" exactly
when the range of the destination holds the range of the source. -/
theorem narrowing_primary_iff (tg : Target) (n : NumCfg) (F T : VTy) (htg : tg.ok)
    (hF : is_integral F = true) (hFb : F ≠ .bool)
    (hT : is_integral T = true) (hTb : T ≠ .bool) :
    is_narrowing_primary tg n F T = false
      ↔ (limits_lowest tg n T ≤ limits_lowest tg n F
        ∧ limits_max tg n F ≤ limits_max tg n T) := by
  obtain ⟨f1, f2, f3, f4, f5⟩ := integral_cases tg htg F hF hFb
  obtain ⟨t1, t2, t3, t4, t5⟩ := integral_cases tg htg T hT hTb
  have key := narrowing_sizes (sizeof tg F) (sizeof tg T) (is_signed n F) (is_signed n T) f5 t5
  simp only [is_narrowing_primary, digits, limits_max, limits_lowest, promoted, is_unsigned,
    hF, hT, hFb, hTb, f1, f2, f3, f4, t1, t2, t3, t4, if_false, if_true, Bool.false_eq_true]
  exact key

/-! ## 64-bit integers to `double` through 32-bit halves -/

theorem lane_mapLanes (s : Nat) (f : Nat → Nat) (v : Reg) (i : Nat)
    (hs : s = 1 ∨ s = 2 ∨ s = 4 ∨ s = 8) (hi : i < v.length / s) :
    lane s (mapLanes s f v) i = f (lane s v i) % 2 ^ (8 * s) := by
  unfold mapLanes
  exact lane_ofLanes s _ _ i hs hi

theorem lane4_cvt_down (a : Reg) (i : Nat) (hi : i < a.length / 8) :
    lane 4 (cvt_down 8 4 a) i = lane 8 a i % 2 ^ 32 := by
  have e : ∀ k, k < 4 → rd (cvt_down 8 4 a) (i * 4 + k) = rd a (i * 8 + k) := by
    intro k hk
    rw [rd_cvt_down 8 4 a _ (by omega)]
    congr 1
    omega
  have e0 := e 0 (by decide)
  rw [Nat.add_zero, Nat.add_zero] at e0
  rw [lane_4, lane_8, e0, e 1 (by decide), e 2 (by decide), e 3 (by decide)]
  have h0 := (rd a (i * 8 + 0)).isLt
  have h1 := (rd a (i * 8 + 1)).isLt
  have h2 := (rd a (i * 8 + 2)).isLt
  have h3 := (rd a (i * 8 + 3)).isLt
  simp only [Nat.add_zero] at h0
  omega

/-- The signed and the unsigned halves of a 64-bit number recombine to it. -/
theorem halves_recombine (x : Nat) (hx : x < 2 ^ 64) :
    sint 4 (sar 8 32 x % 2 ^ 32) * 4294967296 + ((x % 2 ^ 32 : Nat) : Int)
      = ElemTy.toInt ⟨8, true⟩ x
    ∧ ((x / 2 ^ 32 % 2 ^ 32 : Nat) : Int) * 4294967296 + ((x % 2 ^ 32 : Nat) : Int)
      = ElemTy.toInt ⟨8, false⟩ x := by
  constructor
  · simp only [sint, sar, ElemTy.toInt, ElemTy.bits, Nat.reduceMul, Nat.reduceSub,
      Nat.reducePow, true_and]
    by_cases h : 9223372036854775808 ≤ x
    · simp only [h, if_true]
      have : (x + 18446744073709551615 * 18446744073709551616) / 4294967296
          % 18446744073709551616 % 4294967296
          = x / 4294967296 := by omega
      rw [this]
      have h2 : 2147483648 ≤ x / 4294967296 := by omega
      simp only [h2, if_true]
      omega
    · simp only [h, if_false]
      have h2 : ¬ 2147483648 ≤ x / 4294967296 % 4294967296 := by omega
      simp only [h2, if_false]
      omega
  · simp only [ElemTy.toInt, Bool.false_eq_true, false_and, if_false, Nat.reducePow]
    omega

theorem ulp_exp_le (p n k : Nat) (hk : k < 128) (h : n < 2 ^ (p + k)) : ulp_exp p n ≤ k := by
  have hex : ∃ j, n < 2 ^ (p + j) := ⟨k, h⟩
  have hle : Nat.find hex ≤ k := Nat.find_min' hex h
  unfold ulp_exp
  rw [find_range_first (fun j => decide (n < 2 ^ (p + j))) 128 (Nat.find hex) (by omega)
    (by simpa using Nat.find_spec hex)
    (fun j hj => by simpa using Nat.find_min hex hj)]
  exact hle

theorem round_even_dvd (n u : Nat) (hu : 0 < u) (h : u ∣ n) : round_even n u = n := by
  unfold round_even
  have hr : n % u = 0 := Nat.mod_eq_zero_of_dvd h
  simp only [hr, Nat.mul_zero, hu, if_true]
  exact Nat.div_mul_cancel h

/-- A number below `2 ^ 64` that is a multiple of `2 ^ 32` is a `double`. -/
theorem rnd_53_high (z : Int) (h : z.natAbs < 2 ^ 32) :
    rnd 53 (z * 4294967296) = z * 4294967296 := by
  unfold rnd
  have hn : (z * 4294967296).natAbs = z.natAbs * 4294967296 := by
    rw [Int.natAbs_mul]
    rfl
  rw [hn]
  have hle : ulp_exp 53 (z.natAbs * 4294967296) ≤ 11 :=
    ulp_exp_le 53 _ 11 (by decide) (by
      have e : (2 : Nat) ^ (53 + 11) = 18446744073709551616 := by norm_num
      rw [e]
      norm_num at h
      omega)
  have hd : 2 ^ ulp_exp 53 (z.natAbs * 4294967296) ∣ z.natAbs * 4294967296 := by
    apply Dvd.dvd.mul_left
    have h1 : 2 ^ ulp_exp 53 (z.natAbs * 4294967296) ∣ 2 ^ 32 :=
      Nat.pow_dvd_pow 2 (by omega)
    have h2 : (2 : Nat) ^ 32 ∣ 4294967296 := by norm_num
    exact h1.trans h2
  rw [round_even_dvd _ _ (Nat.pos_pow_of_pos _ (by decide)) hd, ← hn]
  exact Int.sign_mul_natAbs _

theorem sint4_natAbs (x : Nat) (hx : x < 2 ^ 32) : (sint 4 x).natAbs ≤ 2 ^ 31 := by
  simp only [sint, Nat.reduceMul, Nat.reduceSub, Nat.reducePow] at hx ⊢
  split <;> omega

/-- Lane `i` of the branch for signed lanes holds the `double` nearest to the lane. -/
theorem s64_lane (x : Nat) (hx : x < 2 ^ 64) :
    rnd 53 (rnd 53 (rnd 53 (sint 4 (sar 8 32 x % 2 ^ 64 % 2 ^ 32)) * 4294967296)
      + rnd 53 ((x % 2 ^ 32 : Nat) : Int)) = rnd 53 (ElemTy.toInt ⟨8, true⟩ x) := by
  have hs : sar 8 32 x % 2 ^ 64 = sar 8 32 x := by
    apply Nat.mod_eq_of_lt
    simp only [sar, Nat.reduceMul, Nat.reduceSub, Nat.reducePow] at hx ⊢
    split <;> omega
  have hb := sint4_natAbs (sar 8 32 x % 2 ^ 32) (Nat.mod_lt _ (by decide))
  rw [hs, rnd_small 53 (sint 4 _) (by omega), rnd_53_high _ (by omega),
    rnd_small 53 ((x % 2 ^ 32 : Nat) : Int) (by
      have : x % 2 ^ 32 < 2 ^ 32 := Nat.mod_lt _ (by decide)
      simp only [Int.natAbs_ofNat]
      omega),
    (halves_recombine x hx).1]

/-- Lane `i` of the branch for unsigned lanes holds the `double` nearest to the lane. -/
theorem u64_lane (x : Nat) (hx : x < 2 ^ 64) :
    rnd 53 (rnd 53 (rnd 53 ((x / 2 ^ 32 % 2 ^ 64 % 2 ^ 32 : Nat) : Int) * 4294967296)
      + rnd 53 ((x % 2 ^ 32 : Nat) : Int)) = rnd 53 (ElemTy.toInt ⟨8, false⟩ x) := by
  have hs : x / 2 ^ 32 % 2 ^ 64 % 2 ^ 32 = x / 2 ^ 32 % 2 ^ 32 := by omega
  have hlt : x / 2 ^ 32 % 2 ^ 32 < 2 ^ 32 := Nat.mod_lt _ (by decide)
  have hd : x / 2 ^ 32 % 2 ^ 32 = x / 2 ^ 32 := by omega
  rw [hs, rnd_small 53 ((x / 2 ^ 32 % 2 ^ 32 : Nat) : Int) (by
      simp only [Int.natAbs_ofNat]
      omega),
    rnd_53_high _ (by
      simp only [Int.natAbs_ofNat]
      omega),
    rnd_small 53 ((x % 2 ^ 32 : Nat) : Int) (by
      have : x % 2 ^ 32 < 2 ^ 32 := Nat.mod_lt _ (by decide)
      simp only [Int.natAbs_ofNat]
      omega),
    (halves_recombine x hx).2]

theorem zipWith_map_range (n : Nat) (h : Int → Int → Int) (f g : Nat → Int) :
    List.zipWith h ((List.range n).map f) ((List.range n).map g)
      = (List.range n).map fun i => h (f i) (g i) := by
  rw [List.zipWith_map_left, List.zipWith_map_right, List.zipWith_same]

/-- The branches through 32-bit halves return the `double` nearest to every lane. -/
theorem conv1_i64_to_f64_spec (T : ElemTy) (v : Reg) (hT : T.size = 8)
    (hv : v.length = 64) :
    conv1_i64_to_f64 false T 64 v = some (static_cast_f64 T v) := by
  have hc : (cvt_down 8 4 v).length / 4 = 8 := by rw [length_cvt_down, hv]; rfl
  have hlo : ∀ i, i < 8 → lane 4 (cvt_down 8 4 v) i = lane 8 v i % 2 ^ 32 :=
    fun i hi => lane4_cvt_down v i (by rw [hv]; omega)
  obtain ⟨sz, sg⟩ := T
  simp only at hT
  subst hT
  cases sg
  · have hh : (cvt_down 8 4 (srli 8 v 32)).length / 4 = 8 := by
      rw [length_cvt_down, length_srli, hv]; rfl
    have hhi : ∀ i, i < 8 → lane 4 (cvt_down 8 4 (srli 8 v 32)) i
        = lane 8 v i / 2 ^ 32 % 2 ^ 64 % 2 ^ 32 := by
      intro i hi
      rw [lane4_cvt_down _ i (by rw [length_srli, hv]; omega)]
      unfold srli
      rw [lane_mapLanes 8 _ v i (by decide) (by rw [hv]; omega)]
      rfl
    simp only [conv1_i64_to_f64, hv, z_to_z, and_self, Bool.false_eq_true, not_false_eq_true,
      if_true, if_false, Option.some.injEq, static_cast_f64, dadd, dmul_scalar, cvtepu32_pd,
      hc, hh, List.map_map, Nat.reduceDiv]
    rw [zipWith_map_range]
    apply List.map_congr_left
    intro i hi
    have hi8 : i < 8 := List.mem_range.1 hi
    simp only [Function.comp, hlo i hi8, hhi i hi8]
    exact u64_lane (lane 8 v i) (lane_lt 8 v i (by decide))
  · have hh : (cvt_down 8 4 (srai 8 v 32)).length / 4 = 8 := by
      rw [length_cvt_down, length_srai, hv]; rfl
    have hhi : ∀ i, i < 8 → lane 4 (cvt_down 8 4 (srai 8 v 32)) i
        = sar 8 32 (lane 8 v i) % 2 ^ 64 % 2 ^ 32 := by
      intro i hi
      rw [lane4_cvt_down _ i (by rw [length_srai, hv]; omega)]
      unfold srai
      rw [lane_mapLanes 8 _ v i (by decide) (by rw [hv]; omega)]
      rfl
    simp only [conv1_i64_to_f64, hv, z_to_z, and_self, Bool.false_eq_true, not_false_eq_true,
      if_true, Option.some.injEq, static_cast_f64, dadd, dmul_scalar, cvtepu32_pd,
      cvtepi32_pd, hc, hh, List.map_map, Nat.reduceDiv]
    rw [zipWith_map_range]
    apply List.map_congr_left
    intro i hi
    have hi8 : i < 8 := List.mem_range.1 hi
    simp only [Function.comp, hlo i hi8, hhi i hi8]
    exact s64_lane (lane 8 v i) (lane_lt 8 v i (by decide))

/-! ## Conversions that change nothing -/

theorem static_simd_cast_elem {α : Type} (p : CastCfg) (tg : Target) (n : NumCfg) (U : VTy)
    (A : Abi) (conv : VTy → Abi → α → Except Err α) (x : α)
    (hU : is_vectorizable U = true) :
    static_simd_cast p tg n (.elem U) U A conv x = .ok x := by
  simp [static_simd_cast, static_simd_cast_return_type, hU]

theorem static_simd_cast_simd {α : Type} (p : CastCfg) (tg : Target) (n : NumCfg) (U : VTy)
    (A : Abi) (conv : VTy → Abi → α → Except Err α) (x : α) :
    static_simd_cast p tg n (.simd U A) U A conv x = .ok x := by
  simp [static_simd_cast, static_simd_cast_return_type]

theorem same_width (s a b : Nat) (hs : s = 1 ∨ s = 2 ∨ s = 4 ∨ s = 8)
    (ha : a = 16 ∨ a = 32 ∨ a = 64) (hb : b = 16 ∨ b = 32 ∨ b = 64)
    (h : b / s = a / s) : b = a := by
  rcases hs with h1 | h1 | h1 | h1 <;> subst h1 <;> omega

theorem convert_x86_same_size (c : Cfg) (T U : ElemTy) (fuel tb : Nat) (v : Reg)
    (hs : T.size = U.size) (hT : T.valid)
    (hv : v.length = 16 ∨ v.length = 32 ∨ v.length = 64)
    (htb : tb = 16 ∨ tb = 32 ∨ tb = 64)
    (hN : tb / U.size = v.length / T.size)
    (ha : isa_asserts c T U v.length tb) :
    convert_x86 c T U (fuel + 1) tb [v] = .ok v := by
  rw [← hs] at hN
  have e : tb = v.length := same_width T.size v.length tb hT hv htb hN
  subst e
  have h1 : ¬ (v.length = 32 ∧ v.length = 16) := by omega
  have h2 : ¬ (v.length = 16 ∧ v.length = 32) := by omega
  simp only [convert_x86, y_to_x, x_to_y, h1, h2, false_and, if_false, ha, not_true_eq_false,
    hs, if_true, Nat.le_refl, intrin_bitcast]

theorem convert_x86_fp_same_width (c : Cfg) (s tb : Nat) (v : Reg)
    (hs : s = 4 ∨ s = 8) (hv : v.length = 16 ∨ v.length = 32 ∨ v.length = 64)
    (htb : tb = 16 ∨ tb = 32 ∨ tb = 64) (hN : tb / s = v.length / s) :
    convert_x86_fp_same c s tb v = .ok v := by
  have e : tb = v.length :=
    same_width s v.length tb (by rcases hs with h | h <;> simp [h]) hv htb hN
  subst e
  simp only [convert_x86_fp_same, Nat.le_refl, if_true, intrin_bitcast]

/-! ## `__vector_to_bitset` against its portable loop -/

theorem vector_to_bitset_lt (c : RCfg) (T : MaskTy) (x : Reg) (b : Nat)
    (h : vector_to_bitset c false T x = .ok b) : b < 2 ^ (x.length / T.size) := by
  have hp : 0 < 2 ^ (x.length / T.size) := Nat.pos_pow_of_pos _ (by decide)
  simp only [vector_to_bitset, Bool.false_eq_true, if_false] at h
  repeat' split at h
  all_goals first
    | (cases h; exact Nat.mod_lt _ hp)
    | cases h

theorem bit_loop (T : MaskTy) (x : Reg) (i : Nat)
    (hs : T.size = 1 ∨ T.size = 2 ∨ T.size = 4 ∨ T.size = 8)
    (hi : i < x.length / T.size)
    (hl : lane T.size x i = 0 ∨ lane T.size x i = 2 ^ (8 * T.size) - 1) :
    bit (vector_to_bitset_loop T x) i = decide (lane T.size x i ≠ 0) := by
  unfold vector_to_bitset_loop
  rw [bit_bitsOf]
  simp only [hi, decide_True, Bool.true_and]
  cases T.integral
  · simp only [Bool.false_eq_true, if_false]
    rcases hl with h | h
    · simp [h]
    · rw [h]
      rcases hs with h1 | h1 | h1 | h1 <;> rw [h1] <;> decide
  · simp only [if_true]
    rcases hl with h | h <;> simp [h]

/-- On a vector whose lanes are all-ones or all-zeros the x86 branches of
`__vector_to_bitset` return what the portable loop returns. -/
theorem vector_to_bitset_eq_loop (c : RCfg) (T : MaskTy) (x : Reg)
    (hs : T.size = 1 ∨ T.size = 2 ∨ T.size = 4 ∨ T.size = 8)
    (hlen : (c.sse = true ∧ x.length = 16) ∨ (c.avx = true ∧ x.length = 32))
    (hl : lanes_ok T.size (x.length / T.size) x) :
    vector_to_bitset c false T x = .ok (vector_to_bitset_loop T x) := by
  obtain ⟨b, hb, hbits⟩ := vector_to_bitset_x86 c T x (x.length / T.size) hs hlen
    (Nat.le_refl _) hl
  rw [hb]
  congr 1
  apply Nat.eq_of_testBit_eq
  intro i
  rw [← bit_eq_testBit, ← bit_eq_testBit]
  by_cases hi : i < x.length / T.size
  · rw [hbits i hi, bit_loop T x i hs hi (hl i hi)]
  · have h1 : b < 2 ^ i :=
      Nat.lt_of_lt_of_le (vector_to_bitset_lt c T x b hb)
        (Nat.pow_le_pow_right (by decide) (by omega))
    have h2 : vector_to_bitset_loop T x < 2 ^ i :=
      Nat.lt_of_lt_of_le (bitsOf_lt _ _) (Nat.pow_le_pow_right (by decide) (by omega))
    rw [bit_eq_testBit, bit_eq_testBit, Nat.testBit_lt_two_pow h1, Nat.testBit_lt_two_pow h2]

/-! ## `__testz`, `__testc` and `__testnzc` with PTEST against their portable returns -/

/-- C8: `popcount` does not count the true lanes on every ABI path. On the SSE path without
POPCNT, the all-true mask of `simd_mask<short, _SseAbi<8>>` (four logical lanes in a 16-byte
register) takes the branch `_N == 4 && sizeof(__kk) == 16`, which adds 32-bit lanes, and
returns 2 although four lanes are true; with POPCNT the same mask gives 4. -/
theorem popcount_sse_partial_short :
    popcount cfg_sse2 ty_short (.sse 8) (.vec (mask_of 2 16 [true, true, true, true])) = .ok 2
    ∧ true_lanes ty_short (.sse 8) (.vec (mask_of 2 16 [true, true, true, true])) = 4
    ∧ simd_size ty_short (.sse 8) = 4
    ∧ popcount cfg_sse2_popcnt ty_short (.sse 8)
        (.vec (mask_of 2 16 [true, true, true, true])) = .ok 4 := by
  refine ⟨by rfl, by decide, by decide, by rfl⟩

/-- C9: `find_last_set` does not return the highest true lane of every mask. Negating the
mask `[F, T]` of `simd_mask<float, _SseAbi<8>>` (two lanes in a 16-byte register)
complements the whole register: lane 0 is the only true lane of the result, and its padding
lanes 2 and 3 are all-ones. `__find_last_set` takes the last bit of the bitset of the whole
register and returns 3. On a full register the same path is right: it returns 6 for the
eight `short` lanes `[T,F,T,F,T,F,T,F]`. The combined branch does not compile. -/
theorem find_last_set_past_size :
    mask_not cfg_sse2 ty_float (.sse 8) (.vec (mask_of 4 16 [false, true]))
      = .ok (.vec (mask_of 4 16 [true, false, true, true]))
    ∧ simd_size ty_float (.sse 8) = 2
    ∧ lane_true ty_float (.sse 8) (.vec (mask_of 4 16 [true, false, true, true])) 0 = true
    ∧ lane_true ty_float (.sse 8) (.vec (mask_of 4 16 [true, false, true, true])) 1 = false
    ∧ find_last_set cfg_sse2 ty_float (.sse 8)
        (.vec (mask_of 4 16 [true, false, true, true])) = .ok 3
    ∧ find_last_set cfg_sse2 ty_short (.sse 16)
        (.vec (mask_of 2 16 [true, false, true, false, true, false, true, false])) = .ok 6
    ∧ find_last_set cfg_sse2 ty_float (.combine 2 (.sse 16))
      (.array [.vec (mask_of 4 16 [true, false, true, false]),
               .vec (mask_of 4 16 [true, false, true, false])]) = .error .static := by
  refine ⟨by rfl, by decide, by decide, by decide, by rfl, by rfl, by rfl⟩

/-- C10, as stated, fails on two of the paths it names. For a mask of the combined ABI the
function gives no result, since the combined branch of `__find_first_set` does not compile
(its inner calls have no template arguments); and for an AVX-512 bitmask of 16 lanes it
gives no result on a build without BMI, which `_tzcnt_u32` needs. Both masks have a true
lane. -/
theorem find_first_set_no_result :
    lane_true ty_float (.combine 2 (.sse 16))
      (.array [.vec (mask_of 4 16 [false, false, false, false]),
               .vec (mask_of 4 16 [false, false, true, true])]) 6 = true
    ∧ find_first_set cfg_sse2 ty_float (.combine 2 (.sse 16))
      (.array [.vec (mask_of 4 16 [false, false, false, false]),
               .vec (mask_of 4 16 [false, false, true, true])]) = .error .static
    ∧ lane_true ty_float (.avx512 64) (.kmask 12) 2 = true
    ∧ find_first_set cfg_avx2_nobmi ty_float (.avx512 64) (.kmask 12) = .error .static := by
  refine ⟨by decide, by rfl, by decide, by rfl⟩

/-- C10, amended: for every valid mask with at least one true lane, on the scalar,
`fixed_size`, AVX-512 bitmask and bitset-fallback (SSE, AVX, NEON) paths, `find_first_set`
returns the index `i` of the lowest true lane, where an AVX-512 bitmask of at most 32 lanes
needs a build with BMI. The combined ABI is left out: its branch does not compile. -/
theorem find_first_set_lowest (c : RCfg) (T : MaskTy) (a : Abi) (m : MaskData) (i : Nat)
    (hT : T.size = 1 ∨ T.size = 2 ∨ T.size = 4 ∨ T.size = 8)
    (hm : mask_ok c T a m)
    (hnc : ∀ n a2, a ≠ .combine n a2)
    (hbmi : ∀ bytes, a = .avx512 bytes → bytes / T.size ≤ 32 → c.bmi = true)
    (hi : i < simd_size T a)
    (ht : lane_true T a m i = true) (hlow : ∀ j, j < i → lane_true T a m j = false) :
    find_first_set c T a m = .ok (i : Int) :=
  find_first_set_spec c T hT a m i hm hnc hbmi hi ht hlow

theorem find_first_set_lowest_witness :
    mask_ok cfg_avx2_bmi ty_float (.avx512 64) (.kmask 12)
    ∧ cfg_avx2_bmi.bmi = true
    ∧ find_first_set cfg_avx2_bmi ty_float (.avx512 64) (.kmask 12) = .ok 2
    ∧ find_first_set cfg_sse2 ty_short (.sse 8)
        (.vec (mask_of 2 16 [false, false, true, true])) = .ok 2 :=
  have hm : mask_ok cfg_avx2_bmi ty_float (.avx512 64) (.kmask 12) := by
    unfold mask_ok
    decide
  have hm2 : mask_ok cfg_sse2 ty_short (.sse 8)
      (.vec (mask_of 2 16 [false, false, true, true])) := by
    unfold mask_ok
    decide
  ⟨hm, rfl,
    find_first_set_lowest cfg_avx2_bmi ty_float (.avx512 64) (.kmask 12) 2 (by decide) hm
      (fun _ _ h => Abi.noConfusion h) (fun _ _ _ => rfl) (by decide) (by decide) (by decide),
    find_first_set_lowest cfg_sse2 ty_short (.sse 8) _ 2 (by decide) hm2
      (fun _ _ h => Abi.noConfusion h) (fun _ h _ => Abi.noConfusion h) (by decide) (by decide)
      (by decide)⟩

/-! ## Claims on the conversions through floating point -/

/-- C6: the conversions that go through 32-bit halves do not always return
`static_cast<float>(v)`. For the `unsigned long long` lane `0x1_8000_0101` the one-argument
512-bit branch without AVX512DQ rounds the low half to `0x8000_0100` and then the sum at a
tie, giving `0x1_8000_0000`, while the scalar cast gives `0x1_8000_0200`. For the
`long long` lane `(2^24 + 1) * 2^32 + 1` the two-argument 512-bit branch rounds the high
half to `2^24` and returns `2^56`, while the scalar cast gives `2^56 + 2^33`. -/
theorem i64_to_f32_halves_round_twice :
    conv1_u64_to_f32 cfg_avx512f false 32 (first_lane 6442451201)
      = some (.ok [6442450944, 0, 0, 0, 0, 0, 0, 0])
    ∧ static_cast_f32 ty_u64 (first_lane 6442451201) = [6442451456, 0, 0, 0, 0, 0, 0, 0]
    ∧ conv2_i64_to_f32 false ty_i64 64 (first_lane 72057598332895233) (zeros 64)
      = some [72057594037927936, 0, 0, 0, 0, 0, 0, 0, 0, 0, 0, 0, 0, 0, 0, 0]
    ∧ static_cast_f32 ty_i64 (first_lane 72057598332895233)
      = [72057602627862528, 0, 0, 0, 0, 0, 0, 0] := by
  refine ⟨by rfl, by rfl, by rfl, by rfl⟩

/-- C11: `find_last_set` leaves the range `0 .. size() - 1` on a partial-register mask whose
padding lanes `operator!` has set. `simd_mask<float, _SseAbi<8>>` has two lanes in a 16-byte
register; negating the mask `[T, F]` complements the whole register, so that the padding
lanes 2 and 3 are all-ones; `__vector_to_bitset` then reports four bits and `find_last_set`
returns 3, although `size()` is 2 (`find_first_set` returns 1, the only true lane). The
other reductions mask the padding lanes, `__find_last_set` does not. -/
theorem find_last_set_reads_padding :
    mask_not cfg_sse2 ty_float (.sse 8) (.vec (mask_of 4 16 [true, false]))
      = .ok (.vec (mask_of 4 16 [false, true, true, true]))
    ∧ simd_size ty_float (.sse 8) = 2
    ∧ any_of cfg_sse2 ty_float (.sse 8) (.vec (mask_of 4 16 [false, true, true, true])) = .ok true
    ∧ find_first_set cfg_sse2 ty_float (.sse 8)
        (.vec (mask_of 4 16 [false, true, true, true])) = .ok 1
    ∧ find_last_set cfg_sse2 ty_float (.sse 8)
        (.vec (mask_of 4 16 [false, true, true, true])) = .ok 3 := by
  refine ⟨by rfl, by decide, by rfl, by rfl, by rfl⟩

/-- C12: `all_of`, `any_of`, `none_of`, `some_of` and `popcount` of an SSE or AVX mask, and
of an AVX-512 bitmask, depend on the lanes `0 .. size() - 1` only: two raw mask values that
agree on these lanes give equal results, whatever the padding lanes hold. (An AVX-512 tag is
valid for 64 bytes only, where the mask register has no padding bits.) -/
theorem reductions_ignore_padding (c : RCfg) (T : MaskTy) (a : Abi) (m1 m2 : MaskData)
    (h : same_lanes T a m1 m2) :
    all_of c T a m1 = all_of c T a m2 ∧ any_of c T a m1 = any_of c T a m2
      ∧ none_of c T a m1 = none_of c T a m2 ∧ some_of c T a m1 = some_of c T a m2
      ∧ popcount c T a m1 = popcount c T a m2 :=
  reductions_congr c T a m1 m2 h

theorem reductions_ignore_padding_witness :
    same_lanes ty_float (.sse 8) (.vec (mask_of 4 16 [true, false]))
      (.vec (mask_of 4 16 [true, false, true, true]))
    ∧ popcount cfg_sse2 ty_float (.sse 8) (.vec (mask_of 4 16 [true, false]))
      = popcount cfg_sse2 ty_float (.sse 8) (.vec (mask_of 4 16 [true, false, true, true])) :=
  have h : same_lanes ty_float (.sse 8) (.vec (mask_of 4 16 [true, false]))
      (.vec (mask_of 4 16 [true, false, true, true])) := by
    unfold same_lanes
    decide
  ⟨h, (reductions_ignore_padding cfg_sse2 ty_float (.sse 8) _ _ h).2.2.2.2⟩

/-- C13, as stated, fails on the path of the combined ABI: `__some_of` starts with
`simd_size_v<_Tp, _Abi>`, which is ill-formed for `_CombineAbi`, so that `some_of` gives no
result for a mask of a combined ABI, where `any_of` and `all_of` do. -/
theorem some_of_combined_no_result :
    some_of cfg_sse2 ty_float (.combine 2 (.sse 16))
      (.array [.vec (mask_of 4 16 [true, false, true, false]),
               .vec (mask_of 4 16 [true, false, true, false])]) = .error .static
    ∧ any_of cfg_sse2 ty_float (.combine 2 (.sse 16))
      (.array [.vec (mask_of 4 16 [true, false, true, false]),
               .vec (mask_of 4 16 [true, false, true, false])]) = .ok true
    ∧ all_of cfg_sse2 ty_float (.combine 2 (.sse 16))
      (.array [.vec (mask_of 4 16 [true, false, true, false]),
               .vec (mask_of 4 16 [true, false, true, false])]) = .ok false := by
  refine ⟨by rfl, by rfl, by rfl⟩

/-- C13, amended: for every valid mask, on every ABI path but that of the combined ABI
(scalar, `fixed_size`, SSE, AVX, AVX-512, NEON), `some_of(m)` is false when the mask has one
lane and is `any_of(m) && !all_of(m)` when it has at least two; `some_of` of a plain `bool`
is false. -/
theorem some_of_is_any_and_not_all (c : RCfg) (T : MaskTy) (a : Abi) (m : MaskData)
    (hs : T.size = 1 ∨ T.size = 2 ∨ T.size = 4 ∨ T.size = 8)
    (hm : mask_ok c T a m) (hisa : isa_ok c T a) (hnc : ∀ n a2, a ≠ .combine n a2) :
    (simd_size T a = 1 → some_of c T a m = .ok false)
    ∧ (2 ≤ simd_size T a → ∃ x y, any_of c T a m = .ok x ∧ all_of c T a m = .ok y
        ∧ some_of c T a m = .ok (x && !y))
    ∧ ∀ b, some_of_bool b = false := by
  obtain ⟨x, hx, _⟩ := any_of_spec c T hs a m hm
  obtain ⟨y, hy, _⟩ := all_of_spec c T hs a m hm hisa
  have h := some_of_eq c T hs a m hm hisa hnc x y hx hy
  refine ⟨fun h1 => ?_, fun h2 => ⟨x, y, hx, hy, ?_⟩, fun _ => rfl⟩
  · rw [h, if_pos h1]
  · rw [h, if_neg (by omega)]

theorem some_of_is_any_and_not_all_witness :
    mask_ok cfg_sse2 ty_float (.sse 16) (.vec (mask_of 4 16 [true, false, true, false]))
    ∧ ∃ x y, any_of cfg_sse2 ty_float (.sse 16)
        (.vec (mask_of 4 16 [true, false, true, false])) = .ok x
      ∧ all_of cfg_sse2 ty_float (.sse 16)
        (.vec (mask_of 4 16 [true, false, true, false])) = .ok y
      ∧ some_of cfg_sse2 ty_float (.sse 16)
        (.vec (mask_of 4 16 [true, false, true, false])) = .ok (x && !y) :=
  have hm : mask_ok cfg_sse2 ty_float (.sse 16)
      (.vec (mask_of 4 16 [true, false, true, false])) := by
    unfold mask_ok
    decide
  ⟨hm, (some_of_is_any_and_not_all cfg_sse2 ty_float (.sse 16) _ (by decide) hm
    (fun _ => rfl) (fun _ _ h => Abi.noConfusion h)).2.1 (by decide)⟩

/-- C14: for every valid mask, on every ABI path, `any_of(m)` and `none_of(m)` both return
and `none_of(m) == !any_of(m)`; the same holds for the overloads for a plain `bool`. -/
theorem none_of_is_not_any_of (c : RCfg) (T : MaskTy) (a : Abi) (m : MaskData)
    (hs : T.size = 1 ∨ T.size = 2 ∨ T.size = 4 ∨ T.size = 8)
    (hm : mask_ok c T a m) (hisa : isa_ok c T a) :
    (∃ b, any_of c T a m = .ok b ∧ none_of c T a m = .ok (!b))
    ∧ ∀ b, any_of_bool b = !none_of_bool b := by
  obtain ⟨x, hx, _⟩ := any_of_spec c T hs a m hm
  exact ⟨⟨x, hx, none_of_eq c T hs a m hm hisa x hx⟩, fun b => by cases b <;> rfl⟩

theorem none_of_is_not_any_of_witness :
    mask_ok cfg_sse2 ty_short (.sse 8) (.vec (mask_of 2 16 [false, false, true, false]))
    ∧ ∃ b, any_of cfg_sse2 ty_short (.sse 8)
        (.vec (mask_of 2 16 [false, false, true, false])) = .ok b
      ∧ none_of cfg_sse2 ty_short (.sse 8)
        (.vec (mask_of 2 16 [false, false, true, false])) = .ok (!b) :=
  have hm : mask_ok cfg_sse2 ty_short (.sse 8)
      (.vec (mask_of 2 16 [false, false, true, false])) := by
    unfold mask_ok
    decide
  ⟨hm, (none_of_is_not_any_of cfg_sse2 ty_short (.sse 8) _ (by decide) hm (fun _ => rfl)).1⟩

/-- C15: for every valid mask (each logical lane all-ones or all-zeros), on every ABI path,
`all_of(m)` returns, and it is true exactly when each of the `size()` logical lanes is true;
hence `all_of(m)` implies `any_of(m)` when the mask has at least one lane. -/
theorem all_of_iff_every_lane (c : RCfg) (T : MaskTy) (a : Abi) (m : MaskData)
    (hs : T.size = 1 ∨ T.size = 2 ∨ T.size = 4 ∨ T.size = 8)
    (hm : mask_ok c T a m) (hisa : isa_ok c T a) :
    ∃ b, all_of c T a m = .ok b
      ∧ (b = true ↔ ∀ i, i < simd_size T a → lane_true T a m i = true)
      ∧ (b = true → 1 ≤ simd_size T a → any_of c T a m = .ok true) := by
  obtain ⟨x, hx, ex⟩ := any_of_spec c T hs a m hm
  obtain ⟨y, hy, ey⟩ := all_of_spec c T hs a m hm hisa
  refine ⟨y, hy, ey, fun hb h1 => ?_⟩
  have : x = true := ex.mpr ⟨0, by omega, ey.mp hb 0 (by omega)⟩
  rw [hx, this]

theorem all_of_iff_every_lane_witness :
    mask_ok cfg_sse2 ty_float (.sse 16) (.vec (mask_of 4 16 [true, true, true, true]))
    ∧ all_of cfg_sse2 ty_float (.sse 16) (.vec (mask_of 4 16 [true, true, true, true]))
      = .ok true
    ∧ all_of cfg_sse2 ty_float (.sse 16) (.vec (mask_of 4 16 [true, false, true, false]))
      = .ok false
    ∧ all_of cfg_sse2 ty_float (.sse 16) (.vec (mask_of 4 16 [false, false, false, false]))
      = .ok false
    ∧ ∃ b, all_of cfg_sse2 ty_float (.sse 16) (.vec (mask_of 4 16 [true, true, true, true]))
        = .ok b
      ∧ (b = true ↔ ∀ i, i < simd_size ty_float (.sse 16) →
          lane_true ty_float (.sse 16) (.vec (mask_of 4 16 [true, true, true, true])) i = true)
      ∧ (b = true → 1 ≤ simd_size ty_float (.sse 16) →
          any_of cfg_sse2 ty_float (.sse 16) (.vec (mask_of 4 16 [true, true, true, true]))
            = .ok true) :=
  have hm : mask_ok cfg_sse2 ty_float (.sse 16)
      (.vec (mask_of 4 16 [true, true, true, true])) := by
    unfold mask_ok
    decide
  ⟨hm, by rfl, by rfl, by rfl,
    all_of_iff_every_lane cfg_sse2 ty_float (.sse 16) _ (by decide) hm (fun _ => rfl)⟩
/-! ## Claims on the ABI selection -/

/-- C16: whenever `simd_abi::deduce<T, N>` names a type, for any element type `T`, lane
count `N` and setting of the ABI macros, the selected ABI holds exactly `N` lanes of `T`:
`simd_size_v<T, deduce_t<T, N>> == N`. -/
theorem deduce_holds_N_lanes (tg : Target) (f : AbiCfg) (T : VTy) (N : Nat) (a : Abi)
    (htg : tg.ok) (h : deduce tg f T N = some a) : simd_size (mask_ty tg T) a = N :=
  deduce_size tg f T N a htg h

theorem deduce_holds_N_lanes_witness :
    tg_lp64.ok ∧ deduce tg_lp64 abi_cfg_sse2 .float 3 = some (.sse 12)
      ∧ simd_size (mask_ty tg_lp64 .float) (.sse 12) = 3 :=
  ⟨by decide, by rfl,
    deduce_holds_N_lanes tg_lp64 abi_cfg_sse2 .float 3 (.sse 12) (by decide) (by rfl)⟩

/-- C17: `simd_abi::deduce<T, N>`, computed by the recursion of `_AbiList` over
`_AllNativeAbis` and the `fixed_size` fallback, is the first of AVX-512, AVX, SSE, NEON and
scalar, in this order, whose validity predicate holds for `T` at `sizeof(T) * N` bytes, and
`fixed_size<N>` when none of them is valid (no type at all when `fixed_size<N>` is invalid
for `T` as well). The result depends on `T`, `N`, the ABI macros and the sizes of the
target's types only: these are the arguments of `deduce`. -/
theorem deduce_first_valid_class (tg : Target) (f : AbiCfg) (T : VTy) (N : Nat) :
    deduce tg f T N = deduce_spec tg f T N :=
  deduce_unfold tg f T N

/-- C18, as stated, fails: on an x86-64 build with SSE2, `deduce<float, 2>` selects the
SSE class with the tag `_SseAbi<8>`, whose two lanes fill 8 of the 16 bytes of the
register. -/
theorem deduce_float2_padded :
    deduce tg_lp64 abi_cfg_sse2 .float 2 = some (.sse 8)
      ∧ 2 * sizeof tg_lp64 .float ≠ full_bytes (.sse 8) :=
  ⟨by rfl, by decide⟩

/-- C18, amended: whenever `deduce<T, N>` selects a vector ISA class, `N * sizeof(T)` is the
byte width of the selected tag. For AVX-512, AVX and NEON that is the whole register (64, 32,
and 8 or 16 bytes). An SSE tag holds at least two lanes and at most the 16 bytes of the
register, so that an SSE tag of fewer than 16 bytes leaves padding lanes. -/
theorem deduce_native_width (tg : Target) (f : AbiCfg) (T : VTy) (N : Nat) (a : Abi)
    (htg : tg.ok) (h : deduce tg f T N = some a) :
    (∀ b, a = .avx512 b ∨ a = .avx b ∨ a = .neon b → N * sizeof tg T = full_bytes a)
    ∧ (∀ b, a = .sse b → N * sizeof tg T = b ∧ b ≤ full_bytes a ∧ 2 ≤ N) :=
  deduce_width tg f T N a htg h

theorem deduce_native_width_witness :
    tg_lp64.ok ∧ deduce tg_lp64 abi_cfg_avx512f .float 16 = some (.avx512 64)
      ∧ 16 * sizeof tg_lp64 .float = full_bytes (.avx512 64) :=
  ⟨by decide, by rfl,
    (deduce_native_width tg_lp64 abi_cfg_avx512f .float 16 (.avx512 64) (by decide)
      (by rfl)).1 64 (Or.inl rfl)⟩

/-- C19: `simd_abi::deduce<T, N>` has no member `type` exactly when no class of
`_AllNativeAbis` is valid for `T` at `sizeof(T) * N` bytes and `fixed_size<N>` is invalid for
`T`; for a vectorizable `T` and `N >= 1` that is exactly when `N` exceeds
`max_fixed_size = 32` and is not the `char` lane count of a full vector tag that is valid
for `char`; and for every vectorizable `T` and `1 <= N <= 32` it names a type. The absence
of the type is what the embedding returns, there is no run of the program in it. -/
theorem deduce_names_no_type_iff (tg : Target) (f : AbiCfg) (T : VTy) (N : Nat)
    (htg : tg.ok) (hT : is_vectorizable T = true) (hN : 1 ≤ N) :
    (deduce tg f T N = none ↔
      (∀ cls, cls ∈ AllNativeAbis → class_valid tg f T cls (sizeof tg T * N) = false)
        ∧ is_valid tg f T (.fixed_size N) = false)
    ∧ (deduce tg f T N = none ↔
      max_fixed_size < N ∧ ¬ ∃ a, a ∈ [abi_neon, abi_sse, abi_avx, abi_avx512] ∧
        native_valid tg f .char a = true ∧ N = simd_size (mask_ty tg .char) a)
    ∧ (N ≤ max_fixed_size → ∃ a, deduce tg f T N = some a) :=
  ⟨deduce_none_iff tg f T N, deduce_none_large tg f T N htg hT hN,
    fun h32 => deduce_small tg f T N hT hN h32⟩

theorem deduce_names_no_type_iff_witness :
    tg_lp64.ok ∧ is_vectorizable .char = true ∧ deduce tg_lp64 abi_cfg_avx512f .char 64 = none
      ∧ max_fixed_size < 64 ∧ ∃ a, deduce tg_lp64 abi_cfg_avx512f .char 32 = some a :=
  ⟨by decide, by decide, by rfl, by decide,
    (deduce_names_no_type_iff tg_lp64 abi_cfg_avx512f .char 32 (by decide) (by decide)
      (by decide)).2.2 (by decide)⟩

/-- C20: for `long double` the validity predicate of every vector ISA class (AVX-512, AVX,
SSE, NEON) is false at every byte width and for every setting of the ABI macros, and
`simd_abi::native<long double>` and `simd_abi::compatible<long double>` are `scalar`. -/
theorem long_double_is_scalar (tg : Target) (f : AbiCfg) (htg : tg.ok) :
    (∀ cls b, cls ∈ vector_classes → class_valid tg f .ldouble cls b = false)
    ∧ native tg f .ldouble = .scalar ∧ compatible f .ldouble = .scalar :=
  ⟨fun cls b h => ldouble_not_vector tg f cls b h, native_ldouble tg f htg,
    compatible_ldouble f⟩

theorem long_double_is_scalar_witness :
    tg_lp64.ok ∧ class_valid tg_lp64 abi_cfg_avx512f .ldouble .avx512 64 = false
      ∧ native tg_lp64 abi_cfg_avx512f .ldouble = .scalar :=
  ⟨by decide, (long_double_is_scalar tg_lp64 abi_cfg_avx512f (by decide)).1 .avx512 64
    (by decide), (long_double_is_scalar tg_lp64 abi_cfg_avx512f (by decide)).2.1⟩
/-! ## Claims on alignment, loads and stores, and the vector primitives -/

/-- C21: `memory_alignment_v<V, U>` is `__next_power_of_2(sizeof(U) * V::size())`, and for
every `x` with `1 ≤ x ≤ 2^63` the recursion `__next_power_of_2(x)` terminates (65 calls are
enough, and more calls give the same result) and returns the smallest power of two that is
`≥ x`, which is `x` itself when `x` is a power of two. -/
theorem next_power_of_2_smallest (x : Nat) (h1 : 1 ≤ x) (h2 : x ≤ 2 ^ 63) :
    (∀ su n, memory_alignment su n = next_power_of_2 (su * n)) ∧
    ∃ k, (∀ d, next_power_of_2_fuel (65 + d) x = some (2 ^ k)) ∧ next_power_of_2 x = 2 ^ k
      ∧ x ≤ 2 ^ k ∧ (∀ j, x ≤ 2 ^ j → 2 ^ k ≤ 2 ^ j) ∧ ((∃ j, x = 2 ^ j) → 2 ^ k = x) := by
  refine ⟨fun _ _ => rfl, ?_⟩
  obtain ⟨k, _, hf, hle, hmin⟩ := next_power_of_2_fuel_spec x h1 h2
  obtain ⟨k2, _, hf2, _, _⟩ := next_power_of_2_spec x h1 h2
  have hlt : x < 2 ^ 64 := by
    norm_num at h2 ⊢
    omega
  have hk : next_power_of_2 x = 2 ^ k := by
    unfold next_power_of_2
    rw [Nat.mod_eq_of_lt hlt, hf]
    rfl
  refine ⟨k, fun d => next_power_of_2_fuel_mono 65 x _ hf d, hk, hle, hmin, ?_⟩
  rintro ⟨j, rfl⟩
  exact Nat.le_antisymm (hmin j (le_refl _)) hle

theorem next_power_of_2_smallest_witness :
    memory_alignment 4 3 = next_power_of_2 (4 * 3) ∧
    ∃ k, (∀ d, next_power_of_2_fuel (65 + d) 12 = some (2 ^ k)) ∧ next_power_of_2 12 = 2 ^ k
      ∧ 12 ≤ 2 ^ k ∧ (∀ j, 12 ≤ 2 ^ j → 2 ^ k ≤ 2 ^ j) ∧ ((∃ j, 12 = 2 ^ j) → 2 ^ k = 12) :=
  ⟨(next_power_of_2_smallest 12 (by decide) (by decide)).1 4 3,
    (next_power_of_2_smallest 12 (by decide) (by decide)).2⟩

/-- C22: `where(k, x).copy_from(mem, flags)` replaces lane `i` of `x` by the element `mem[i]`,
converted to the value type, for every lane `i` with `k[i]` true, and leaves every lane with
`k[i]` false unchanged, for every flag; the `bool`-mask where-expression replaces the value
by `mem[0]` exactly when `k` is true. The masked load of the ABI implementation is taken
from the specification. -/
theorem copy_from_replaces_selected {α β : Type} (conv : β → α) (k : List Bool) (x : List α)
    (mem : Nat → β) (f : Flags) :
    (where_copy_from conv k x mem f).length = x.length
    ∧ (∀ i e, x[i]? = some e → k.getD i false = true →
        (where_copy_from conv k x mem f)[i]? = some (conv (mem i)))
    ∧ (∀ i e, x[i]? = some e → k.getD i false = false →
        (where_copy_from conv k x mem f)[i]? = some e)
    ∧ (∀ (v : α), where_bool_copy_from conv true v mem f = conv (mem 0))
    ∧ (∀ (v : α), where_bool_copy_from conv false v mem f = v) := by
  refine ⟨masked_load_length conv mem x 0 k, ?_, ?_, fun _ => rfl, fun _ => rfl⟩
  · intro i e he hk
    have := masked_load_get conv mem x 0 k i e he
    rw [hk, Nat.zero_add] at this
    exact this
  · intro i e he hk
    have := masked_load_get conv mem x 0 k i e he
    rw [hk] at this
    exact this

theorem copy_from_replaces_selected_witness :
    (where_copy_from (fun n : Nat => n + 100) [false, true] [1, 2] (fun i => 10 * i)
        Flags.element_aligned)[1]? = some (10 + 100)
    ∧ (where_copy_from (fun n : Nat => n + 100) [false, true] [1, 2] (fun i => 10 * i)
        Flags.element_aligned)[0]? = some 1 :=
  ⟨(copy_from_replaces_selected (fun n : Nat => n + 100) [false, true] [1, 2]
      (fun i => 10 * i) Flags.element_aligned).2.1 1 2 rfl rfl,
    (copy_from_replaces_selected (fun n : Nat => n + 100) [false, true] [1, 2]
      (fun i => 10 * i) Flags.element_aligned).2.2.1 0 1 rfl rfl⟩

/-- C23: `where(k, x).copy_to(mem, flags)` writes `x[i]` to `mem[i]` for every lane `i` with
`k[i]` true, leaves `mem[i]` unchanged for every lane with `k[i]` false, and leaves all
memory outside `mem[0 .. size() - 1]` unchanged, for every flag; the `bool`-mask
where-expression writes `mem[0]` exactly when `k` is true. The masked store of the ABI
implementation is taken from the specification. -/
theorem copy_to_writes_selected {α β : Type} (conv : α → β) (k : List Bool) (x : List α)
    (p : Nat) (f : Flags) (M : Nat → β) :
    (∀ i e, x[i]? = some e → k.getD i false = true →
        where_copy_to conv k x p f M (p + i) = conv e)
    ∧ (∀ i, i < x.length → k.getD i false = false →
        where_copy_to conv k x p f M (p + i) = M (p + i))
    ∧ (∀ a, (a < p ∨ p + x.length ≤ a) → where_copy_to conv k x p f M a = M a)
    ∧ (∀ (v : α), where_bool_copy_to conv true v p f M p = conv v)
    ∧ (∀ (v : α) a, a ≠ p → where_bool_copy_to conv true v p f M a = M a)
    ∧ (∀ (v : α), where_bool_copy_to conv false v p f M = M) := by
  refine ⟨?_, ?_, ?_, ?_, ?_, fun _ => rfl⟩
  · intro i e he hk
    have := masked_store_at conv p x 0 k M i e he
    rw [hk, Nat.add_zero] at this
    exact this
  · intro i hi hk
    obtain ⟨e, he⟩ : ∃ e, x[i]? = some e := ⟨x[i], List.getElem?_eq_getElem hi⟩
    have := masked_store_at conv p x 0 k M i e he
    rw [hk, Nat.add_zero] at this
    exact this
  · intro a ha
    exact masked_store_frame conv p x 0 k M a (by omega)
  · intro v
    exact Function.update_same _ _ _
  · intro v a ha
    exact Function.update_noteq ha _ _

theorem copy_to_writes_selected_witness :
    where_copy_to (fun n : Nat => n + 100) [false, true] [1, 2] 5 Flags.element_aligned
        (fun _ => 7) (5 + 1) = 2 + 100
    ∧ where_copy_to (fun n : Nat => n + 100) [false, true] [1, 2] 5 Flags.element_aligned
        (fun _ => 7) (5 + 0) = 7
    ∧ where_copy_to (fun n : Nat => n + 100) [false, true] [1, 2] 5 Flags.element_aligned
        (fun _ => 7) 4 = 7 :=
  ⟨(copy_to_writes_selected (fun n : Nat => n + 100) [false, true] [1, 2] 5
      Flags.element_aligned (fun _ => 7)).1 1 2 rfl rfl,
    (copy_to_writes_selected (fun n : Nat => n + 100) [false, true] [1, 2] 5
      Flags.element_aligned (fun _ => 7)).2.1 0 (by decide) rfl,
    (copy_to_writes_selected (fun n : Nat => n + 100) [false, true] [1, 2] 5
      Flags.element_aligned (fun _ => 7)).2.2.1 4 (Or.inl (by decide))⟩

/-- C24: an unmasked store through `__vector_store` of a register that is the vector type of
`n` elements (at most 64 bytes; at least 8 when `_GLIBCXX_SIMD_WORKAROUND_PR90424` casts it
to wider units) to a pointer that is aligned as the flag promises writes exactly the
requested `_Bytes` bytes, `n * sizeof(T)` unless `_M` says otherwise, also when that count is
not a power of two: afterwards every element `mem[i]` inside the `_Bytes` bytes holds lane
`i`, and every byte before `mem` and from `mem + _Bytes` on is unchanged. -/
theorem store_writes_exact_bytes (pr : Bool) (T : MaskTy) (m n : Nat) (v : Reg) (p : Nat)
    (f : Flags) (M : Mem) (hs : T.size = 1 ∨ T.size = 2 ∨ T.size = 4 ∨ T.size = 8)
    (hn : 2 ≤ n) (h64 : n * T.size ≤ 64) (hv : v.length = vector_bytes T n)
    (hm : m ≤ v.length) (hpr : pr = true → 8 ≤ v.length)
    (hal : flag_ok f (vector_bytes T n) p) :
    ∃ M', __vector_store pr T m n v p f M = .ok M'
      ∧ (∀ i, i * T.size + T.size ≤ (if m = 0 then n * T.size else m) →
          mem_elem T.size M' p i = lane T.size v i)
      ∧ (m = 0 → ∀ i, i < n → mem_elem T.size M' p i = lane T.size v i)
      ∧ (∀ a, a < p ∨ p + (if m = 0 then n * T.size else m) ≤ a → M' a = M a) := by
  refine ⟨_, vector_store_ok pr T m n v p f M hs hn h64 hv hm hpr hal, ?_, ?_, ?_⟩
  · intro i hi
    exact mem_elem_memcpy T.size p _ v M i hi
  · intro h0 i hi
    apply mem_elem_memcpy
    rw [if_pos h0]
    have := Nat.mul_le_mul_right T.size (Nat.succ_le_of_lt hi)
    rw [Nat.succ_mul] at this
    exact this
  · intro a ha
    exact memcpy_to_out p _ v M a ha

theorem store_writes_exact_bytes_witness :
    ∃ M', __vector_store true ty_float 0 3 (iota 4 4 1) 32 Flags.vector_aligned mem_aa = .ok M'
      ∧ (∀ i, i * ty_float.size + ty_float.size
            ≤ (if 0 = 0 then 3 * ty_float.size else 0) →
          mem_elem ty_float.size M' 32 i = lane ty_float.size (iota 4 4 1) i)
      ∧ (0 = 0 → ∀ i, i < 3 → mem_elem ty_float.size M' 32 i = lane ty_float.size (iota 4 4 1) i)
      ∧ (∀ a, a < 32 ∨ 32 + (if 0 = 0 then 3 * ty_float.size else 0) ≤ a →
          M' a = mem_aa a) :=
  store_writes_exact_bytes true ty_float 0 3 (iota 4 4 1) 32 Flags.vector_aligned mem_aa
    (by decide) (by decide) (by decide) (by rfl) (by decide) (fun _ => by decide) (by decide)

/-- C28, as stated, fails when `_GLIBCXX_SIMD_WORKAROUND_XXX_1` is defined: `__concat` then
works in units of `double`, of which a `float` vector of 2 lanes holds only one, so that
neither its cast nor any of the `return` statements applies, and `__extract<0, 2>` works in
units of `long long` and hits `__assert_unreachable` for a vector of 8 `short` lanes, whose
half has a single unit. -/
theorem concat_small_workaround :
    __concat wcfg_workarounds ty_float (iota 4 2 1) (iota 4 2 3) = .error .static
    ∧ __extract wcfg_workarounds ty_short 0 2 (iota 2 8 1) = .error .static :=
  ⟨by rfl, by rfl⟩

/-- C28, amended: for all vectors `a`, `b` of the same type with 2, 4, 8, 16 or 32 lanes, of
at least 16 bytes when `_GLIBCXX_SIMD_WORKAROUND_XXX_1` is defined, `__concat(a, b)` has the
lanes of `a` followed by the lanes of `b`, `__extract<0, 2>` and `__extract<1, 2>` of it are
`a` and `b`, and `__concat(__extract<0, 2>(x), __extract<1, 2>(x))` is `x` for every `x` with
twice as many lanes. -/
theorem concat_extract_inverse (w : WCfg) (T : MaskTy) (n : Nat) (a b x : Reg)
    (hs : T.size = 1 ∨ T.size = 2 ∨ T.size = 4 ∨ T.size = 8)
    (hn : n = 2 ∨ n = 4 ∨ n = 8 ∨ n = 16 ∨ n = 32)
    (ha : a.length = n * T.size) (hb : b.length = n * T.size)
    (hx : x.length = 2 * n * T.size) (hw : w.xxx_1 = true → 16 ≤ n * T.size) :
    (∃ c, __concat w T a b = .ok c ∧ c.length = 2 * n * T.size
      ∧ (∀ i, i < n → lane T.size c i = lane T.size a i)
      ∧ (∀ i, i < n → lane T.size c (n + i) = lane T.size b i)
      ∧ __extract w T 0 2 c = .ok a ∧ __extract w T 1 2 c = .ok b)
    ∧ ∃ l h, __extract w T 0 2 x = .ok l ∧ __extract w T 1 2 x = .ok h
      ∧ __concat w T l h = .ok x := by
  have hwa : w.xxx_1 = true → T.integral = false → 16 ≤ a.length := fun h _ => by
    rw [ha]
    exact hw h
  have hab : (a ++ b).length = 2 * n * T.size := by
    rw [List.length_append, ha, hb]
    ring
  constructor
  · refine ⟨a ++ b, concat_ok w T n a b hs hn ha hb hwa, hab, ?_, ?_, ?_, ?_⟩
    · intro i hi
      apply lane_append_lt
      rw [ha]
      have := Nat.mul_le_mul_right T.size (Nat.succ_le_of_lt hi)
      rw [Nat.succ_mul] at this
      exact this
    · intro i _
      exact lane_append_ge T.size a b n i ha
    · rw [extract_ok w T n 0 _ hs hn hab hw, extract_append_lo a b (by rw [ha, hb])]
    · rw [extract_ok w T n 1 _ hs hn hab hw, extract_append_hi a b (by rw [ha, hb])]
  · have hh : x.length / 2 = n * T.size := by
      rw [hx, Nat.mul_assoc]
      omega
    refine ⟨extract 0 2 x, extract 1 2 x, extract_ok w T n 0 x hs hn hx hw,
      extract_ok w T n 1 x hs hn hx hw, ?_⟩
    rw [concat_ok w T n _ _ hs hn (by rw [length_extract, hh]) (by rw [length_extract, hh])
      (fun h _ => by rw [length_extract, hh]; exact hw h),
      extract_halves x (by rw [hx, Nat.mul_assoc]; omega)]

theorem concat_extract_inverse_witness :
    (∃ c, __concat wcfg_workarounds ty_float (iota 4 4 1) (iota 4 4 5) = .ok c
      ∧ c.length = 2 * 4 * ty_float.size
      ∧ (∀ i, i < 4 → lane ty_float.size c i = lane ty_float.size (iota 4 4 1) i)
      ∧ (∀ i, i < 4 → lane ty_float.size c (4 + i) = lane ty_float.size (iota 4 4 5) i)
      ∧ __extract wcfg_workarounds ty_float 0 2 c = .ok (iota 4 4 1)
      ∧ __extract wcfg_workarounds ty_float 1 2 c = .ok (iota 4 4 5))
    ∧ ∃ l h, __extract wcfg_workarounds ty_float 0 2 (iota 4 8 1) = .ok l
      ∧ __extract wcfg_workarounds ty_float 1 2 (iota 4 8 1) = .ok h
      ∧ __concat wcfg_workarounds ty_float l h = .ok (iota 4 8 1) :=
  concat_extract_inverse wcfg_workarounds ty_float 4 (iota 4 4 1) (iota 4 4 5) (iota 4 8 1)
    (by decide) (by decide) (by rfl) (by rfl) (by rfl) (fun _ => by decide)

/-- C29, as stated, fails: converting `__zero_extend(x)` of a 64-lane `char` vector to the
128 lanes of twice the width calls `__concat` on vectors of 64 lanes, for which it has no
`return`; so does the conversion of 8 `double` lanes to 128 lanes in its last `__concat`,
with the workaround macros as well. -/
theorem zero_extend_wide_fails :
    zero_extend_to wcfg_plain ty_char (iota 1 64 1) 128 = .error .undefined
    ∧ zero_extend_to wcfg_workarounds ty_double (iota 8 8 1) 128 = .error .undefined :=
  ⟨by rfl, zero_extend_double_128⟩

/-- C29, amended: converting `__zero_extend(x)` for an `n`-lane `x` to a vector of the same
element type with `n`, `2n`, `4n`, `8n` or `16n` lanes, at most 64 lanes, yields a vector
whose lanes `0 .. n - 1` equal `x` and whose remaining lanes are all zero bits. With
`_GLIBCXX_SIMD_WORKAROUND_XXX_1` a floating-point `x` that is widened must have 16 bytes;
with `_GLIBCXX_SIMD_WORKAROUND_XXX_3` the widening of a 16-byte `x` by 4 and more needs
`_GLIBCXX_SIMD_WORKAROUND_PR85480` to be off and, for `float` and `double` on AVX, the
AVX512F and AVX512DQ intrinsics it names. -/
theorem zero_extend_lanes (w : WCfg) (T : MaskTy) (n k : Nat) (x : Reg)
    (hs : T.size = 1 ∨ T.size = 2 ∨ T.size = 4 ∨ T.size = 8)
    (hn : n = 2 ∨ n = 4 ∨ n = 8 ∨ n = 16 ∨ n = 32 ∨ n = 64) (hx : x.length = n * T.size)
    (hk : k = 1 ∨ k = 2 ∨ k = 4 ∨ k = 8 ∨ k = 16) (hle : k * n ≤ 64)
    (hw : w.xxx_1 = true → T.integral = false → 2 ≤ k → 16 ≤ x.length)
    (hz : w.xxx_3 = true → 4 ≤ k → x.length = 16 → w.pr85480 = false ∧
      (w.avx = true → T.integral = false →
        (T.size = 4 → w.avx512f = true) ∧ (T.size = 8 → w.avx512dq = true))) :
    ∃ r, zero_extend_to w T x (k * n) = .ok r ∧ r.length = k * n * T.size
      ∧ (∀ i, i < n → lane T.size r i = lane T.size x i)
      ∧ (∀ i, n ≤ i → i < k * n → lane T.size r i = 0) := by
  refine ⟨_, zero_extend_to_ok w T n k x hs hn hx hk hle hw hz, ?_, ?_, ?_⟩
  · rw [List.length_append, length_zeros, hx]
    have hk1 : 1 ≤ k := by omega
    obtain ⟨k2, rfl⟩ : ∃ k2, k = k2 + 1 := ⟨k - 1, by omega⟩
    simp only [Nat.add_sub_cancel]
    ring
  · intro i hi
    apply lane_append_lt
    rw [hx]
    have := Nat.mul_le_mul_right T.size (Nat.succ_le_of_lt hi)
    rw [Nat.succ_mul] at this
    exact this
  · intro i hi _
    rw [show i = n + (i - n) by omega, lane_append_ge T.size x _ n _ hx, lane_zeros]

theorem zero_extend_lanes_witness :
    ∃ r, zero_extend_to wcfg_workarounds ty_float (iota 4 4 1) (4 * 4) = .ok r
      ∧ r.length = 4 * 4 * ty_float.size
      ∧ (∀ i, i < 4 → lane ty_float.size r i = lane ty_float.size (iota 4 4 1) i)
      ∧ (∀ i, 4 ≤ i → i < 4 * 4 → lane ty_float.size r i = 0) :=
  zero_extend_lanes wcfg_workarounds ty_float 4 4 (iota 4 4 1) (by decide) (by decide) (by rfl)
    (by decide) (by decide) (fun _ _ _ => by decide)
    (fun _ _ _ => ⟨rfl, fun _ _ => ⟨fun _ => rfl, fun _ => rfl⟩⟩)

/-- C30: for vectors `a`, `b` with `W` lanes, `W` in {2, 4, 8, 16, 32, 64},
`__interleave_lo(a, b)[2i] = a[i]` and `[2i + 1] = b[i]`, and `__interleave_hi(a, b)[2i] =
a[W/2 + i]` and `[2i + 1] = b[W/2 + i]`, for all `i < W/2`; together the two results contain
every lane of `a` and of `b` exactly once: the `2W` lanes of the low result followed by the
high result are `a[0], b[0], a[1], b[1], ..., a[W - 1], b[W - 1]`. -/
theorem interleave_lanes (T : MaskTy) (W : Nat) (a b : Reg)
    (hs : T.size = 1 ∨ T.size = 2 ∨ T.size = 4 ∨ T.size = 8)
    (hW : W = 2 ∨ W = 4 ∨ W = 8 ∨ W = 16 ∨ W = 32 ∨ W = 64)
    (ha : a.length = W * T.size) (_hb : b.length = W * T.size) :
    ∃ lo hi, __interleave_lo T a b = .ok lo ∧ __interleave_hi T a b = .ok hi
      ∧ lo.length = W * T.size ∧ hi.length = W * T.size
      ∧ (∀ i, i < W / 2 → lane T.size lo (2 * i) = lane T.size a i
          ∧ lane T.size lo (2 * i + 1) = lane T.size b i
          ∧ lane T.size hi (2 * i) = lane T.size a (W / 2 + i)
          ∧ lane T.size hi (2 * i + 1) = lane T.size b (W / 2 + i))
      ∧ (∀ j, j < W → lane T.size (lo ++ hi) (2 * j) = lane T.size a j
          ∧ lane T.size (lo ++ hi) (2 * j + 1) = lane T.size b j) := by
  obtain ⟨lo, h1, h2, h3⟩ := interleave_lo_ok T W a b hs hW ha
  obtain ⟨hi, h4, h5, h6⟩ := interleave_hi_ok T W a b hs hW ha
  refine ⟨lo, hi, h1, h4, h2, h5, fun i hi2 => ⟨(h3 i hi2).1, (h3 i hi2).2, (h6 i hi2).1,
    (h6 i hi2).2⟩, interleave_both T.size W a b lo hi (by omega) h2 h3 h6⟩

theorem interleave_lanes_witness :
    ∃ lo hi, __interleave_lo ty_short (iota 2 8 1) (iota 2 8 11) = .ok lo
      ∧ __interleave_hi ty_short (iota 2 8 1) (iota 2 8 11) = .ok hi
      ∧ lo.length = 8 * ty_short.size ∧ hi.length = 8 * ty_short.size
      ∧ (∀ i, i < 8 / 2 → lane ty_short.size lo (2 * i) = lane ty_short.size (iota 2 8 1) i
          ∧ lane ty_short.size lo (2 * i + 1) = lane ty_short.size (iota 2 8 11) i
          ∧ lane ty_short.size hi (2 * i) = lane ty_short.size (iota 2 8 1) (8 / 2 + i)
          ∧ lane ty_short.size hi (2 * i + 1) = lane ty_short.size (iota 2 8 11) (8 / 2 + i))
      ∧ (∀ j, j < 8 → lane ty_short.size (lo ++ hi) (2 * j) = lane ty_short.size (iota 2 8 1) j
          ∧ lane ty_short.size (lo ++ hi) (2 * j + 1) = lane ty_short.size (iota 2 8 11) j) :=
  interleave_lanes ty_short 8 (iota 2 8 1) (iota 2 8 11) (by decide) (by decide) (by rfl)
    (by rfl)
/-! ## Claims on the load, the element access and the canonical form of masks -/

/-- C25: the code disagrees with the claim on the SSE branches, which are written for the
full 128-bit register: `simd_abi::deduce_t<float, 2>` is `_SseAbi<8>` on an SSE2 build, and
`__load_wrapper` of `simd_mask<float, _SseAbi<8>>` takes the `size() == 2` branch, whose
`_mm_set_epi32` fills 64-bit lanes; loaded from `{false, true}` the mask has lane 1 false.
Likewise the `size() == 4` branch for four `short` lanes reads lane 1 from `mem[0]`, and a
mask of three `float` lanes has no branch at all. With the full register the same branch
is right: `simd_mask<float, _SseAbi<16>>` loaded from `{false, true, false, true}` has these
lanes. Apart from that, the 8-lane AVX-512 branch loads its 8 bytes with
`__vector_load<long long, 2, 8>`, which under `vector_aligned` assumes the 16-byte alignment
of `__m128i`, while `memory_alignment_v` of the 8-lane mask is 8. -/
theorem load_sse_partial_wrong :
    deduce tg_lp64 abi_cfg_sse2 .float 2 = some (.sse 8)
    ∧ mem_ft 1 = true
    ∧ (∃ r, load_wrapper wcfg_plain cfg_sse2 false ty_float (.sse 8) mem_ft 0
          Flags.element_aligned = .ok r
        ∧ lane_true ty_float (.sse 8) r 0 = false ∧ lane_true ty_float (.sse 8) r 1 = false)
    ∧ (∃ r, load_wrapper wcfg_plain cfg_sse2 false ty_short (.sse 8) mem_ft 0
          Flags.element_aligned = .ok r
        ∧ lane_true ty_short (.sse 8) r 1 = false)
    ∧ load_wrapper wcfg_plain cfg_sse2 false ty_float (.sse 12) mem_ft 0
          Flags.element_aligned = .error .static
    ∧ (∃ r, load_wrapper wcfg_plain cfg_sse2 false ty_float (.sse 16) mem_alternating 0
          Flags.element_aligned = .ok r
        ∧ lane_true ty_float (.sse 16) r 0 = false ∧ lane_true ty_float (.sse 16) r 1 = true
        ∧ lane_true ty_float (.sse 16) r 2 = false
        ∧ lane_true ty_float (.sse 16) r 3 = true)
    ∧ memory_alignment 1 8 = 8
    ∧ load_wrapper wcfg_plain cfg_sse2 false ty_double (.avx512 64) mem_ft 8
          Flags.vector_aligned = .error .undefined :=
  ⟨by rfl, by rfl, ⟨_, rfl, by rfl, by rfl⟩, ⟨_, rfl, by rfl⟩, by rfl,
    ⟨_, rfl, by rfl, by rfl, by rfl, by rfl⟩, by rfl, by rfl⟩

/-- C26: writing one lane of a mask through the subscript proxy, `m[i] = b`, which on
bitmask storage is `_SimdWrapper<bool>::__set(i, b)`, makes lane `i` read back as `b` and
leaves every other lane of `m` unchanged, for every `i < size()`; so does `__set` on vector
storage for the value it is given. The proxy forwards to the accessor it is built with. -/
theorem mask_subscript_write (W x i : Nat) (b : Bool)
    (hW : W = 8 ∨ W = 16 ∨ W = 32 ∨ W = 64) (hx : x < 2 ^ W) (hi : i < W) :
    (∃ y, smart_reference_write (wrapper_bool_set W) x i b = .ok y ∧ y < 2 ^ W
      ∧ smart_reference_read (wrapper_bool_get W) y i = .ok b
      ∧ ∀ j, j < W → j ≠ i →
          smart_reference_read (wrapper_bool_get W) y j
            = smart_reference_read (wrapper_bool_get W) x j)
    ∧ ∀ (s : Nat) (v : Reg) (k val : Nat), (s = 1 ∨ s = 2 ∨ s = 4 ∨ s = 8) →
        v.length % s = 0 → k < v.length / s →
        smart_reference_read (wrapper_get s) (smart_reference_write (wrapper_set s) v k val) k
            = val % 2 ^ (8 * s)
        ∧ ∀ j, j < v.length / s → j ≠ k →
            smart_reference_read (wrapper_get s)
                (smart_reference_write (wrapper_set s) v k val) j
              = smart_reference_read (wrapper_get s) v j :=
  ⟨wrapper_bool_set_get W x i b hW hx hi, fun s v k val hs hv hk =>
    ⟨(wrapper_set_get s v k val hs hv hk).2.1, (wrapper_set_get s v k val hs hv hk).2.2⟩⟩

theorem mask_subscript_write_witness :
    ∃ y, smart_reference_write (wrapper_bool_set 8) 5 1 true = .ok y ∧ y < 2 ^ 8
      ∧ smart_reference_read (wrapper_bool_get 8) y 1 = .ok true
      ∧ ∀ j, j < 8 → j ≠ 1 →
          smart_reference_read (wrapper_bool_get 8) y j
            = smart_reference_read (wrapper_bool_get 8) 5 j :=
  (mask_subscript_write 8 5 1 true (by decide) (by decide) (by decide)).1

/-- C27: every boolean-vector mask produced by broadcast, by the load from `bool`, by
`operator!`, by `operator!=` (the lane-wise xor of the implementation, taken from the
specification) and by `operator==` from canonical operands of one type is canonical: each
lane of its register is either all-ones or all-zeros. -/
theorem vector_masks_stay_canonical (w : WCfg) (c : RCfg) (mmx : Bool) (T : MaskTy) (a : Abi)
    (hs : T.size = 1 ∨ T.size = 2 ∨ T.size = 4 ∨ T.size = 8)
    (ha : valid_abi_tag a = true) :
    (∀ x m, broadcast T a x = .ok m → canonical T m)
    ∧ (∀ mem p f m, load_wrapper w c mmx T a mem p f = .ok m → canonical T m)
    ∧ (∀ m r, canonical T m → mask_not c T a m = .ok r → canonical T r)
    ∧ (∀ x y r, canonical T x → canonical T y →
        (∀ v u, x = .vec v → y = .vec u → v.length = u.length) →
        mask_ne x y = .ok r → canonical T r)
    ∧ (∀ x y r, canonical T x → canonical T y →
        (∀ v u, x = .vec v → y = .vec u → v.length = u.length) →
        mask_eq c T a x y = .ok r → canonical T r) :=
  ⟨fun x m h => broadcast_canonical T a x m hs h,
    fun mem p f m h => load_canonical w c mmx T a mem p f m hs ha h,
    fun m r hm h => mask_not_canonical c T a m r hs hm h,
    fun x y r hx hy hl h => mask_ne_canonical T x y r hs hx hy hl h,
    fun x y r hx hy hl h => mask_eq_canonical c T a x y r hs hx hy hl h⟩

theorem vector_masks_stay_canonical_witness :
    (∃ m, load_wrapper wcfg_plain cfg_sse2 false ty_float (.sse 16) mem_alternating 0
        Flags.element_aligned = .ok m ∧ canonical ty_float m)
    ∧ (∃ m, broadcast ty_float (.sse 16) true = .ok m ∧ canonical ty_float m) :=
  ⟨⟨_, rfl, (vector_masks_stay_canonical wcfg_plain cfg_sse2 false ty_float (.sse 16)
      (by decide) (by decide)).2.1 mem_alternating 0 Flags.element_aligned _ rfl⟩,
    ⟨_, rfl, (vector_masks_stay_canonical wcfg_plain cfg_sse2 false ty_float (.sse 16)
      (by decide) (by decide)).1 true _ rfl⟩⟩

/-! ## Claims on identity conversions, chunk selection, bit scans and narrowing -/

/-- C31: converting a vector to its own element type and ABI returns the input bit for bit.
`_SimdConverter<T, A, T, A>` returns its argument; `static_simd_cast` to the element type or
to the `simd` type of its argument returns the argument; and the one-argument
`__convert_x86` between integral element types of equal size (of either signedness), and
between floating-point element types of equal size, with equal lane counts, returns the
register it was given, whatever bits it holds, wherever the instantiation passes the
`static_assert`s on the ISA. -/
theorem identity_conversion_bit_identical (c : Cfg) (p : CastCfg) (tg : Target)
    (n : NumCfg) (T U : ElemTy) (V : VTy) (A : Abi) (conv : VTy → Abi → Reg → Except Err Reg)
    (s fuel tb : Nat) (v : Reg)
    (hV : is_vectorizable V = true) (hT : T.valid) (hs : T.size = U.size)
    (hf : s = 4 ∨ s = 8)
    (hv : v.length = 16 ∨ v.length = 32 ∨ v.length = 64)
    (htb : tb = 16 ∨ tb = 32 ∨ tb = 64)
    (hN : tb / U.size = v.length / T.size) (hNf : tb / s = v.length / s)
    (ha : isa_asserts c T U v.length tb) :
    SimdConverter_same v = v
    ∧ static_simd_cast p tg n (.elem V) V A conv v = .ok v
    ∧ static_simd_cast p tg n (.simd V A) V A conv v = .ok v
    ∧ convert_x86 c T U (fuel + 1) tb [v] = .ok v
    ∧ convert_x86_fp_same c s tb v = .ok v :=
  ⟨rfl, static_simd_cast_elem p tg n V A conv v hV, static_simd_cast_simd p tg n V A conv v,
    convert_x86_same_size c T U fuel tb v hs hT hv htb hN ha,
    convert_x86_fp_same_width c s tb v hf hv htb hNf⟩

theorem identity_conversion_bit_identical_witness :
    is_vectorizable .float = true ∧ isa_asserts cfg_sse4_1 ⟨4, true⟩ ⟨4, false⟩ 16 16
    ∧ static_simd_cast cast_cfg_plain tg_lp64 num_x86 (.elem .float) .float (.sse 16)
        (fun _ _ _ => .error .static) float_patterns = .ok float_patterns
    ∧ convert_x86 cfg_sse4_1 ⟨4, true⟩ ⟨4, false⟩ 1 16 [float_patterns] = .ok float_patterns
    ∧ convert_x86_fp_same cfg_sse4_1 4 16 float_patterns = .ok float_patterns :=
  have h := identity_conversion_bit_identical cfg_sse4_1 cast_cfg_plain tg_lp64 num_x86
    ⟨4, true⟩ ⟨4, false⟩ .float (.sse 16) (fun _ _ _ => .error .static) 4 0 16 float_patterns
    (by decide) (by decide) rfl (by decide) (by decide) (by decide) (by decide) (by decide)
    (by decide)
  ⟨by decide, by decide, h.2.1, h.2.2.2.1, h.2.2.2.2⟩

/-- C32: for every vectorizable `T`, every `N >= 1` and every setting of the ABI macros,
`_AllNativeAbis::_BestAbi<T, N>` names an ABI that is valid for `T` and whose lane count `L`
satisfies `1 <= L <= N`, so that a step of the packing leaves `N - L < N` lanes; and the
packing of a `fixed_size` vector, given a budget of at least `N` steps, ends with chunks
that are all valid and not empty and whose lane counts add up to `N`. -/
theorem best_abi_chunk_fits (tg : Target) (f : AbiCfg) (T : VTy) (N fuel : Nat)
    (hT : is_vectorizable T = true) (hN : 1 ≤ N) (hf : N ≤ fuel) :
    (∃ a, BestAbi tg f T N AllNativeAbis = some a ∧ is_valid tg f T a = true
      ∧ 1 ≤ simd_size (mask_ty tg T) a ∧ simd_size (mask_ty tg T) a ≤ N
      ∧ N - simd_size (mask_ty tg T) a < N)
    ∧ ∃ cs, fixed_size_chunks tg f T fuel N = some cs
      ∧ (cs.map fun a => simd_size (mask_ty tg T) a).sum = N
      ∧ ∀ a ∈ cs, is_valid tg f T a = true ∧ 1 ≤ simd_size (mask_ty tg T) a := by
  refine ⟨?_, fixed_size_chunks_spec tg f T hT fuel N hf⟩
  obtain ⟨a, ha⟩ := BestAbi_total tg f T N hN hT AllNativeAbis (by simp [AllNativeAbis])
  obtain ⟨hv, h1, h2⟩ := BestAbi_sound tg f T N hN AllNativeAbis a ha
  exact ⟨a, ha, hv, h1, h2, by omega⟩

theorem best_abi_chunk_fits_witness :
    is_vectorizable .float = true
    ∧ fixed_size_chunks tg_lp64 abi_cfg_sse2 .float 7 7 = some [.sse 16, .sse 12]
    ∧ ∃ cs, fixed_size_chunks tg_lp64 abi_cfg_sse2 .float 7 7 = some cs
      ∧ (cs.map fun a => simd_size (mask_ty tg_lp64 .float) a).sum = 7
      ∧ ∀ a ∈ cs, is_valid tg_lp64 abi_cfg_sse2 .float a = true
        ∧ 1 ≤ simd_size (mask_ty tg_lp64 .float) a :=
  ⟨by decide, by rfl,
    (best_abi_chunk_fits tg_lp64 abi_cfg_sse2 .float 7 7 (by decide) (by decide)
      (by decide)).2⟩

/-- C33: for every nonzero 64-bit value `b`, `__firstbit(b)` is the index of the lowest set
bit and `__lastbit(b)` the index of the highest set bit, on the branch that counts zeros in
64 bits and on the branch that splits the value into 32-bit halves, so that the two
branches return the same index. -/
theorem firstbit_lastbit_index (c : RCfg) (b : Nat) (h0 : b ≠ 0) (h : b < 2 ^ 64) :
    (∃ i : Nat, i < 64 ∧ firstbit c 8 b = i ∧ bit b i = true ∧ ∀ j, j < i → bit b j = false)
    ∧ (∃ k : Nat, k < 64 ∧ lastbit c 8 b = (k : Int) ∧ bit b k = true
        ∧ ∀ j, k < j → bit b j = false)
    ∧ firstbit { c with ullong_align8 := false } 8 b
        = firstbit { c with ullong_align8 := true } 8 b
    ∧ lastbit { c with ullong_align8 := false } 8 b
        = lastbit { c with ullong_align8 := true } 8 b := by
  obtain ⟨i, hi, hb, hl⟩ := exists_lowest_bit b h0 h
  obtain ⟨k, hk, hkb, hkl⟩ := exists_highest_bit b h0 h
  refine ⟨⟨i, hi, firstbit_first c b i hi hb hl, hb, hl⟩,
    ⟨k, hk, lastbit_last c b k hk hkb fun j hj _ => hkl j hj, hkb, hkl⟩, ?_, ?_⟩
  · rw [firstbit_first _ b i hi hb hl, firstbit_first _ b i hi hb hl]
  · rw [lastbit_last _ b k hk hkb fun j hj _ => hkl j hj,
      lastbit_last _ b k hk hkb fun j hj _ => hkl j hj]

theorem firstbit_lastbit_index_witness :
    (2 ^ 40 + 2 ^ 63 : Nat) ≠ 0
    ∧ firstbit { cfg_sse2 with ullong_align8 := false } 8 (2 ^ 40 + 2 ^ 63)
        = firstbit { cfg_sse2 with ullong_align8 := true } 8 (2 ^ 40 + 2 ^ 63)
    ∧ lastbit { cfg_sse2 with ullong_align8 := false } 8 (2 ^ 40 + 2 ^ 63)
        = lastbit { cfg_sse2 with ullong_align8 := true } 8 (2 ^ 40 + 2 ^ 63) :=
  ⟨by decide,
    (firstbit_lastbit_index cfg_sse2 (2 ^ 40 + 2 ^ 63) (by decide) (by decide)).2.2⟩

/-- C34: in the `s64 -> f64` and `u64 -> f64` branches without AVX512DQ the halves
recombine to the input over the integers: for a 64-bit pattern `x`, the low 32 bits of the
arithmetic shift read as `int32`, times `2^32`, plus the low 32 bits of `x` is the signed
value of `x`, and the low 32 bits of the logical shift, times `2^32`, plus the low 32 bits
of `x` is `x`. Each half and each high half times `2^32` is a `double`, so the sum is the
only operation that rounds, and every lane of the result is `static_cast<double>` of the
lane. -/
theorem i64_to_f64_halves_exact (T : ElemTy) (v : Reg) (x : Nat)
    (hT : T.size = 8) (hv : v.length = 64) (hx : x < 2 ^ 64) :
    (sint 4 (sar 8 32 x % 2 ^ 32) * 4294967296 + ((x % 2 ^ 32 : Nat) : Int)
        = ElemTy.toInt ⟨8, true⟩ x
      ∧ ((x / 2 ^ 32 % 2 ^ 32 : Nat) : Int) * 4294967296 + ((x % 2 ^ 32 : Nat) : Int)
        = (x : Int))
    ∧ (rnd 53 (sint 4 (sar 8 32 x % 2 ^ 32)) = sint 4 (sar 8 32 x % 2 ^ 32)
      ∧ rnd 53 ((x / 2 ^ 32 % 2 ^ 32 : Nat) : Int) = ((x / 2 ^ 32 % 2 ^ 32 : Nat) : Int)
      ∧ rnd 53 ((x % 2 ^ 32 : Nat) : Int) = ((x % 2 ^ 32 : Nat) : Int)
      ∧ rnd 53 (sint 4 (sar 8 32 x % 2 ^ 32) * 4294967296)
        = sint 4 (sar 8 32 x % 2 ^ 32) * 4294967296
      ∧ rnd 53 (((x / 2 ^ 32 % 2 ^ 32 : Nat) : Int) * 4294967296)
        = ((x / 2 ^ 32 % 2 ^ 32 : Nat) : Int) * 4294967296)
    ∧ conv1_i64_to_f64 false T 64 v = some (static_cast_f64 T v) := by
  have hhi : x / 2 ^ 32 % 2 ^ 32 < 2 ^ 32 := Nat.mod_lt _ (by decide)
  have hlo : x % 2 ^ 32 < 2 ^ 32 := Nat.mod_lt _ (by decide)
  have hs := sint4_natAbs (sar 8 32 x % 2 ^ 32) (Nat.mod_lt _ (by decide))
  have hr := halves_recombine x hx
  refine ⟨⟨hr.1, ?_⟩, ⟨rnd_small 53 _ (by omega), rnd_small 53 _ ?_, rnd_small 53 _ ?_,
    rnd_53_high _ (by omega), rnd_53_high _ ?_⟩, conv1_i64_to_f64_spec T v hT hv⟩
  · rw [hr.2]
    simp [ElemTy.toInt]
  all_goals
    simp only [Int.natAbs_ofNat]
    omega

theorem i64_to_f64_halves_exact_witness :
    llong_patterns.length = 64
    ∧ conv1_i64_to_f64 false ty_i64 64 llong_patterns
        = some (static_cast_f64 ty_i64 llong_patterns)
    ∧ static_cast_f64 ty_i64 llong_patterns
        = [-9223372036854775808, -1, 9007199254740992, 0, 0, 0, 0, 0] :=
  ⟨by rfl,
    (i64_to_f64_halves_exact ty_i64 llong_patterns 9007199254740993 rfl (by rfl)
      (by decide)).2.2,
    by rfl⟩

/-- C35: on the SSE path without POPCNT the shuffle-and-add branches do not return the
count of the POPCNT branch for every canonical mask. A mask of
`simd_mask<float, _SseAbi<8>>` has two lanes in a 16-byte register: the branch `_N == 2`
reads the sign bits of the two 64-bit halves, and returns 1 for the all-true mask and 0 for
`{true, false}`, where the POPCNT branch returns 2 and 1; on the two `double` lanes of a
full register the same branch returns 2 for the all-true mask. On the AVX path a four-lane
`double` mask is added as floating-point numbers, which gives no count for a mask with a
true lane, where the POPCNT branch counts 3 lanes of `{true, true, false, true}`. -/
theorem popcount_branches_disagree :
    lanes_ok 4 4 (mask_of 4 16 [true, true]) ∧ lanes_ok 4 4 (mask_of 4 16 [true, false])
    ∧ popcount cfg_sse2 ty_float (.sse 8) (.vec (mask_of 4 16 [true, true])) = .ok 1
    ∧ popcount cfg_sse2_popcnt ty_float (.sse 8) (.vec (mask_of 4 16 [true, true])) = .ok 2
    ∧ popcount cfg_sse2 ty_float (.sse 8) (.vec (mask_of 4 16 [true, false])) = .ok 0
    ∧ popcount cfg_sse2_popcnt ty_float (.sse 8) (.vec (mask_of 4 16 [true, false])) = .ok 1
    ∧ popcount cfg_sse2 ty_double (.sse 16) (.vec (mask_of 8 16 [true, true])) = .ok 2
    ∧ popcount cfg_avx2_nopopcnt ty_double (.avx 32)
        (.vec (mask_of 8 32 [true, true, false, true])) = .error .undefined
    ∧ popcount { cfg_avx2_nopopcnt with popcnt := true } ty_double (.avx 32)
        (.vec (mask_of 8 32 [true, true, false, true])) = .ok 3 := by
  refine ⟨by decide, by decide, by rfl, by rfl, by rfl, by rfl, by rfl, by rfl, by rfl⟩

/-- C36: for every vector `x` of 16 bytes with SSE or of 32 bytes with AVX whose lanes, of
1, 2, 4 or 8 bytes, are each all-ones or all-zeros, the branch of `__vector_to_bitset` that
is taken (a movemask, or a pack followed by a movemask) returns the bitset of the portable
loop: bit `i` is set exactly when lane `i` is not zero, for every `i` below the lane count,
and no bit from the lane count on is set. -/
theorem vector_to_bitset_matches_loop (c : RCfg) (T : MaskTy) (x : Reg)
    (hs : T.size = 1 ∨ T.size = 2 ∨ T.size = 4 ∨ T.size = 8)
    (hlen : (c.sse = true ∧ x.length = 16) ∨ (c.avx = true ∧ x.length = 32))
    (hl : lanes_ok T.size (x.length / T.size) x) :
    vector_to_bitset c false T x = .ok (vector_to_bitset_loop T x)
    ∧ (∀ i, i < x.length / T.size →
        bit (vector_to_bitset_loop T x) i = decide (lane T.size x i ≠ 0))
    ∧ ∀ i, x.length / T.size ≤ i → bit (vector_to_bitset_loop T x) i = false := by
  refine ⟨vector_to_bitset_eq_loop c T x hs hlen hl,
    fun i hi => bit_loop T x i hs hi (hl i hi), fun i hi => ?_⟩
  unfold vector_to_bitset_loop
  rw [bit_bitsOf]
  simp [Nat.not_lt.2 hi]

theorem vector_to_bitset_matches_loop_witness :
    lanes_ok 2 (16 / 2) (mask_of 2 16 [true, false, true, true, false, false, false, true])
    ∧ vector_to_bitset cfg_sse2 false ty_short
        (mask_of 2 16 [true, false, true, true, false, false, false, true]) = .ok 141
    ∧ vector_to_bitset_loop ty_short
        (mask_of 2 16 [true, false, true, true, false, false, false, true]) = 141 :=
  have h := (vector_to_bitset_matches_loop cfg_sse2 ty_short
    (mask_of 2 16 [true, false, true, true, false, false, false, true]) (by decide)
    (Or.inl ⟨rfl, rfl⟩) (by decide)).1
  ⟨by decide, by rw [h]; rfl, by rfl⟩

/-- C37: for every element type `T`, lane count `N` and setting of the ABI macros of an x86
build (no NEON ABI), at most one class of `_AllNativeAbis` is valid for `T` at
`sizeof(T) * N` bytes: AVX-512 is valid at 64 bytes only, AVX at 32 bytes only, SSE at up to
16 bytes with more than one lane only, and the scalar wrapper at one lane only. Hence
`_FirstValidAbi` gives the same ABI for every order of the list. -/
theorem native_class_unique (tg : Target) (f : AbiCfg) (T : VTy) (N : Nat)
    (htg : tg.ok) (hx : f.have_neon_abi = false) :
    (∀ a b, class_valid tg f T a (sizeof tg T * N) = true →
      class_valid tg f T b (sizeof tg T * N) = true → a = b)
    ∧ (∀ cls, class_valid tg f T cls (sizeof tg T * N) = true →
      (cls = .avx512 ∧ sizeof tg T * N = 64) ∨ (cls = .avx ∧ sizeof tg T * N = 32)
      ∨ (cls = .sse ∧ sizeof tg T * N ≤ 16 ∧ 1 < N) ∨ (cls = .scalar_wrapper ∧ N = 1))
    ∧ ∀ l : List AbiClass, l.Perm AllNativeAbis →
      FirstValidAbi tg f T N l = FirstValidAbi tg f T N AllNativeAbis :=
  ⟨fun a b => class_valid_unique tg f T N htg hx a b,
    fun cls => class_valid_width tg f T N cls htg hx,
    fun l hl => FirstValidAbi_order tg f T N
      (fun a b => class_valid_unique tg f T N htg hx a b) l AllNativeAbis
      fun _ => hl.mem_iff⟩

theorem native_class_unique_witness :
    tg_lp64.ok ∧ abi_cfg_avx512f.have_neon_abi = false
    ∧ FirstValidAbi tg_lp64 abi_cfg_avx512f .float 8
        [.scalar_wrapper, .neon, .sse, .avx, .avx512]
      = FirstValidAbi tg_lp64 abi_cfg_avx512f .float 8 AllNativeAbis
    ∧ FirstValidAbi tg_lp64 abi_cfg_avx512f .float 8 AllNativeAbis = some (.avx 32) :=
  ⟨by decide, rfl,
    (native_class_unique tg_lp64 abi_cfg_avx512f .float 8 (by decide) rfl).2.2 _
      (by decide),
    by rfl⟩

/-- C38: for every pair of integer types other than `bool`,
`__is_narrowing_conversion<From, To>::value` is false exactly when the range of `To` holds
the range of `From` (`lowest(To) <= lowest(From)` and `max(From) <= max(To)`); it is false
for `From == To`, and true from `bool` to every other arithmetic type. -/
theorem narrowing_iff_range (tg : Target) (n : NumCfg) (htg : tg.ok) :
    (∀ F T, is_integral F = true → F ≠ .bool → is_integral T = true → T ≠ .bool →
      (is_narrowing_conversion tg n F T = false
        ↔ (limits_lowest tg n T ≤ limits_lowest tg n F
          ∧ limits_max tg n F ≤ limits_max tg n T)))
    ∧ (∀ T, is_narrowing_conversion tg n T T = false)
    ∧ ∀ T, T ≠ .bool → is_narrowing_conversion tg n .bool T = true := by
  refine ⟨fun F T hF hFb hT hTb => ?_, fun T => by simp [is_narrowing_conversion],
    fun T hT => ?_⟩
  · by_cases h : F = T
    · subst h
      simp [is_narrowing_conversion]
    · simp only [is_narrowing_conversion, h, hFb, if_false]
      exact narrowing_primary_iff tg n F T htg hF hFb hT hTb
  · simp [is_narrowing_conversion, Ne.symm hT]

theorem narrowing_iff_range_witness :
    tg_lp64.ok
    ∧ is_narrowing_conversion tg_lp64 num_x86 .uint .long = false
    ∧ is_narrowing_conversion tg_lp64 num_x86 .int .uint = true
    ∧ is_narrowing_conversion tg_lp64 num_x86 .bool .int = true :=
  ⟨by decide,
    ((narrowing_iff_range tg_lp64 num_x86 (by decide)).1 .uint .long rfl (by decide) rfl
      (by decide)).2 (by decide),
    by decide, by decide⟩

end Simd
